import Mathlib

/-!
# Onitama rules engine and search (src/src/App.jsx)

A shallow embedding of the core of the Onitama web implementation: the card
table, the board with JavaScript array semantics for reads and writes, move
enumeration, move application and terminal detection, the transposition key,
the evaluator and the search engine (quiescence search, alpha-beta with the
transposition table, iterative deepening), followed by the properties proved
about them.

Modelling conventions.
* The search engine is a state-passing function: the engine state is the
  transposition table (the bindings, latest first) and the number of clock
  readings taken so far; `performance.now()` is a function `now` of that
  number.  Scores are integers extended by the two infinities.
* A board is a list of rows, a row a list of cells.  A cell is an optional
  piece: the JavaScript values null and undefined and an array hole are all
  falsy and are all the empty cell.
* Reading `board[y][x]` throws a TypeError when `board[y]` is undefined; this
  is the error of `Except JsError`.  A function of the source that returns
  null returns `none`.
* Coordinates are integers.  The ply counter is a natural number (the source
  uses a double, exact far beyond any game length).
* Scores and weights are integers.  The source computes in doubles, which are
  exact on integers below 2^53 in magnitude; the statements about the value of
  the heuristic sum bound the weights so that every value stays in that range.
* The random draws of `shuffle` are a function `rnd`: `rnd i` is the value of
  `Math.floor(rng() * (i + 1))` at the loop index `i`, a number from 0 to `i`.
-/

namespace Onitama

/-! ## Card table -/

/-- The sixteen card names, the keys of `CARD_DEFS` in declaration order. -/
inductive Card
  | Tiger | Dragon | Frog | Rabbit | Crab | Elephant | Goose | Rooster
  | Monkey | Mantis | Horse | Ox | Crane | Boar | Eel | Cobra
  deriving DecidableEq, Repr

/-- The stamp colour of a card. -/
inductive Stamp
  | blue | red
  deriving DecidableEq, Repr

/-- An entry of `CARD_DEFS`: the stamp and the offsets `[dx, dy]` in order. -/
structure CardDef where
  stamp : Stamp
  moves : List (Int × Int)
  deriving DecidableEq, Repr

/-- The table `CARD_DEFS` (App.jsx lines 15-32). -/
def CARD_DEFS : Card → CardDef
  | .Tiger => ⟨.blue, [(0, 2), (0, -1)]⟩
  | .Dragon => ⟨.red, [(-2, 1), (-1, -1), (1, -1), (2, 1)]⟩
  | .Frog => ⟨.red, [(-2, 0), (-1, 1), (1, -1)]⟩
  | .Rabbit => ⟨.blue, [(2, 0), (1, 1), (-1, -1)]⟩
  | .Crab => ⟨.blue, [(-2, 0), (0, 1), (2, 0)]⟩
  | .Elephant => ⟨.red, [(-1, 0), (-1, 1), (1, 0), (1, 1)]⟩
  | .Goose => ⟨.blue, [(-1, 0), (-1, 1), (1, 0), (1, -1)]⟩
  | .Rooster => ⟨.red, [(-1, 0), (-1, -1), (1, 0), (1, 1)]⟩
  | .Monkey => ⟨.blue, [(-1, 1), (-1, -1), (1, 1), (1, -1)]⟩
  | .Mantis => ⟨.red, [(-1, 1), (0, -1), (1, 1)]⟩
  | .Horse => ⟨.red, [(-1, 0), (0, 1), (0, -1)]⟩
  | .Ox => ⟨.blue, [(1, 0), (0, 1), (0, -1)]⟩
  | .Crane => ⟨.blue, [(0, 1), (-1, -1), (1, -1)]⟩
  | .Boar => ⟨.red, [(-1, 0), (0, 1), (1, 0)]⟩
  | .Eel => ⟨.blue, [(-1, 1), (1, 0), (-1, -1)]⟩
  | .Cobra => ⟨.red, [(1, 1), (-1, 0), (1, -1)]⟩

/-- The list `ALL_CARDS = Object.keys(CARD_DEFS)`. -/
def ALL_CARDS : List Card :=
  [.Tiger, .Dragon, .Frog, .Rabbit, .Crab, .Elephant, .Goose, .Rooster,
   .Monkey, .Mantis, .Horse, .Ox, .Crane, .Boar, .Eel, .Cobra]

/-! ## Data model -/

/-- A player: 0 (south) or 1 (north). -/
abbrev Player := Fin 2

/-- The piece kind: the strings "M" (Master) and "S" (Student). -/
inductive PieceType
  | M | S
  deriving DecidableEq, Repr

/-- A piece object `{ owner, type }`. -/
structure Piece where
  owner : Player
  type : PieceType
  deriving DecidableEq, Repr

/-- A board cell: `none` is null, undefined or a hole. -/
abbrev Cell := Option Piece

/-- A board: the array of rows `board[y]`, each the array of cells `board[y][x]`. -/
abbrev Board := List (List Cell)

/-- A coordinate object `{ x, y }`. -/
structure Pos where
  x : Int
  y : Int
  deriving DecidableEq, Repr

/-- A move: a placement `{ from, to, card }` or a pass `{ pass: true, card }`.
The fields `from` and `to` are named `src` and `dst` (both are reserved words). -/
inductive Move
  | place (src : Pos) (dst : Pos) (card : Card)
  | pass (card : Card)
  deriving DecidableEq, Repr

/-- The field `move.card`. -/
def Move.card : Move → Card
  | .place _ _ c => c
  | .pass c => c

/-- The truthiness of the field `move.pass`. -/
def Move.isPass : Move → Bool
  | .place _ _ _ => false
  | .pass _ => true

/-- A hand `h`: the two slots `h[0]` and `h[1]`. -/
structure Hand where
  c0 : Card
  c1 : Card
  deriving DecidableEq, Repr

/-- The game state `{ board, hands, mid, turn, ply }`; `hands` is the pair
`(hands[0], hands[1])`. -/
structure GameState where
  board : Board
  hands : Hand × Hand
  mid : Card
  turn : Player
  ply : Nat
  deriving DecidableEq, Repr

/-- The uncaught exceptions of the modelled code. -/
inductive JsError
  | typeError
  deriving DecidableEq, Repr

/-- The array read `arr[i]`: `none` (undefined) outside the index range. -/
def jsIndex {α : Type} (arr : List α) (i : Int) : Option α :=
  if 0 ≤ i then arr.get? i.toNat else none

/-- The read `board[y][x]`: a TypeError when `board[y]` is undefined. -/
def readCell (board : Board) (x y : Int) : Except JsError Cell :=
  match jsIndex board y with
  | none => .error .typeError
  | some row => .ok (jsIndex row x).join

/-- The assignment `row[x] = v` on an array: an index inside the array
replaces the element, an index past the end grows the array (the skipped
positions are holes). For a negative index, or one that is no array index
(at least 2^32 - 1), the source sets a property of the array object, which
`deepCopy` drops and which a read at the same index of the same object
returns; the model keeps the elements only and leaves the row as it is, so
it follows the source for the writes at columns from 0 on, which are the
writes of every statement below about the cells of a result. -/
def jsAssign (row : List Cell) (x : Int) (v : Cell) : List Cell :=
  if x < 0 then row
  else if x.toNat < row.length then row.set x.toNat v
  else if x.toNat < 4294967295 then row ++ List.replicate (x.toNat - row.length) none ++ [v]
  else row

/-- The assignment `board[y][x] = v`: a TypeError when `board[y]` is undefined. -/
def writeCell (board : Board) (x y : Int) (v : Cell) : Except JsError Board :=
  match jsIndex board y with
  | none => .error .typeError
  | some row => .ok (board.set y.toNat (jsAssign row x v))

/-- The hand `s.hands[owner]`. -/
def GameState.hand (s : GameState) (owner : Player) : Hand :=
  if owner = 0 then s.hands.1 else s.hands.2

/-- The function `deepCopy` (a JSON round trip): on the modelled values it
returns an equal, fresh value. -/
def deepCopy (s : GameState) : GameState := s

/-! ## Initial board -/

/-- The row written by `placeRow(owner, y)`: S, S, M, S, S. -/
def placeRow (owner : Player) : List Cell :=
  [some ⟨owner, .S⟩, some ⟨owner, .S⟩, some ⟨owner, .M⟩, some ⟨owner, .S⟩, some ⟨owner, .S⟩]

/-- The function `initialBoard`: player 1 on row 0, player 0 on row 4. -/
def initialBoard : Board :=
  [placeRow 1, List.replicate 5 none, List.replicate 5 none, List.replicate 5 none, placeRow 0]

/-! ## Move enumeration -/

/-- The values 0..4 of the loops `for (let i = 0; i < 5; i++)`. -/
def range5 : List Int := [0, 1, 2, 3, 4]

/-- The function `legalMovesForCard` (App.jsx lines 119-140): the three
nested loops, each step either leaving `moves` alone (`continue`) or pushing
one move. -/
def legalMovesForCard (s : GameState) (owner : Player) (cardName : Card) :
    Except JsError (List Move) :=
  let cardDef := CARD_DEFS cardName
  let dir : Int := if owner = 0 then 1 else -1
  range5.foldlM (fun moves y =>
    range5.foldlM (fun moves x =>
      match readCell s.board x y with
      | .error e => .error e
      | .ok none => .ok moves
      | .ok (some p) =>
        if p.owner ≠ owner then .ok moves
        else
          cardDef.moves.foldlM (fun moves off =>
            let dx := off.1
            let dyBase := off.2
            let dy := dyBase * dir
            let nx := x + dx
            let ny := y - dy
            if nx < 0 ∨ nx > 4 ∨ ny < 0 ∨ ny > 4 then .ok moves
            else
              match readCell s.board nx ny with
              | .error e => .error e
              | .ok none => .ok (moves ++ [Move.place ⟨x, y⟩ ⟨nx, ny⟩ cardName])
              | .ok (some target) =>
                if target.owner = owner then .ok moves
                else .ok (moves ++ [Move.place ⟨x, y⟩ ⟨nx, ny⟩ cardName])) moves) moves) []

/-- The function `allLegalMoves` (App.jsx lines 142-152). -/
def allLegalMoves (s : GameState) (owner : Player) : Except JsError (List Move) :=
  let hand := s.hand owner
  match legalMovesForCard s owner hand.c0 with
  | .error e => .error e
  | .ok a =>
    match legalMovesForCard s owner hand.c1 with
    | .error e => .error e
    | .ok b =>
      let m := a ++ b
      if m.length = 0 then .ok [Move.pass hand.c0, Move.pass hand.c1]
      else .ok m

/-! ## Terminal detection -/

/-- The cells in the order of the nested loops of `findMaster`: row by row
(`y` outer, `x` inner), as pairs `(x, y)`. -/
def scanOrder : List (Int × Int) :=
  range5.flatMap (fun y => range5.map (fun x => (x, y)))

/-- The loops of `findMaster` from a given point of the scan: the first cell
holding a Master of `owner` is returned at once. -/
def findMasterFrom (board : Board) (owner : Player) :
    List (Int × Int) → Except JsError (Option Pos)
  | [] => .ok none
  | (x, y) :: rest =>
    match readCell board x y with
    | .error e => .error e
    | .ok none => findMasterFrom board owner rest
    | .ok (some p) =>
      if p.owner = owner ∧ p.type = .M then .ok (some ⟨x, y⟩)
      else findMasterFrom board owner rest

/-- The function `findMaster` (App.jsx lines 78-86). -/
def findMaster (board : Board) (owner : Player) : Except JsError (Option Pos) :=
  findMasterFrom board owner scanOrder

/-- The object returned by `isTerminal`: `{ done: false }` has no winner and
no reason. -/
structure TerminalInfo where
  done : Bool
  winner : Option Player
  reason : Option String
  deriving DecidableEq, Repr

/-- The function `isTerminal` (App.jsx lines 109-117). -/
def isTerminal (s : GameState) : Except JsError TerminalInfo :=
  match findMaster s.board 0 with
  | .error e => .error e
  | .ok m0 =>
    match findMaster s.board 1 with
    | .error e => .error e
    | .ok m1 =>
      match m0, m1 with
      | none, _ => .ok ⟨true, some 1, some "Way of the Stone"⟩
      | some _, none => .ok ⟨true, some 0, some "Way of the Stone"⟩
      | some m0, some m1 =>
        if m0.x = 2 ∧ m0.y = 0 then .ok ⟨true, some 0, some "Way of the Stream"⟩
        else if m1.x = 2 ∧ m1.y = 4 then .ok ⟨true, some 1, some "Way of the Stream"⟩
        else .ok ⟨false, none, none⟩

/-! ## Move application -/

/-- The assignment `h[idx] = mid` on the hand of `owner` inside `hands`. -/
def setHandSlot (hands : Hand × Hand) (owner : Player) (idx : Fin 2) (c : Card) : Hand × Hand :=
  if owner = 0 then
    (if idx = 0 then { hands.1 with c0 := c } else { hands.1 with c1 := c }, hands.2)
  else
    (hands.1, if idx = 0 then { hands.2 with c0 := c } else { hands.2 with c1 := c })

/-- The two writes of `applyMove` (App.jsx lines 165-166):
`board[from.y][from.x] = null` and then `board[to.y][to.x] = piece`. -/
def movePiece (board : Board) (src dst : Pos) (piece : Piece) : Except JsError (Option Board) :=
  match writeCell board src.x src.y none with
  | .error e => .error e
  | .ok b1 =>
    match writeCell b1 dst.x dst.y (some piece) with
    | .error e => .error e
    | .ok b2 => .ok (some b2)

/-- The board part of `applyMove` (App.jsx lines 159-167): `none` is the
early `return null`, an error the TypeError of a read or write through an
undefined row. -/
def applyMoveBoard (board : Board) (owner : Player) (move : Move) :
    Except JsError (Option Board) :=
  match move with
  | .pass _ => .ok (some board)
  | .place src dst _ =>
    match readCell board src.x src.y with
    | .error e => .error e
    | .ok none => .ok none
    | .ok (some piece) =>
      if piece.owner ≠ owner then .ok none
      else
        match readCell board dst.x dst.y with
        | .error e => .error e
        | .ok none => movePiece board src dst piece
        | .ok (some target) =>
          if target.owner = owner then .ok none
          else movePiece board src dst piece

/-- The function `applyMove` (App.jsx lines 154-179): the result is `none`
when the source returns null. -/
def applyMove (s : GameState) (move : Move) : Except JsError (Option GameState) :=
  let ns := deepCopy s
  let owner := ns.turn
  let used := move.card
  match applyMoveBoard ns.board owner move with
  | .error e => .error e
  | .ok none => .ok none
  | .ok (some board) =>
    let mid := ns.mid
    let h := ns.hand owner
    let idx : Option (Fin 2) := if h.c0 = used then some 0 else if h.c1 = used then some 1 else none
    match idx with
    | none => .ok none
    | some idx =>
      .ok (some
        { board := board
          hands := setHandSlot ns.hands owner idx mid
          mid := used
          turn := 1 - owner
          ply := ns.ply + 1 })

/-! ## Well-formed boards and the reference enumeration -/

/-- A board is well formed when it has five rows of five cells. -/
def Board.WF (b : Board) : Prop :=
  b.length = 5 ∧ ∀ row ∈ b, row.length = 5

instance (b : Board) : Decidable b.WF := by
  unfold Board.WF; infer_instance

/-- The piece on the cell `(x, y)`: none for an empty cell and for a cell
outside the board. -/
def pieceAt (b : Board) (x y : Int) : Option Piece :=
  match jsIndex b y with
  | none => none
  | some row => (jsIndex row x).join

/-- A cell lies on the 5x5 board. -/
def Pos.onBoard (p : Pos) : Prop :=
  0 ≤ p.x ∧ p.x ≤ 4 ∧ 0 ≤ p.y ∧ p.y ≤ 4

instance (p : Pos) : Decidable p.onBoard := by
  unfold Pos.onBoard; infer_instance

/-- The cell `p` holds a piece of `owner`. -/
def holdsPieceOf (b : Board) (owner : Player) (p : Pos) : Prop :=
  ∃ q, pieceAt b p.x p.y = some q ∧ q.owner = owner

instance (b : Board) (owner : Player) (p : Pos) : Decidable (holdsPieceOf b owner p) := by
  unfold holdsPieceOf
  cases pieceAt b p.x p.y with
  | none => exact isFalse (by simp)
  | some q =>
    by_cases h : q.owner = owner
    · exact isTrue ⟨q, rfl, h⟩
    · exact isFalse (by simpa using h)

/-- The destination of an offset `(dx, dy)` from `(x, y)`: `(x+dx, y-dy)` for
owner 0 and `(x+dx, y+dy)` for owner 1. -/
def destination (owner : Player) (x y : Int) (off : Int × Int) : Pos :=
  if owner = 0 then ⟨x + off.1, y - off.2⟩ else ⟨x + off.1, y + off.2⟩

/-- The reference enumeration in the words of the specification: cells in
row-major order, for each cell holding a piece of `owner` the offsets of the
card in declared order, keeping the destinations on the board that do not
hold a piece of `owner`. -/
def legalMovesRef (s : GameState) (owner : Player) (c : Card) : List Move :=
  range5.flatMap fun y =>
    range5.flatMap fun x =>
      if holdsPieceOf s.board owner ⟨x, y⟩ then
        (((CARD_DEFS c).moves.map (destination owner x y)).filter
          (fun d => d.onBoard ∧ ¬ holdsPieceOf s.board owner d)).map
          (fun d => Move.place ⟨x, y⟩ d c)
      else []

/-- The board after `board[y][x] = v` when the row `y` and the index `x` exist. -/
def Board.put (b : Board) (x y : Int) (v : Cell) : Board :=
  b.set y.toNat ((b.getD y.toNat []).set x.toNat v)

/-- The five cards of a state in the order hands[0][0], hands[0][1], mid,
hands[1][0], hands[1][1]. -/
def fiveCards (s : GameState) : List Card :=
  [s.hands.1.c0, s.hands.1.c1, s.mid, s.hands.2.c0, s.hands.2.c1]

/-- The slot `h[i]` of a hand. -/
def Hand.slot (h : Hand) (i : Fin 2) : Card :=
  if i = 0 then h.c0 else h.c1

/-- The states reached from `s0` by successful `applyMove` calls. -/
inductive Reachable (s0 : GameState) : GameState → Prop
  | start : Reachable s0 s0
  | step {s ns : GameState} (m : Move) :
      Reachable s0 s → applyMove s m = .ok (some ns) → Reachable s0 ns

/-- A move whose coordinates all lie on the 5x5 board (a pass has none). -/
def Move.inRange : Move → Prop
  | .place src dst _ => src.onBoard ∧ dst.onBoard
  | .pass _ => True

/-- A sample dealt state: the initial board, Tiger and Crab for player 0. -/
def sampleState : GameState :=
  { board := initialBoard, hands := (⟨.Tiger, .Crab⟩, ⟨.Ox, .Boar⟩), mid := .Eel, turn := 0, ply := 0 }

/-- The Tiger move of the student on (0,4) to (0,2). -/
def sampleMove : Move := .place ⟨0, 4⟩ ⟨0, 2⟩ .Tiger

/-- The state after `sampleMove` on `sampleState`. -/
def sampleNext : GameState :=
  { board :=
      [placeRow 1, List.replicate 5 none,
       [some ⟨0, .S⟩, none, none, none, none], List.replicate 5 none,
       [none, some ⟨0, .S⟩, some ⟨0, .M⟩, some ⟨0, .S⟩, some ⟨0, .S⟩]]
    hands := (⟨.Eel, .Crab⟩, ⟨.Ox, .Boar⟩), mid := .Tiger, turn := 1, ply := 1 }

/-- The state after the placement (0,4) -> (6,3) on `sampleState`: row 3 has
seven cells. -/
def sampleOverflow : GameState :=
  { board :=
      [placeRow 1, List.replicate 5 none, List.replicate 5 none,
       [none, none, none, none, none, none, some ⟨0, .S⟩],
       [none, some ⟨0, .S⟩, some ⟨0, .M⟩, some ⟨0, .S⟩, some ⟨0, .S⟩]]
    hands := (⟨.Eel, .Crab⟩, ⟨.Ox, .Boar⟩), mid := .Tiger, turn := 1, ply := 1 }

/-- A 5x5 board without any Master: the initial board with both Masters removed. -/
def noMasterState : GameState :=
  { board :=
      [[some ⟨1, .S⟩, some ⟨1, .S⟩, none, some ⟨1, .S⟩, some ⟨1, .S⟩],
       List.replicate 5 none, List.replicate 5 none, List.replicate 5 none,
       [some ⟨0, .S⟩, some ⟨0, .S⟩, none, some ⟨0, .S⟩, some ⟨0, .S⟩]]
    hands := (⟨.Tiger, .Crab⟩, ⟨.Ox, .Boar⟩), mid := .Eel, turn := 0, ply := 0 }

/-- The initial board with the Master of player 1 removed. -/
def stoneState : GameState :=
  { board :=
      [[some ⟨1, .S⟩, some ⟨1, .S⟩, none, some ⟨1, .S⟩, some ⟨1, .S⟩],
       List.replicate 5 none, List.replicate 5 none, List.replicate 5 none, placeRow 0]
    hands := (⟨.Tiger, .Crab⟩, ⟨.Ox, .Boar⟩), mid := .Eel, turn := 0, ply := 0 }

/-- The state after the pass with Crab on `sampleState`. -/
def samplePassed : GameState :=
  { board := initialBoard, hands := (⟨.Tiger, .Eel⟩, ⟨.Ox, .Boar⟩), mid := .Crab, turn := 1, ply := 1 }

/-! ## Way of the Stream -/

/-- The Master of `owner` sits on the cell `p`, and on no other cell. -/
def masterAt (b : Board) (owner : Player) (p : Pos) : Prop :=
  pieceAt b p.x p.y = some ⟨owner, .M⟩
    ∧ ∀ x y, pieceAt b x y = some ⟨owner, .M⟩ → x = p.x ∧ y = p.y

/-- Both Masters on their own arches: player 0 on (2,0), player 1 on (2,4). -/
def bothArchState : GameState :=
  { board :=
      [[none, none, some ⟨0, .M⟩, none, none],
       List.replicate 5 none, List.replicate 5 none, List.replicate 5 none,
       [none, none, some ⟨1, .M⟩, none, none]]
    hands := (⟨.Tiger, .Crab⟩, ⟨.Ox, .Boar⟩), mid := .Eel, turn := 0, ply := 0 }

/-- Player 1 on its arch (2,4), player 0 on (2,2). -/
def streamState : GameState :=
  { board :=
      [List.replicate 5 none, List.replicate 5 none,
       [none, none, some ⟨0, .M⟩, none, none], List.replicate 5 none,
       [none, none, some ⟨1, .M⟩, none, none]]
    hands := (⟨.Tiger, .Crab⟩, ⟨.Ox, .Boar⟩), mid := .Eel, turn := 0, ply := 0 }

/-- Player 0's Master on (2,1) below player 1's Master on (2,0). -/
def archCaptureState : GameState :=
  { board :=
      [[none, none, some ⟨1, .M⟩, none, none],
       [none, none, some ⟨0, .M⟩, none, none],
       List.replicate 5 none, List.replicate 5 none, List.replicate 5 none]
    hands := (⟨.Tiger, .Crab⟩, ⟨.Ox, .Boar⟩), mid := .Eel, turn := 0, ply := 0 }

/-- Player 0's Master on (2,1), player 1's Master on (0,0). -/
def archStepState : GameState :=
  { board :=
      [[some ⟨1, .M⟩, none, none, none, none],
       [none, none, some ⟨0, .M⟩, none, none],
       List.replicate 5 none, List.replicate 5 none, List.replicate 5 none]
    hands := (⟨.Tiger, .Crab⟩, ⟨.Ox, .Boar⟩), mid := .Eel, turn := 0, ply := 0 }

/-! ## Transposition key -/

/-- The string of a card name. -/
def Card.name : Card → String
  | .Tiger => "Tiger" | .Dragon => "Dragon" | .Frog => "Frog" | .Rabbit => "Rabbit"
  | .Crab => "Crab" | .Elephant => "Elephant" | .Goose => "Goose" | .Rooster => "Rooster"
  | .Monkey => "Monkey" | .Mantis => "Mantis" | .Horse => "Horse" | .Ox => "Ox"
  | .Crane => "Crane" | .Boar => "Boar" | .Eel => "Eel" | .Cobra => "Cobra"

/-- The string of a piece type. -/
def PieceType.str : PieceType → String
  | .M => "M"
  | .S => "S"

/-- The decimal string of a player number. -/
def playerStr (o : Player) : String :=
  if o = 0 then "0" else "1"

/-- The string of a cell in `keyOfState`: owner then type, or a dot for an empty cell. -/
def cellKey : Cell → String
  | none => "."
  | some p => playerStr p.owner ++ p.type.str

/-- The loops of `keyOfState` building the board part `b` of the key. -/
def boardKey (board : Board) : Except JsError String :=
  range5.foldlM (fun b y =>
    range5.foldlM (fun b x =>
      match readCell board x y with
      | .error e => .error e
      | .ok p => .ok (b ++ cellKey p)) b) ""

/-- The function `keyOfState` (App.jsx lines 51-62). -/
def keyOfState (s : GameState) : Except JsError String :=
  match boardKey s.board with
  | .error e => .error e
  | .ok b =>
    let c := Card.name s.hands.1.c0 ++ "|" ++ Card.name s.hands.1.c1 ++ "|" ++ Card.name s.mid
      ++ "|" ++ Card.name s.hands.2.c0 ++ "|" ++ Card.name s.hands.2.c1 ++ "|t"
      ++ playerStr s.turn
    .ok (b ++ "#" ++ c)

/-- The cells of a board in scan order. -/
def cellsOf (b : Board) : List Cell :=
  scanOrder.map (fun p => pieceAt b p.1 p.2)

/-- The characters of the card part of the key. -/
def cardChars (s : GameState) : List Char :=
  (Card.name s.hands.1.c0).data ++ '|' :: ((Card.name s.hands.1.c1).data
    ++ '|' :: ((Card.name s.mid).data ++ '|' :: ((Card.name s.hands.2.c0).data
    ++ '|' :: ((Card.name s.hands.2.c1).data ++ '|' :: 't' :: (playerStr s.turn).data))))

/-! ## Evaluator -/

/-- The object returned by `countPieces`. -/
structure Counts where
  p0S : Int
  p0M : Int
  p1S : Int
  p1M : Int
  deriving DecidableEq, Repr

/-- One step of the loops of `countPieces` on the cell value `p`. -/
def countCell (c : Counts) (p : Cell) : Counts :=
  match p with
  | none => c
  | some p =>
    if p.owner = 0 then
      if p.type = .S then { c with p0S := c.p0S + 1 } else { c with p0M := c.p0M + 1 }
    else
      if p.type = .S then { c with p1S := c.p1S + 1 } else { c with p1M := c.p1M + 1 }

/-- The function `countPieces` (App.jsx lines 88-107). -/
def countPieces (board : Board) : Except JsError Counts :=
  range5.foldlM (fun c y =>
    range5.foldlM (fun c x =>
      match readCell board x y with
      | .error e => .error e
      | .ok p => .ok (countCell c p)) c) ⟨0, 0, 0, 0⟩

/-- The object `cfg.weights`: every weight may be absent. -/
structure Weights where
  mobility : Option Int
  center : Option Int
  advance : Option Int
  safety : Option Int
  tempo : Option Int
  arch : Option Int
  deriving DecidableEq, Repr

/-- The configuration object `cfg`: an absent flag is false, an absent
`qDepth` is 0, an absent `weights` object has every weight absent. -/
structure Config where
  qDepth : Nat
  useAspiration : Bool
  aspirationWindow : Option Int
  useMobility : Bool
  useCenter : Bool
  useAdvancement : Bool
  useTempo : Bool
  useMasterSafety : Bool
  weights : Weights
  deriving DecidableEq, Repr

/-- The number of non-pass moves `allLegalMoves(s, owner).filter((m) => !m.pass).length`. -/
def mobilityOf (s : GameState) (owner : Player) : Except JsError Int :=
  match allLegalMoves s owner with
  | .error e => .error e
  | .ok l => .ok ((l.filter (fun m => !m.isPass)).length : Int)

/-- The function `canCaptureMaster` (App.jsx lines 183-189). -/
def canCaptureMaster (s : GameState) (attacker : Player) : Except JsError Bool :=
  let defender := 1 - attacker
  match findMaster s.board defender with
  | .error e => .error e
  | .ok none => .ok true
  | .ok (some master) =>
    match allLegalMoves s attacker with
    | .error e => .error e
    | .ok l =>
      .ok ((l.filter (fun m => !m.isPass)).any (fun m =>
        match m with
        | .place _ dst _ => decide (dst.x = master.x ∧ dst.y = master.y)
        | .pass _ => false))

/-- The closure `centerScore(owner)` of `evaluate`. -/
def centerScore (s : GameState) (cfg : Config) (owner : Player) : Except JsError Int :=
  if !cfg.useCenter then .ok 0
  else
    range5.foldlM (fun sc y =>
      range5.foldlM (fun sc x =>
        match readCell s.board x y with
        | .error e => .error e
        | .ok none => .ok sc
        | .ok (some p) =>
          if p.owner ≠ owner then .ok sc
          else
            let dist := |x - 2| + |y - 2|
            .ok (sc + (if p.type = .M then 14 else 6) * (4 - dist))) sc) 0

/-- The closure `advanceScore(owner)` of `evaluate`. -/
def advanceScore (s : GameState) (cfg : Config) (owner : Player) : Except JsError Int :=
  if !cfg.useAdvancement then .ok 0
  else
    range5.foldlM (fun sc y =>
      range5.foldlM (fun sc x =>
        match readCell s.board x y with
        | .error e => .error e
        | .ok none => .ok sc
        | .ok (some p) =>
          if p.owner ≠ owner ∨ p.type ≠ .S then .ok sc
          else .ok (sc + (if owner = 0 then 4 - y else y))) sc) 0

/-- The closure `safetyScore(owner)` of `evaluate`. -/
def safetyScore (s : GameState) (cfg : Config) (owner : Player) : Except JsError Int :=
  if !cfg.useMasterSafety then .ok 0
  else
    let opp := 1 - owner
    match canCaptureMaster s owner with
    | .error e => .error e
    | .ok c1 =>
      match canCaptureMaster s opp with
      | .error e => .error e
      | .ok c2 => .ok ((if c1 then 1 else 0) - (if c2 then 1 else 0))

/-- The value `scoreFor0` of `evaluate` (App.jsx lines 198-264), computed
without reference to the point of view. The weights and the sum are
integers: the doubles of the source agree with them as long as the weights
are integers and every value stays below 2^53 in magnitude, which
`scoreFor0_within` bounds by the weights. -/
def scoreFor0 (s : GameState) (cfg : Config) : Except JsError Int :=
  countPieces s.board >>= fun counts =>
  let mat0 := counts.p0S * 120 + counts.p0M * 20000
  let mat1 := counts.p1S * 120 + counts.p1M * 20000
  findMaster s.board 0 >>= fun m0 =>
  findMaster s.board 1 >>= fun m1 =>
  let d0 : Int := match m0 with
    | some m => |m.x - 2| + |m.y - 0|
    | none => 99
  let d1 : Int := match m1 with
    | some m => |m.x - 2| + |m.y - 4|
    | none => 99
  let w := cfg.weights
  let mobW := w.mobility.getD 70
  let centerW := w.center.getD 8
  let advanceW := w.advance.getD 6
  let safetyW := w.safety.getD 1200
  let tempoW := w.tempo.getD 18
  let archW := w.arch.getD 150
  (if cfg.useMobility then mobilityOf s 0 else .ok 0) >>= fun mob0 =>
  (if cfg.useMobility then mobilityOf s 1 else .ok 0) >>= fun mob1 =>
  let tempoScore : Int := if cfg.useTempo then (if s.turn = 0 then tempoW else -tempoW) else 0
  centerScore s cfg 0 >>= fun c0 =>
  centerScore s cfg 1 >>= fun c1 =>
  advanceScore s cfg 0 >>= fun a0 =>
  advanceScore s cfg 1 >>= fun a1 =>
  safetyScore s cfg 0 >>= fun s0 =>
  safetyScore s cfg 1 >>= fun s1 =>
  .ok (mat0 - mat1 + mobW * (mob0 - mob1) + archW * (d1 - d0) + centerW * (c0 - c1)
    + advanceW * (a0 - a1) + safetyW * (s0 - s1) + tempoScore)

/-- The function `evaluate` (App.jsx lines 191-266); the win magnitude 1e9 is
the integer 1000000000. -/
def evaluate (s : GameState) (pov : Player) (cfg : Config) : Except JsError Int :=
  match isTerminal s with
  | .error e => .error e
  | .ok term =>
    if term.done then
      if term.winner = some pov then .ok 1000000000 else .ok (-1000000000)
    else
      match scoreFor0 s cfg with
      | .error e => .error e
      | .ok v => if pov = 0 then .ok v else .ok (-v)

/-- The configuration of AI level 5 of the application. -/
def sampleConfig : Config :=
  { qDepth := 2, useAspiration := false, aspirationWindow := some 120, useMobility := true,
    useCenter := true, useAdvancement := true, useTempo := true, useMasterSafety := false,
    weights := ⟨some 70, some 8, some 6, some 1200, some 18, some 150⟩ }

/-! ## Search engine -/

/-- A score of the search: a finite integer, or the `-Infinity` and
`Infinity` of the alpha-beta window. -/
inductive Score
  | negInf
  | fin (v : Int)
  | posInf
  deriving DecidableEq, Repr

/-- The negation `-x`. -/
def Score.neg : Score → Score
  | .negInf => .posInf
  | .fin v => .fin (-v)
  | .posInf => .negInf

/-- The comparison `a < b`. -/
def Score.lt : Score → Score → Bool
  | .negInf, .negInf => false
  | .negInf, _ => true
  | .fin _, .negInf => false
  | .fin a, .fin b => decide (a < b)
  | .fin _, .posInf => true
  | .posInf, _ => false

/-- The comparison `a <= b`. -/
def Score.le (a b : Score) : Bool := !(b.lt a)

/-- The test `Math.abs(x) > 5e8`. -/
def Score.absAbove (x : Score) (bound : Int) : Bool :=
  match x with
  | .fin v => decide (|v| > bound)
  | _ => true

/-- The bound flag of a transposition-table entry. -/
inductive Flag
  | EXACT | LOWER | UPPER
  deriving DecidableEq, Repr

/-- A transposition-table entry `{ depth, score, flag, best }`. -/
structure Entry where
  depth : Nat
  score : Score
  flag : Flag
  best : Option Move
  deriving DecidableEq, Repr

/-- The transposition table `tt` (a `Map` keyed by strings): the bindings,
latest first. -/
abbrev TT := List (String × Entry)

/-- The lookup `tt.get(key)`. -/
def ttGet (tt : TT) (key : String) : Option Entry :=
  match tt with
  | [] => none
  | (k, e) :: rest => if k = key then some e else ttGet rest key

/-- The update `tt.set(key, entry)`. -/
def ttSet (tt : TT) (key : String) (e : Entry) : TT :=
  (key, e) :: tt

/-- The mutable state of an engine during a search: the transposition table
and the number of clock readings taken so far. -/
structure SearchState where
  tt : TT
  tick : Nat
  deriving DecidableEq, Repr

/-- The object returned by `qSearch` and `alphabeta`; `pv` is absent from the
results of `qSearch` and of the base case. -/
structure SearchResult where
  timedOut : Bool
  score : Score
  pv : Option Move
  deriving DecidableEq, Repr

/-- The hint bonus of `scoreMove` (App.jsx line 282); the test
`moveKey(m) === hintKey` is equality of the moves. -/
def hintBonus (hintMove : Option Move) (m : Move) : Int :=
  if hintMove = some m then 5000000 else 0

/-- The capture bonus of `scoreMove` (App.jsx line 283). -/
def targetBonus (target : Cell) : Int :=
  match target with
  | some t => if t.type = .M then 500000 else 20000
  | none => 0

/-- The Master bonuses of `scoreMove` (App.jsx lines 284-291). -/
def masterBonus (piece : Cell) (src dst : Pos) : Int :=
  match piece with
  | some p =>
    if p.type = .M then
      let goalY : Int := if p.owner = 0 then 0 else 4
      let goalX : Int := 2
      let before := |src.x - goalX| + |src.y - goalY|
      let after := |dst.x - goalX| + |dst.y - goalY|
      2000 + (before - after) * 500
    else 0
  | none => 0

/-- The bonus of `scoreMove` for landing on the opponent's Master (App.jsx line 292). -/
def landBonus (oppMaster : Option Pos) (dst : Pos) : Int :=
  match oppMaster with
  | some om => if dst.x = om.x ∧ dst.y = om.y then 999999 else 0
  | none => 0

/-- The closure `scoreMove` of `orderMoves` (App.jsx lines 277-294): the sum
of the bonuses added to `sc` in turn. -/
def scoreMove (s : GameState) (oppMaster : Option Pos) (hintMove : Option Move) (m : Move) :
    Except JsError Int :=
  match m with
  | .pass _ => .ok (-1000000)
  | .place src dst _ =>
    match readCell s.board src.x src.y with
    | .error e => .error e
    | .ok piece =>
      match readCell s.board dst.x dst.y with
      | .error e => .error e
      | .ok target =>
        .ok (hintBonus hintMove m + targetBonus target + masterBonus piece src dst
          + landBonus oppMaster dst)

/-- Insertion of a scored move into a list sorted by descending score, before
the first move whose score is not greater. -/
def insertDesc (a : Int × Move) : List (Int × Move) → List (Int × Move)
  | [] => [a]
  | b :: t => if b.1 ≤ a.1 then a :: b :: t else b :: insertDesc a t

/-- The stable sort by descending score of `Array.prototype.sort` with the
comparator `scoreMove(b) - scoreMove(a)`. -/
def sortDesc : List (Int × Move) → List (Int × Move)
  | [] => []
  | a :: t => insertDesc a (sortDesc t)

/-- The scores of a list of moves, in order. -/
def scoreAll (f : Move → Except JsError Int) : List Move → Except JsError (List (Int × Move))
  | [] => .ok []
  | m :: rest =>
    match f m with
    | .error e => .error e
    | .ok sc =>
      match scoreAll f rest with
      | .error e => .error e
      | .ok l => .ok ((sc, m) :: l)

/-- The function `orderMoves` (App.jsx lines 268-297).  The comparator runs
only on lists of at least two moves. -/
def orderMoves (moves : List Move) (s : GameState) (hintMove : Option Move) :
    Except JsError (List Move) :=
  match isTerminal s with
  | .error e => .error e
  | .ok term =>
    if term.done then .ok moves
    else
      let opp := 1 - s.turn
      match findMaster s.board opp with
      | .error e => .error e
      | .ok oppMaster =>
        if moves.length ≤ 1 then .ok moves
        else
          match scoreAll (scoreMove s oppMaster hintMove) moves with
          | .error e => .error e
          | .ok scored => .ok ((sortDesc scored).map Prod.snd)

/-- The filter of `captureMoves`: non-pass moves whose destination cell is occupied. -/
def captureFilter (s : GameState) : List Move → Except JsError (List Move)
  | [] => .ok []
  | m :: rest =>
    match m with
    | .pass _ => captureFilter s rest
    | .place _ dst _ =>
      match readCell s.board dst.x dst.y with
      | .error e => .error e
      | .ok target =>
        match captureFilter s rest with
        | .error e => .error e
        | .ok l => if target.isSome then .ok (m :: l) else .ok l

/-- The function `captureMoves` (App.jsx lines 302-304). -/
def captureMoves (s : GameState) : Except JsError (List Move) :=
  match allLegalMoves s s.turn with
  | .error e => .error e
  | .ok l => captureFilter s l

/-- The type of `qSearch` and `alphabeta` once the clock, the engine's point
of view, the configuration, the deadline and the depth are fixed: state,
alpha, beta, color and the engine state, to a result and the new engine state. -/
abbrev Searcher :=
  GameState → Score → Score → Int → SearchState → Except JsError (SearchResult × SearchState)

/-- The loop of `qSearch` over the ordered captures (App.jsx lines 319-328);
`deeper` is the recursive call with `depthLeft - 1`. -/
def qLoop (deeper : Searcher) (s : GameState) (beta : Score) (color : Int) :
    List Move → Score → Score → SearchState → Except JsError (SearchResult × SearchState)
  | [], _, best, st => .ok (⟨false, best, none⟩, st)
  | m :: rest, alpha, best, st =>
    match applyMove s m with
    | .error e => .error e
    | .ok none => qLoop deeper s beta color rest alpha best st
    | .ok (some ns) =>
      match deeper ns beta.neg alpha.neg (-color) st with
      | .error e => .error e
      | .ok (child, st1) =>
        if child.timedOut then .ok (⟨true, .fin 0, none⟩, st1)
        else
          let score := child.score.neg
          let best1 := if best.lt score then score else best
          let alpha1 := if alpha.lt score then score else alpha
          if beta.le alpha1 then .ok (⟨false, best1, none⟩, st1)
          else qLoop deeper s beta color rest alpha1 best1 st1

/-- The body of `qSearch` (App.jsx lines 306-330); `deeper` is absent when
`depthLeft <= 0`. -/
def qNode (now : Nat → Int) (ai : Player) (cfg : Config) (deadlineMs : Int)
    (deeper : Option Searcher) : Searcher :=
  fun s alpha beta color st =>
    let st1 : SearchState := { st with tick := st.tick + 1 }
    if now st.tick > deadlineMs then .ok (⟨true, .fin 0, none⟩, st1)
    else
      match evaluate s ai cfg with
      | .error e => .error e
      | .ok ev =>
        let standPat := Score.fin (color * ev)
        if beta.le standPat then .ok (⟨false, standPat, none⟩, st1)
        else
          let alpha1 := if alpha.lt standPat then standPat else alpha
          match deeper with
          | none => .ok (⟨false, standPat, none⟩, st1)
          | some deeper =>
            match captureMoves s with
            | .error e => .error e
            | .ok caps =>
              if caps.length = 0 then .ok (⟨false, standPat, none⟩, st1)
              else
                match orderMoves caps s none with
                | .error e => .error e
                | .ok ordered => qLoop deeper s beta color ordered alpha1 standPat st1

/-- The function `qSearch`, by recursion on `depthLeft`. -/
def qSearch (now : Nat → Int) (ai : Player) (cfg : Config) (deadlineMs : Int) : Nat → Searcher
  | 0 => qNode now ai cfg deadlineMs none
  | n + 1 => qNode now ai cfg deadlineMs (some (qSearch now ai cfg deadlineMs n))

/-- The progress of the move loop of `alphabeta`. -/
structure LoopAcc where
  alpha : Score
  bestScore : Score
  bestMove : Option Move
  deriving DecidableEq, Repr

/-- The move loop of `alphabeta` (App.jsx lines 360-373); `none` is the
early `return { timedOut: true, score: 0 }`. -/
def abLoop (deeper : Searcher) (s : GameState) (beta : Score) (color : Int) :
    List Move → LoopAcc → SearchState → Except JsError (Option LoopAcc × SearchState)
  | [], acc, st => .ok (some acc, st)
  | m :: rest, acc, st =>
    match applyMove s m with
    | .error e => .error e
    | .ok none => abLoop deeper s beta color rest acc st
    | .ok (some ns) =>
      match deeper ns beta.neg acc.alpha.neg (-color) st with
      | .error e => .error e
      | .ok (child, st1) =>
        if child.timedOut then .ok (none, st1)
        else
          let score := child.score.neg
          let acc1 : LoopAcc :=
            if acc.bestScore.lt score then { acc with bestScore := score, bestMove := some m }
            else acc
          let acc2 : LoopAcc := if acc1.alpha.lt score then { acc1 with alpha := score } else acc1
          if beta.le acc2.alpha then .ok (some acc2, st1)
          else abLoop deeper s beta color rest acc2 st1

/-- The use of a stored entry (App.jsx lines 346-351): the result returned at
once, if any, and the window after the stored bound was applied. -/
def ttProbe (entry : Option Entry) (depth : Nat) (alpha beta : Score) :
    Option SearchResult × Score × Score :=
  match entry with
  | none => (none, alpha, beta)
  | some e =>
    if e.depth ≥ depth then
      if e.flag = .EXACT then (some ⟨false, e.score, e.best⟩, alpha, beta)
      else
        let alpha1 := if e.flag = .LOWER ∧ alpha.lt e.score then e.score else alpha
        let beta1 :=
          if e.flag = .LOWER ∧ alpha.lt e.score then beta
          else if e.flag = .UPPER ∧ e.score.lt beta then e.score else beta
        if beta1.le alpha1 then (some ⟨false, e.score, e.best⟩, alpha1, beta1)
        else (none, alpha1, beta1)
    else (none, alpha, beta)

/-- The bound flag stored with a result (App.jsx lines 375-377). -/
def boundFlag (bestScore alphaOrig beta : Score) : Flag :=
  if bestScore.le alphaOrig then .UPPER
  else if beta.le bestScore then .LOWER else .EXACT

/-- The recursive case of `alphabeta` (App.jsx lines 344-380) at a depth
`depth > 0`; `deeper` is the recursive call with `depth - 1`. -/
def abSearch (depth : Nat) (deeper : Searcher) : Searcher :=
  fun s alpha beta color st =>
    match keyOfState s with
    | .error e => .error e
    | .ok key =>
      let entry := ttGet st.tt key
      match ttProbe entry depth alpha beta with
      | (some r, _, _) => .ok (r, st)
      | (none, alpha1, beta1) =>
        match allLegalMoves s s.turn with
        | .error e => .error e
        | .ok moves0 =>
          match orderMoves moves0 s (entry.bind (fun e => e.best)) with
          | .error e => .error e
          | .ok moves =>
            let alphaOrig := alpha1
            match abLoop deeper s beta1 color moves ⟨alpha1, .negInf, none⟩ st with
            | .error e => .error e
            | .ok (none, st1) => .ok (⟨true, .fin 0, none⟩, st1)
            | .ok (some acc, st1) =>
              let flag := boundFlag acc.bestScore alphaOrig beta1
              .ok (⟨false, acc.bestScore, acc.bestMove⟩,
                { st1 with tt := ttSet st1.tt key ⟨depth, acc.bestScore, flag, acc.bestMove⟩ })

/-- The base case of `alphabeta` (App.jsx lines 338-341). -/
def abBase (now : Nat → Int) (ai : Player) (cfg : Config) (deadlineMs : Int) (depth : Nat) :
    Searcher :=
  fun s alpha beta color st =>
    if cfg.qDepth ≠ 0 ∧ depth = 0 then
      qSearch now ai cfg deadlineMs cfg.qDepth s alpha beta color st
    else
      match evaluate s ai cfg with
      | .error e => .error e
      | .ok ev => .ok (⟨false, .fin (color * ev), none⟩, st)

/-- The function `alphabeta` (App.jsx lines 333-381), by recursion on `depth`. -/
def alphabeta (now : Nat → Int) (ai : Player) (cfg : Config) (deadlineMs : Int) :
    Nat → Searcher
  | 0 => fun s alpha beta color st =>
    let st1 : SearchState := { st with tick := st.tick + 1 }
    if now st.tick > deadlineMs then .ok (⟨true, .fin 0, none⟩, st1)
    else
      match isTerminal s with
      | .error e => .error e
      | .ok _ => abBase now ai cfg deadlineMs 0 s alpha beta color st1
  | d + 1 => fun s alpha beta color st =>
    let st1 : SearchState := { st with tick := st.tick + 1 }
    if now st.tick > deadlineMs then .ok (⟨true, .fin 0, none⟩, st1)
    else
      match isTerminal s with
      | .error e => .error e
      | .ok term =>
        if term.done then abBase now ai cfg deadlineMs (d + 1) s alpha beta color st1
        else abSearch (d + 1) (alphabeta now ai cfg deadlineMs d) s alpha beta color st1

/-- The options object `opts` of `chooseMove`. -/
structure Opts where
  maxDepth : Nat
  timeMs : Int
  pov : Player
  cfg : Config
  deriving DecidableEq, Repr

/-- The end of `chooseMove` (App.jsx lines 413-418): the fallback to the first
enumerated move when `best` is absent. -/
def chooseFinish (s : GameState) (best : Option Move) (st : SearchState) :
    Except JsError (Option Move × SearchState) :=
  match best with
  | some m => .ok (some m, st)
  | none =>
    match allLegalMoves s s.turn with
    | .error e => .error e
    | .ok moves => .ok (moves.head?, st)

/-- The window of the search at depth `d` (App.jsx lines 394-399): the
aspiration window around the previous score, or the full window. -/
def rootWindow (cfg : Config) (d : Nat) (bestScore : Score) (window : Int) : Score × Score :=
  match bestScore with
  | .fin v =>
    if cfg.useAspiration = true ∧ d > 1 then (.fin (v - window), .fin (v + window))
    else (.negInf, .posInf)
  | _ => (.negInf, .posInf)

/-- The deepening loop of `chooseMove` (App.jsx lines 393-411) from depth `d`
with `remaining` depths left to try. -/
def chooseLoop (now : Nat → Int) (s : GameState) (opts : Opts) (deadline : Int)
    (rootColor : Int) (window : Int) :
    Nat → Nat → Option Move → Score → SearchState → Except JsError (Option Move × SearchState)
  | 0, _, best, _, st => chooseFinish s best st
  | remaining + 1, d, best, bestScore, st =>
    let alpha := (rootWindow opts.cfg d bestScore window).1
    let beta := (rootWindow opts.cfg d bestScore window).2
    match alphabeta now opts.pov opts.cfg deadline d s alpha beta rootColor st with
    | .error e => .error e
    | .ok (res, st1) =>
      if res.timedOut then chooseFinish s best st1
      else
        match (if opts.cfg.useAspiration = true ∧ (res.score.le alpha ∨ beta.le res.score) then
            alphabeta now opts.pov opts.cfg deadline d s .negInf .posInf rootColor st1
          else .ok (res, st1)) with
        | .error e => .error e
        | .ok (res2, st2) =>
          if res2.timedOut then chooseFinish s best st2
          else if res2.score.absAbove 500000000 then chooseFinish s res2.pv st2
          else chooseLoop now s opts deadline rootColor window remaining (d + 1) res2.pv
            res2.score st2

/-- The function `chooseMove` (App.jsx lines 383-419); `now` gives the value
of each successive reading of `performance.now()`. -/
def chooseMove (now : Nat → Int) (s : GameState) (opts : Opts) (st : SearchState) :
    Except JsError (Option Move × SearchState) :=
  let start := now st.tick
  let st1 : SearchState := { st with tick := st.tick + 1 }
  let deadline := start + opts.timeMs
  let rootColor : Int := if s.turn = opts.pov then 1 else -1
  let window : Int := opts.cfg.aspirationWindow.getD 120
  chooseLoop now s opts deadline rootColor window opts.maxDepth 1 none .negInf st1

/-! ## Search engine: legality of the chosen move -/

/-- The move `pv` is absent or an enumerated move of the side to move in `s`. -/
def pvLegal (s : GameState) (pv : Option Move) : Prop :=
  ∀ m, pv = some m → ∃ l, allLegalMoves s s.turn = .ok l ∧ m ∈ l

/-- The invariant of the transposition table: the best move stored under the
key of a well-formed state is absent or an enumerated move of that state. -/
def TTInv (tt : TT) : Prop :=
  ∀ s : GameState, s.board.WF → ∀ k e, keyOfState s = .ok k → ttGet tt k = some e →
    pvLegal s e.best

/-- A searcher that, on well-formed states, returns without throwing, keeps
the table invariant and reports an absent or enumerated move. -/
def SearcherOK (f : Searcher) : Prop :=
  ∀ s alpha beta color st, s.board.WF → TTInv st.tt →
    ∃ res st2, f s alpha beta color st = .ok (res, st2) ∧ TTInv st2.tt ∧ pvLegal s res.pv

/-- The tables of an engine: the empty table of `makeAI`, and the table left
by a `chooseMove` call on a well-formed state. -/
inductive EngineTT : TT → Prop
  | fresh : EngineTT []
  | call {tt : TT} {st2 : SearchState} (now : Nat → Int) (s : GameState) (opts : Opts)
      (tick : Nat) (r : Option Move) :
      EngineTT tt → s.board.WF → chooseMove now s opts ⟨tt, tick⟩ = .ok (r, st2) →
      EngineTT st2.tt

/-! ## Search engine: returned move and deadline -/

/-- Equality of results is decidable. -/
instance instDecEqExcept {α : Type} [DecidableEq α] : DecidableEq (Except JsError α)
  | .ok a, .ok b =>
    if h : a = b then isTrue (by rw [h]) else isFalse (fun h2 => h (by injection h2))
  | .error a, .error b =>
    if h : a = b then isTrue (by rw [h]) else isFalse (fun h2 => h (by injection h2))
  | .ok _, .error _ => isFalse (fun h => by cases h)
  | .error _, .ok _ => isFalse (fun h => by cases h)

/-- A configuration with every optional feature off and default weights. -/
def plainConfig (q : Nat) : Config :=
  { qDepth := q, useAspiration := false, aspirationWindow := none, useMobility := false,
    useCenter := false, useAdvancement := false, useTempo := false, useMasterSafety := false,
    weights := ⟨none, none, none, none, none, none⟩ }

/-- A clock that advances by one millisecond at every reading. -/
def tickClock (n : Nat) : Int := n

/-- The moves enumerated for player 0 in `sampleState`, in enumeration order. -/
def sampleMoves : List Move :=
  [.place ⟨0, 4⟩ ⟨0, 2⟩ .Tiger, .place ⟨1, 4⟩ ⟨1, 2⟩ .Tiger, .place ⟨2, 4⟩ ⟨2, 2⟩ .Tiger,
   .place ⟨3, 4⟩ ⟨3, 2⟩ .Tiger, .place ⟨4, 4⟩ ⟨4, 2⟩ .Tiger, .place ⟨0, 4⟩ ⟨0, 3⟩ .Crab,
   .place ⟨1, 4⟩ ⟨1, 3⟩ .Crab, .place ⟨2, 4⟩ ⟨2, 3⟩ .Crab, .place ⟨3, 4⟩ ⟨3, 3⟩ .Crab,
   .place ⟨4, 4⟩ ⟨4, 3⟩ .Crab]

/-! ## Search engine: depth-1 Master capture -/

/-- The successor of a move is evaluated within the bound, from the point of
view `pov`: whenever the move applies and the successor is scored, the score
has absolute value at most `bound`. -/
def evalWithin (s : GameState) (pov : Player) (cfg : Config) (bound : Int) (m : Move) : Prop :=
  ∀ ns ev, applyMove s m = .ok (some ns) → evaluate ns pov cfg = .ok ev → |ev| ≤ bound

instance (s : GameState) (pov : Player) (cfg : Config) (bound : Int) (m : Move) :
    Decidable (evalWithin s pov cfg bound m) :=
  match h1 : applyMove s m with
  | .error _ => isTrue (fun ns ev h => by rw [h1] at h; cases h)
  | .ok none => isTrue (fun ns ev h => by rw [h1] at h; cases h)
  | .ok (some ns1) =>
    match h2 : evaluate ns1 pov cfg with
    | .error _ => isTrue (fun ns ev h h3 => by
        rw [h1] at h
        injection h with h
        injection h with h
        rw [← h, h2] at h3
        cases h3)
    | .ok ev1 =>
      if hb : |ev1| ≤ bound then
        isTrue (fun ns ev h h3 => by
          rw [h1] at h
          injection h with h
          injection h with h
          rw [← h, h2] at h3
          injection h3 with h3
          rw [← h3]
          exact hb)
      else
        isFalse (fun hall => hb (hall ns1 ev1 h1 h2))

/-- A state where player 0 to move captures the Master of player 1 by the
Crab step (2,1)->(2,0); the other moves retreat or step aside. -/
def captureState : GameState :=
  { board :=
      [[none, none, some ⟨1, .M⟩, none, none],
       [none, none, some ⟨0, .M⟩, none, none],
       List.replicate 5 none, List.replicate 5 none, List.replicate 5 none]
    hands := (⟨.Crab, .Tiger⟩, ⟨.Boar, .Ox⟩), mid := .Eel, turn := 0, ply := 0 }

/-- The state `captureState` with a Student of player 1 on (1,0), next to its
Master: after the capture on (2,0) the Student can take back with the Boar. -/
def recaptureState : GameState :=
  { board :=
      [[none, some ⟨1, .S⟩, some ⟨1, .M⟩, none, none],
       [none, none, some ⟨0, .M⟩, none, none],
       List.replicate 5 none, List.replicate 5 none, List.replicate 5 none]
    hands := (⟨.Crab, .Tiger⟩, ⟨.Boar, .Ox⟩), mid := .Eel, turn := 0, ply := 0 }

/-- A configuration without positional features whose arch weight exceeds the
win magnitude. -/
def heavyConfig : Config :=
  { plainConfig 0 with weights := ⟨none, none, none, none, none, some 10000000000⟩ }

/-- The moves of the list `l` that land on the cell `dst`. -/
def landingOn (dst : Pos) (l : List Move) : List Move :=
  l.filter fun m =>
    match m with
    | .place _ d _ => decide (d = dst)
    | .pass _ => false

/-! ## Search engine: repeated calls -/

/-- A configuration with the aspiration window and a quiescence depth of 1,
every evaluation feature off and the default weights and window. -/
def aspirationConfig : Config :=
  { plainConfig 1 with useAspiration := true }

/-- A sparse position with player 1 to move. -/
def sparseState : GameState :=
  { board :=
      [[none, some ⟨0, .S⟩, none, none, none],
       [some ⟨1, .M⟩, none, none, none, none],
       [none, none, none, some ⟨0, .M⟩, none],
       [none, none, none, none, some ⟨1, .S⟩],
       List.replicate 5 none]
    hands := (⟨.Goose, .Ox⟩, ⟨.Crab, .Boar⟩), mid := .Tiger, turn := 1, ply := 0 }

/-- Two `chooseMove` calls in a row on the same engine: the moves returned by
the first and by the second call, and the engine state left. -/
def twoCalls (now : Nat → Int) (s : GameState) (opts : Opts) (st : SearchState) :
    Except JsError (Option Move × Option Move × SearchState) :=
  match chooseMove now s opts st with
  | .error e => .error e
  | .ok (m1, st1) =>
    match chooseMove now s opts st1 with
    | .error e => .error e
    | .ok (m2, st2) => .ok (m1, m2, st2)

/-- Every score stored in the table is a finite number. -/
def TTFin (tt : TT) : Prop :=
  ∀ k e, ttGet tt k = some e → ∃ v, e.score = .fin v

/-- The move loop of `alphabeta` has recorded a move with a finite score. -/
def accSet (acc : LoopAcc) : Prop :=
  ∃ v m, acc.bestScore = .fin v ∧ acc.bestMove = some m

/-- A searcher that, on well-formed states and tables with finite scores,
returns a finite score without timeout and keeps the scores of the table
finite. -/
def SearcherFin (f : Searcher) : Prop :=
  ∀ s alpha beta color st, s.board.WF → TTFin st.tt →
    ∃ res st2, f s alpha beta color st = .ok (res, st2) ∧ TTFin st2.tt
      ∧ res.timedOut = false ∧ ∃ v, res.score = .fin v

/-! ## Heap model of move application

The value model above cannot tell a copy from its original.  For the frame
properties of `applyMove` the objects of a game state are placed in a heap:
every array and every object of the state has an address, `deepCopy`
allocates new objects, and the assignments of `applyMove` update the object
they go through in place.  Reads and writes follow the value model
(`jsIndex`, `jsAssign`, the TypeError on an undefined row). -/

/-- An object of the JavaScript heap that makes up a game state: the state
object `{ board, hands, mid, turn, ply }`, the array of rows, a row array
(a cell is null or a reference to a piece object), a piece object
`{ owner, type }`, the array `hands` and a hand array.  References are
addresses into the heap; cards, players and numbers are primitive values
held in the object itself. -/
inductive HeapObj
  | state (board hands : Nat) (mid : Card) (turn : Player) (ply : Nat)
  | board (rows : List Nat)
  | row (cells : List (Option Nat))
  | piece (p : Piece)
  | hands (h0 h1 : Nat)
  | hand (h : Hand)
  deriving DecidableEq, Repr

/-- The heap: the object at address `a` is the element of index `a`; a new
object is allocated at the end. -/
abbrev Heap := List HeapObj

/-- The references held by an object. -/
def HeapObj.refs : HeapObj → List Nat
  | .state b hs _ _ _ => [b, hs]
  | .board rows => rows
  | .row cells => cells.filterMap id
  | .piece _ => []
  | .hands h0 h1 => [h0, h1]
  | .hand _ => []

/-- The object at `b` is reachable from the object at `a` through references
held in the heap `h`. -/
inductive Reach (h : Heap) : Nat → Nat → Prop
  | here (a : Nat) : Reach h a a
  | step {a b c : Nat} {o : HeapObj} : h.get? a = some o → b ∈ o.refs → Reach h b c → Reach h a c

/-- The copy of a cell by the JSON round trip: null stays null, a piece
object is rebuilt as a new object. -/
def copyCell (h : Heap) (c : Option Nat) : Except JsError (Option Nat × Heap) :=
  match c with
  | none => .ok (none, h)
  | some a =>
    match h.get? a with
    | some (.piece p) => .ok (some h.length, h ++ [.piece p])
    | _ => .error .typeError

/-- The copies of the cells of a row, in order. -/
def copyCells (h : Heap) : List (Option Nat) → Except JsError (List (Option Nat) × Heap)
  | [] => .ok ([], h)
  | c :: rest =>
    match copyCell h c with
    | .error e => .error e
    | .ok (c1, h1) =>
      match copyCells h1 rest with
      | .error e => .error e
      | .ok (cs, h2) => .ok (c1 :: cs, h2)

/-- The copy of a row array: a new array of the copied cells. -/
def copyRow (h : Heap) (a : Nat) : Except JsError (Nat × Heap) :=
  match h.get? a with
  | some (.row cells) =>
    match copyCells h cells with
    | .error e => .error e
    | .ok (cs, h1) => .ok (h1.length, h1 ++ [.row cs])
  | _ => .error .typeError

/-- The copies of the rows of a board, in order. -/
def copyRows (h : Heap) : List Nat → Except JsError (List Nat × Heap)
  | [] => .ok ([], h)
  | r :: rest =>
    match copyRow h r with
    | .error e => .error e
    | .ok (r1, h1) =>
      match copyRows h1 rest with
      | .error e => .error e
      | .ok (rs, h2) => .ok (r1 :: rs, h2)

/-- The copy of the array of rows. -/
def copyBoard (h : Heap) (a : Nat) : Except JsError (Nat × Heap) :=
  match h.get? a with
  | some (.board rows) =>
    match copyRows h rows with
    | .error e => .error e
    | .ok (rs, h1) => .ok (h1.length, h1 ++ [.board rs])
  | _ => .error .typeError

/-- The copy of a hand array. -/
def copyHand (h : Heap) (a : Nat) : Except JsError (Nat × Heap) :=
  match h.get? a with
  | some (.hand x) => .ok (h.length, h ++ [.hand x])
  | _ => .error .typeError

/-- The copy of the array `hands`. -/
def copyHands (h : Heap) (a : Nat) : Except JsError (Nat × Heap) :=
  match h.get? a with
  | some (.hands a0 a1) =>
    match copyHand h a0 with
    | .error e => .error e
    | .ok (b0, h1) =>
      match copyHand h1 a1 with
      | .error e => .error e
      | .ok (b1, h2) => .ok (h2.length, h2 ++ [.hands b0 b1])
  | _ => .error .typeError

/-- The function `deepCopy` (App.jsx lines 47-49) on the heap: the JSON round
trip `JSON.parse(JSON.stringify(s))` rebuilds every object of the state as a
new object.  An address that does not hold an object of the expected kind is
outside the typed model and stops with an error. -/
def deepCopyHeap (h : Heap) (s : Nat) : Except JsError (Nat × Heap) :=
  match h.get? s with
  | some (.state b hs mid turn ply) =>
    match copyBoard h b with
    | .error e => .error e
    | .ok (b1, h1) =>
      match copyHands h1 hs with
      | .error e => .error e
      | .ok (hs1, h2) => .ok (h2.length, h2 ++ [.state b1 hs1 mid turn ply])
  | _ => .error .typeError

/-- The assignment `row[x] = v` on a row array of the heap, as `jsAssign`. -/
def jsAssignRef (row : List (Option Nat)) (x : Int) (v : Option Nat) : List (Option Nat) :=
  if x < 0 then row
  else if x.toNat < row.length then row.set x.toNat v
  else if x.toNat < 4294967295 then row ++ List.replicate (x.toNat - row.length) none ++ [v]
  else row

/-- The read `board[y][x]` through the reference `board`. -/
def readCellHeap (h : Heap) (board : Nat) (x y : Int) : Except JsError (Option Nat) :=
  match h.get? board with
  | some (.board rows) =>
    match jsIndex rows y with
    | none => .error .typeError
    | some r =>
      match h.get? r with
      | some (.row cells) => .ok (jsIndex cells x).join
      | _ => .error .typeError
  | _ => .error .typeError

/-- The assignment `board[y][x] = v` through the reference `board`: the row
object is updated in place. -/
def writeCellHeap (h : Heap) (board : Nat) (x y : Int) (v : Option Nat) : Except JsError Heap :=
  match h.get? board with
  | some (.board rows) =>
    match jsIndex rows y with
    | none => .error .typeError
    | some r =>
      match h.get? r with
      | some (.row cells) => .ok (h.set r (.row (jsAssignRef cells x v)))
      | _ => .error .typeError
  | _ => .error .typeError

/-- The read `piece.owner`. -/
def ownerOf (h : Heap) (a : Nat) : Except JsError Player :=
  match h.get? a with
  | some (.piece p) => .ok p.owner
  | _ => .error .typeError

/-- The test `target && target.owner === owner` (App.jsx line 164). -/
def ownTarget (h : Heap) (target : Option Nat) (owner : Player) : Except JsError Bool :=
  match target with
  | none => .ok false
  | some t =>
    match ownerOf h t with
    | .error e => .error e
    | .ok o => .ok (decide (o = owner))

/-- The two writes of `applyMove` (App.jsx lines 165-166) on the heap:
`board[from.y][from.x] = null` and then `board[to.y][to.x] = piece`, with the
heap reached when a write throws. -/
def movePieceHeap (h : Heap) (board : Nat) (src dst : Pos) (piece : Nat) :
    Heap × Except JsError Bool :=
  match writeCellHeap h board src.x src.y none with
  | .error e => (h, .error e)
  | .ok h1 =>
    match writeCellHeap h1 board dst.x dst.y (some piece) with
    | .error e => (h1, .error e)
    | .ok h2 => (h2, .ok true)

/-- The board part of `applyMove` (App.jsx lines 159-167) on the heap, through
the reference `board` of the copy: the heap after the writes, and `false` for
the early `return null`. -/
def applyMoveBoardHeap (h : Heap) (board : Nat) (owner : Player) (move : Move) :
    Heap × Except JsError Bool :=
  match move with
  | .pass _ => (h, .ok true)
  | .place src dst _ =>
    match readCellHeap h board src.x src.y with
    | .error e => (h, .error e)
    | .ok none => (h, .ok false)
    | .ok (some piece) =>
      match ownerOf h piece with
      | .error e => (h, .error e)
      | .ok po =>
        if po ≠ owner then (h, .ok false)
        else
          match readCellHeap h board dst.x dst.y with
          | .error e => (h, .error e)
          | .ok target =>
            match ownTarget h target owner with
            | .error e => (h, .error e)
            | .ok true => (h, .ok false)
            | .ok false => movePieceHeap h board src dst piece

/-- The card part of `applyMove` (App.jsx lines 169-178) on the heap: the
writes `h[idx] = mid` into the hand array at `ha` and of `mid`, `turn` and
`ply` into the state object at `ns`. -/
def applyMoveCardsHeap (h : Heap) (ns : Nat) (b hs : Nat) (mid : Card) (owner : Player)
    (ply : Nat) (used : Card) : Heap × Except JsError (Option Nat) :=
  match h.get? hs with
  | some (.hands a0 a1) =>
    let ha := if owner = 0 then a0 else a1
    match h.get? ha with
    | some (.hand hd) =>
      if hd.c0 = used then
        ((h.set ha (.hand { hd with c0 := mid })).set ns (.state b hs used (1 - owner) (ply + 1)),
          .ok (some ns))
      else if hd.c1 = used then
        ((h.set ha (.hand { hd with c1 := mid })).set ns (.state b hs used (1 - owner) (ply + 1)),
          .ok (some ns))
      else (h, .ok none)
    | _ => (h, .error .typeError)
  | _ => (h, .error .typeError)

/-- The function `applyMove` (App.jsx lines 154-179) on the heap: `s` is the
reference passed by the caller; the result is the heap after the call with
the returned reference, `none` for `return null`. -/
def applyMoveHeap (h : Heap) (s : Nat) (move : Move) : Heap × Except JsError (Option Nat) :=
  match deepCopyHeap h s with
  | .error e => (h, .error e)
  | .ok (ns, h1) =>
    match h1.get? ns with
    | some (.state b hs mid owner ply) =>
      match applyMoveBoardHeap h1 b owner move with
      | (h2, .error e) => (h2, .error e)
      | (h2, .ok false) => (h2, .ok none)
      | (h2, .ok true) => applyMoveCardsHeap h2 ns b hs mid owner ply move.card
    | _ => (h1, .error .typeError)

/-- The cells of a row written into the heap: a piece becomes a new object. -/
def allocCells (h : Heap) : List Cell → List (Option Nat) × Heap
  | [] => ([], h)
  | none :: rest => ((none :: (allocCells h rest).1), (allocCells h rest).2)
  | some p :: rest =>
    ((some h.length :: (allocCells (h ++ [.piece p]) rest).1),
      (allocCells (h ++ [.piece p]) rest).2)

/-- The rows of a board written into the heap. -/
def allocRows (h : Heap) : Board → List Nat × Heap
  | [] => ([], h)
  | row :: rest =>
    (((allocCells h row).2.length
        :: (allocRows ((allocCells h row).2 ++ [.row (allocCells h row).1]) rest).1),
      (allocRows ((allocCells h row).2 ++ [.row (allocCells h row).1]) rest).2)

/-- A game state written into the heap: the reference of the state object and
the heap. -/
def allocState (h : Heap) (s : GameState) : Nat × Heap :=
  let r := allocRows h s.board
  let h1 := r.2 ++ [.board r.1]
  let h2 := h1 ++ [.hand s.hands.1, .hand s.hands.2, .hands (h1.length) (h1.length + 1)]
  (h2.length, h2 ++ [.state r.2.length (h1.length + 2) s.mid s.turn s.ply])

/-- The cells read back from the heap. -/
def loadCells (h : Heap) : List (Option Nat) → Option (List Cell)
  | [] => some []
  | none :: rest => (loadCells h rest).map (fun l => none :: l)
  | some a :: rest =>
    match h.get? a with
    | some (.piece p) => (loadCells h rest).map (fun l => some p :: l)
    | _ => none

/-- The rows read back from the heap. -/
def loadRows (h : Heap) : List Nat → Option Board
  | [] => some []
  | r :: rest =>
    match h.get? r with
    | some (.row cells) =>
      match loadCells h cells with
      | some row => (loadRows h rest).map (fun l => row :: l)
      | none => none
    | _ => none

/-- The game state held in the heap at the reference `s`. -/
def loadState (h : Heap) (s : Nat) : Option GameState :=
  match h.get? s with
  | some (.state b hs mid turn ply) =>
    match h.get? b, h.get? hs with
    | some (.board rows), some (.hands a0 a1) =>
      match loadRows h rows, h.get? a0, h.get? a1 with
      | some board, some (.hand h0), some (.hand h1) => some ⟨board, (h0, h1), mid, turn, ply⟩
      | _, _, _ => none
    | _, _ => none
  | _ => none

/-- The heap `h2` keeps every object of `h1` below the address `n` and is
at least as long. -/
def Frame (n : Nat) (h1 h2 : Heap) : Prop :=
  h1.length ≤ h2.length ∧ ∀ a, a < n → h2.get? a = h1.get? a

/-- The objects from the address `n` on hold only references from `n` on. -/
def Closed (n : Nat) (h : Heap) : Prop :=
  ∀ a o, n ≤ a → h.get? a = some o → ∀ b ∈ o.refs, n ≤ b

/-- The heap that holds `sampleState` and nothing else, with its reference. -/
def sampleHeap : Nat × Heap := allocState [] sampleState

/-! ## Heap model: refinement of the value model -/

/-- The cell reference `c` of the heap holds the cell value `p`. -/
def CellRep (h : Heap) (c : Option Nat) (p : Cell) : Prop :=
  match c with
  | none => p = none
  | some a => ∃ q, h.get? a = some (.piece q) ∧ p = some q

/-- The row array at `r` holds the row value `row`. -/
def RowRep (h : Heap) (r : Nat) (row : List Cell) : Prop :=
  ∃ cells, h.get? r = some (.row cells) ∧ List.Forall₂ (CellRep h) cells row

/-- The state object at `s` holds the state value `gs`, through the board
array at `b` with the rows `rows` and the array `hands` at `hs` with the hand
arrays at `a0` and `a1`. -/
def StateRep (h : Heap) (s : Nat) (gs : GameState) (b hs : Nat) (rows : List Nat)
    (a0 a1 : Nat) : Prop :=
  h.get? s = some (.state b hs gs.mid gs.turn gs.ply) ∧ h.get? b = some (.board rows)
    ∧ List.Forall₂ (RowRep h) rows gs.board ∧ h.get? hs = some (.hands a0 a1)
    ∧ h.get? a0 = some (.hand gs.hands.1) ∧ h.get? a1 = some (.hand gs.hands.2)

/-- The heap `h2` keeps every object of `h` that is not a row array. -/
def KeepOthers (h h2 : Heap) : Prop :=
  ∀ a o, h.get? a = some o → (∀ cells, o ≠ .row cells) → h2.get? a = some o

/-! ## Dealing a new game -/

/-- The exchange `[a[i], a[j]] = [a[j], a[i]]` of `shuffle` (App.jsx line 42)
for two indices inside the array; `shuffle` uses no other indices. -/
def swapAt {α : Type} (a : List α) (i j : Nat) : List α :=
  match a.get? i, a.get? j with
  | some x, some y => (a.set i y).set j x
  | _, _ => a

/-- The loop of `shuffle` (App.jsx lines 40-43) from the index `i` down to 1.
The random outcome is `rnd`: `rnd i` is the value `Math.floor(rng() * (i + 1))`
drawn at the index `i`, a number from 0 to `i`. -/
def shuffleLoop {α : Type} (rnd : Nat → Nat) : Nat → List α → List α
  | 0, a => a
  | i + 1, a => shuffleLoop rnd i (swapAt a (i + 1) (rnd (i + 1)))

/-- The function `shuffle` (App.jsx lines 38-45) on the random outcome `rnd`. -/
def shuffle {α : Type} (arr : List α) (rnd : Nat → Nat) : List α :=
  shuffleLoop rnd (arr.length - 1) arr

/-- The function `newGame` (App.jsx lines 585-592) on the random outcome
`rnd`, without the field `history` of the user interface; `none` stands for
a state with an undefined card. -/
def newGame (rnd : Nat → Nat) : Option GameState :=
  match (shuffle ALL_CARDS rnd).take 5 with
  | [c0, c1, c2, c3, c4] =>
    some { board := initialBoard, hands := (⟨c0, c1⟩, ⟨c2, c3⟩), mid := c4,
           turn := if (CARD_DEFS c4).stamp = .blue then 0 else 1, ply := 0 }
  | _ => none

/-! ## Search engine: the base case at a finished game -/

/-- The state reached from `recaptureState` by the Crab step (2,1)->(2,0) of
player 0's Master onto the Master of player 1: a finished game with player 1
to move, whose Student on (1,0) can still step onto (2,0) with the Boar. -/
def afterCaptureState : GameState :=
  { board :=
      [[none, some ⟨1, .S⟩, some ⟨0, .M⟩, none, none],
       List.replicate 5 none, List.replicate 5 none, List.replicate 5 none,
       List.replicate 5 none]
    hands := (⟨.Eel, .Tiger⟩, ⟨.Boar, .Ox⟩), mid := .Crab, turn := 1, ply := 1 }

/-! ## Search engine: the stand-pat score -/

/-- A searcher that returns on every state with a 5x5 board. -/
def SearcherTotal (f : Searcher) : Prop :=
  ∀ s alpha beta color st, s.board.WF → ∃ res st2, f s alpha beta color st = .ok (res, st2)

/-! ## Search engine: the bound flag of a stored entry -/

/-- The capture of the Master of player 1 in `recaptureState`. -/
def recaptureMove : Move := .place ⟨2, 1⟩ ⟨2, 0⟩ .Crab

/-- The engine state left by the depth-1 search of `recaptureState` with the
window (-Infinity, 1e9): the capture cuts the loop off and is stored as a
lower bound. -/
def lowerBoundEngine : SearchState :=
  ⟨[(".1S1M....0M.................#Crab|Tiger|Eel|Boar|Ox|t0",
      ⟨1, .fin 1000000000, .LOWER, some recaptureMove⟩)], 2⟩

/-! ## Move ordering: hint, captures and passes -/

/-- A state in which player 0 has no placement move: its five pieces fill
the row 0, and the Crab and the Boar only step sideways or forward. -/
def blockedState : GameState :=
  { board :=
      [[some ⟨0, .M⟩, some ⟨0, .S⟩, some ⟨0, .S⟩, some ⟨0, .S⟩, some ⟨0, .S⟩],
       List.replicate 5 none,
       [none, none, some ⟨1, .M⟩, none, none],
       List.replicate 5 none, List.replicate 5 none]
    hands := (⟨.Crab, .Boar⟩, ⟨.Tiger, .Ox⟩), mid := .Eel, turn := 0, ply := 0 }

/-- The classes of the ordering: 3 for a placement onto a Master, 2 for a
placement onto a Student, 1 for a placement onto an empty cell, 0 for a pass. -/
def moveRank (s : GameState) : Move → Nat
  | .pass _ => 0
  | .place _ dst _ =>
    match pieceAt s.board dst.x dst.y with
    | none => 1
    | some t => if t.type = .M then 3 else 2

/-! ## Evaluator: the heuristic sum and the win magnitude -/

/-- A finite score that is below 5e8 in magnitude or is the win magnitude
1e9 with a sign. -/
def Score.leaf (x : Score) : Prop :=
  ∃ v, x = .fin v ∧ (|v| < 500000000 ∨ v = 1000000000 ∨ v = -1000000000)

/-- Every score stored in the table is a heuristic value below 5e8 in
magnitude or the win magnitude with a sign. -/
def TTLeaf (tt : TT) : Prop :=
  ∀ k e, ttGet tt k = some e → e.score.leaf

/-- A searcher that, on 5x5 boards, with such a table and a color 1 or -1,
returns such a score and keeps such a table. -/
def SearcherLeaf (f : Searcher) : Prop :=
  ∀ s alpha beta color st, s.board.WF → TTLeaf st.tt → (color = 1 ∨ color = -1) →
    ∃ res st2, f s alpha beta color st = .ok (res, st2) ∧ TTLeaf st2.tt ∧ res.score.leaf

/-- The default weights of `evaluate`: each weight is absent or has its default value. -/
def Config.defaultWeights (cfg : Config) : Prop :=
  cfg.weights.mobility.getD 70 = 70 ∧ cfg.weights.center.getD 8 = 8
    ∧ cfg.weights.advance.getD 6 = 6 ∧ cfg.weights.safety.getD 1200 = 1200
    ∧ cfg.weights.tempo.getD 18 = 18 ∧ cfg.weights.arch.getD 150 = 150

instance (cfg : Config) : Decidable cfg.defaultWeights := by
  unfold Config.defaultWeights; infer_instance

/-! ## Piece counts -/

/-- The number of cells of the 5x5 scan that hold the piece `p`. -/
def pieceCount (b : Board) (p : Piece) : Nat :=
  (cellsOf b).count (some p)

/-- The count of Students of an owner in the object returned by `countPieces`. -/
def Counts.students (c : Counts) (o : Player) : Int :=
  if o = 0 then c.p0S else c.p1S

/-- The count of Masters of an owner in the object returned by `countPieces`. -/
def Counts.masters (c : Counts) (o : Player) : Int :=
  if o = 0 then c.p0M else c.p1M

/-- The states reached from `s0` by successful `applyMove` calls on moves
whose coordinates lie on the 5x5 board. -/
inductive ReachableIn (s0 : GameState) : GameState → Prop
  | start : ReachableIn s0 s0
  | step {s ns : GameState} (m : Move) :
      ReachableIn s0 s → m.inRange → applyMove s m = .ok (some ns) → ReachableIn s0 ns

/-- The position of the cell `(x, y)` in the scan order. -/
def cellIndex (x y : Int) : Nat :=
  5 * y.toNat + x.toNat

/-! ## Exact failure condition of move application -/

/-- The state after the placement (0,4) -> (1,2) with the Tiger on
`sampleState`, a displacement that is no offset of the Tiger. -/
def sampleSidestep : GameState :=
  { board :=
      [placeRow 1, List.replicate 5 none,
       [none, some ⟨0, .S⟩, none, none, none], List.replicate 5 none,
       [none, some ⟨0, .S⟩, some ⟨0, .M⟩, some ⟨0, .S⟩, some ⟨0, .S⟩]]
    hands := (⟨.Eel, .Crab⟩, ⟨.Ox, .Boar⟩), mid := .Tiger, turn := 1, ply := 1 }

/-! ## Evaluator: perspective symmetry within exact integers -/

/-- The six weights of `cfg`, each the given value or its default, are
integers between `-W` and `W`. -/
def Config.weightsWithin (cfg : Config) (W : Int) : Prop :=
  (-W ≤ cfg.weights.mobility.getD 70 ∧ cfg.weights.mobility.getD 70 ≤ W)
  ∧ (-W ≤ cfg.weights.center.getD 8 ∧ cfg.weights.center.getD 8 ≤ W)
  ∧ (-W ≤ cfg.weights.advance.getD 6 ∧ cfg.weights.advance.getD 6 ≤ W)
  ∧ (-W ≤ cfg.weights.safety.getD 1200 ∧ cfg.weights.safety.getD 1200 ≤ W)
  ∧ (-W ≤ cfg.weights.tempo.getD 18 ∧ cfg.weights.tempo.getD 18 ≤ W)
  ∧ (-W ≤ cfg.weights.arch.getD 150 ∧ cfg.weights.arch.getD 150 ≤ W)

instance (cfg : Config) (W : Int) : Decidable (cfg.weightsWithin W) := by
  unfold Config.weightsWithin; infer_instance

/-! ## Move ordering: every list of moves for the side to move -/

/-- A move for the side to move: a pass, or a placement with source and
destination on the board whose destination holds no piece of the side to
move. Every enumerated move and every move that `applyMove` accepts on
the board is such a move. -/
def Move.forSide (s : GameState) : Move → Prop
  | .place src dst _ => src.onBoard ∧ dst.onBoard ∧ ¬ holdsPieceOf s.board s.turn dst
  | .pass _ => True

instance (s : GameState) (m : Move) : Decidable (m.forSide s) := by
  cases m <;> unfold Move.forSide <;> infer_instance

/-- The moves of a list for the side to move in `recaptureState`: passes
and placements together. -/
def mixedMoves : List Move :=
  [.pass .Crab, .place ⟨2, 1⟩ ⟨2, 2⟩ .Tiger, .place ⟨2, 1⟩ ⟨1, 0⟩ .Tiger,
   .place ⟨2, 1⟩ ⟨2, 0⟩ .Crab, .pass .Tiger]

/-! ## Search engine: deadline handling against the reference -/

/-- The search at depth `d` of `chooseMove` together with its aspiration
re-search (App.jsx lines 394-405), as one result: the result of the first
search when it timed out or needs no re-search, else the result of the
re-search with the full window. -/
def depthSearch (now : Nat → Int) (s : GameState) (opts : Opts) (deadline : Int)
    (rootColor : Int) (window : Int) (d : Nat) (bestScore : Score) (st : SearchState) :
    Except JsError (SearchResult × SearchState) :=
  let alpha := (rootWindow opts.cfg d bestScore window).1
  let beta := (rootWindow opts.cfg d bestScore window).2
  match alphabeta now opts.pov opts.cfg deadline d s alpha beta rootColor st with
  | .error e => .error e
  | .ok (res, st1) =>
    if res.timedOut then .ok (res, st1)
    else if opts.cfg.useAspiration = true ∧ (res.score.le alpha ∨ beta.le res.score) then
      alphabeta now opts.pov opts.cfg deadline d s .negInf .posInf rootColor st1
    else .ok (res, st1)

/-- The score of the last completed depth, or `-Infinity` when no depth completed. -/
def lastScore (last : Option SearchResult) : Score :=
  match last with
  | some r => r.score
  | none => .negInf

/-- The move recorded by the last completed depth, if any. -/
def lastMove (last : Option SearchResult) : Option Move :=
  match last with
  | some r => r.pv
  | none => none

/-- Reference for the deepening of `chooseMove` in the words of the
specification: the depths `d`, `d + 1`, ... are searched in turn, at most
`remaining` of them, and `last` is the result of the last completed depth,
if any. A depth whose search (including its aspiration re-search) reports a
timeout stops the deepening and leaves `last` as it is; a completed depth
becomes `last`, and stops the deepening when its score is above 5e8 in
magnitude. Returned are the last completed result and the engine state. -/
def deepenRef (now : Nat → Int) (s : GameState) (opts : Opts) (deadline : Int)
    (rootColor : Int) (window : Int) :
    Nat → Nat → Option SearchResult → SearchState →
      Except JsError (Option SearchResult × SearchState)
  | 0, _, last, st => .ok (last, st)
  | remaining + 1, d, last, st =>
    match depthSearch now s opts deadline rootColor window d (lastScore last) st with
    | .error e => .error e
    | .ok (res, st2) =>
      if res.timedOut then .ok (last, st2)
      else if res.score.absAbove 500000000 then .ok (some res, st2)
      else deepenRef now s opts deadline rootColor window remaining (d + 1) (some res) st2

/-- Reference for the move returned by `chooseMove` in the words of the
specification: the move recorded by the last completed depth, or the first
enumerated legal move when there is none. -/
def returnedRef (s : GameState) (r : Except JsError (Option SearchResult × SearchState)) :
    Except JsError (Option Move × SearchState) :=
  match r with
  | .error e => .error e
  | .ok (last, st) =>
    match lastMove last with
    | some m => .ok (some m, st)
    | none =>
      match allLegalMoves s s.turn with
      | .error e => .error e
      | .ok moves => .ok (moves.head?, st)

/-- The moves enumerated for player 1 in `sparseState`, in enumeration order. -/
def sparseMoves : List Move :=
  [.place ⟨0, 1⟩ ⟨0, 2⟩ .Crab, .place ⟨0, 1⟩ ⟨2, 1⟩ .Crab, .place ⟨4, 3⟩ ⟨2, 3⟩ .Crab,
   .place ⟨4, 3⟩ ⟨4, 4⟩ .Crab, .place ⟨0, 1⟩ ⟨0, 2⟩ .Boar, .place ⟨0, 1⟩ ⟨1, 1⟩ .Boar,
   .place ⟨4, 3⟩ ⟨3, 3⟩ .Boar, .place ⟨4, 3⟩ ⟨4, 4⟩ .Boar]

/-! ## Auxiliary lemmas: loops and reads -/

/-- A loop whose every step pushes the list `k a` onto the accumulator
returns the accumulator followed by all pushed lists in order. -/
theorem foldlM_push {α β : Type} (f : List β → α → Except JsError (List β)) (k : α → List β)
    (l : List α) (h : ∀ b a, a ∈ l → f b a = .ok (b ++ k a)) (init : List β) :
    l.foldlM f init = .ok (init ++ l.flatMap k) := by
  induction l generalizing init with
  | nil => simp [List.foldlM, pure, Except.pure]
  | cons a t ih =>
    rw [List.foldlM_cons, h init a (by simp)]
    show t.foldlM f (init ++ k a) = _
    rw [ih (fun b a ha => h b a (by simp [ha]))]
    simp

theorem mem_range5 {i : Int} : i ∈ range5 ↔ 0 ≤ i ∧ i ≤ 4 := by
  simp only [range5, List.mem_cons, List.mem_singleton, List.mem_nil_iff, or_false]
  omega

/-- On a well-formed board every row index in 0..4 is defined. -/
theorem jsIndex_row_of_WF {b : Board} (h : b.WF) {y : Int} (h0 : 0 ≤ y) (h4 : y ≤ 4) :
    ∃ row, jsIndex b y = some row ∧ row.length = 5 := by
  have hlt : y.toNat < b.length := by rw [h.1]; omega
  refine ⟨b.get ⟨y.toNat, hlt⟩, ?_, h.2 _ (List.get_mem _ _ _)⟩
  simp [jsIndex, h0, List.getElem?_eq_getElem hlt]

/-- A read through a defined row does not throw and yields the piece on the cell. -/
theorem readCell_of_WF {b : Board} (h : b.WF) (x : Int) {y : Int} (h0 : 0 ≤ y) (h4 : y ≤ 4) :
    readCell b x y = .ok (pieceAt b x y) := by
  obtain ⟨row, hrow, -⟩ := jsIndex_row_of_WF h h0 h4
  simp [readCell, pieceAt, hrow]

/-- The pushes of the offset loop, as a filter of the destinations. -/
theorem flatMap_offsets (b : Board) (owner : Player) (x y : Int) (c : Card)
    (offs : List (Int × Int)) :
    offs.flatMap (fun off =>
        if (destination owner x y off).onBoard ∧ ¬ holdsPieceOf b owner (destination owner x y off)
        then [Move.place ⟨x, y⟩ (destination owner x y off) c] else [])
      = (((offs.map (destination owner x y)).filter
          (fun d => d.onBoard ∧ ¬ holdsPieceOf b owner d)).map
          (fun d => Move.place ⟨x, y⟩ d c)) := by
  induction offs with
  | nil => rfl
  | cons o t ih =>
    rw [List.flatMap_cons, ih, List.map_cons, List.filter_cons]
    by_cases hc : (destination owner x y o).onBoard ∧ ¬ holdsPieceOf b owner (destination owner x y o)
    · simp [hc]
    · simp [hc]

/-- The offset loop at a cell `(x, y)` pushes exactly the kept destinations. -/
theorem offsetLoop_eq {b : Board} (h : b.WF) (owner : Player) (x y : Int) (c : Card)
    (offs : List (Int × Int)) (moves : List Move) :
    offs.foldlM (fun moves off =>
        let dx := off.1
        let dyBase := off.2
        let dy := dyBase * (if owner = 0 then (1 : Int) else -1)
        let nx := x + dx
        let ny := y - dy
        if nx < 0 ∨ nx > 4 ∨ ny < 0 ∨ ny > 4 then Except.ok moves
        else
          match readCell b nx ny with
          | .error e => .error e
          | .ok none => .ok (moves ++ [Move.place ⟨x, y⟩ ⟨nx, ny⟩ c])
          | .ok (some target) =>
            if target.owner = owner then .ok moves
            else .ok (moves ++ [Move.place ⟨x, y⟩ ⟨nx, ny⟩ c])) moves
      = .ok (moves ++ (((offs.map (destination owner x y)).filter
          (fun d => d.onBoard ∧ ¬ holdsPieceOf b owner d)).map
          (fun d => Move.place ⟨x, y⟩ d c))) := by
  rw [← flatMap_offsets]
  apply foldlM_push
  intro acc off _
  have hd : destination owner x y off
      = ⟨x + off.1, y - off.2 * (if owner = 0 then (1 : Int) else -1)⟩ := by
    unfold destination
    by_cases ho : owner = 0
    · simp [ho]
    · simp [ho]
  rw [hd]
  simp only []
  clear hd
  generalize y - off.2 * (if owner = 0 then (1 : Int) else -1) = ny
  generalize x + off.1 = nx
  by_cases hr : nx < 0 ∨ nx > 4 ∨ ny < 0 ∨ ny > 4
  · rw [if_pos hr, if_neg]
    · simp
    · intro hh
      have := hh.1
      simp only [Pos.onBoard] at this
      omega
  · rw [if_neg hr]
    have hon : (Pos.mk nx ny).onBoard := by
      simp only [Pos.onBoard]
      omega
    rw [readCell_of_WF h _ (by omega) (by omega)]
    cases hp : pieceAt b nx ny with
    | none =>
      have hnot : ¬ holdsPieceOf b owner ⟨nx, ny⟩ := by
        rintro ⟨q, hq, -⟩
        simp [hp] at hq
      simp [hon, hnot]
    | some t =>
      by_cases ht : t.owner = owner
      · have hyes : holdsPieceOf b owner ⟨nx, ny⟩ := ⟨t, hp, ht⟩
        simp [ht, hyes]
      · have hnot : ¬ holdsPieceOf b owner ⟨nx, ny⟩ := by
          rintro ⟨q, hq, hq2⟩
          simp only [hp, Option.some.injEq] at hq
          exact ht (hq ▸ hq2)
        simp [ht, hon, hnot]

/-- On a well-formed board the enumeration does not throw and returns the
reference list. -/
theorem legalMovesForCard_ok {s : GameState} (h : s.board.WF) (owner : Player) (c : Card) :
    legalMovesForCard s owner c = .ok (legalMovesRef s owner c) := by
  unfold legalMovesForCard legalMovesRef
  simp only []
  have := foldlM_push (fun (moves : List Move) (y : Int) =>
      range5.foldlM (fun moves x =>
        match readCell s.board x y with
        | .error e => .error e
        | .ok none => .ok moves
        | .ok (some p) =>
          if p.owner ≠ owner then .ok moves
          else
            (CARD_DEFS c).moves.foldlM (fun moves off =>
              let dx := off.1
              let dyBase := off.2
              let dy := dyBase * (if owner = 0 then (1 : Int) else -1)
              let nx := x + dx
              let ny := y - dy
              if nx < 0 ∨ nx > 4 ∨ ny < 0 ∨ ny > 4 then Except.ok moves
              else
                match readCell s.board nx ny with
                | .error e => .error e
                | .ok none => .ok (moves ++ [Move.place ⟨x, y⟩ ⟨nx, ny⟩ c])
                | .ok (some target) =>
                  if target.owner = owner then .ok moves
                  else .ok (moves ++ [Move.place ⟨x, y⟩ ⟨nx, ny⟩ c])) moves) moves)
    (fun y => range5.flatMap fun x =>
      if holdsPieceOf s.board owner ⟨x, y⟩ then
        (((CARD_DEFS c).moves.map (destination owner x y)).filter
          (fun d => d.onBoard ∧ ¬ holdsPieceOf s.board owner d)).map
          (fun d => Move.place ⟨x, y⟩ d c)
      else []) range5 ?_ []
  · simpa using this
  · intro acc y hy
    rw [mem_range5] at hy
    apply foldlM_push
    intro acc2 x _
    rw [readCell_of_WF h _ hy.1 hy.2]
    cases hp : pieceAt s.board x y with
    | none =>
      have hnot : ¬ holdsPieceOf s.board owner ⟨x, y⟩ := by
        rintro ⟨q, hq, -⟩
        simp [hp] at hq
      simp [hnot]
    | some p =>
      by_cases ht : p.owner = owner
      · have hyes : holdsPieceOf s.board owner ⟨x, y⟩ := ⟨p, hp, ht⟩
        simp only [ne_eq, ht, not_true_eq_false, if_false, hyes, if_true]
        exact offsetLoop_eq h owner x y c _ acc2
      · have hnot : ¬ holdsPieceOf s.board owner ⟨x, y⟩ := by
          rintro ⟨q, hq, hq2⟩
          simp only [hp, Option.some.injEq] at hq
          exact ht (hq ▸ hq2)
        simp [ht, hnot]

/-- Every move of the reference list is a placement with the given card, from
a cell of the board holding a piece of `owner`, to a cell of the board not
holding a piece of `owner`. -/
theorem mem_legalMovesRef {s : GameState} {owner : Player} {c : Card} {m : Move}
    (hm : m ∈ legalMovesRef s owner c) :
    ∃ src dst, m = Move.place src dst c ∧ src.onBoard ∧ holdsPieceOf s.board owner src
      ∧ dst.onBoard ∧ ¬ holdsPieceOf s.board owner dst := by
  unfold legalMovesRef at hm
  rw [List.mem_flatMap] at hm
  obtain ⟨y, hy, hm⟩ := hm
  rw [List.mem_flatMap] at hm
  obtain ⟨x, hx, hm⟩ := hm
  rw [mem_range5] at hx hy
  by_cases hh : holdsPieceOf s.board owner ⟨x, y⟩
  · rw [if_pos hh, List.mem_map] at hm
    obtain ⟨d, hd, rfl⟩ := hm
    rw [List.mem_filter] at hd
    have hd2 := of_decide_eq_true hd.2
    exact ⟨⟨x, y⟩, d, rfl, ⟨hx.1, hx.2, hy.1, hy.2⟩, hh, hd2.1, hd2.2⟩
  · rw [if_neg hh] at hm
    simp at hm

/-- The reference list for Tiger and player 0 on the initial board. -/
theorem legalMovesRef_initial_Tiger (s : GameState) (hb : s.board = initialBoard) :
    legalMovesRef s 0 .Tiger =
      [Move.place ⟨0, 4⟩ ⟨0, 2⟩ .Tiger, Move.place ⟨1, 4⟩ ⟨1, 2⟩ .Tiger,
       Move.place ⟨2, 4⟩ ⟨2, 2⟩ .Tiger, Move.place ⟨3, 4⟩ ⟨3, 2⟩ .Tiger,
       Move.place ⟨4, 4⟩ ⟨4, 2⟩ .Tiger] := by
  unfold legalMovesRef
  rw [hb]
  decide

theorem initialBoard_WF : initialBoard.WF := by decide

/-! ## Move enumeration: the claims -/

/-- C1: on every state with a 5x5 board, for each owner and catalog card,
`legalMovesForCard` returns the reference list: cells scanned row-major, for
each cell holding a piece of the owner the offsets of the card in declared
order, keeping exactly the destinations `(x+dx, y-dy)` (owner 0) or
`(x+dx, y+dy)` (owner 1) that lie on the board and do not hold a piece of the
owner.  On the initial board with Tiger and owner 0 the result contains the
move (0,4) -> (0,2) and every destination is on the board. -/
theorem C1_legalMovesForCard_refines_reference (s : GameState) (owner : Player) (c : Card)
    (h : s.board.WF) :
    legalMovesForCard s owner c = .ok (legalMovesRef s owner c)
    ∧ (∀ (hands : Hand × Hand) (mid : Card) (turn : Player) (ply : Nat),
        ∃ l, legalMovesForCard ⟨initialBoard, hands, mid, turn, ply⟩ 0 .Tiger = .ok l
          ∧ Move.place ⟨0, 4⟩ ⟨0, 2⟩ .Tiger ∈ l
          ∧ ∀ src dst card, Move.place src dst card ∈ l → dst.onBoard) := by
  refine ⟨legalMovesForCard_ok h owner c, ?_⟩
  intro hands mid turn ply
  refine ⟨_, legalMovesForCard_ok (s := ⟨initialBoard, hands, mid, turn, ply⟩) initialBoard_WF 0 .Tiger, ?_, ?_⟩
  · rw [legalMovesRef_initial_Tiger _ rfl]
    simp
  · intro src dst card hm
    obtain ⟨src2, dst2, heq, -, -, hon, -⟩ := mem_legalMovesRef hm
    cases heq
    exact hon

/-- C1 at the sample state with Tiger and player 0. -/
theorem C1_witness :
    sampleState.board.WF
    ∧ legalMovesForCard sampleState 0 .Tiger = .ok (legalMovesRef sampleState 0 .Tiger) :=
  ⟨by decide, (C1_legalMovesForCard_refines_reference sampleState 0 .Tiger (by decide)).1⟩

/-- On a well-formed board `allLegalMoves` does not throw: it is the two
reference lists in hand order, or the two passes when both are empty. -/
theorem allLegalMoves_ok {s : GameState} (h : s.board.WF) (owner : Player) :
    allLegalMoves s owner = .ok
      (if legalMovesRef s owner (s.hand owner).c0 ++ legalMovesRef s owner (s.hand owner).c1 = []
       then [Move.pass (s.hand owner).c0, Move.pass (s.hand owner).c1]
       else legalMovesRef s owner (s.hand owner).c0 ++ legalMovesRef s owner (s.hand owner).c1) := by
  unfold allLegalMoves
  simp only [legalMovesForCard_ok h, List.length_eq_zero]
  split <;> rfl

/-- C2: on every state with a 5x5 board and for each owner, `allLegalMoves`
is never empty: when a placement move exists for either hand card it is the
moves of `hand[0]` followed by the moves of `hand[1]` and holds no pass;
otherwise it is exactly the pass with `hand[0]` then the pass with `hand[1]`.
A pass is returned exactly when no placement move exists for either card. -/
theorem C2_allLegalMoves_nonempty (s : GameState) (owner : Player) (h : s.board.WF) :
    ∃ a b l, legalMovesForCard s owner (s.hand owner).c0 = .ok a
      ∧ legalMovesForCard s owner (s.hand owner).c1 = .ok b
      ∧ allLegalMoves s owner = .ok l
      ∧ l ≠ []
      ∧ (a ++ b ≠ [] → l = a ++ b ∧ ∀ m ∈ l, m.isPass = false)
      ∧ (a ++ b = [] → l = [Move.pass (s.hand owner).c0, Move.pass (s.hand owner).c1])
      ∧ ((∃ m ∈ l, m.isPass = true) ↔ a ++ b = []) := by
  refine ⟨_, _, _, legalMovesForCard_ok h owner _, legalMovesForCard_ok h owner _,
    allLegalMoves_ok h owner, ?_⟩
  have hplace : ∀ m ∈ legalMovesRef s owner (s.hand owner).c0
        ++ legalMovesRef s owner (s.hand owner).c1, m.isPass = false := by
    intro m hm
    rw [List.mem_append] at hm
    rcases hm with hm | hm
    · obtain ⟨src, dst, rfl, -⟩ := mem_legalMovesRef hm
      rfl
    · obtain ⟨src, dst, rfl, -⟩ := mem_legalMovesRef hm
      rfl
  by_cases he : legalMovesRef s owner (s.hand owner).c0
      ++ legalMovesRef s owner (s.hand owner).c1 = []
  · rw [if_pos he]
    refine ⟨by simp, fun hne => absurd he hne, fun _ => rfl, ?_⟩
    constructor
    · intro _
      exact he
    · intro _
      exact ⟨Move.pass (s.hand owner).c0, by simp, rfl⟩
  · rw [if_neg he]
    refine ⟨he, fun _ => ⟨rfl, hplace⟩, fun hh => absurd hh he, ?_⟩
    constructor
    · rintro ⟨m, hm, hp⟩
      rw [hplace m hm] at hp
      cases hp
    · intro hh
      exact absurd hh he

/-- C2 at the sample state for player 0. -/
theorem C2_witness :
    sampleState.board.WF ∧ ∃ l, allLegalMoves sampleState 0 = .ok l ∧ l ≠ [] := by
  refine ⟨by decide, ?_⟩
  obtain ⟨a, b, l, -, -, hl, hne, -⟩ := C2_allLegalMoves_nonempty sampleState 0 (by decide)
  exact ⟨l, hl, hne⟩

/-! ## Auxiliary lemmas: writes -/

theorem jsIndex_of_lt {α : Type} {l : List α} {i : Int} (h0 : 0 ≤ i) (hlt : i.toNat < l.length) :
    jsIndex l i = some (l.get ⟨i.toNat, hlt⟩) := by
  simp [jsIndex, h0, List.getElem?_eq_getElem hlt]

theorem writeCell_of_WF {b : Board} (h : b.WF) {x y : Int} (hx0 : 0 ≤ x) (hx4 : x ≤ 4)
    (hy0 : 0 ≤ y) (hy4 : y ≤ 4) (v : Cell) :
    writeCell b x y v = .ok (b.put x y v) := by
  have hlt : y.toNat < b.length := by rw [h.1]; omega
  have hrow : (b.get ⟨y.toNat, hlt⟩).length = 5 := h.2 _ (List.get_mem _ _ _)
  have hx : x.toNat < (b.get ⟨y.toNat, hlt⟩).length := by rw [hrow]; omega
  have hnx : ¬ x < 0 := by omega
  simp only [writeCell, jsIndex_of_lt hy0 hlt, jsAssign, hnx, if_false, hx, if_true, Board.put]
  congr 3
  simp [List.getD, List.getElem?_eq_getElem hlt]

theorem getD_row_of_WF {b : Board} (h : b.WF) {y : Int} (hy0 : 0 ≤ y) (hy4 : y ≤ 4) :
    b.getD y.toNat [] ∈ b ∧ (b.getD y.toNat []).length = 5 ∧ jsIndex b y = some (b.getD y.toNat []) := by
  have hlt : y.toNat < b.length := by rw [h.1]; omega
  have he : b.getD y.toNat [] = b.get ⟨y.toNat, hlt⟩ := by
    simp [List.getD, List.getElem?_eq_getElem hlt]
  rw [he]
  exact ⟨List.get_mem _ _ _, h.2 _ (List.get_mem _ _ _), jsIndex_of_lt hy0 hlt⟩

theorem WF_put {b : Board} (h : b.WF) (x : Int) {y : Int} (hy0 : 0 ≤ y) (hy4 : y ≤ 4) (v : Cell) :
    (b.put x y v).WF := by
  unfold Board.put
  refine ⟨by simp [h.1], ?_⟩
  intro row hrow
  rcases List.mem_or_eq_of_mem_set hrow with hm | rfl
  · exact h.2 _ hm
  · rw [List.length_set]
    exact (getD_row_of_WF h hy0 hy4).2.1

/-- Reading a cell after a write on a well-formed board. -/
theorem pieceAt_put {b : Board} (h : b.WF) {x y : Int} (hx0 : 0 ≤ x) (hx4 : x ≤ 4)
    (hy0 : 0 ≤ y) (hy4 : y ≤ 4) (v : Cell) (x2 y2 : Int) :
    pieceAt (b.put x y v) x2 y2 = if x2 = x ∧ y2 = y then v else pieceAt b x2 y2 := by
  obtain ⟨-, hlen, hrow⟩ := getD_row_of_WF h hy0 hy4
  have hlt : y.toNat < b.length := by rw [h.1]; omega
  by_cases hy2 : y2 = y
  · subst hy2
    have h1 : jsIndex (b.put x y2 v) y2 = some ((b.getD y2.toNat []).set x.toNat v) := by
      simp [jsIndex, hy0, Board.put, List.getElem?_set, hlt]
    simp only [pieceAt, h1, hrow, and_true]
    generalize b.getD y2.toNat [] = row at hlen
    by_cases hx2 : x2 = x
    · subst hx2
      have : x2.toNat < row.length := by rw [hlen]; omega
      simp [jsIndex, hx0, List.getElem?_set, this]
    · rw [if_neg hx2]
      by_cases hx20 : 0 ≤ x2
      · have hne : x.toNat ≠ x2.toNat := by omega
        simp [jsIndex, hx20, List.getElem?_set, hne]
      · simp [jsIndex, hx20]
  · have hne : ¬ (x2 = x ∧ y2 = y) := fun hh => hy2 hh.2
    rw [if_neg hne]
    by_cases hy20 : 0 ≤ y2
    · have hne2 : y.toNat ≠ y2.toNat := by omega
      simp [pieceAt, jsIndex, hy20, Board.put, List.getElem?_set, hne2]
    · simp [pieceAt, jsIndex, hy20]

/-! ## Auxiliary lemmas: move application -/

/-- The two writes on a well-formed board with source and destination on the board. -/
theorem movePiece_of_WF {b : Board} (h : b.WF) {src dst : Pos} (hs : src.onBoard)
    (hd : dst.onBoard) (piece : Piece) :
    movePiece b src dst piece
      = .ok (some ((b.put src.x src.y none).put dst.x dst.y (some piece))) := by
  obtain ⟨hs1, hs2, hs3, hs4⟩ := hs
  obtain ⟨hd1, hd2, hd3, hd4⟩ := hd
  unfold movePiece
  rw [writeCell_of_WF h hs1 hs2 hs3 hs4]
  simp only []
  rw [writeCell_of_WF (WF_put h _ hs3 hs4 _) hd1 hd2 hd3 hd4]

/-- The board part of a placement on a well-formed board with source and
destination on the board: no TypeError, null exactly on the three guards. -/
theorem applyMoveBoard_place_of_WF {b : Board} (h : b.WF) (owner : Player) {src dst : Pos}
    (hs : src.onBoard) (hd : dst.onBoard) (c : Card) :
    applyMoveBoard b owner (.place src dst c) =
      match pieceAt b src.x src.y with
      | none => .ok none
      | some piece =>
        if piece.owner ≠ owner then .ok none
        else if holdsPieceOf b owner dst then .ok none
        else .ok (some ((b.put src.x src.y none).put dst.x dst.y (some piece))) := by
  unfold applyMoveBoard
  simp only []
  rw [readCell_of_WF h _ hs.2.2.1 hs.2.2.2, readCell_of_WF h _ hd.2.2.1 hd.2.2.2]
  cases hp : pieceAt b src.x src.y with
  | none => rfl
  | some piece =>
    simp only []
    by_cases ho : piece.owner ≠ owner
    · rw [if_pos ho, if_pos ho]
    · rw [if_neg ho, if_neg ho]
      cases ht : pieceAt b dst.x dst.y with
      | none =>
        have hnot : ¬ holdsPieceOf b owner dst := by
          rintro ⟨q, hq, -⟩
          simp [ht] at hq
        simp only [hnot, if_false]
        exact movePiece_of_WF h hs hd piece
      | some t =>
        by_cases hto : t.owner = owner
        · have hyes : holdsPieceOf b owner dst := ⟨t, ht, hto⟩
          simp only [hto, hyes, if_true]
        · have hnot : ¬ holdsPieceOf b owner dst := by
            rintro ⟨q, hq, hq2⟩
            simp only [ht, Option.some.injEq] at hq
            exact hto (hq ▸ hq2)
          simp only [hto, hnot, if_false]
          exact movePiece_of_WF h hs hd piece

/-- The shape of every successful `applyMove`: the board part succeeded, the
used card sits in slot `idx` of the mover's hand (slot 0 is tried first), and
the new state is the exchanged one. -/
theorem applyMove_some {s ns : GameState} {m : Move} (h : applyMove s m = .ok (some ns)) :
    ∃ board idx, applyMoveBoard s.board s.turn m = .ok (some board)
      ∧ ((idx = 0 ∧ (s.hand s.turn).c0 = m.card)
          ∨ (idx = 1 ∧ (s.hand s.turn).c0 ≠ m.card ∧ (s.hand s.turn).c1 = m.card))
      ∧ ns = { board := board
               hands := setHandSlot s.hands s.turn idx s.mid
               mid := m.card
               turn := 1 - s.turn
               ply := s.ply + 1 } := by
  unfold applyMove deepCopy at h
  simp only [] at h
  cases hb : applyMoveBoard s.board s.turn m with
  | error e => rw [hb] at h; cases h
  | ok ob =>
    cases ob with
    | none => rw [hb] at h; cases h
    | some board =>
      rw [hb] at h
      simp only [] at h
      by_cases h0 : (s.hand s.turn).c0 = m.card
      · simp only [h0, if_true] at h
        refine ⟨board, 0, rfl, Or.inl ⟨rfl, h0⟩, ?_⟩
        cases h
        rfl
      · by_cases h1 : (s.hand s.turn).c1 = m.card
        · simp only [h0, h1, if_false, if_true] at h
          refine ⟨board, 1, rfl, Or.inr ⟨rfl, h0, h1⟩, ?_⟩
          cases h
          rfl
        · simp only [h0, h1, if_false] at h
          cases h

/-- The outcome of `applyMove` once the board part succeeded and the used
card is in the mover's hand. -/
theorem applyMove_of_board {s : GameState} {m : Move} {board : Board}
    (hb : applyMoveBoard s.board s.turn m = .ok (some board))
    (hc : (s.hand s.turn).c0 = m.card ∨ (s.hand s.turn).c1 = m.card) :
    ∃ ns, applyMove s m = .ok (some ns) := by
  unfold applyMove deepCopy
  simp only [hb]
  by_cases h0 : (s.hand s.turn).c0 = m.card
  · simp only [h0, if_true]
    exact ⟨_, rfl⟩
  · have h1 : (s.hand s.turn).c1 = m.card := hc.resolve_left h0
    simp only [h0, h1, if_false, if_true]
    exact ⟨_, rfl⟩

/-- Every enumerated move of the side to move is applicable. -/
theorem applyMove_of_mem_allLegalMoves {s : GameState} (h : s.board.WF) {l : List Move}
    (hl : allLegalMoves s s.turn = .ok l) {m : Move} (hm : m ∈ l) :
    ∃ ns, applyMove s m = .ok (some ns) := by
  rw [allLegalMoves_ok h] at hl
  injection hl with hl
  subst hl
  have hplace : ∀ c, ((s.hand s.turn).c0 = c ∨ (s.hand s.turn).c1 = c) →
      m ∈ legalMovesRef s s.turn c → ∃ ns, applyMove s m = .ok (some ns) := by
    intro c hc hmem
    obtain ⟨src, dst, rfl, hs, ⟨q, hq, hqo⟩, hd, hnot⟩ := mem_legalMovesRef hmem
    have hb : applyMoveBoard s.board s.turn (.place src dst c)
        = .ok (some ((s.board.put src.x src.y none).put dst.x dst.y (some q))) := by
      rw [applyMoveBoard_place_of_WF h _ hs hd, hq]
      simp [hqo, hnot]
    exact applyMove_of_board hb hc
  split at hm
  · simp only [List.mem_cons, List.mem_singleton, List.mem_nil_iff, or_false] at hm
    rcases hm with rfl | rfl
    · have hb : applyMoveBoard s.board s.turn (.pass (s.hand s.turn).c0) = .ok (some s.board) := rfl
      exact applyMove_of_board hb (Or.inl rfl)
    · have hb : applyMoveBoard s.board s.turn (.pass (s.hand s.turn).c1) = .ok (some s.board) := rfl
      exact applyMove_of_board hb (Or.inr rfl)
  · rw [List.mem_append] at hm
    rcases hm with hm | hm
    · exact hplace _ (Or.inl rfl) hm
    · exact hplace _ (Or.inr rfl) hm

theorem applyMove_sampleMove : applyMove sampleState sampleMove = .ok (some sampleNext) := by
  rfl

theorem applyMove_samplePass : applyMove sampleState (.pass .Crab) = .ok (some samplePassed) := by
  rfl

theorem perm_swap02 {α : Type} (a b c : α) (l : List α) :
    (c :: b :: a :: l).Perm (a :: b :: c :: l) :=
  ((List.Perm.swap b c (a :: l)).trans ((List.Perm.swap a c l).cons b)).trans
    (List.Perm.swap a b (c :: l))

/-- A successful `applyMove` permutes the five cards. -/
theorem fiveCards_perm_of_applyMove {s ns : GameState} {m : Move}
    (h : applyMove s m = .ok (some ns)) : (fiveCards ns).Perm (fiveCards s) := by
  obtain ⟨board, idx, -, hidx, rfl⟩ := applyMove_some h
  clear h
  rcases s with ⟨b, ⟨⟨a0, a1⟩, ⟨b0, b1⟩⟩, mid, turn, ply⟩
  fin_cases turn
  · rcases hidx with ⟨rfl, hc⟩ | ⟨rfl, -, hc⟩
    · simp only [GameState.hand, if_true] at hc
      subst hc
      exact perm_swap02 _ _ _ _
    · simp only [GameState.hand, if_true] at hc
      subst hc
      exact (List.Perm.swap _ _ _).cons _
  · rcases hidx with ⟨rfl, hc⟩ | ⟨rfl, -, hc⟩
    · simp only [GameState.hand] at hc
      simp at hc
      subst hc
      exact ((List.Perm.swap _ _ _).cons _).cons _
    · simp only [GameState.hand] at hc
      simp at hc
      subst hc
      exact ((perm_swap02 _ _ _ _).cons _).cons _

/-- The five cards of every reachable state are a permutation of the initial ones. -/
theorem fiveCards_perm_of_reachable {s0 s : GameState} (hr : Reachable s0 s) :
    (fiveCards s).Perm (fiveCards s0) := by
  induction hr with
  | start => exact List.Perm.refl _
  | step m _ happ ih => exact (fiveCards_perm_of_applyMove happ).trans ih

/-- A null board part makes `applyMove` return null. -/
theorem applyMove_of_board_none {s : GameState} {m : Move}
    (hb : applyMoveBoard s.board s.turn m = .ok none) : applyMove s m = .ok none := by
  unfold applyMove deepCopy
  simp only [hb]

/-- A successful placement on a well-formed board, source and destination on
the board: the moved piece and the new board. -/
theorem applyMove_place_board {s ns : GameState} {src dst : Pos} {c : Card} (hwf : s.board.WF)
    (hs : src.onBoard) (hd : dst.onBoard) (h : applyMove s (.place src dst c) = .ok (some ns)) :
    ∃ piece, pieceAt s.board src.x src.y = some piece ∧ piece.owner = s.turn
      ∧ ¬ holdsPieceOf s.board s.turn dst
      ∧ ns.board = (s.board.put src.x src.y none).put dst.x dst.y (some piece) := by
  obtain ⟨board, idx, hb, -, rfl⟩ := applyMove_some h
  rw [applyMoveBoard_place_of_WF hwf _ hs hd] at hb
  cases hp : pieceAt s.board src.x src.y with
  | none => rw [hp] at hb; cases hb
  | some piece =>
    rw [hp] at hb
    simp only [] at hb
    by_cases ho : piece.owner ≠ s.turn
    · rw [if_pos ho] at hb; cases hb
    · rw [if_neg ho] at hb
      by_cases hh : holdsPieceOf s.board s.turn dst
      · rw [if_pos hh] at hb; cases hb
      · rw [if_neg hh] at hb
        injection hb with hb
        injection hb with hb
        exact ⟨piece, rfl, not_not.mp ho, hh, hb.symm⟩

/-! ## Move application: the claims -/

/-- C3: whenever `applyMove` succeeds on a placement or a pass, the result has
turn `1 - s.turn` and ply `s.ply + 1`; on a 5x5 board this holds for every
move of `allLegalMoves(s, s.turn)`, each of which applies successfully. -/
theorem C3_applyMove_flips_turn_and_counts_ply (s : GameState) (m : Move) :
    (∀ ns, applyMove s m = .ok (some ns) →
        ns.turn = 1 - s.turn ∧ (ns.turn : Nat) = 1 - (s.turn : Nat) ∧ ns.ply = s.ply + 1)
    ∧ (s.board.WF → ∀ l, allLegalMoves s s.turn = .ok l → m ∈ l →
        ∃ ns, applyMove s m = .ok (some ns) ∧ ns.turn = 1 - s.turn ∧ ns.ply = s.ply + 1) := by
  have key : ∀ ns, applyMove s m = .ok (some ns) →
      ns.turn = 1 - s.turn ∧ (ns.turn : Nat) = 1 - (s.turn : Nat) ∧ ns.ply = s.ply + 1 := by
    intro ns h
    obtain ⟨board, idx, -, -, rfl⟩ := applyMove_some h
    refine ⟨rfl, ?_, rfl⟩
    show ((1 - s.turn : Fin 2) : Nat) = 1 - (s.turn : Nat)
    generalize s.turn = t
    revert t
    decide
  refine ⟨key, ?_⟩
  intro hwf l hl hm
  obtain ⟨ns, hns⟩ := applyMove_of_mem_allLegalMoves hwf hl hm
  exact ⟨ns, hns, (key ns hns).1, (key ns hns).2.2⟩

/-- C3 at the sample state and the Tiger move (0,4) -> (0,2). -/
theorem C3_witness :
    applyMove sampleState sampleMove = .ok (some sampleNext)
    ∧ sampleNext.turn = 1 - sampleState.turn ∧ sampleNext.ply = sampleState.ply + 1 :=
  ⟨applyMove_sampleMove,
   ((C3_applyMove_flips_turn_and_counts_ply sampleState sampleMove).1 _ applyMove_sampleMove).1,
   ((C3_applyMove_flips_turn_and_counts_ply sampleState sampleMove).1 _ applyMove_sampleMove).2.2⟩

/-- C4 (exchange rule): in a state whose five cards are pairwise distinct,
after a successful `applyMove` on a placement or a pass the mid card is the
used card, some slot of the mover's hand held the used card, every slot of the
mover's hand that held the used card now holds the previous mid card, every
other slot of that hand is unchanged, and the opponent's hand is unchanged. -/
theorem C4_exchange_rule (s ns : GameState) (m : Move) (hd : (fiveCards s).Nodup)
    (h : applyMove s m = .ok (some ns)) :
    ns.mid = m.card
    ∧ (∃ i, (s.hand s.turn).slot i = m.card)
    ∧ (∀ i, (s.hand s.turn).slot i = m.card → (ns.hand s.turn).slot i = s.mid)
    ∧ (∀ i, (s.hand s.turn).slot i ≠ m.card →
        (ns.hand s.turn).slot i = (s.hand s.turn).slot i)
    ∧ ns.hand (1 - s.turn) = s.hand (1 - s.turn) := by
  obtain ⟨board, idx, -, hidx, rfl⟩ := applyMove_some h
  rcases s with ⟨b, ⟨⟨a0, a1⟩, ⟨b0, b1⟩⟩, mid, turn, ply⟩
  simp only [fiveCards, List.nodup_cons, List.mem_cons, List.mem_singleton, not_or,
    List.not_mem_nil, not_false_eq_true, List.nodup_nil, and_true] at hd
  obtain ⟨⟨h01, h0m, h0a, h0b⟩, ⟨h1m, h1a, h1b⟩, ⟨hma, hmb⟩, hab⟩ := hd
  have h10 : a1 ≠ a0 := Ne.symm h01
  have hba : b1 ≠ b0 := Ne.symm hab
  clear h
  fin_cases turn
  · rcases hidx with ⟨rfl, hc⟩ | ⟨rfl, hc0, hc⟩
    · simp only [GameState.hand, if_true] at hc
      subst hc
      simp [GameState.hand, setHandSlot, Hand.slot, Fin.forall_fin_two, Fin.exists_fin_two, h01, h10]
    · simp only [GameState.hand, if_true] at hc hc0
      subst hc
      simp [GameState.hand, setHandSlot, Hand.slot, Fin.forall_fin_two, Fin.exists_fin_two, h01, h10]
  · rcases hidx with ⟨rfl, hc⟩ | ⟨rfl, hc0, hc⟩
    · simp only [GameState.hand] at hc
      simp at hc
      subst hc
      simp [GameState.hand, setHandSlot, Hand.slot, Fin.forall_fin_two, Fin.exists_fin_two, hab, hba]
    · simp only [GameState.hand] at hc hc0
      simp at hc hc0
      subst hc
      simp [GameState.hand, setHandSlot, Hand.slot, Fin.forall_fin_two, Fin.exists_fin_two, hab, hba]

/-- C4 at the sample state and the pass with Crab. -/
theorem C4_witness :
    (fiveCards sampleState).Nodup
    ∧ applyMove sampleState (.pass .Crab) = .ok (some samplePassed)
    ∧ samplePassed.mid = Move.card (.pass .Crab) :=
  ⟨by decide, applyMove_samplePass,
   (C4_exchange_rule sampleState samplePassed (.pass .Crab) (by decide) applyMove_samplePass).1⟩

/-- C5 (card conservation): when the five cards of `s0` are pairwise
distinct, after every successful `applyMove` on `s0` the five cards of the
result are pairwise distinct and are the same five cards, and so are the five
cards of every state `s` reached from `s0` by successful `applyMove` calls. -/
theorem C5_card_conservation (s0 s : GameState) (hd : (fiveCards s0).Nodup) :
    (∀ m ns, applyMove s0 m = .ok (some ns) →
        (fiveCards ns).Nodup ∧ (fiveCards ns).Perm (fiveCards s0)
          ∧ ∀ c, c ∈ fiveCards ns ↔ c ∈ fiveCards s0)
    ∧ (Reachable s0 s →
        (fiveCards s).Nodup ∧ (fiveCards s).Perm (fiveCards s0)
          ∧ ∀ c, c ∈ fiveCards s ↔ c ∈ fiveCards s0) := by
  constructor
  · intro m ns h
    have hp := fiveCards_perm_of_applyMove h
    exact ⟨hp.nodup_iff.mpr hd, hp, fun c => hp.mem_iff⟩
  · intro hr
    have hp := fiveCards_perm_of_reachable hr
    exact ⟨hp.nodup_iff.mpr hd, hp, fun c => hp.mem_iff⟩

/-- C5 at the sample state and the Tiger move (0,4) -> (0,2). -/
theorem C5_witness :
    (fiveCards sampleState).Nodup ∧ Reachable sampleState sampleNext
    ∧ (fiveCards sampleNext).Nodup :=
  ⟨by decide, Reachable.step sampleMove Reachable.start applyMove_sampleMove,
   ((C5_card_conservation sampleState sampleNext (by decide)).2
      (Reachable.step sampleMove Reachable.start applyMove_sampleMove)).1⟩

/-- C6 (board effect): on a 5x5 board, after a successful placement with
source and destination on the board, the source cell is empty, the
destination cell holds the piece that was on the source, every other cell is
as before and the board is still 5x5; after a successful pass the board is
the input board. -/
theorem C6_board_effect (s ns : GameState) (src dst : Pos) (c : Card) (hwf : s.board.WF)
    (hs : src.onBoard) (hd : dst.onBoard)
    (h : applyMove s (.place src dst c) = .ok (some ns)) :
    pieceAt ns.board src.x src.y = none
    ∧ (∃ piece, pieceAt s.board src.x src.y = some piece
        ∧ pieceAt ns.board dst.x dst.y = some piece)
    ∧ (∀ x y, (x, y) ≠ (src.x, src.y) → (x, y) ≠ (dst.x, dst.y) →
        pieceAt ns.board x y = pieceAt s.board x y)
    ∧ ns.board.WF
    ∧ (∀ c2 ns2, applyMove s (.pass c2) = .ok (some ns2) → ns2.board = s.board) := by
  obtain ⟨piece, hp, hown, hnot, hb⟩ := applyMove_place_board hwf hs hd h
  have hne : ¬ (src.x = dst.x ∧ src.y = dst.y) := by
    rintro ⟨hx, hy⟩
    apply hnot
    refine ⟨piece, ?_, hown⟩
    rw [← hx, ← hy]
    exact hp
  obtain ⟨hs1, hs2, hs3, hs4⟩ := hs
  obtain ⟨hd1, hd2, hd3, hd4⟩ := hd
  have hwf1 : (s.board.put src.x src.y none).WF := WF_put hwf _ hs3 hs4 _
  refine ⟨?_, ⟨piece, hp, ?_⟩, ?_, ?_, ?_⟩
  · rw [hb, pieceAt_put hwf1 hd1 hd2 hd3 hd4, if_neg hne, pieceAt_put hwf hs1 hs2 hs3 hs4]
    simp
  · rw [hb, pieceAt_put hwf1 hd1 hd2 hd3 hd4]
    simp
  · intro x y hxs hxd
    have h1 : ¬ (x = dst.x ∧ y = dst.y) := by
      rintro ⟨rfl, rfl⟩
      exact hxd rfl
    have h2 : ¬ (x = src.x ∧ y = src.y) := by
      rintro ⟨rfl, rfl⟩
      exact hxs rfl
    rw [hb, pieceAt_put hwf1 hd1 hd2 hd3 hd4, if_neg h1, pieceAt_put hwf hs1 hs2 hs3 hs4,
      if_neg h2]
  · rw [hb]
    exact WF_put hwf1 _ hd3 hd4 _
  · intro c2 ns2 h2
    obtain ⟨board, idx, hb2, -, rfl⟩ := applyMove_some h2
    have : board = s.board := by
      simp only [applyMoveBoard] at hb2
      injection hb2 with hb2
      injection hb2 with hb2
      exact hb2.symm
    exact this

/-- C6 at the sample state and the Tiger move (0,4) -> (0,2). -/
theorem C6_witness :
    sampleState.board.WF ∧ applyMove sampleState sampleMove = .ok (some sampleNext)
    ∧ pieceAt sampleNext.board 0 4 = none :=
  ⟨by decide, applyMove_sampleMove,
   (C6_board_effect sampleState sampleNext ⟨0, 4⟩ ⟨0, 2⟩ .Tiger (by decide) (by decide)
      (by decide) applyMove_sampleMove).1⟩

/-- C7: on a 5x5 board, a placement with source and destination on the board
returns null (no new state) when the source cell is empty, or the piece on
the source is not owned by the side to move, or the destination holds a piece
of the side to move. -/
theorem C7_applyMove_rejects (s : GameState) (src dst : Pos) (c : Card) (hwf : s.board.WF)
    (hs : src.onBoard) (hd : dst.onBoard)
    (hbad : pieceAt s.board src.x src.y = none
      ∨ (∃ p, pieceAt s.board src.x src.y = some p ∧ p.owner ≠ s.turn)
      ∨ holdsPieceOf s.board s.turn dst) :
    applyMove s (.place src dst c) = .ok none := by
  apply applyMove_of_board_none
  rw [applyMoveBoard_place_of_WF hwf _ hs hd]
  rcases hbad with h1 | ⟨p, h2, h3⟩ | h4
  · rw [h1]
  · rw [h2]
    simp only []
    rw [if_pos h3]
  · cases hp : pieceAt s.board src.x src.y with
    | none => rfl
    | some piece =>
      simp only []
      by_cases ho : piece.owner ≠ s.turn
      · rw [if_pos ho]
      · rw [if_neg ho, if_pos h4]

/-- C7 at the sample state: the empty source (0,2), the opponent piece on
(0,0) and the own piece on the destination (1,4) each give null. -/
theorem C7_witness :
    applyMove sampleState (.place ⟨0, 2⟩ ⟨0, 1⟩ .Tiger) = .ok none
    ∧ applyMove sampleState (.place ⟨0, 0⟩ ⟨0, 1⟩ .Tiger) = .ok none
    ∧ applyMove sampleState (.place ⟨0, 4⟩ ⟨1, 4⟩ .Tiger) = .ok none :=
  ⟨C7_applyMove_rejects sampleState ⟨0, 2⟩ ⟨0, 1⟩ .Tiger (by decide) (by decide) (by decide)
     (Or.inl (by decide)),
   C7_applyMove_rejects sampleState ⟨0, 0⟩ ⟨0, 1⟩ .Tiger (by decide) (by decide) (by decide)
     (Or.inr (Or.inl ⟨⟨1, .S⟩, by decide, by decide⟩)),
   C7_applyMove_rejects sampleState ⟨0, 4⟩ ⟨1, 4⟩ .Tiger (by decide) (by decide) (by decide)
     (Or.inr (Or.inr (by decide)))⟩

/-- C8: on a 5x5 board `allLegalMoves(s, s.turn)` returns a list, and
`applyMove` succeeds on every move of it, placement or pass: it neither
returns null nor throws. -/
theorem C8_enumerated_moves_apply (s : GameState) (hwf : s.board.WF) :
    ∃ l, allLegalMoves s s.turn = .ok l
      ∧ ∀ m ∈ l, ∃ ns, applyMove s m = .ok (some ns) :=
  ⟨_, allLegalMoves_ok hwf s.turn, fun _ hm =>
    applyMove_of_mem_allLegalMoves hwf (allLegalMoves_ok hwf s.turn) hm⟩

/-- C8 at the sample state. -/
theorem C8_witness :
    sampleState.board.WF
    ∧ ∃ l, allLegalMoves sampleState sampleState.turn = .ok l
      ∧ ∀ m ∈ l, ∃ ns, applyMove sampleState m = .ok (some ns) :=
  ⟨by decide, C8_enumerated_moves_apply sampleState (by decide)⟩

/-! ## Out-of-range coordinates -/

theorem jsIndex_mem {α : Type} {l : List α} {i : Int} {a : α} (h : jsIndex l i = some a) :
    a ∈ l ∧ 0 ≤ i ∧ i.toNat < l.length := by
  unfold jsIndex at h
  by_cases h0 : 0 ≤ i
  · rw [if_pos h0, List.get?_eq_getElem?] at h
    obtain ⟨hlt, rfl⟩ := List.getElem?_eq_some.mp h
    exact ⟨List.getElem_mem _, h0, hlt⟩
  · rw [if_neg h0] at h
    cases h

/-- A piece read from a board sits in one of its rows, at in-list indices. -/
theorem pieceAt_some {b : Board} {x y : Int} {p : Piece} (h : pieceAt b x y = some p) :
    ∃ row, row ∈ b ∧ some p ∈ row ∧ 0 ≤ y ∧ y.toNat < b.length ∧ 0 ≤ x ∧ x.toNat < row.length := by
  unfold pieceAt at h
  cases hrow : jsIndex b y with
  | none => rw [hrow] at h; cases h
  | some row =>
    rw [hrow] at h
    simp only [] at h
    obtain ⟨hmem, hy0, hylt⟩ := jsIndex_mem hrow
    cases hc : jsIndex row x with
    | none => rw [hc] at h; cases h
    | some cell =>
      rw [hc] at h
      simp only [Option.join] at h
      obtain ⟨hcm, hx0, hxlt⟩ := jsIndex_mem hc
      have : cell = some p := h
      subst this
      exact ⟨row, hmem, hcm, hy0, hylt, hx0, hxlt⟩

/-- On a well-formed board every piece sits on the 5x5 grid. -/
theorem pieceAt_some_onBoard {b : Board} (hwf : b.WF) {x y : Int} {p : Piece}
    (h : pieceAt b x y = some p) : (Pos.mk x y).onBoard := by
  obtain ⟨row, hmem, -, hy0, hylt, hx0, hxlt⟩ := pieceAt_some h
  rw [hwf.1] at hylt
  rw [hwf.2 row hmem] at hxlt
  simp only [Pos.onBoard]
  omega

/-- The outcome of `applyMove` once the board part did not throw: null, or a
state carrying the new board. -/
theorem applyMove_of_board_ok {s : GameState} {m : Move} {ob : Option Board}
    (hb : applyMoveBoard s.board s.turn m = .ok ob) :
    applyMove s m = .ok none
      ∨ ∃ ns board, ob = some board ∧ applyMove s m = .ok (some ns) ∧ ns.board = board := by
  cases ob with
  | none => exact Or.inl (applyMove_of_board_none hb)
  | some board =>
    unfold applyMove deepCopy
    simp only [hb]
    by_cases h0 : (s.hand s.turn).c0 = m.card
    · simp only [h0, if_true]
      exact Or.inr ⟨_, board, rfl, rfl, rfl⟩
    · by_cases h1 : (s.hand s.turn).c1 = m.card
      · simp only [h0, h1, if_false, if_true]
        exact Or.inr ⟨_, board, rfl, rfl, rfl⟩
      · simp only [h0, h1, if_false]
        exact Or.inl trivial

/-- C9 (counterexample): on the sample state a placement whose destination
row is 7 throws a TypeError instead of reporting failure, and a placement
whose destination column is 6 succeeds and returns a board whose row 3 has
seven cells. -/
theorem C9_counterexample :
    applyMove sampleState (.place ⟨0, 4⟩ ⟨0, 7⟩ .Tiger) = .error .typeError
    ∧ applyMove sampleState (.place ⟨0, 4⟩ ⟨6, 3⟩ .Tiger) = .ok (some sampleOverflow)
    ∧ ¬ sampleOverflow.board.WF := by
  refine ⟨rfl, rfl, by decide⟩

/-- C9 (amended): on a 5x5 board, for a pass or a placement whose source and
destination lie on the board, `applyMove` never throws: it returns a state
with a 5x5 board or null.  A placement whose source row is on the board and
whose source column is not returns null. -/
theorem C9_applyMove_total_in_range (s : GameState) (m : Move) (hwf : s.board.WF) :
    (m.inRange →
        (∃ ns, applyMove s m = .ok (some ns) ∧ ns.board.WF) ∨ applyMove s m = .ok none)
    ∧ (∀ src dst c, m = .place src dst c → 0 ≤ src.y → src.y ≤ 4 →
        ¬ (0 ≤ src.x ∧ src.x ≤ 4) → applyMove s m = .ok none) := by
  constructor
  · intro hin
    cases m with
    | pass c =>
      have hb : applyMoveBoard s.board s.turn (.pass c) = .ok (some s.board) := rfl
      rcases applyMove_of_board_ok hb with h | h
      · exact Or.inr h
      · obtain ⟨ns, board, hbe, hns, hbd⟩ := h
        injection hbe with hbe
        exact Or.inl ⟨ns, hns, by rw [hbd, ← hbe]; exact hwf⟩
    | place src dst c =>
      obtain ⟨hs, hd⟩ := hin
      have hb := applyMoveBoard_place_of_WF hwf s.turn hs hd c
      cases hp : pieceAt s.board src.x src.y with
      | none =>
        rw [hp] at hb
        exact Or.inr (applyMove_of_board_none hb)
      | some piece =>
        rw [hp] at hb
        simp only [] at hb
        by_cases ho : piece.owner ≠ s.turn
        · rw [if_pos ho] at hb
          exact Or.inr (applyMove_of_board_none hb)
        · rw [if_neg ho] at hb
          by_cases hh : holdsPieceOf s.board s.turn dst
          · rw [if_pos hh] at hb
            exact Or.inr (applyMove_of_board_none hb)
          · rw [if_neg hh] at hb
            rcases applyMove_of_board_ok hb with h | h
            · exact Or.inr h
            · obtain ⟨ns, board, hbe, hns, hbd⟩ := h
              injection hbe with hbe
              refine Or.inl ⟨ns, hns, ?_⟩
              rw [hbd, ← hbe]
              exact WF_put (WF_put hwf _ hs.2.2.1 hs.2.2.2 _) _ hd.2.2.1 hd.2.2.2 _
  · rintro src dst c rfl hy0 hy4 hx
    apply applyMove_of_board_none
    unfold applyMoveBoard
    simp only []
    rw [readCell_of_WF hwf _ hy0 hy4]
    cases hp : pieceAt s.board src.x src.y with
    | none => rfl
    | some piece =>
      exfalso
      have := pieceAt_some_onBoard hwf hp
      exact hx ⟨this.1, this.2.1⟩

/-- C9 (amended) at the sample state: the in-range Tiger move returns a 5x5
board, and the source column 9 on row 4 returns null. -/
theorem C9_witness :
    sampleState.board.WF
    ∧ ((∃ ns, applyMove sampleState sampleMove = .ok (some ns) ∧ ns.board.WF)
        ∨ applyMove sampleState sampleMove = .ok none)
    ∧ applyMove sampleState (.place ⟨9, 4⟩ ⟨0, 2⟩ .Tiger) = .ok none :=
  ⟨by decide,
   (C9_applyMove_total_in_range sampleState sampleMove (by decide)).1
     (show Pos.onBoard ⟨0, 4⟩ ∧ Pos.onBoard ⟨0, 2⟩ from ⟨by decide, by decide⟩),
   (C9_applyMove_total_in_range sampleState (.place ⟨9, 4⟩ ⟨0, 2⟩ .Tiger) (by decide)).2
     ⟨9, 4⟩ ⟨0, 2⟩ .Tiger rfl (by decide) (by decide) (by decide)⟩

/-! ## Terminal detection: Way of the Stone -/

theorem mem_scanOrder {x y : Int} :
    (x, y) ∈ scanOrder ↔ (0 ≤ x ∧ x ≤ 4) ∧ (0 ≤ y ∧ y ≤ 4) := by
  simp only [scanOrder, List.mem_flatMap, List.mem_map, Prod.mk.injEq, mem_range5]
  constructor
  · rintro ⟨y2, hy2, x2, hx2, rfl, rfl⟩
    exact ⟨hx2, hy2⟩
  · rintro ⟨hx, hy⟩
    exact ⟨y, hy, x, hx, rfl, rfl⟩

/-- The scan finds no Master of `owner` when none of the scanned cells holds one. -/
theorem findMasterFrom_none {b : Board} (hwf : b.WF) (owner : Player) (l : List (Int × Int))
    (hl : ∀ p ∈ l, 0 ≤ p.2 ∧ p.2 ≤ 4)
    (hno : ∀ p ∈ l, pieceAt b p.1 p.2 ≠ some ⟨owner, .M⟩) :
    findMasterFrom b owner l = .ok none := by
  induction l with
  | nil => rfl
  | cons p t ih =>
    obtain ⟨x, y⟩ := p
    have hy := hl (x, y) (by simp)
    have hn := hno (x, y) (by simp)
    have iht := ih (fun q hq => hl q (by simp [hq])) (fun q hq => hno q (by simp [hq]))
    unfold findMasterFrom
    rw [readCell_of_WF hwf _ hy.1 hy.2]
    cases hp : pieceAt b x y with
    | none => exact iht
    | some q =>
      simp only []
      by_cases hq : q.owner = owner ∧ q.type = .M
      · exfalso
        apply hn
        simp only [hp]
        obtain ⟨qo, qt⟩ := q
        obtain ⟨rfl, rfl⟩ := hq
        rfl
      · rw [if_neg hq]
        exact iht

/-- The scan finds a Master of `owner` when one of the scanned cells holds one. -/
theorem findMasterFrom_some {b : Board} (hwf : b.WF) (owner : Player) (l : List (Int × Int))
    (hl : ∀ p ∈ l, 0 ≤ p.2 ∧ p.2 ≤ 4)
    (hyes : ∃ p ∈ l, pieceAt b p.1 p.2 = some ⟨owner, .M⟩) :
    ∃ q, findMasterFrom b owner l = .ok (some q) ∧ (q.x, q.y) ∈ l
      ∧ pieceAt b q.x q.y = some ⟨owner, .M⟩ := by
  induction l with
  | nil =>
    obtain ⟨p, hp, -⟩ := hyes
    simp at hp
  | cons p t ih =>
    obtain ⟨x, y⟩ := p
    have hy := hl (x, y) (by simp)
    unfold findMasterFrom
    rw [readCell_of_WF hwf _ hy.1 hy.2]
    have rest : pieceAt b x y ≠ some ⟨owner, .M⟩ →
        ∃ q, findMasterFrom b owner t = .ok (some q) ∧ (q.x, q.y) ∈ (x, y) :: t
          ∧ pieceAt b q.x q.y = some ⟨owner, .M⟩ := by
      intro hne
      obtain ⟨p2, hp2, hp2m⟩ := hyes
      rcases List.mem_cons.mp hp2 with rfl | hin
      · exact absurd hp2m hne
      · obtain ⟨q, hq1, hq2, hq3⟩ := ih (fun q hq => hl q (by simp [hq])) ⟨p2, hin, hp2m⟩
        exact ⟨q, hq1, List.mem_cons_of_mem _ hq2, hq3⟩
    cases hp : pieceAt b x y with
    | none =>
      simp only []
      exact rest (by rw [hp]; simp)
    | some piece =>
      simp only []
      by_cases hq : piece.owner = owner ∧ piece.type = .M
      · rw [if_pos hq]
        refine ⟨⟨x, y⟩, rfl, by simp, ?_⟩
        obtain ⟨qo, qt⟩ := piece
        obtain ⟨rfl, rfl⟩ := hq
        exact hp
      · rw [if_neg hq]
        apply rest
        rw [hp]
        intro he
        injection he with he
        apply hq
        rw [he]
        exact ⟨rfl, rfl⟩

/-- On a well-formed board without a Master of `owner`, `findMaster` returns null. -/
theorem findMaster_none {b : Board} (hwf : b.WF) (owner : Player)
    (hno : ∀ x y, pieceAt b x y ≠ some ⟨owner, .M⟩) : findMaster b owner = .ok none :=
  findMasterFrom_none hwf owner scanOrder
    (fun p hp => (mem_scanOrder (x := p.1) (y := p.2)).mp hp |>.2) (fun p _ => hno p.1 p.2)

/-- On a well-formed board holding a Master of `owner`, `findMaster` returns
the cell of such a Master. -/
theorem findMaster_some {b : Board} (hwf : b.WF) (owner : Player)
    (hyes : ∃ x y, pieceAt b x y = some ⟨owner, .M⟩) :
    ∃ q, findMaster b owner = .ok (some q) ∧ pieceAt b q.x q.y = some ⟨owner, .M⟩ := by
  obtain ⟨x, y, hp⟩ := hyes
  have hon := pieceAt_some_onBoard hwf hp
  obtain ⟨q, hq1, -, hq3⟩ := findMasterFrom_some hwf owner scanOrder
    (fun p hp => (mem_scanOrder (x := p.1) (y := p.2)).mp hp |>.2)
    ⟨(x, y), mem_scanOrder.mpr ⟨⟨hon.1, hon.2.1⟩, ⟨hon.2.2.1, hon.2.2.2⟩⟩, hp⟩
  exact ⟨q, hq1, hq3⟩

/-- C10 (counterexample): on the 5x5 board without any Master, which holds no
Master of player 1, `isTerminal` reports the Stone win for player 1, not for
player 0. -/
theorem C10_counterexample :
    noMasterState.board.WF
    ∧ (∀ x y, pieceAt noMasterState.board x y ≠ some ⟨1, .M⟩)
    ∧ isTerminal noMasterState = .ok ⟨true, some 1, some "Way of the Stone"⟩ := by
  refine ⟨by decide, ?_, by rfl⟩
  intro x y h
  obtain ⟨row, hrow, hcell, -⟩ := pieceAt_some h
  revert hcell
  revert row
  decide

/-- C10 (amended, Way of the Stone): on a 5x5 board that holds no Master of
player 1 and holds a Master of player 0, `isTerminal` reports done = true,
winner = 0 and the reason "Way of the Stone", whatever else is on the board. -/
theorem C10_way_of_the_stone (s : GameState) (hwf : s.board.WF)
    (hno1 : ∀ x y, pieceAt s.board x y ≠ some ⟨1, .M⟩)
    (hhas0 : ∃ x y, pieceAt s.board x y = some ⟨0, .M⟩) :
    isTerminal s = .ok ⟨true, some 0, some "Way of the Stone"⟩ := by
  obtain ⟨q, hq, -⟩ := findMaster_some hwf 0 hhas0
  unfold isTerminal
  rw [hq, findMaster_none hwf 1 hno1]

/-- C10 (amended) at the initial board with the Master of player 1 removed. -/
theorem C10_witness :
    stoneState.board.WF
    ∧ isTerminal stoneState = .ok ⟨true, some 0, some "Way of the Stone"⟩ :=
  ⟨by decide,
   C10_way_of_the_stone stoneState (by decide)
     (by
       intro x y h
       obtain ⟨row, hrow, hcell, -⟩ := pieceAt_some h
       revert hcell
       revert row
       decide)
     ⟨2, 4, by decide⟩⟩

/-! ## Way of the Stream -/

/-- With exactly one Master of `owner`, `findMaster` returns its cell. -/
theorem findMaster_of_masterAt {b : Board} (hwf : b.WF) {owner : Player} {p : Pos}
    (h : masterAt b owner p) : findMaster b owner = .ok (some p) := by
  obtain ⟨q, hq, hqp⟩ := findMaster_some hwf owner ⟨p.x, p.y, h.1⟩
  obtain ⟨hx, hy⟩ := h.2 q.x q.y hqp
  have : q = p := by
    cases q; cases p
    simp only [Pos.mk.injEq]
    exact ⟨hx, hy⟩
  rw [hq, this]

/-- A cell of a concrete board read by `pieceAt` is a member of a row. -/
theorem masterAt_of_cells {b : Board} {owner : Player} {p : Pos}
    (h1 : pieceAt b p.x p.y = some ⟨owner, .M⟩)
    (h2 : ∀ x y, pieceAt b x y = some ⟨owner, .M⟩ → x = p.x ∧ y = p.y) :
    masterAt b owner p := ⟨h1, h2⟩

/-- Reading a well-formed board at a cell of the grid, as list indexing. -/
theorem pieceAt_eq_getD {b : Board} (x y : Int) (hx : 0 ≤ x) (hy : 0 ≤ y) :
    pieceAt b x y = ((b.getD y.toNat []).getD x.toNat none) := by
  unfold pieceAt jsIndex
  simp only [hx, hy, if_true, List.get?_eq_getElem?, List.getD]
  cases h1 : b[y.toNat]? with
  | none => simp
  | some row =>
    simp only [Option.getD_some]
    cases h2 : row[x.toNat]? with
    | none => simp
    | some c => simp

/-- Uniqueness of a Master checked on the 25 cells of the scan. -/
theorem masterAt_of_scan {b : Board} (hwf : b.WF) {owner : Player} {p : Pos}
    (h1 : pieceAt b p.x p.y = some ⟨owner, .M⟩)
    (h2 : ∀ q ∈ scanOrder, pieceAt b q.1 q.2 = some ⟨owner, .M⟩ → q.1 = p.x ∧ q.2 = p.y) :
    masterAt b owner p := by
  refine ⟨h1, ?_⟩
  intro x y hp
  have hon := pieceAt_some_onBoard hwf hp
  exact h2 (x, y) (mem_scanOrder.mpr ⟨⟨hon.1, hon.2.1⟩, ⟨hon.2.2.1, hon.2.2.2⟩⟩) hp

/-- The verdict of `isTerminal` on a well-formed board with exactly one
Master per player, player 0's on `p0` and player 1's on `p1`. -/
theorem isTerminal_of_masters {s : GameState} (hwf : s.board.WF) {p0 p1 : Pos}
    (h0 : masterAt s.board 0 p0) (h1 : masterAt s.board 1 p1) :
    isTerminal s =
      .ok (if p0.x = 2 ∧ p0.y = 0 then ⟨true, some 0, some "Way of the Stream"⟩
           else if p1.x = 2 ∧ p1.y = 4 then ⟨true, some 1, some "Way of the Stream"⟩
           else ⟨false, none, none⟩) := by
  unfold isTerminal
  rw [findMaster_of_masterAt hwf h0, findMaster_of_masterAt hwf h1]
  simp only []
  split
  · rfl
  · split <;> rfl

/-- C11 (counterexample): with player 0's Master on (2,0) and player 1's
Master on (2,4), each the only Master of its owner, player 1's Master
occupies its target arch and `isTerminal` reports winner 0, not winner 1. -/
theorem C11_counterexample :
    bothArchState.board.WF
    ∧ masterAt bothArchState.board 0 ⟨2, 0⟩
    ∧ masterAt bothArchState.board 1 ⟨2, 4⟩
    ∧ isTerminal bothArchState = .ok ⟨true, some 0, some "Way of the Stream"⟩ :=
  ⟨by decide, masterAt_of_scan (by decide) (by decide) (by decide),
   masterAt_of_scan (by decide) (by decide) (by decide), by rfl⟩

/-- C11 (amended, Way of the Stream): on a 5x5 board with exactly one Master
per player, player 0's on `p0` and player 1's on `p1`, `isTerminal` reports
done = true with reason "Way of the Stream" and winner 0 when `p0` is (2,0),
and winner 1 when `p1` is (2,4) and `p0` is not (2,0); it reports done = false
exactly when `p0` is not (2,0) and `p1` is not (2,4). -/
theorem C11_way_of_the_stream (s : GameState) (p0 p1 : Pos) (hwf : s.board.WF)
    (h0 : masterAt s.board 0 p0) (h1 : masterAt s.board 1 p1) :
    (p0 = ⟨2, 0⟩ → isTerminal s = .ok ⟨true, some 0, some "Way of the Stream"⟩)
    ∧ (p1 = ⟨2, 4⟩ → p0 ≠ ⟨2, 0⟩ →
        isTerminal s = .ok ⟨true, some 1, some "Way of the Stream"⟩)
    ∧ (∃ t, isTerminal s = .ok t
        ∧ (t.done = false ↔ (p0 ≠ ⟨2, 0⟩ ∧ p1 ≠ ⟨2, 4⟩))) := by
  have key := isTerminal_of_masters hwf h0 h1
  have e0 : (p0.x = 2 ∧ p0.y = 0) ↔ p0 = ⟨2, 0⟩ := by
    cases p0; simp
  have e1 : (p1.x = 2 ∧ p1.y = 4) ↔ p1 = ⟨2, 4⟩ := by
    cases p1; simp
  refine ⟨?_, ?_, ?_⟩
  · intro hp
    rw [key, if_pos (e0.mpr hp)]
  · intro hp1 hp0
    rw [key, if_neg (fun h => hp0 (e0.mp h)), if_pos (e1.mpr hp1)]
  · refine ⟨_, key, ?_⟩
    by_cases c0 : p0.x = 2 ∧ p0.y = 0
    · rw [if_pos c0]
      simp [e0.mp c0]
    · rw [if_neg c0]
      by_cases c1 : p1.x = 2 ∧ p1.y = 4
      · rw [if_pos c1]
        simp [e1.mp c1]
      · rw [if_neg c1]
        simp only [true_iff]
        exact ⟨fun h => c0 (e0.mpr h), fun h => c1 (e1.mpr h)⟩

/-- C11 (amended) with player 1's Master on its arch (2,4) and player 0's on (2,2). -/
theorem C11_witness :
    streamState.board.WF
    ∧ masterAt streamState.board 0 ⟨2, 2⟩ ∧ masterAt streamState.board 1 ⟨2, 4⟩
    ∧ isTerminal streamState = .ok ⟨true, some 1, some "Way of the Stream"⟩ :=
  ⟨by decide, masterAt_of_scan (by decide) (by decide) (by decide),
   masterAt_of_scan (by decide) (by decide) (by decide),
   (C11_way_of_the_stream streamState ⟨2, 2⟩ ⟨2, 4⟩ (by decide)
      (masterAt_of_scan (by decide) (by decide) (by decide))
      (masterAt_of_scan (by decide) (by decide) (by decide))).2.1 rfl (by decide)⟩

/-- The board after the Master of player 0 steps from (2,1) to (2,0): the
cells read after the two writes. -/
theorem pieceAt_archStep {b : Board} (hwf : b.WF) (x y : Int) :
    pieceAt ((b.put 2 1 none).put 2 0 (some ⟨0, .M⟩)) x y =
      if x = 2 ∧ y = 0 then some ⟨0, .M⟩
      else if x = 2 ∧ y = 1 then none else pieceAt b x y := by
  rw [pieceAt_put (WF_put hwf _ (by decide) (by decide) _) (by decide) (by decide)
        (by decide) (by decide),
      pieceAt_put hwf (by decide) (by decide) (by decide) (by decide)]

/-- The verdict of `isTerminal` after the Master of player 0 stepped from
(2,1) onto its arch (2,0). -/
theorem isTerminal_archStep {s ns : GameState} (hwf : s.board.WF)
    (hm : masterAt s.board 0 ⟨2, 1⟩)
    (hb : ns.board = (s.board.put 2 1 none).put 2 0 (some ⟨0, .M⟩)) :
    ((∃ x y, (x, y) ≠ ((2 : Int), (0 : Int)) ∧ pieceAt s.board x y = some ⟨1, .M⟩) →
        isTerminal ns = .ok ⟨true, some 0, some "Way of the Stream"⟩)
    ∧ ((∀ x y, pieceAt s.board x y = some ⟨1, .M⟩ → (x, y) = ((2 : Int), (0 : Int))) →
        isTerminal ns = .ok ⟨true, some 0, some "Way of the Stone"⟩) := by
  have hwf2 : ns.board.WF := by
    rw [hb]
    exact WF_put (WF_put hwf _ (by decide) (by decide) _) _ (by decide) (by decide) _
  have hm0 : masterAt ns.board 0 ⟨2, 0⟩ := by
    constructor
    · rw [hb, pieceAt_archStep hwf]
      simp
    · intro x y hp
      rw [hb, pieceAt_archStep hwf] at hp
      by_cases c0 : x = 2 ∧ y = 0
      · exact c0
      · rw [if_neg c0] at hp
        by_cases c1 : x = 2 ∧ y = 1
        · rw [if_pos c1] at hp
          cases hp
        · rw [if_neg c1] at hp
          exact absurd (hm.2 x y hp) c1
  have hf0 := findMaster_of_masterAt hwf2 hm0
  constructor
  · rintro ⟨x, y, hne, hp⟩
    have c0 : ¬ (x = 2 ∧ y = 0) := by
      rintro ⟨rfl, rfl⟩
      exact hne rfl
    have c1 : ¬ (x = 2 ∧ y = 1) := by
      rintro ⟨rfl, rfl⟩
      rw [hm.1] at hp
      cases hp
    have hp2 : pieceAt ns.board x y = some ⟨1, .M⟩ := by
      rw [hb, pieceAt_archStep hwf, if_neg c0, if_neg c1]
      exact hp
    obtain ⟨q, hq, -⟩ := findMaster_some hwf2 1 ⟨x, y, hp2⟩
    unfold isTerminal
    rw [hf0, hq]
    simp
  · intro hall
    have hnone : ∀ x y, pieceAt ns.board x y ≠ some ⟨1, .M⟩ := by
      intro x y hp
      rw [hb, pieceAt_archStep hwf] at hp
      by_cases c0 : x = 2 ∧ y = 0
      · rw [if_pos c0] at hp
        cases hp
      · rw [if_neg c0] at hp
        by_cases c1 : x = 2 ∧ y = 1
        · rw [if_pos c1] at hp
          cases hp
        · rw [if_neg c1] at hp
          have := hall x y hp
          simp only [Prod.mk.injEq] at this
          exact c0 this
    unfold isTerminal
    rw [hf0, findMaster_none hwf2 1 hnone]

/-- C12 (counterexample): player 0's Master on (2,1) captures player 1's
Master on (2,0) with Crab; the move succeeds and `isTerminal` reports winner 0
with the reason "Way of the Stone", not "Way of the Stream". -/
theorem C12_counterexample :
    archCaptureState.board.WF ∧ archCaptureState.turn = 0
    ∧ masterAt archCaptureState.board 0 ⟨2, 1⟩
    ∧ ¬ holdsPieceOf archCaptureState.board 0 ⟨2, 0⟩
    ∧ ∃ ns, applyMove archCaptureState (.place ⟨2, 1⟩ ⟨2, 0⟩ .Crab) = .ok (some ns)
        ∧ isTerminal ns = .ok ⟨true, some 0, some "Way of the Stone"⟩ :=
  ⟨by decide, rfl, masterAt_of_scan (by decide) (by decide) (by decide), by decide,
   _, rfl, rfl⟩

/-- C12 (amended): on a 5x5 board with player 0 to move and its only Master
on (2,1), for each hand card `c` of player 0 the move from (2,1) to (2,0)
with `c` succeeds when (2,0) holds no piece of player 0, and `isTerminal` on
the result reports done = true and winner = 0: with the reason "Way of the
Stream" when player 1 has a Master off (2,0), and with the reason "Way of the
Stone" when player 1 has no Master off (2,0). -/
theorem C12_master_steps_onto_arch (s : GameState) (c : Card) (hwf : s.board.WF)
    (ht : s.turn = 0) (hm : masterAt s.board 0 ⟨2, 1⟩)
    (hc : (s.hand 0).c0 = c ∨ (s.hand 0).c1 = c)
    (hfree : ¬ holdsPieceOf s.board 0 ⟨2, 0⟩) :
    ∃ ns, applyMove s (.place ⟨2, 1⟩ ⟨2, 0⟩ c) = .ok (some ns)
      ∧ ((∃ x y, (x, y) ≠ ((2 : Int), (0 : Int)) ∧ pieceAt s.board x y = some ⟨1, .M⟩) →
          isTerminal ns = .ok ⟨true, some 0, some "Way of the Stream"⟩)
      ∧ ((∀ x y, pieceAt s.board x y = some ⟨1, .M⟩ → (x, y) = ((2 : Int), (0 : Int))) →
          isTerminal ns = .ok ⟨true, some 0, some "Way of the Stone"⟩) := by
  have hs : Pos.onBoard ⟨2, 1⟩ := by decide
  have hd : Pos.onBoard ⟨2, 0⟩ := by decide
  have hp : pieceAt s.board 2 1 = some ⟨0, .M⟩ := hm.1
  have hb : applyMoveBoard s.board s.turn (.place ⟨2, 1⟩ ⟨2, 0⟩ c)
      = .ok (some ((s.board.put 2 1 none).put 2 0 (some ⟨0, .M⟩))) := by
    rw [applyMoveBoard_place_of_WF hwf _ hs hd]
    simp only [hp, ht]
    simp [hfree]
  have hc2 : (s.hand s.turn).c0 = Move.card (.place ⟨2, 1⟩ ⟨2, 0⟩ c)
      ∨ (s.hand s.turn).c1 = Move.card (.place ⟨2, 1⟩ ⟨2, 0⟩ c) := by
    rw [ht]
    exact hc
  obtain ⟨ns, hns⟩ := applyMove_of_board hb hc2
  obtain ⟨piece, hpiece, -, -, hboard⟩ := applyMove_place_board hwf hs hd hns
  have hpe : piece = ⟨0, .M⟩ := by
    have h2 : pieceAt s.board 2 1 = some piece := hpiece
    rw [hp] at h2
    injection h2 with h2
    exact h2.symm
  rw [hpe] at hboard
  exact ⟨ns, hns, isTerminal_archStep hwf hm hboard⟩

/-- C12 (amended) at a state with player 1's Master on (0,0), with Crab. -/
theorem C12_witness :
    archStepState.board.WF
    ∧ ∃ ns, applyMove archStepState (.place ⟨2, 1⟩ ⟨2, 0⟩ .Crab) = .ok (some ns)
        ∧ isTerminal ns = .ok ⟨true, some 0, some "Way of the Stream"⟩ := by
  refine ⟨by decide, ?_⟩
  obtain ⟨ns, h1, h2, -⟩ := C12_master_steps_onto_arch archStepState .Crab (by decide) rfl
    (masterAt_of_scan (by decide) (by decide) (by decide)) (Or.inr rfl) (by decide)
  exact ⟨ns, h1, h2 ⟨0, 0, by decide, by decide⟩⟩

/-! ## Transposition key -/

/-- A loop whose every step appends characters `k a` to the string built so
far returns the initial string followed by all appended characters. -/
theorem foldlM_append_chars {α : Type} (f : String → α → Except JsError String)
    (k : α → List Char) (l : List α)
    (h : ∀ b a, a ∈ l → ∃ r, f b a = .ok r ∧ r.data = b.data ++ k a) (init : String) :
    ∃ r, l.foldlM f init = .ok r ∧ r.data = init.data ++ l.flatMap k := by
  induction l generalizing init with
  | nil => exact ⟨init, rfl, by simp⟩
  | cons a t ih =>
    obtain ⟨r1, hr1, hd1⟩ := h init a (by simp)
    obtain ⟨r2, hr2, hd2⟩ := ih (fun b a ha => h b a (by simp [ha])) r1
    refine ⟨r2, ?_, ?_⟩
    · rw [List.foldlM_cons, hr1]
      exact hr2
    · rw [hd2, hd1, List.flatMap_cons, List.append_assoc]

/-- On a well-formed board the board part of the key is the concatenation of
the cell strings in scan order. -/
theorem boardKey_ok {b : Board} (hwf : b.WF) :
    ∃ r, boardKey b = .ok r ∧ r.data = (cellsOf b).flatMap (fun c => (cellKey c).data) := by
  have h := foldlM_append_chars
    (fun b2 y => range5.foldlM (fun b3 x =>
        match readCell b x y with
        | .error e => .error e
        | .ok p => .ok (b3 ++ cellKey p)) b2)
    (fun y => range5.flatMap (fun x => (cellKey (pieceAt b x y)).data)) range5 ?_ ""
  · obtain ⟨r, hr, hd⟩ := h
    refine ⟨r, hr, ?_⟩
    rw [hd]
    simp [range5, cellsOf, scanOrder]
  · intro b2 y hy
    rw [mem_range5] at hy
    apply foldlM_append_chars
    intro b3 x _
    rw [readCell_of_WF hwf _ hy.1 hy.2]
    exact ⟨_, rfl, by simp⟩

/-- The cell strings form a prefix code: equal concatenations of equally many
cells have equal cells and equal remainders. -/
theorem cellKey_prefix_code (cs1 cs2 : List Cell) (r1 r2 : List Char)
    (hlen : cs1.length = cs2.length)
    (h : cs1.flatMap (fun c => (cellKey c).data) ++ r1
        = cs2.flatMap (fun c => (cellKey c).data) ++ r2) :
    cs1 = cs2 ∧ r1 = r2 := by
  induction cs1 generalizing cs2 with
  | nil =>
    cases cs2 with
    | nil => exact ⟨rfl, by simpa using h⟩
    | cons c t => simp at hlen
  | cons c1 t1 ih =>
    cases cs2 with
    | nil => simp at hlen
    | cons c2 t2 =>
      simp only [List.length_cons, Nat.add_right_cancel_iff] at hlen
      simp only [List.flatMap_cons, List.append_assoc] at h
      have hc : c1 = c2 ∧ t1.flatMap (fun c => (cellKey c).data) ++ r1
          = t2.flatMap (fun c => (cellKey c).data) ++ r2 := by
        rcases c1 with _ | ⟨o1, ty1⟩ <;> rcases c2 with _ | ⟨o2, ty2⟩
        · simp only [cellKey] at h
          exact ⟨rfl, by simpa using h⟩
        · exfalso
          fin_cases o2 <;> cases ty2 <;> simp [cellKey, playerStr, PieceType.str] at h
        · exfalso
          fin_cases o1 <;> cases ty1 <;> simp [cellKey, playerStr, PieceType.str] at h
        · fin_cases o1 <;> cases ty1 <;> fin_cases o2 <;> cases ty2 <;>
            simp [cellKey, playerStr, PieceType.str] at h ⊢ <;> exact h
      obtain ⟨ht, hr⟩ := ih t2 hlen hc.2
      exact ⟨by rw [hc.1, ht], hr⟩

/-- Two well-formed boards with the same 25 cells are equal. -/
theorem board_ext {b1 b2 : Board} (h1 : b1.WF) (h2 : b2.WF)
    (h : ∀ x y : Int, 0 ≤ x → x ≤ 4 → 0 ≤ y → y ≤ 4 → pieceAt b1 x y = pieceAt b2 x y) :
    b1 = b2 := by
  apply List.ext_getElem (by rw [h1.1, h2.1])
  intro i hi1 hi2
  have hr1 : (b1[i]).length = 5 := h1.2 _ (List.getElem_mem _)
  have hr2 : (b2[i]).length = 5 := h2.2 _ (List.getElem_mem _)
  apply List.ext_getElem (by rw [hr1, hr2])
  intro j hj1 hj2
  have hi5 : i < 5 := by rw [h1.1] at hi1; exact hi1
  have hj5 : j < 5 := by rw [hr1] at hj1; exact hj1
  have := h (j : Int) (i : Int) (by omega) (by omega) (by omega) (by omega)
  simpa [pieceAt, jsIndex, List.getElem?_eq_getElem hi1, List.getElem?_eq_getElem hi2,
    List.getElem?_eq_getElem hj1, List.getElem?_eq_getElem hj2] using this

/-- Two well-formed boards with the same cell list in scan order are equal. -/
theorem board_eq_of_cellsOf {b1 b2 : Board} (h1 : b1.WF) (h2 : b2.WF)
    (h : cellsOf b1 = cellsOf b2) : b1 = b2 := by
  apply board_ext h1 h2
  intro x y hx0 hx4 hy0 hy4
  have hmem : (x, y) ∈ scanOrder := mem_scanOrder.mpr ⟨⟨hx0, hx4⟩, ⟨hy0, hy4⟩⟩
  exact List.map_inj_left.mp h (x, y) hmem

/-- Splitting at the first separator: two lists free of the separator that
agree after appending it and a remainder are equal, and so are the remainders. -/
theorem split_at_sep {sep : Char} (l1 l2 r1 r2 : List Char) (h1 : sep ∉ l1) (h2 : sep ∉ l2)
    (h : l1 ++ sep :: r1 = l2 ++ sep :: r2) : l1 = l2 ∧ r1 = r2 := by
  induction l1 generalizing l2 with
  | nil =>
    cases l2 with
    | nil => exact ⟨rfl, by simpa using h⟩
    | cons c t =>
      simp only [List.nil_append, List.cons_append, List.cons.injEq] at h
      exact absurd (by rw [h.1]; simp) h2
  | cons c1 t1 ih =>
    cases l2 with
    | nil =>
      simp only [List.nil_append, List.cons_append, List.cons.injEq] at h
      exact absurd (by rw [← h.1]; simp) h1
    | cons c2 t2 =>
      simp only [List.cons_append, List.cons.injEq] at h
      obtain ⟨ht, hr⟩ := ih t2 (fun hm => h1 (List.mem_cons_of_mem _ hm))
        (fun hm => h2 (List.mem_cons_of_mem _ hm)) h.2
      exact ⟨by rw [h.1, ht], hr⟩

theorem Card.name_no_bar (c : Card) : '|' ∉ (Card.name c).data := by
  cases c <;> decide

theorem Card.name_injective {c1 c2 : Card} (h : (Card.name c1).data = (Card.name c2).data) :
    c1 = c2 := by
  revert h
  cases c1 <;> cases c2 <;> decide

theorem cellsOf_length (b : Board) : (cellsOf b).length = 25 := by
  simp [cellsOf, scanOrder, range5]

/-- On a well-formed board `keyOfState` returns the board characters, a hash
sign and the card characters. -/
theorem keyOfState_ok {s : GameState} (hwf : s.board.WF) :
    ∃ k, keyOfState s = .ok k
      ∧ k.data = (cellsOf s.board).flatMap (fun c => (cellKey c).data) ++ '#' :: cardChars s := by
  obtain ⟨r, hr, hd⟩ := boardKey_ok hwf
  refine ⟨_, by unfold keyOfState; rw [hr], ?_⟩
  simp [hd, cardChars]

/-- Equal keys of well-formed states: equal boards, hands, mid cards and turns. -/
theorem keyOfState_inj {s1 s2 : GameState} (h1 : s1.board.WF) (h2 : s2.board.WF)
    (h : keyOfState s1 = keyOfState s2) :
    s1.board = s2.board ∧ s1.hands = s2.hands ∧ s1.mid = s2.mid ∧ s1.turn = s2.turn := by
  obtain ⟨k1, hk1, hd1⟩ := keyOfState_ok h1
  obtain ⟨k2, hk2, hd2⟩ := keyOfState_ok h2
  rw [hk1, hk2] at h
  injection h with h
  rw [h] at hd1
  rw [hd1] at hd2
  obtain ⟨hcells, hrest⟩ := cellKey_prefix_code _ _ _ _
    (by rw [cellsOf_length, cellsOf_length]) hd2
  have hb := board_eq_of_cellsOf h1 h2 hcells
  injection hrest with _ hcards
  unfold cardChars at hcards
  obtain ⟨e1, hcards⟩ := split_at_sep _ _ _ _ (Card.name_no_bar _) (Card.name_no_bar _) hcards
  obtain ⟨e2, hcards⟩ := split_at_sep _ _ _ _ (Card.name_no_bar _) (Card.name_no_bar _) hcards
  obtain ⟨e3, hcards⟩ := split_at_sep _ _ _ _ (Card.name_no_bar _) (Card.name_no_bar _) hcards
  obtain ⟨e4, hcards⟩ := split_at_sep _ _ _ _ (Card.name_no_bar _) (Card.name_no_bar _) hcards
  obtain ⟨e5, hcards⟩ := split_at_sep _ _ _ _ (Card.name_no_bar _) (Card.name_no_bar _) hcards
  have ht : s1.turn = s2.turn := by
    injection hcards with _ hcards
    generalize s1.turn = t1 at hcards
    generalize s2.turn = t2 at hcards
    revert hcards
    revert t1 t2
    decide
  have hh : s1.hands = s2.hands := by
    rcases s1 with ⟨b1, ⟨⟨a0, a1⟩, ⟨a2, a3⟩⟩, m1, t1, p1⟩
    rcases s2 with ⟨b2, ⟨⟨c0, c1⟩, ⟨c2, c3⟩⟩, m2, t2, p2⟩
    simp only at e1 e2 e4 e5
    rw [Card.name_injective e1, Card.name_injective e2, Card.name_injective e4,
      Card.name_injective e5]
  exact ⟨hb, hh, Card.name_injective e3, ht⟩

/-- C19: on states with 5x5 boards `keyOfState` returns a key, and equal keys
imply the same board, the same two hands slot by slot, the same mid card and
the same turn. -/
theorem C19_keyOfState_collision_free (s1 s2 : GameState) (h1 : s1.board.WF)
    (h2 : s2.board.WF) :
    (∃ k, keyOfState s1 = .ok k)
    ∧ (keyOfState s1 = keyOfState s2 →
        s1.board = s2.board ∧ s1.hands = s2.hands ∧ s1.mid = s2.mid ∧ s1.turn = s2.turn) := by
  obtain ⟨k, hk, -⟩ := keyOfState_ok h1
  exact ⟨⟨k, hk⟩, keyOfState_inj h1 h2⟩

/-- C19 at the sample state and its successor: the key of the sample state is
computed, and the two keys differ. -/
theorem C19_witness :
    sampleState.board.WF ∧ sampleNext.board.WF
    ∧ keyOfState sampleState
        = .ok "1S1S1M1S1S...............0S0S0M0S0S#Tiger|Crab|Eel|Ox|Boar|t0"
    ∧ keyOfState sampleState ≠ keyOfState sampleNext := by
  refine ⟨by decide, by decide, by rfl, ?_⟩
  intro h
  have := ((C19_keyOfState_collision_free sampleState sampleNext (by decide) (by decide)).2 h).2.2.1
  revert this
  decide

/-! ## Evaluator -/

theorem ok_bind {α β : Type} (a : α) (f : α → Except JsError β) :
    (Except.ok a >>= f) = f a := rfl

/-- A loop whose every step returns, returns. -/
theorem foldlM_total {α β : Type} (f : β → α → Except JsError β) (l : List α)
    (h : ∀ b a, a ∈ l → ∃ r, f b a = .ok r) (init : β) :
    ∃ r, l.foldlM f init = .ok r := by
  induction l generalizing init with
  | nil => exact ⟨init, rfl⟩
  | cons a t ih =>
    obtain ⟨r1, hr1⟩ := h init a (by simp)
    obtain ⟨r2, hr2⟩ := ih (fun b a ha => h b a (by simp [ha])) r1
    refine ⟨r2, ?_⟩
    rw [List.foldlM_cons, hr1]
    exact hr2

/-- A double loop over the 25 cells returns when each step returns on the
value of the cell. -/
theorem cellLoop_total {β : Type} {b : Board} (hwf : b.WF)
    (step : β → Int → Int → Except JsError Cell → Except JsError β)
    (h : ∀ acc x y c, ∃ r, step acc x y (.ok c) = .ok r) (init : β) :
    ∃ r, range5.foldlM (fun acc y =>
        range5.foldlM (fun acc x => step acc x y (readCell b x y)) acc) init = .ok r := by
  apply foldlM_total
  intro acc y hy
  rw [mem_range5] at hy
  apply foldlM_total
  intro acc2 x _
  rw [readCell_of_WF hwf _ hy.1 hy.2]
  exact h _ _ _ _

theorem countPieces_total {b : Board} (hwf : b.WF) : ∃ c, countPieces b = .ok c := by
  have := cellLoop_total hwf
    (fun (c : Counts) (_ : Int) (_ : Int) (r : Except JsError Cell) =>
      match r with
      | .error e => .error e
      | .ok p => .ok (countCell c p))
    (fun _ _ _ _ => ⟨_, rfl⟩) ⟨0, 0, 0, 0⟩
  exact this

theorem findMaster_total {b : Board} (hwf : b.WF) (owner : Player) :
    ∃ r, findMaster b owner = .ok r := by
  by_cases h : ∃ x y, pieceAt b x y = some ⟨owner, .M⟩
  · obtain ⟨q, hq, -⟩ := findMaster_some hwf owner h
    exact ⟨_, hq⟩
  · refine ⟨none, findMaster_none hwf owner ?_⟩
    intro x y hp
    exact h ⟨x, y, hp⟩

theorem isTerminal_total {s : GameState} (hwf : s.board.WF) : ∃ t, isTerminal s = .ok t := by
  obtain ⟨m0, h0⟩ := findMaster_total hwf 0
  obtain ⟨m1, h1⟩ := findMaster_total hwf 1
  unfold isTerminal
  rw [h0, h1]
  simp only []
  cases m0 with
  | none => exact ⟨_, rfl⟩
  | some p0 =>
    cases m1 with
    | none => exact ⟨_, rfl⟩
    | some p1 =>
      simp only []
      split
      · exact ⟨_, rfl⟩
      · split <;> exact ⟨_, rfl⟩

theorem mobilityOf_total {s : GameState} (hwf : s.board.WF) (owner : Player) :
    ∃ v, mobilityOf s owner = .ok v := by
  unfold mobilityOf
  rw [allLegalMoves_ok hwf]
  exact ⟨_, rfl⟩

theorem canCaptureMaster_total {s : GameState} (hwf : s.board.WF) (attacker : Player) :
    ∃ v, canCaptureMaster s attacker = .ok v := by
  obtain ⟨m, hm⟩ := findMaster_total hwf (1 - attacker)
  unfold canCaptureMaster
  simp only [hm]
  cases m with
  | none => exact ⟨_, rfl⟩
  | some p =>
    simp only [allLegalMoves_ok hwf]
    exact ⟨_, rfl⟩

theorem centerScore_total {s : GameState} (hwf : s.board.WF) (cfg : Config) (owner : Player) :
    ∃ v, centerScore s cfg owner = .ok v := by
  unfold centerScore
  split
  · exact ⟨_, rfl⟩
  · exact cellLoop_total hwf
      (fun (sc : Int) (x : Int) (y : Int) (r : Except JsError Cell) =>
        match r with
        | .error e => .error e
        | .ok none => .ok sc
        | .ok (some p) =>
          if p.owner ≠ owner then .ok sc
          else
            let dist := |x - 2| + |y - 2|
            .ok (sc + (if p.type = .M then 14 else 6) * (4 - dist)))
      (fun acc x y c => by
        cases c with
        | none => exact ⟨_, rfl⟩
        | some p =>
          simp only []
          split <;> exact ⟨_, rfl⟩) 0

theorem advanceScore_total {s : GameState} (hwf : s.board.WF) (cfg : Config) (owner : Player) :
    ∃ v, advanceScore s cfg owner = .ok v := by
  unfold advanceScore
  split
  · exact ⟨_, rfl⟩
  · exact cellLoop_total hwf
      (fun (sc : Int) (_ : Int) (y : Int) (r : Except JsError Cell) =>
        match r with
        | .error e => .error e
        | .ok none => .ok sc
        | .ok (some p) =>
          if p.owner ≠ owner ∨ p.type ≠ .S then .ok sc
          else .ok (sc + (if owner = 0 then 4 - y else y)))
      (fun acc x y c => by
        cases c with
        | none => exact ⟨_, rfl⟩
        | some p =>
          simp only []
          split <;> exact ⟨_, rfl⟩) 0

theorem safetyScore_total {s : GameState} (hwf : s.board.WF) (cfg : Config) (owner : Player) :
    ∃ v, safetyScore s cfg owner = .ok v := by
  obtain ⟨c1, h1⟩ := canCaptureMaster_total hwf owner
  obtain ⟨c2, h2⟩ := canCaptureMaster_total hwf (1 - owner)
  unfold safetyScore
  split
  · exact ⟨_, rfl⟩
  · simp only [h1, h2]
    exact ⟨_, rfl⟩

theorem scoreFor0_total {s : GameState} (hwf : s.board.WF) (cfg : Config) :
    ∃ v, scoreFor0 s cfg = .ok v := by
  obtain ⟨counts, hcounts⟩ := countPieces_total hwf
  obtain ⟨m0, hm0⟩ := findMaster_total hwf 0
  obtain ⟨m1, hm1⟩ := findMaster_total hwf 1
  obtain ⟨mob0, hmob0⟩ : ∃ v, (if cfg.useMobility then mobilityOf s 0 else .ok 0) = .ok v := by
    split
    · exact mobilityOf_total hwf 0
    · exact ⟨_, rfl⟩
  obtain ⟨mob1, hmob1⟩ : ∃ v, (if cfg.useMobility then mobilityOf s 1 else .ok 0) = .ok v := by
    split
    · exact mobilityOf_total hwf 1
    · exact ⟨_, rfl⟩
  obtain ⟨c0, hc0⟩ := centerScore_total hwf cfg 0
  obtain ⟨c1, hc1⟩ := centerScore_total hwf cfg 1
  obtain ⟨a0, ha0⟩ := advanceScore_total hwf cfg 0
  obtain ⟨a1, ha1⟩ := advanceScore_total hwf cfg 1
  obtain ⟨s0, hs0⟩ := safetyScore_total hwf cfg 0
  obtain ⟨s1, hs1⟩ := safetyScore_total hwf cfg 1
  unfold scoreFor0
  simp only [hcounts, hm0, hm1, hmob0, hmob1, hc0, hc1, ha0, ha1, hs0, hs1, ok_bind]
  exact ⟨_, rfl⟩

theorem evaluate_total {s : GameState} (hwf : s.board.WF) (pov : Player) (cfg : Config) :
    ∃ v, evaluate s pov cfg = .ok v := by
  obtain ⟨t, ht⟩ := isTerminal_total hwf
  obtain ⟨v, hv⟩ := scoreFor0_total hwf cfg
  unfold evaluate
  simp only [ht, hv]
  split
  · split <;> exact ⟨_, rfl⟩
  · split <;> exact ⟨_, rfl⟩

/-- C14: on a state that `isTerminal` reports done, `evaluate` returns
1000000000 when the point of view is the reported winner and -1000000000
otherwise, whatever the configuration. -/
theorem C14_evaluate_terminal (s : GameState) (pov : Player) (cfg : Config) (t : TerminalInfo)
    (ht : isTerminal s = .ok t) (hd : t.done = true) :
    evaluate s pov cfg = .ok (if t.winner = some pov then 1000000000 else -1000000000) := by
  unfold evaluate
  simp only [ht, hd, if_true]
  split <;> rfl

/-- C14 at the state without player 1's Master, for both points of view. -/
theorem C14_witness :
    isTerminal stoneState = .ok ⟨true, some 0, some "Way of the Stone"⟩
    ∧ evaluate stoneState 0 sampleConfig = .ok 1000000000
    ∧ evaluate stoneState 1 sampleConfig = .ok (-1000000000) :=
  ⟨by rfl,
   C14_evaluate_terminal stoneState 0 sampleConfig ⟨true, some 0, some "Way of the Stone"⟩
     (by rfl) rfl,
   C14_evaluate_terminal stoneState 1 sampleConfig ⟨true, some 0, some "Way of the Stone"⟩
     (by rfl) rfl⟩

/-! ## Search engine: legality of the chosen move -/

/-- A successful move with coordinates on the board keeps the board well formed. -/
theorem applyMove_WF {s ns : GameState} {m : Move} (hwf : s.board.WF) (hin : m.inRange)
    (h : applyMove s m = .ok (some ns)) : ns.board.WF := by
  cases m with
  | pass c =>
    obtain ⟨board, idx, hb, -, rfl⟩ := applyMove_some h
    simp only [applyMoveBoard] at hb
    injection hb with hb
    injection hb with hb
    rw [← hb]
    exact hwf
  | place src dst c =>
    obtain ⟨piece, -, -, -, hb⟩ := applyMove_place_board hwf hin.1 hin.2 h
    rw [hb]
    exact WF_put (WF_put hwf _ hin.1.2.2.1 hin.1.2.2.2 _) _ hin.2.2.2.1 hin.2.2.2.2 _

/-- The enumerated moves of a well-formed state have their coordinates on the board. -/
theorem inRange_of_mem_allLegalMoves {s : GameState} (hwf : s.board.WF) {owner : Player}
    {l : List Move} (hl : allLegalMoves s owner = .ok l) {m : Move} (hm : m ∈ l) :
    m.inRange := by
  rw [allLegalMoves_ok hwf] at hl
  injection hl with hl
  subst hl
  split at hm
  · simp only [List.mem_cons, List.mem_singleton, List.mem_nil_iff, or_false] at hm
    rcases hm with rfl | rfl <;> trivial
  · rw [List.mem_append] at hm
    rcases hm with hm | hm
    · obtain ⟨src, dst, rfl, hs, -, hd, -⟩ := mem_legalMovesRef hm
      exact ⟨hs, hd⟩
    · obtain ⟨src, dst, rfl, hs, -, hd, -⟩ := mem_legalMovesRef hm
      exact ⟨hs, hd⟩

/-- Every enumerated move of the side to move applies and gives a well-formed board. -/
theorem legal_step {s : GameState} (hwf : s.board.WF) {l : List Move}
    (hl : allLegalMoves s s.turn = .ok l) {m : Move} (hm : m ∈ l) :
    ∃ ns, applyMove s m = .ok (some ns) ∧ ns.board.WF := by
  obtain ⟨ns, hns⟩ := applyMove_of_mem_allLegalMoves hwf hl hm
  exact ⟨ns, hns, applyMove_WF hwf (inRange_of_mem_allLegalMoves hwf hl hm) hns⟩

/-- The enumeration depends on the board, the hands and the owner only. -/
theorem allLegalMoves_congr {s1 s2 : GameState} (hb : s1.board = s2.board)
    (hh : s1.hands = s2.hands) (owner : Player) :
    allLegalMoves s1 owner = allLegalMoves s2 owner := by
  rcases s1 with ⟨b1, h1, m1, t1, p1⟩
  rcases s2 with ⟨b2, h2, m2, t2, p2⟩
  simp only at hb hh
  subst hb
  subst hh
  rfl

theorem insertDesc_perm (a : Int × Move) (l : List (Int × Move)) :
    (insertDesc a l).Perm (a :: l) := by
  induction l with
  | nil => exact List.Perm.refl _
  | cons b t ih =>
    unfold insertDesc
    split
    · exact List.Perm.refl _
    · exact (ih.cons b).trans (List.Perm.swap a b t)

theorem sortDesc_perm (l : List (Int × Move)) : (sortDesc l).Perm l := by
  induction l with
  | nil => exact List.Perm.refl _
  | cons a t ih =>
    unfold sortDesc
    exact (insertDesc_perm a _).trans (ih.cons a)

/-- On a well-formed board `scoreMove` returns for a move with coordinates on the board. -/
theorem scoreMove_total {s : GameState} (hwf : s.board.WF) (oppMaster : Option Pos)
    (hint : Option Move) {m : Move} (hin : m.inRange) :
    ∃ v, scoreMove s oppMaster hint m = .ok v := by
  cases m with
  | pass c => exact ⟨_, rfl⟩
  | place src dst c =>
    unfold scoreMove
    simp only [readCell_of_WF hwf _ hin.1.2.2.1 hin.1.2.2.2,
      readCell_of_WF hwf _ hin.2.2.2.1 hin.2.2.2.2]
    exact ⟨_, rfl⟩

theorem scoreAll_total (f : Move → Except JsError Int) (l : List Move)
    (h : ∀ m ∈ l, ∃ v, f m = .ok v) :
    ∃ scored, scoreAll f l = .ok scored ∧ scored.map Prod.snd = l
      ∧ ∀ p ∈ scored, f p.2 = .ok p.1 := by
  induction l with
  | nil => exact ⟨[], rfl, rfl, by simp⟩
  | cons m t ih =>
    obtain ⟨v, hv⟩ := h m (by simp)
    obtain ⟨sc, hsc, hmap, hall⟩ := ih (fun m hm => h m (by simp [hm]))
    refine ⟨(v, m) :: sc, ?_, by simp [hmap], ?_⟩
    · unfold scoreAll
      simp only [hv, hsc]
    · intro p hp
      rcases List.mem_cons.mp hp with rfl | hp
      · exact hv
      · exact hall p hp

/-- On a well-formed board `orderMoves` returns a permutation of a list of
moves with coordinates on the board. -/
theorem orderMoves_perm {s : GameState} (hwf : s.board.WF) (hint : Option Move)
    (l : List Move) (hl : ∀ m ∈ l, m.inRange) :
    ∃ l2, orderMoves l s hint = .ok l2 ∧ l2.Perm l := by
  obtain ⟨t, ht⟩ := isTerminal_total hwf
  obtain ⟨om, hom⟩ := findMaster_total hwf (1 - s.turn)
  unfold orderMoves
  simp only [ht, hom]
  split
  · exact ⟨l, rfl, List.Perm.refl _⟩
  · split
    · exact ⟨l, rfl, List.Perm.refl _⟩
    · obtain ⟨sc, hsc, hmap, -⟩ := scoreAll_total (scoreMove s om hint) l
        (fun m hm => scoreMove_total hwf om hint (hl m hm))
      simp only [hsc]
      refine ⟨_, rfl, ?_⟩
      have := (sortDesc_perm sc).map Prod.snd
      rw [hmap] at this
      exact this

theorem captureFilter_total {s : GameState} (hwf : s.board.WF) (l : List Move)
    (hl : ∀ m ∈ l, m.inRange) :
    ∃ caps, captureFilter s l = .ok caps ∧ ∀ m ∈ caps, m ∈ l := by
  induction l with
  | nil => exact ⟨[], rfl, by simp⟩
  | cons m t ih =>
    obtain ⟨caps, hcaps, hsub⟩ := ih (fun m hm => hl m (by simp [hm]))
    cases m with
    | pass c =>
      refine ⟨caps, ?_, fun m hm => List.mem_cons_of_mem _ (hsub m hm)⟩
      unfold captureFilter
      exact hcaps
    | place src dst c =>
      have hin := hl (.place src dst c) (by simp)
      unfold captureFilter
      simp only [readCell_of_WF hwf _ hin.2.2.2.1 hin.2.2.2.2, hcaps]
      split
      · refine ⟨_, rfl, ?_⟩
        intro m hm
        rcases List.mem_cons.mp hm with rfl | hm
        · simp
        · exact List.mem_cons_of_mem _ (hsub m hm)
      · exact ⟨_, rfl, fun m hm => List.mem_cons_of_mem _ (hsub m hm)⟩

/-- On a well-formed board `captureMoves` returns, and returns enumerated moves. -/
theorem captureMoves_total {s : GameState} (hwf : s.board.WF) :
    ∃ caps l, captureMoves s = .ok caps ∧ allLegalMoves s s.turn = .ok l
      ∧ ∀ m ∈ caps, m ∈ l := by
  obtain ⟨caps, hcaps, hsub⟩ := captureFilter_total hwf _
    (fun m hm => inRange_of_mem_allLegalMoves hwf (allLegalMoves_ok hwf s.turn) hm)
  refine ⟨caps, _, ?_, allLegalMoves_ok hwf s.turn, hsub⟩
  unfold captureMoves
  simp only [allLegalMoves_ok hwf]
  exact hcaps

theorem pvLegal_none (s : GameState) : pvLegal s none := by
  intro m h
  cases h

theorem TTInv_nil : TTInv [] := by
  intro s _ k e _ h
  simp [ttGet] at h

/-- Storing an absent or enumerated best move under the key of a well-formed
state keeps the table invariant. -/
theorem TTInv_set {tt : TT} (h : TTInv tt) {s : GameState} (hwf : s.board.WF) {k : String}
    (hk : keyOfState s = .ok k) {e : Entry} (he : pvLegal s e.best) :
    TTInv (ttSet tt k e) := by
  intro s2 hwf2 k2 e2 hk2 hget
  unfold ttSet ttGet at hget
  by_cases hkk : k = k2
  · rw [if_pos hkk] at hget
    injection hget with hget
    subst hget
    subst hkk
    obtain ⟨hb, hh, -, ht⟩ := keyOfState_inj hwf hwf2 (hk.trans hk2.symm)
    intro m hm
    obtain ⟨l, hl, hmem⟩ := he m hm
    refine ⟨l, ?_, hmem⟩
    rw [← ht, ← allLegalMoves_congr hb hh]
    exact hl
  · rw [if_neg hkk] at hget
    exact h s2 hwf2 k2 e2 hk2 hget

/-- The loop of `qSearch` over enumerated moves returns, keeps the table
invariant and reports no move. -/
theorem qLoop_ok {deeper : Searcher} (hd : SearcherOK deeper) {s : GameState}
    (hwf : s.board.WF) {l : List Move} (hl : allLegalMoves s s.turn = .ok l) (beta : Score)
    (color : Int) (moves : List Move) (hm : ∀ m ∈ moves, m ∈ l) (alpha best : Score)
    (st : SearchState) (htt : TTInv st.tt) :
    ∃ res st2, qLoop deeper s beta color moves alpha best st = .ok (res, st2)
      ∧ TTInv st2.tt ∧ res.pv = none := by
  induction moves generalizing alpha best st with
  | nil => exact ⟨_, _, rfl, htt, rfl⟩
  | cons m rest ih =>
    obtain ⟨ns, hns, hwfn⟩ := legal_step hwf hl (hm m (by simp))
    obtain ⟨child, st1, hc, htt1, -⟩ := hd ns beta.neg alpha.neg (-color) st hwfn htt
    unfold qLoop
    simp only [hns, hc]
    by_cases hto : child.timedOut = true
    · simp only [hto, if_true]
      exact ⟨_, _, rfl, htt1, rfl⟩
    · simp only [hto, if_false]
      by_cases hcut : beta.le (if alpha.lt child.score.neg = true then child.score.neg
          else alpha) = true
      · simp only [hcut, if_true]
        exact ⟨_, _, rfl, htt1, rfl⟩
      · simp only [hcut, if_false]
        exact ih (fun m hm2 => hm m (by simp [hm2])) _ _ st1 htt1

/-- The body of `qSearch` is a well-behaved searcher when its recursive call is. -/
theorem qNode_ok (now : Nat → Int) (ai : Player) (cfg : Config) (deadlineMs : Int)
    (deeper : Option Searcher) (hd : ∀ f, deeper = some f → SearcherOK f) :
    SearcherOK (qNode now ai cfg deadlineMs deeper) := by
  intro s alpha beta color st hwf htt
  obtain ⟨ev, hev⟩ := evaluate_total hwf ai cfg
  unfold qNode
  simp only [hev]
  split
  · exact ⟨_, _, rfl, htt, pvLegal_none s⟩
  · split
    · exact ⟨_, _, rfl, htt, pvLegal_none s⟩
    · cases deeper with
      | none => exact ⟨_, _, rfl, htt, pvLegal_none s⟩
      | some f =>
        obtain ⟨caps, l, hcaps, hl, hsub⟩ := captureMoves_total hwf
        simp only [hcaps]
        split
        · exact ⟨_, _, rfl, htt, pvLegal_none s⟩
        · obtain ⟨ordered, hord, hperm⟩ := orderMoves_perm hwf none caps
            (fun m hm => inRange_of_mem_allLegalMoves hwf hl (hsub m hm))
          simp only [hord]
          obtain ⟨res, st2, hres, htt2, hpv⟩ := qLoop_ok (hd f rfl) hwf hl beta color ordered
            (fun m hm => hsub m (hperm.subset hm))
            (if alpha.lt (Score.fin (color * ev)) = true then Score.fin (color * ev) else alpha)
            (Score.fin (color * ev)) { st with tick := st.tick + 1 } htt
          refine ⟨res, st2, hres, htt2, ?_⟩
          rw [hpv]
          exact pvLegal_none s

theorem qSearch_ok (now : Nat → Int) (ai : Player) (cfg : Config) (deadlineMs : Int) (n : Nat) :
    SearcherOK (qSearch now ai cfg deadlineMs n) := by
  induction n with
  | zero =>
    unfold qSearch
    exact qNode_ok now ai cfg deadlineMs none (fun f hf => by cases hf)
  | succ k ih =>
    unfold qSearch
    apply qNode_ok
    intro f hf
    injection hf with hf
    rw [← hf]
    exact ih

/-- The move loop of `alphabeta` over enumerated moves returns, keeps the
table invariant, and its best move is absent or enumerated. -/
theorem abLoop_ok {deeper : Searcher} (hd : SearcherOK deeper) {s : GameState}
    (hwf : s.board.WF) {l : List Move} (hl : allLegalMoves s s.turn = .ok l) (beta : Score)
    (color : Int) (moves : List Move) (hm : ∀ m ∈ moves, m ∈ l) (acc : LoopAcc)
    (hacc : pvLegal s acc.bestMove) (st : SearchState) (htt : TTInv st.tt) :
    ∃ r st2, abLoop deeper s beta color moves acc st = .ok (r, st2)
      ∧ TTInv st2.tt ∧ ∀ acc2, r = some acc2 → pvLegal s acc2.bestMove := by
  induction moves generalizing acc st with
  | nil =>
    refine ⟨_, _, rfl, htt, ?_⟩
    intro acc2 h
    injection h with h
    rw [← h]
    exact hacc
  | cons m rest ih =>
    have hml : m ∈ l := hm m (by simp)
    obtain ⟨ns, hns, hwfn⟩ := legal_step hwf hl hml
    obtain ⟨child, st1, hc, htt1, -⟩ := hd ns beta.neg acc.alpha.neg (-color) st hwfn htt
    unfold abLoop
    simp only [hns, hc]
    by_cases hto : child.timedOut = true
    · simp only [hto, if_true]
      refine ⟨_, _, rfl, htt1, ?_⟩
      intro acc2 h
      cases h
    · simp only [hto, if_false]
      have hacc1 : pvLegal s
          (if acc.bestScore.lt child.score.neg = true then
            { acc with bestScore := child.score.neg, bestMove := some m } else acc).bestMove := by
        split
        · intro m2 h2
          injection h2 with h2
          rw [← h2]
          exact ⟨l, hl, hml⟩
        · exact hacc
      generalize (if acc.bestScore.lt child.score.neg = true then
            ({ acc with bestScore := child.score.neg, bestMove := some m } : LoopAcc)
          else acc) = acc1 at hacc1 ⊢
      have hacc2 : pvLegal s
          (if acc1.alpha.lt child.score.neg = true then
            { acc1 with alpha := child.score.neg } else acc1).bestMove := by
        split
        · exact hacc1
        · exact hacc1
      generalize (if acc1.alpha.lt child.score.neg = true then
            ({ acc1 with alpha := child.score.neg } : LoopAcc) else acc1) = acc2 at hacc2 ⊢
      by_cases hcut : beta.le acc2.alpha = true
      · simp only [hcut, if_true]
        refine ⟨_, _, rfl, htt1, ?_⟩
        intro acc3 h
        injection h with h
        rw [← h]
        exact hacc2
      · simp only [hcut, if_false]
        exact ih (fun m hm2 => hm m (by simp [hm2])) acc2 hacc2 st1 htt1

/-- A result returned at once by `ttProbe` carries the best move of the entry. -/
theorem ttProbe_some {entry : Option Entry} {depth : Nat} {alpha beta : Score}
    {r : SearchResult} {a b : Score} (h : ttProbe entry depth alpha beta = (some r, a, b)) :
    ∃ e, entry = some e ∧ r.pv = e.best := by
  cases entry with
  | none => simp [ttProbe] at h
  | some e =>
    refine ⟨e, rfl, ?_⟩
    simp only [ttProbe] at h
    by_cases hd : e.depth ≥ depth
    · rw [if_pos hd] at h
      by_cases hf : e.flag = .EXACT
      · rw [if_pos hf] at h
        cases h
        rfl
      · rw [if_neg hf] at h
        by_cases hc : (if e.flag = Flag.LOWER ∧ alpha.lt e.score = true then beta
            else if e.flag = Flag.UPPER ∧ e.score.lt beta = true then e.score else beta).le
            (if e.flag = Flag.LOWER ∧ alpha.lt e.score = true then e.score else alpha) = true
        · rw [if_pos hc] at h
          cases h
          rfl
        · rw [if_neg hc] at h
          cases h
    · rw [if_neg hd] at h
      cases h

/-- The recursive case of `alphabeta` is a well-behaved searcher when its
recursive call is. -/
theorem abSearch_ok (depth : Nat) {deeper : Searcher} (hd : SearcherOK deeper) :
    SearcherOK (abSearch depth deeper) := by
  intro s alpha beta color st hwf htt
  obtain ⟨k, hk, -⟩ := keyOfState_ok hwf
  have hl := allLegalMoves_ok hwf s.turn
  unfold abSearch
  simp only [hk]
  rcases hprobe : ttProbe (ttGet st.tt k) depth alpha beta with ⟨r, alpha1, beta1⟩
  cases r with
  | some r =>
    obtain ⟨e, he, hpv⟩ := ttProbe_some hprobe
    refine ⟨r, st, rfl, htt, ?_⟩
    rw [hpv]
    exact htt s hwf k e hk he
  | none =>
    simp only [hl]
    obtain ⟨moves, hmoves, hperm⟩ := orderMoves_perm hwf
      ((ttGet st.tt k).bind (fun e => e.best)) _
      (fun m hm => inRange_of_mem_allLegalMoves hwf hl hm)
    simp only [hmoves]
    obtain ⟨res, st1, hres, htt1, hbest⟩ := abLoop_ok hd hwf hl beta1 color moves
      (fun m hm => hperm.subset hm) ⟨alpha1, .negInf, none⟩ (pvLegal_none s) st htt
    simp only [hres]
    cases res with
    | none => exact ⟨_, _, rfl, htt1, pvLegal_none s⟩
    | some acc =>
      refine ⟨_, _, rfl, ?_, hbest acc rfl⟩
      exact TTInv_set htt1 hwf hk (hbest acc rfl)

/-- The base case of `alphabeta` is a well-behaved searcher. -/
theorem abBase_ok (now : Nat → Int) (ai : Player) (cfg : Config) (deadlineMs : Int)
    (depth : Nat) : SearcherOK (abBase now ai cfg deadlineMs depth) := by
  intro s alpha beta color st hwf htt
  unfold abBase
  split
  · exact qSearch_ok now ai cfg deadlineMs cfg.qDepth s alpha beta color st hwf htt
  · obtain ⟨ev, hev⟩ := evaluate_total hwf ai cfg
    simp only [hev]
    exact ⟨_, _, rfl, htt, pvLegal_none s⟩

/-- The function `alphabeta` is a well-behaved searcher at every depth. -/
theorem alphabeta_ok (now : Nat → Int) (ai : Player) (cfg : Config) (deadlineMs : Int)
    (d : Nat) : SearcherOK (alphabeta now ai cfg deadlineMs d) := by
  induction d with
  | zero =>
    intro s alpha beta color st hwf htt
    obtain ⟨t, ht⟩ := isTerminal_total hwf
    unfold alphabeta
    simp only [ht]
    split
    · exact ⟨_, _, rfl, htt, pvLegal_none s⟩
    · exact abBase_ok now ai cfg deadlineMs 0 s alpha beta color _ hwf htt
  | succ k ih =>
    intro s alpha beta color st hwf htt
    obtain ⟨t, ht⟩ := isTerminal_total hwf
    unfold alphabeta
    simp only [ht]
    split
    · exact ⟨_, _, rfl, htt, pvLegal_none s⟩
    · split
      · exact abBase_ok now ai cfg deadlineMs (k + 1) s alpha beta color _ hwf htt
      · exact abSearch_ok (k + 1) ih s alpha beta color _ hwf htt

/-- The enumeration of a well-formed state is not empty. -/
theorem allLegalMoves_head {s : GameState} (hwf : s.board.WF) (owner : Player) :
    ∃ l m, allLegalMoves s owner = .ok l ∧ l.head? = some m ∧ m ∈ l := by
  have h := allLegalMoves_ok hwf owner
  by_cases he : legalMovesRef s owner (s.hand owner).c0
      ++ legalMovesRef s owner (s.hand owner).c1 = []
  · rw [if_pos he] at h
    exact ⟨_, _, h, rfl, by simp⟩
  · rw [if_neg he] at h
    cases hl : legalMovesRef s owner (s.hand owner).c0
        ++ legalMovesRef s owner (s.hand owner).c1 with
    | nil => exact absurd hl he
    | cons a t =>
      rw [hl] at h
      exact ⟨_, a, h, rfl, by simp⟩

/-- The end of `chooseMove` returns an enumerated move. -/
theorem chooseFinish_ok {s : GameState} (hwf : s.board.WF) (best : Option Move)
    (hbest : pvLegal s best) (st : SearchState) :
    ∃ m l, chooseFinish s best st = .ok (some m, st)
      ∧ allLegalMoves s s.turn = .ok l ∧ m ∈ l := by
  cases best with
  | some m =>
    obtain ⟨l, hl, hm⟩ := hbest m rfl
    exact ⟨m, l, rfl, hl, hm⟩
  | none =>
    obtain ⟨l, m, hl, hhead, hm⟩ := allLegalMoves_head hwf s.turn
    refine ⟨m, l, ?_, hl, hm⟩
    unfold chooseFinish
    simp only [hl, hhead]

/-- The deepening loop returns an enumerated move and keeps the table invariant. -/
theorem chooseLoop_ok (now : Nat → Int) {s : GameState} (hwf : s.board.WF) (opts : Opts)
    (deadline : Int) (rootColor window : Int) (remaining d : Nat) (best : Option Move)
    (hbest : pvLegal s best) (bestScore : Score) (st : SearchState) (htt : TTInv st.tt) :
    ∃ m st2 l, chooseLoop now s opts deadline rootColor window remaining d best bestScore st
        = .ok (some m, st2)
      ∧ TTInv st2.tt ∧ allLegalMoves s s.turn = .ok l ∧ m ∈ l := by
  induction remaining generalizing d best bestScore st with
  | zero =>
    obtain ⟨m, l, h, hl, hm⟩ := chooseFinish_ok hwf best hbest st
    exact ⟨m, st, l, h, htt, hl, hm⟩
  | succ r ih =>
    unfold chooseLoop
    simp only []
    generalize (rootWindow opts.cfg d bestScore window).1 = alpha
    generalize (rootWindow opts.cfg d bestScore window).2 = beta
    obtain ⟨res, st1, hres, htt1, hpv1⟩ :=
      alphabeta_ok now opts.pov opts.cfg deadline d s alpha beta rootColor st hwf htt
    simp only [hres]
    by_cases hto : res.timedOut = true
    · simp only [hto, if_true]
      obtain ⟨m, l, h, hl, hm⟩ := chooseFinish_ok hwf best hbest st1
      exact ⟨m, st1, l, h, htt1, hl, hm⟩
    · simp only [hto, if_false]
      obtain ⟨res2, st2, hres2, htt2, hpv2⟩ : ∃ res2 st2,
          (if opts.cfg.useAspiration = true ∧ (res.score.le alpha = true ∨ beta.le res.score = true)
            then alphabeta now opts.pov opts.cfg deadline d s .negInf .posInf rootColor st1
            else .ok (res, st1)) = .ok (res2, st2) ∧ TTInv st2.tt ∧ pvLegal s res2.pv := by
        split
        · exact alphabeta_ok now opts.pov opts.cfg deadline d s _ _ rootColor st1 hwf htt1
        · exact ⟨res, st1, rfl, htt1, hpv1⟩
      simp only [hres2]
      by_cases hto2 : res2.timedOut = true
      · simp only [hto2, if_true]
        obtain ⟨m, l, h, hl, hm⟩ := chooseFinish_ok hwf best hbest st2
        exact ⟨m, st2, l, h, htt2, hl, hm⟩
      · simp only [hto2, if_false]
        by_cases hab : res2.score.absAbove 500000000 = true
        · simp only [hab, if_true]
          obtain ⟨m, l, h, hl, hm⟩ := chooseFinish_ok hwf res2.pv hpv2 st2
          exact ⟨m, st2, l, h, htt2, hl, hm⟩
        · simp only [hab, if_false]
          exact ih (d + 1) res2.pv hpv2 res2.score st2 htt2

/-- A `chooseMove` call on a well-formed state returns an enumerated move and
keeps the table invariant. -/
theorem chooseMove_ok (now : Nat → Int) {s : GameState} (hwf : s.board.WF) (opts : Opts)
    (st : SearchState) (htt : TTInv st.tt) :
    ∃ m st2 l, chooseMove now s opts st = .ok (some m, st2)
      ∧ TTInv st2.tt ∧ allLegalMoves s s.turn = .ok l ∧ m ∈ l := by
  unfold chooseMove
  exact chooseLoop_ok now hwf opts _ _ _ _ _ none (pvLegal_none s) _ _ htt

/-- Every table of an engine satisfies the table invariant. -/
theorem TTInv_of_EngineTT {tt : TT} (h : EngineTT tt) : TTInv tt := by
  induction h with
  | fresh => exact TTInv_nil
  | call now s opts tick r _ hwf hcall ih =>
    obtain ⟨m, st3, l, h3, htt3, -, -⟩ := chooseMove_ok now hwf opts ⟨_, tick⟩ ih
    rw [hcall] at h3
    injection h3 with h3
    injection h3 with _ h3
    rw [h3]
    exact htt3

/-! ## Search engine: returned move and deadline -/

/-- C15: on a state with a 5x5 board, for every depth limit, time budget,
clock, point of view and configuration, and every table that is empty or was
left by earlier `chooseMove` calls of the engine, `chooseMove` returns a move
(never null or undefined) that is an element of `allLegalMoves(s, s.turn)`. -/
theorem C15_chooseMove_returns_legal_move (now : Nat → Int) (s : GameState) (opts : Opts)
    (tt : TT) (tick : Nat) (hwf : s.board.WF) (htt : EngineTT tt) :
    ∃ m st2 l, chooseMove now s opts ⟨tt, tick⟩ = .ok (some m, st2)
      ∧ allLegalMoves s s.turn = .ok l ∧ m ∈ l := by
  obtain ⟨m, st2, l, h, -, hl, hm⟩ :=
    chooseMove_ok now hwf opts ⟨tt, tick⟩ (TTInv_of_EngineTT htt)
  exact ⟨m, st2, l, h, hl, hm⟩

/-- C15 at the sample state on a fresh engine, depth 2 with a ticking clock. -/
theorem C15_witness :
    sampleState.board.WF ∧ EngineTT []
    ∧ ∃ m st2 l, chooseMove tickClock sampleState ⟨2, 13, 0, plainConfig 0⟩ ⟨[], 0⟩
          = .ok (some m, st2)
        ∧ allLegalMoves sampleState sampleState.turn = .ok l ∧ m ∈ l :=
  ⟨by decide, EngineTT.fresh,
   C15_chooseMove_returns_legal_move tickClock sampleState ⟨2, 13, 0, plainConfig 0⟩ [] 0
     (by decide) EngineTT.fresh⟩

/-! ## Search engine: depth-1 Master capture -/

/-- The head of the stable descending sort: a move whose score is strictly
greater than the score of every other move comes first. -/
theorem sortDesc_head (scored : List (Int × Move)) (v : Int) (a : Move)
    (hmem : (v, a) ∈ scored) (hsame : ∀ p ∈ scored, p.2 = a → p.1 = v)
    (hless : ∀ p ∈ scored, p.2 ≠ a → p.1 < v) :
    ∃ rest, sortDesc scored = (v, a) :: rest := by
  induction scored with
  | nil => simp at hmem
  | cons x t ih =>
    unfold sortDesc
    by_cases hin : (v, a) ∈ t
    · obtain ⟨rest, hrest⟩ := ih hin (fun p hp => hsame p (List.mem_cons_of_mem _ hp))
        (fun p hp => hless p (List.mem_cons_of_mem _ hp))
      rw [hrest]
      unfold insertDesc
      by_cases hx : x.2 = a
      · have hv : x.1 = v := hsame x (by simp) hx
        have hxe : x = (v, a) := by
          cases x
          simp only at hx hv
          rw [hx, hv]
        rw [if_pos (by rw [hv])]
        exact ⟨_, by rw [hxe]⟩
      · have hlt : x.1 < v := hless x (by simp) hx
        rw [if_neg (by simp only [not_le]; exact hlt)]
        exact ⟨_, rfl⟩
    · have hxe : x = (v, a) := by
        rcases List.mem_cons.mp hmem with h | h
        · exact h.symm
        · exact absurd h hin
      subst hxe
      cases hs : sortDesc t with
      | nil => exact ⟨[], rfl⟩
      | cons b rest =>
        have hb : b ∈ t := (sortDesc_perm t).subset (by rw [hs]; simp)
        unfold insertDesc
        by_cases hba : b.2 = a
        · have : b.1 = v := hsame b (List.mem_cons_of_mem _ hb) hba
          have hbe : b = (v, a) := by
            cases b
            simp only at hba this
            rw [hba, this]
          exact absurd (hbe ▸ hb) hin
        · have hlt : b.1 < v := hless b (List.mem_cons_of_mem _ hb) hba
          rw [if_pos (le_of_lt hlt)]
          exact ⟨_, rfl⟩

/-- The arch bonus of `scoreMove` is bounded for coordinates on the board. -/
theorem archDelta_bound {src dst : Pos} (hs : src.onBoard) (hd : dst.onBoard) (goalY : Int)
    (hg : goalY = 0 ∨ goalY = 4) :
    -3000 ≤ (|src.x - 2| + |src.y - goalY| - (|dst.x - 2| + |dst.y - goalY|)) * 500
    ∧ (|src.x - 2| + |src.y - goalY| - (|dst.x - 2| + |dst.y - goalY|)) * 500 ≤ 3000 := by
  obtain ⟨h1, h2, h3, h4⟩ := hs
  obtain ⟨h5, h6, h7, h8⟩ := hd
  have a1 : |src.x - 2| ≤ 2 := abs_le.mpr ⟨by omega, by omega⟩
  have a2 : |dst.x - 2| ≤ 2 := abs_le.mpr ⟨by omega, by omega⟩
  have a3 : |src.y - goalY| ≤ 4 := by
    rcases hg with rfl | rfl <;> exact abs_le.mpr ⟨by omega, by omega⟩
  have a4 : |dst.y - goalY| ≤ 4 := by
    rcases hg with rfl | rfl <;> exact abs_le.mpr ⟨by omega, by omega⟩
  have b1 := abs_nonneg (src.x - 2)
  have b2 := abs_nonneg (dst.x - 2)
  have b3 := abs_nonneg (src.y - goalY)
  have b4 := abs_nonneg (dst.y - goalY)
  constructor <;> omega

/-- The enumerated moves of a well-formed state: a pass, or a placement from
a cell of the mover to a cell not held by the mover, both on the board. -/
theorem mem_allLegalMoves_cases {s : GameState} (hwf : s.board.WF) {owner : Player}
    {l : List Move} (hl : allLegalMoves s owner = .ok l) {m : Move} (hm : m ∈ l) :
    (∃ c, m = .pass c)
    ∨ (∃ src dst c, m = .place src dst c ∧ src.onBoard ∧ holdsPieceOf s.board owner src
        ∧ dst.onBoard ∧ ¬ holdsPieceOf s.board owner dst) := by
  rw [allLegalMoves_ok hwf] at hl
  injection hl with hl
  subst hl
  split at hm
  · simp only [List.mem_cons, List.mem_singleton, List.mem_nil_iff, or_false] at hm
    rcases hm with rfl | rfl
    · exact Or.inl ⟨_, rfl⟩
    · exact Or.inl ⟨_, rfl⟩
  · rw [List.mem_append] at hm
    rcases hm with hm | hm
    · obtain ⟨src, dst, rfl, h⟩ := mem_legalMovesRef hm
      exact Or.inr ⟨src, dst, _, rfl, h⟩
    · obtain ⟨src, dst, rfl, h⟩ := mem_legalMovesRef hm
      exact Or.inr ⟨src, dst, _, rfl, h⟩

theorem other_player {o t : Player} (h : o ≠ t) : o = 1 - t := by
  revert h
  revert o t
  decide

theorem masterBonus_bound (piece : Cell) {src dst : Pos} (hs : src.onBoard) (hd : dst.onBoard) :
    -1000 ≤ masterBonus piece src dst ∧ masterBonus piece src dst ≤ 5000 := by
  unfold masterBonus
  cases piece with
  | none => simp
  | some p =>
    simp only []
    by_cases hm : p.type = .M
    · simp only [hm, if_true]
      have := archDelta_bound hs hd (if p.owner = 0 then 0 else 4)
        (by by_cases h0 : p.owner = 0 <;> simp [h0])
      constructor <;> omega
    · simp [hm]

/-- The ordering score of the move that lands on the opponent's Master. -/
theorem scoreMove_master_capture {s : GameState} (hwf : s.board.WF) {src dst : Pos} (c : Card)
    (hs : src.onBoard) (hd : dst.onBoard) {o : Player}
    (ht : pieceAt s.board dst.x dst.y = some ⟨o, .M⟩) :
    ∃ v, scoreMove s (some dst) none (.place src dst c) = .ok v ∧ 1498999 ≤ v := by
  unfold scoreMove
  simp only [readCell_of_WF hwf _ hs.2.2.1 hs.2.2.2, readCell_of_WF hwf _ hd.2.2.1 hd.2.2.2, ht]
  refine ⟨_, rfl, ?_⟩
  have h1 := (masterBonus_bound (pieceAt s.board src.x src.y) hs hd).1
  have h2 : hintBonus none (Move.place src dst c) = 0 := by simp [hintBonus]
  have h3 : targetBonus (some ⟨o, .M⟩) = 500000 := by simp [targetBonus]
  have h4 : landBonus (some dst) dst = 999999 := by simp [landBonus]
  rw [h2, h3, h4]
  omega

/-- The ordering score of a pass, and of a placement that lands neither on a
Master nor on the cell `om`. -/
theorem scoreMove_other {s : GameState} (hwf : s.board.WF) (om : Option Pos) {m : Move}
    (hin : m.inRange)
    (hnot : ∀ src dst c, m = .place src dst c →
      (∀ t, pieceAt s.board dst.x dst.y = some t → t.type = .S)
      ∧ (∀ p, om = some p → ¬ (dst.x = p.x ∧ dst.y = p.y))) :
    ∃ v, scoreMove s om none m = .ok v ∧ v ≤ 25000 := by
  cases m with
  | pass c => exact ⟨_, rfl, by decide⟩
  | place src dst c =>
    obtain ⟨hty, hom⟩ := hnot src dst c rfl
    unfold scoreMove
    simp only [readCell_of_WF hwf _ hin.1.2.2.1 hin.1.2.2.2,
      readCell_of_WF hwf _ hin.2.2.2.1 hin.2.2.2.2]
    refine ⟨_, rfl, ?_⟩
    have h1 := (masterBonus_bound (pieceAt s.board src.x src.y) hin.1 hin.2).2
    have h2 : hintBonus none (Move.place src dst c) = 0 := by simp [hintBonus]
    have h3 : targetBonus (pieceAt s.board dst.x dst.y) ≤ 20000 := by
      unfold targetBonus
      cases ht : pieceAt s.board dst.x dst.y with
      | none => simp
      | some t => simp [hty t ht]
    have h4 : landBonus om dst = 0 := by
      unfold landBonus
      cases om with
      | none => rfl
      | some p =>
        simp only []
        rw [if_neg (hom p rfl)]
    rw [h2, h4]
    omega

/-- A state that `isTerminal` does not report done holds a Master of each player. -/
theorem masters_of_not_done {s : GameState} (hwf : s.board.WF) {t : TerminalInfo}
    (ht : isTerminal s = .ok t) (hnt : t.done = false) (owner : Player) :
    ∃ x y, pieceAt s.board x y = some ⟨owner, .M⟩ := by
  by_contra hno
  have hnone : ∀ x y, pieceAt s.board x y ≠ some ⟨owner, .M⟩ :=
    fun x y hp => hno ⟨x, y, hp⟩
  have hf := findMaster_none hwf owner hnone
  obtain ⟨m0, h0⟩ := findMaster_total hwf 0
  obtain ⟨m1, h1⟩ := findMaster_total hwf 1
  unfold isTerminal at ht
  fin_cases owner
  · simp only [Fin.zero_eta] at hf
    rw [hf] at ht
    simp only [h1] at ht
    injection ht with ht
    rw [← ht] at hnt
    cases hnt
  · simp only [Fin.mk_one] at hf
    rw [h0, hf] at ht
    cases m0 with
    | none =>
      simp only [] at ht
      injection ht with ht
      rw [← ht] at hnt
      cases hnt
    | some p =>
      simp only [] at ht
      injection ht with ht
      rw [← ht] at hnt
      cases hnt

/-- The verdict after the capture of the opponent's only Master: done, won by
the mover by Way of the Stone. -/
theorem isTerminal_after_master_capture {s ns : GameState} (hwf : s.board.WF)
    {t : TerminalInfo} (ht : isTerminal s = .ok t) (hnt : t.done = false) {src dst : Pos}
    {c : Card} (hs : src.onBoard) (hd : dst.onBoard)
    (hopp : masterAt s.board (1 - s.turn) dst)
    (happ : applyMove s (.place src dst c) = .ok (some ns)) :
    isTerminal ns = .ok ⟨true, some s.turn, some "Way of the Stone"⟩ := by
  obtain ⟨piece, hp, hown, -, hb⟩ := applyMove_place_board hwf hs hd happ
  have hwf1 : (s.board.put src.x src.y none).WF := WF_put hwf _ hs.2.2.1 hs.2.2.2 _
  have hwfn : ns.board.WF := by
    rw [hb]
    exact WF_put hwf1 _ hd.2.2.1 hd.2.2.2 _
  have hcell : ∀ x y, pieceAt ns.board x y =
      if x = dst.x ∧ y = dst.y then some piece
      else if x = src.x ∧ y = src.y then none else pieceAt s.board x y := by
    intro x y
    rw [hb, pieceAt_put hwf1 hd.1 hd.2.1 hd.2.2.1 hd.2.2.2,
      pieceAt_put hwf hs.1 hs.2.1 hs.2.2.1 hs.2.2.2]
  have hnoopp : ∀ x y, pieceAt ns.board x y ≠ some ⟨1 - s.turn, .M⟩ := by
    intro x y hq
    rw [hcell] at hq
    by_cases c0 : x = dst.x ∧ y = dst.y
    · rw [if_pos c0] at hq
      injection hq with hq
      have : piece.owner = 1 - s.turn := by rw [hq]
      rw [hown] at this
      revert this
      generalize s.turn = u
      revert u
      decide
    · rw [if_neg c0] at hq
      by_cases c1 : x = src.x ∧ y = src.y
      · rw [if_pos c1] at hq
        cases hq
      · rw [if_neg c1] at hq
        exact c0 (hopp.2 x y hq)
  have hsrcne : ¬ (src.x = dst.x ∧ src.y = dst.y) := by
    rintro ⟨hx, hy⟩
    have h1 := hopp.1
    rw [← hx, ← hy, hp] at h1
    injection h1 with h1
    have : piece.owner = 1 - s.turn := by rw [h1]
    rw [hown] at this
    revert this
    generalize s.turn = u
    revert u
    decide
  obtain ⟨m1, hm1⟩ := findMaster_total hwfn 1
  by_cases hturn : s.turn = 0
  · -- the mover is player 0: its Master is still on the board, player 1's is gone
    obtain ⟨x, y, hown0⟩ := masters_of_not_done hwf ht hnt 0
    have hhas : ∃ x y, pieceAt ns.board x y = some ⟨0, .M⟩ := by
      by_cases c1 : x = src.x ∧ y = src.y
      · refine ⟨dst.x, dst.y, ?_⟩
        rw [hcell, if_pos ⟨rfl, rfl⟩]
        rw [c1.1, c1.2, hp] at hown0
        exact hown0
      · refine ⟨x, y, ?_⟩
        have c0 : ¬ (x = dst.x ∧ y = dst.y) := by
          rintro ⟨rfl, rfl⟩
          have h1 := hopp.1
          rw [hown0] at h1
          injection h1 with h1
          injection h1 with h1
          rw [hturn] at h1
          revert h1
          decide
        rw [hcell, if_neg c0, if_neg c1]
        exact hown0
    obtain ⟨q, hq, -⟩ := findMaster_some hwfn 0 hhas
    have hno1 : findMaster ns.board 1 = .ok none := by
      apply findMaster_none hwfn
      intro x y
      have := hnoopp x y
      rw [hturn] at this
      exact this
    unfold isTerminal
    rw [hq, hno1, hturn]
  · -- the mover is player 1: player 0's Master is gone
    have hturn1 : s.turn = 1 := by
      revert hturn
      generalize s.turn = u
      revert u
      decide
    have hno0 : findMaster ns.board 0 = .ok none := by
      apply findMaster_none hwfn
      intro x y
      have := hnoopp x y
      rw [hturn1] at this
      exact this
    unfold isTerminal
    rw [hno0, hm1, hturn1]

/-- The score of a state that `isTerminal` reports done. -/
theorem evaluate_done {s : GameState} {t : TerminalInfo} (ht : isTerminal s = .ok t)
    (hd : t.done = true) (pov : Player) (cfg : Config) :
    evaluate s pov cfg = .ok (if t.winner = some pov then 1000000000 else -1000000000) := by
  unfold evaluate
  simp only [ht, hd, if_true]
  split <;> rfl

/-- In a non-terminal state, the only enumerated move that lands on the
opponent's only Master is ordered first when there is no hint. -/
theorem orderMoves_master_first {s : GameState} (hwf : s.board.WF) {l : List Move}
    (hl : allLegalMoves s s.turn = .ok l) {t : TerminalInfo} (ht : isTerminal s = .ok t)
    (hnt : t.done = false) {src dst : Pos} {c : Card}
    (hopp : masterAt s.board (1 - s.turn) dst) (hmem : Move.place src dst c ∈ l)
    (honly : ∀ m ∈ l, ∀ src2 c2, m = .place src2 dst c2 → m = .place src dst c) :
    ∃ rest, orderMoves l s none = .ok (.place src dst c :: rest) ∧ ∀ m ∈ rest, m ∈ l := by
  have hfm := findMaster_of_masterAt hwf hopp
  have hin : ∀ m ∈ l, m.inRange := fun m hm => inRange_of_mem_allLegalMoves hwf hl hm
  unfold orderMoves
  simp only [ht, hnt, hfm]
  by_cases hlen : l.length ≤ 1
  · rw [if_neg (by simp), if_pos hlen]
    cases l with
    | nil => simp at hmem
    | cons a tl =>
      cases tl with
      | nil =>
        simp only [List.mem_singleton] at hmem
        exact ⟨[], by rw [hmem], by simp⟩
      | cons b tl2 => simp at hlen
  · rw [if_neg (by simp), if_neg hlen]
    obtain ⟨scored, hsc, hmap, hval⟩ := scoreAll_total (scoreMove s (some dst) none) l
      (fun m hm => scoreMove_total hwf (some dst) none (hin m hm))
    simp only [hsc]
    have hms := hin _ hmem
    obtain ⟨v, hv, hvge⟩ := scoreMove_master_capture hwf c hms.1 hms.2 hopp.1
    have hmem2 : (v, Move.place src dst c) ∈ scored := by
      rw [← hmap] at hmem
      obtain ⟨p, hp, hp2⟩ := List.mem_map.mp hmem
      have := hval p hp
      rw [hp2, hv] at this
      injection this with this
      have hpe : p = (v, Move.place src dst c) := by
        cases p
        simp only at hp2 this
        rw [hp2, ← this]
      rw [← hpe]
      exact hp
    have hsame : ∀ p ∈ scored, p.2 = Move.place src dst c → p.1 = v := by
      intro p hp hp2
      have := hval p hp
      rw [hp2, hv] at this
      injection this with this
      exact this.symm
    have hless : ∀ p ∈ scored, p.2 ≠ Move.place src dst c → p.1 < v := by
      intro p hp hne
      have hpl : p.2 ∈ l := by
        rw [← hmap]
        exact List.mem_map_of_mem _ hp
      obtain ⟨w, hw, hwle⟩ := scoreMove_other hwf (some dst) (hin _ hpl) (by
        intro src2 dst2 c2 he
        have hd2 : ¬ (dst2.x = dst.x ∧ dst2.y = dst.y) := by
          rintro ⟨hx, hy⟩
          have hde : dst2 = dst := by
            cases dst2; cases dst
            simp only at hx hy
            rw [hx, hy]
          rw [hde] at he
          exact hne (honly _ hpl src2 c2 he)
        refine ⟨?_, ?_⟩
        · intro t2 ht2
          by_contra hty
          have htm : t2.type = .M := by
            cases h : t2.type with
            | M => rfl
            | S => exact absurd h hty
          rcases mem_allLegalMoves_cases hwf hl hpl with ⟨c3, h3⟩ | ⟨s3, d3, c3, h3, -, -, -, hnh⟩
          · rw [he] at h3
            cases h3
          · rw [he] at h3
            injection h3 with _ h3d _
            subst h3d
            have hown : t2.owner ≠ s.turn := fun ho => hnh ⟨t2, ht2, ho⟩
            have : t2 = ⟨1 - s.turn, .M⟩ := by
              cases t2
              simp only at htm hown ⊢
              rw [htm, other_player hown]
            rw [this] at ht2
            exact hd2 (hopp.2 _ _ ht2)
        · intro p hp2
          injection hp2 with hp2
          rw [← hp2]
          exact hd2)
      have := hval p hp
      rw [hw] at this
      injection this with this
      omega
    obtain ⟨rest, hrest⟩ := sortDesc_head scored v _ hmem2 hsame hless
    refine ⟨rest.map Prod.snd, by rw [hrest]; rfl, ?_⟩
    intro m hm
    have hperm := (sortDesc_perm scored).map Prod.snd
    rw [hmap, hrest] at hperm
    exact hperm.subset (List.mem_cons_of_mem _ hm)

/-- Without quiescence and before the deadline, `alphabeta` at depth 0 returns
the signed evaluation. -/
theorem alphabeta_zero_leaf (now : Nat → Int) (ai : Player) {cfg : Config} (hq : cfg.qDepth = 0)
    (deadline : Int) {ns : GameState} (hwf : ns.board.WF) (alpha beta : Score) (color : Int)
    (st : SearchState) (hclock : ¬ now st.tick > deadline) {ev : Int}
    (hev : evaluate ns ai cfg = .ok ev) :
    alphabeta now ai cfg deadline 0 ns alpha beta color st
      = .ok (⟨false, .fin (color * ev), none⟩, { st with tick := st.tick + 1 }) := by
  obtain ⟨t, ht⟩ := isTerminal_total hwf
  unfold alphabeta
  simp only [hclock, if_false, ht]
  unfold abBase
  simp only [hq, ne_eq, not_true_eq_false, false_and, if_false, hev]

/-- The depth-1 move loop once the best score is the win magnitude: no later
move scored within the win magnitude replaces the best move. -/
theorem abLoop_keeps_win (now : Nat → Int) (ai : Player) {cfg : Config} (hq : cfg.qDepth = 0)
    (deadline : Int) (hclock : ∀ n, ¬ now n > deadline) {s : GameState} (hwf : s.board.WF)
    {l : List Move} (hl : allLegalMoves s s.turn = .ok l) {color : Int}
    (hcolor : color = 1 ∨ color = -1) (moves : List Move) (hm : ∀ m ∈ moves, m ∈ l)
    (hbound : ∀ m ∈ moves, evalWithin s ai cfg 1000000000 m) (best : Option Move)
    (st : SearchState) :
    ∃ st2, abLoop (alphabeta now ai cfg deadline 0) s .posInf color moves
        ⟨.fin 1000000000, .fin 1000000000, best⟩ st
      = .ok (some ⟨.fin 1000000000, .fin 1000000000, best⟩, st2) ∧ st2.tt = st.tt := by
  induction moves generalizing st with
  | nil => exact ⟨st, rfl, rfl⟩
  | cons m rest ih =>
    obtain ⟨ns, hns, hwfn⟩ := legal_step hwf hl (hm m (by simp))
    obtain ⟨ev, hev⟩ := evaluate_total hwfn ai cfg
    have hle : |ev| ≤ 1000000000 := hbound m (by simp) ns ev hns hev
    have hleaf := alphabeta_zero_leaf now ai hq deadline hwfn Score.posInf.neg
      (Score.fin 1000000000).neg (-color) st (hclock _) hev
    unfold abLoop
    simp only [hns, hleaf]
    have hnot : (Score.fin 1000000000).lt (Score.fin (-color * ev)).neg = false := by
      simp only [Score.neg, Score.lt, decide_eq_false_iff_not, not_lt]
      have := abs_le.mp hle
      rcases hcolor with rfl | rfl <;> omega
    simp only [hnot, Bool.false_eq_true, if_false]
    have hcut : Score.posInf.le (Score.fin 1000000000) = false := by decide
    simp only [hcut, Bool.false_eq_true, if_false]
    obtain ⟨st2, h2, htt⟩ := ih (fun m hm2 => hm m (by simp [hm2]))
      (fun m hm2 => hbound m (by simp [hm2])) { st with tick := st.tick + 1 }
    exact ⟨st2, h2, htt⟩

/-- The depth-1 search of a non-terminal state on an empty table, without
quiescence and without timeout: the move landing on the opponent's only
Master is returned with the win magnitude, when no other successor is scored
beyond the win magnitude. -/
theorem alphabeta_one_master_capture (now : Nat → Int) (ai : Player) {cfg : Config}
    (hq : cfg.qDepth = 0) (deadline : Int) (hclock : ∀ n, ¬ now n > deadline) {s : GameState}
    (hwf : s.board.WF) {l : List Move} (hl : allLegalMoves s s.turn = .ok l)
    {t : TerminalInfo} (ht : isTerminal s = .ok t) (hnt : t.done = false) {src dst : Pos}
    {c : Card} (hopp : masterAt s.board (1 - s.turn) dst) (hmem : Move.place src dst c ∈ l)
    (honly : ∀ m ∈ l, ∀ src2 c2, m = .place src2 dst c2 → m = .place src dst c)
    (hbound : ∀ m ∈ l, evalWithin s ai cfg 1000000000 m) (st : SearchState)
    (htt : st.tt = []) :
    ∃ st2, alphabeta now ai cfg deadline 1 s .negInf .posInf (if s.turn = ai then 1 else -1) st
      = .ok (⟨false, .fin 1000000000, some (.place src dst c)⟩, st2) := by
  obtain ⟨k, hk, -⟩ := keyOfState_ok hwf
  obtain ⟨rest, hord, hrest⟩ := orderMoves_master_first hwf hl ht hnt hopp hmem honly
  have hin := inRange_of_mem_allLegalMoves hwf hl hmem
  obtain ⟨ns, hns, hwfn⟩ := legal_step hwf hl hmem
  have hterm := isTerminal_after_master_capture hwf ht hnt hin.1 hin.2 hopp hns
  have hev := evaluate_done hterm rfl ai cfg
  have hcolor : (if s.turn = ai then (1 : Int) else -1) = 1
      ∨ (if s.turn = ai then (1 : Int) else -1) = -1 := by
    by_cases h : s.turn = ai
    · exact Or.inl (by rw [if_pos h])
    · exact Or.inr (by rw [if_neg h])
  have hscore : (Score.fin (-(if s.turn = ai then (1 : Int) else -1)
      * (if some s.turn = some ai then 1000000000 else -1000000000))).neg
      = Score.fin 1000000000 := by
    by_cases h : s.turn = ai
    · simp [h, Score.neg]
    · have h2 : ¬ (some s.turn = some ai) := fun h3 => h (by injection h3)
      simp [h, Score.neg]
  obtain ⟨st2, hloop, -⟩ := abLoop_keeps_win now ai hq deadline hclock hwf hl hcolor rest hrest
    (fun m hm => hbound m (hrest m hm)) (some (.place src dst c))
    { tt := st.tt, tick := st.tick + 1 + 1 }
  constructor
  rw [alphabeta]
  simp only [hclock, if_false, ht, hnt, Bool.false_eq_true]
  unfold abSearch
  simp only [hk, htt, ttGet, ttProbe, hl, Option.bind, hord]
  unfold abLoop
  have hleaf := alphabeta_zero_leaf now ai hq deadline hwfn Score.posInf.neg
    Score.negInf.neg (-(if s.turn = ai then (1 : Int) else -1))
    { tt := [], tick := st.tick + 1 } (hclock _) hev
  simp only [hns, hleaf, hscore]
  have h1 : Score.negInf.lt (Score.fin 1000000000) = true := by decide
  have h2 : Score.posInf.le (Score.fin 1000000000) = false := by decide
  simp only [h1, h2, if_true, Bool.false_eq_true, if_false]
  rw [htt] at hloop
  simp only [hloop]
  rfl

/-- C16 (amended): on a non-terminal state with a 5x5 board where the
opponent's only Master stands on `dst` and exactly one enumerated move lands
on `dst`, with `qDepth = 0`, and every successor evaluated within the win
magnitude 1e9, `chooseMove` on a fresh engine with `maxDepth = 1` and a clock
that never passes the deadline returns that capturing move, for every point
of view. -/
theorem C16_depth1_master_capture (now : Nat → Int) (s : GameState) (pov : Player)
    (cfg : Config) (timeMs : Int) (tick : Nat) (src dst : Pos) (c : Card) (l : List Move)
    (t : TerminalInfo) (hwf : s.board.WF) (hq : cfg.qDepth = 0)
    (ht : isTerminal s = .ok t) (hnt : t.done = false)
    (hopp : masterAt s.board (1 - s.turn) dst) (hl : allLegalMoves s s.turn = .ok l)
    (hone : landingOn dst l = [.place src dst c])
    (hclock : ∀ n, ¬ now n > now tick + timeMs)
    (hbound : ∀ m ∈ l, evalWithin s pov cfg 1000000000 m) :
    ∃ st2, chooseMove now s ⟨1, timeMs, pov, cfg⟩ ⟨[], tick⟩
      = .ok (some (.place src dst c), st2) := by
  have hmem : Move.place src dst c ∈ l := by
    have : Move.place src dst c ∈ landingOn dst l := by rw [hone]; exact List.mem_singleton.2 rfl
    exact (List.mem_filter.1 this).1
  have honly : ∀ m ∈ l, ∀ src2 c2, m = .place src2 dst c2 → m = .place src dst c := by
    intro m hm src2 c2 h
    have : m ∈ landingOn dst l := by
      refine List.mem_filter.2 ⟨hm, ?_⟩
      rw [h]
      simp
    rw [hone] at this
    exact List.mem_singleton.1 this
  obtain ⟨st2, h⟩ := alphabeta_one_master_capture now pov hq (now tick + timeMs) hclock hwf hl
    ht hnt hopp hmem honly hbound ⟨[], tick + 1⟩ rfl
  refine ⟨st2, ?_⟩
  unfold chooseMove
  simp only []
  rw [chooseLoop]
  simp only [rootWindow, h]
  simp [Score.le, Score.lt, Score.absAbove, chooseFinish]

/-- C16 (amended) at `captureState` with the default weights: the Crab capture
(2,1)->(2,0) is returned. -/
theorem C16_witness :
    ∃ st2, chooseMove (fun _ => 0) captureState ⟨1, 1000, 0, plainConfig 0⟩ ⟨[], 0⟩
      = .ok (some (.place ⟨2, 1⟩ ⟨2, 0⟩ .Crab), st2) :=
  C16_depth1_master_capture (fun _ => 0) captureState 0 (plainConfig 0) 1000 0 ⟨2, 1⟩ ⟨2, 0⟩
    .Crab [.place ⟨2, 1⟩ ⟨0, 1⟩ .Crab, .place ⟨2, 1⟩ ⟨2, 0⟩ .Crab, .place ⟨2, 1⟩ ⟨4, 1⟩ .Crab,
      .place ⟨2, 1⟩ ⟨2, 2⟩ .Tiger]
    ⟨false, none, none⟩ (by decide) rfl (by decide!) rfl
    (masterAt_of_scan (by decide) (by decide) (by decide)) (by decide!) (by decide!)
    (by simp) (by decide!)

/-- C16 fails as stated. In `captureState` the only enumerated move landing
on the Master of player 1 is the Crab step (2,1)->(2,0); with the arch weight
1e10 the retreat (2,1)->(2,2) is evaluated 2e10, above the win magnitude, and
is returned at depth 1. In `recaptureState` with the default weights and
`qDepth = 1` the capture is followed into the quiescence search, where the
Student takes back and the board without any Master is scored as a loss of
player 0; the retreat is returned again. -/
theorem C16_counterexample :
    isTerminal captureState = .ok ⟨false, none, none⟩
    ∧ pieceAt captureState.board 2 0 = some ⟨1, .M⟩
    ∧ (allLegalMoves captureState 0).map (landingOn ⟨2, 0⟩)
        = .ok [.place ⟨2, 1⟩ ⟨2, 0⟩ .Crab]
    ∧ (chooseMove (fun _ => 0) captureState ⟨1, 1000, 0, heavyConfig⟩ ⟨[], 0⟩).map Prod.fst
        = .ok (some (.place ⟨2, 1⟩ ⟨2, 2⟩ .Tiger))
    ∧ isTerminal recaptureState = .ok ⟨false, none, none⟩
    ∧ pieceAt recaptureState.board 2 0 = some ⟨1, .M⟩
    ∧ (allLegalMoves recaptureState 0).map (landingOn ⟨2, 0⟩)
        = .ok [.place ⟨2, 1⟩ ⟨2, 0⟩ .Crab]
    ∧ (chooseMove (fun _ => 0) recaptureState ⟨1, 1000, 0, plainConfig 1⟩ ⟨[], 0⟩).map Prod.fst
        = .ok (some (.place ⟨2, 1⟩ ⟨2, 2⟩ .Tiger)) :=
  ⟨by decide!, by decide!, by decide!, by decide!, by decide!, by decide!, by decide!,
   by decide!⟩

/-! ## Search engine: repeated calls -/

theorem TTFin_nil : TTFin [] := by
  intro k e h
  cases h

theorem TTFin_set {tt : TT} (h : TTFin tt) (k : String) {e : Entry} (he : ∃ v, e.score = .fin v) :
    TTFin (ttSet tt k e) := by
  intro k2 e2 hget
  unfold ttSet ttGet at hget
  by_cases hkk : k = k2
  · rw [if_pos hkk] at hget
    injection hget with hget
    rw [← hget]
    exact he
  · rw [if_neg hkk] at hget
    exact h k2 e2 hget

/-- The loop of `qSearch` with searches that do not time out returns a finite
score. -/
theorem qLoop_fin {deeper : Searcher} (hd : SearcherFin deeper) {s : GameState}
    (hwf : s.board.WF) {l : List Move} (hl : allLegalMoves s s.turn = .ok l) (beta : Score)
    (color : Int) (moves : List Move) (hm : ∀ m ∈ moves, m ∈ l) (alpha best : Score)
    (hbest : ∃ v, best = .fin v) (st : SearchState) (htt : TTFin st.tt) :
    ∃ res st2, qLoop deeper s beta color moves alpha best st = .ok (res, st2)
      ∧ TTFin st2.tt ∧ res.timedOut = false ∧ ∃ v, res.score = .fin v := by
  induction moves generalizing alpha best st with
  | nil => exact ⟨_, _, rfl, htt, rfl, hbest⟩
  | cons m rest ih =>
    obtain ⟨ns, hns, hwfn⟩ := legal_step hwf hl (hm m (by simp))
    obtain ⟨child, st1, hc, htt1, hto, v, hv⟩ := hd ns beta.neg alpha.neg (-color) st hwfn htt
    have hbest1 : ∃ w, (if best.lt child.score.neg = true then child.score.neg else best)
        = .fin w := by
      split
      · exact ⟨-v, by rw [hv]; rfl⟩
      · exact hbest
    unfold qLoop
    simp only [hns, hc, hto, Bool.false_eq_true, if_false]
    by_cases hcut : beta.le (if alpha.lt child.score.neg = true then child.score.neg
        else alpha) = true
    · simp only [hcut, if_true]
      exact ⟨_, _, rfl, htt1, rfl, hbest1⟩
    · simp only [hcut, if_false]
      exact ih (fun m hm2 => hm m (by simp [hm2])) _ _ hbest1 st1 htt1

/-- The body of `qSearch` before the deadline returns a finite score. -/
theorem qNode_fin (now : Nat → Int) (ai : Player) (cfg : Config) (deadlineMs : Int)
    (hclock : ∀ n, ¬ now n > deadlineMs)
    (deeper : Option Searcher) (hd : ∀ f, deeper = some f → SearcherFin f) :
    SearcherFin (qNode now ai cfg deadlineMs deeper) := by
  intro s alpha beta color st hwf htt
  obtain ⟨ev, hev⟩ := evaluate_total hwf ai cfg
  unfold qNode
  simp only [hev, hclock, if_false]
  split
  · exact ⟨_, _, rfl, htt, rfl, _, rfl⟩
  · cases deeper with
    | none => exact ⟨_, _, rfl, htt, rfl, _, rfl⟩
    | some f =>
      obtain ⟨caps, l, hcaps, hl, hsub⟩ := captureMoves_total hwf
      simp only [hcaps]
      split
      · exact ⟨_, _, rfl, htt, rfl, _, rfl⟩
      · obtain ⟨ordered, hord, hperm⟩ := orderMoves_perm hwf none caps
          (fun m hm => inRange_of_mem_allLegalMoves hwf hl (hsub m hm))
        simp only [hord]
        exact qLoop_fin (hd f rfl) hwf hl beta color ordered
          (fun m hm => hsub m (hperm.subset hm))
          (if alpha.lt (Score.fin (color * ev)) = true then Score.fin (color * ev) else alpha)
          (Score.fin (color * ev)) ⟨_, rfl⟩ { st with tick := st.tick + 1 } htt

theorem qSearch_fin (now : Nat → Int) (ai : Player) (cfg : Config) (deadlineMs : Int)
    (hclock : ∀ n, ¬ now n > deadlineMs) (n : Nat) :
    SearcherFin (qSearch now ai cfg deadlineMs n) := by
  induction n with
  | zero =>
    unfold qSearch
    exact qNode_fin now ai cfg deadlineMs hclock none (fun f hf => by cases hf)
  | succ k ih =>
    unfold qSearch
    apply qNode_fin now ai cfg deadlineMs hclock
    intro f hf
    injection hf with hf
    rw [← hf]
    exact ih

/-- The move loop of `alphabeta` with searches that do not time out ends with
a recorded move and a finite best score, once it has one or has a move to try. -/
theorem abLoop_fin {deeper : Searcher} (hd : SearcherFin deeper) {s : GameState}
    (hwf : s.board.WF) {l : List Move} (hl : allLegalMoves s s.turn = .ok l) (beta : Score)
    (color : Int) (moves : List Move) (hm : ∀ m ∈ moves, m ∈ l) (acc : LoopAcc)
    (hacc : accSet acc ∨ (acc.bestScore = .negInf ∧ moves ≠ [])) (st : SearchState)
    (htt : TTFin st.tt) :
    ∃ acc2 st2, abLoop deeper s beta color moves acc st = .ok (some acc2, st2)
      ∧ TTFin st2.tt ∧ accSet acc2 := by
  induction moves generalizing acc st with
  | nil =>
    rcases hacc with hacc | ⟨-, hne⟩
    · exact ⟨_, _, rfl, htt, hacc⟩
    · exact absurd rfl hne
  | cons m rest ih =>
    have hml : m ∈ l := hm m (by simp)
    obtain ⟨ns, hns, hwfn⟩ := legal_step hwf hl hml
    obtain ⟨child, st1, hc, htt1, hto, v, hv⟩ :=
      hd ns beta.neg acc.alpha.neg (-color) st hwfn htt
    unfold abLoop
    simp only [hns, hc, hto, Bool.false_eq_true, if_false]
    have hacc1 : accSet
        (if acc.bestScore.lt child.score.neg = true then
          { acc with bestScore := child.score.neg, bestMove := some m } else acc) := by
      by_cases hlt : acc.bestScore.lt child.score.neg = true
      · rw [if_pos hlt]
        exact ⟨-v, m, by rw [hv]; rfl, rfl⟩
      · rw [if_neg hlt]
        rcases hacc with hacc | ⟨hneg, -⟩
        · exact hacc
        · exfalso
          apply hlt
          rw [hneg, hv]
          rfl
    generalize (if acc.bestScore.lt child.score.neg = true then
          ({ acc with bestScore := child.score.neg, bestMove := some m } : LoopAcc)
        else acc) = acc1 at hacc1 ⊢
    have hacc2 : accSet
        (if acc1.alpha.lt child.score.neg = true then
          { acc1 with alpha := child.score.neg } else acc1) := by
      split
      · exact hacc1
      · exact hacc1
    generalize (if acc1.alpha.lt child.score.neg = true then
          ({ acc1 with alpha := child.score.neg } : LoopAcc) else acc1) = acc2 at hacc2 ⊢
    by_cases hcut : beta.le acc2.alpha = true
    · simp only [hcut, if_true]
      exact ⟨_, _, rfl, htt1, hacc2⟩
    · simp only [hcut, if_false]
      exact ih (fun m hm2 => hm m (by simp [hm2])) acc2 (Or.inl hacc2) st1 htt1

/-- A result returned at once by `ttProbe` is the stored score and move. -/
theorem ttProbe_some_eq {entry : Option Entry} {depth : Nat} {alpha beta : Score}
    {r : SearchResult} {a b : Score} (h : ttProbe entry depth alpha beta = (some r, a, b)) :
    ∃ e, entry = some e ∧ r = ⟨false, e.score, e.best⟩ := by
  cases entry with
  | none => simp [ttProbe] at h
  | some e =>
    refine ⟨e, rfl, ?_⟩
    simp only [ttProbe] at h
    by_cases hd : e.depth ≥ depth
    · rw [if_pos hd] at h
      by_cases hf : e.flag = .EXACT
      · rw [if_pos hf] at h
        cases h
        rfl
      · rw [if_neg hf] at h
        by_cases hc : (if e.flag = Flag.LOWER ∧ alpha.lt e.score = true then beta
            else if e.flag = Flag.UPPER ∧ e.score.lt beta = true then e.score else beta).le
            (if e.flag = Flag.LOWER ∧ alpha.lt e.score = true then e.score else alpha) = true
        · rw [if_pos hc] at h
          cases h
          rfl
        · rw [if_neg hc] at h
          cases h
    · rw [if_neg hd] at h
      cases h

/-- The enumeration of a well-formed state, in any order, is not empty. -/
theorem ordered_ne_nil {s : GameState} (hwf : s.board.WF) {l moves : List Move}
    (hl : allLegalMoves s s.turn = .ok l) (hperm : moves.Perm l) : moves ≠ [] := by
  obtain ⟨l2, m, hl2, -, hmem⟩ := allLegalMoves_head hwf s.turn
  rw [hl] at hl2
  injection hl2 with hl2
  intro h
  rw [h] at hperm
  rw [← hl2, ← hperm.nil_eq] at hmem
  cases hmem

/-- The search of the moves in `abSearch` when the table gives no result at
once: the result and the entry stored. -/
theorem abSearch_run (depth : Nat) {deeper : Searcher} (hd : SearcherFin deeper)
    {s : GameState} (hwf : s.board.WF) {k : String} (hk : keyOfState s = .ok k)
    (alpha beta : Score) (color : Int) (st : SearchState) (htt : TTFin st.tt)
    {alpha1 beta1 : Score}
    (hprobe : ttProbe (ttGet st.tt k) depth alpha beta = (none, alpha1, beta1)) :
    ∃ (v : Int) (b : Move) (st1 : SearchState), abSearch depth deeper s alpha beta color st
        = .ok (⟨false, .fin v, some b⟩,
            ⟨ttSet st1.tt k ⟨depth, .fin v, boundFlag (.fin v) alpha1 beta1, some b⟩,
              st1.tick⟩)
      ∧ TTFin st1.tt := by
  have hl := allLegalMoves_ok hwf s.turn
  obtain ⟨moves, hmoves, hperm⟩ := orderMoves_perm hwf
    ((ttGet st.tt k).bind (fun e => e.best)) _
    (fun m hm => inRange_of_mem_allLegalMoves hwf hl hm)
  obtain ⟨acc, st1, hres, htt1, v, b, hv, hb⟩ := abLoop_fin hd hwf hl beta1 color moves
    (fun m hm => hperm.subset hm) ⟨alpha1, .negInf, none⟩
    (Or.inr ⟨rfl, ordered_ne_nil hwf hl hperm⟩) st htt
  refine ⟨v, b, st1, ?_, htt1⟩
  unfold abSearch
  simp only [hk, hprobe, hl, hmoves, hres, hv, hb]

/-- The recursive case of `alphabeta` returns a finite score when its
recursive call does. -/
theorem abSearch_fin (depth : Nat) {deeper : Searcher} (hd : SearcherFin deeper) :
    SearcherFin (abSearch depth deeper) := by
  intro s alpha beta color st hwf htt
  obtain ⟨k, hk, -⟩ := keyOfState_ok hwf
  rcases hprobe : ttProbe (ttGet st.tt k) depth alpha beta with ⟨r, alpha1, beta1⟩
  cases r with
  | some r =>
    obtain ⟨e, he, hr⟩ := ttProbe_some_eq hprobe
    refine ⟨r, st, ?_, htt, ?_, ?_⟩
    · unfold abSearch
      simp only [hk, hprobe]
    · rw [hr]
    · rw [hr]
      exact htt k e he
  | none =>
    obtain ⟨v, b, st1, h, htt1⟩ := abSearch_run depth hd hwf hk alpha beta color st htt hprobe
    exact ⟨_, _, h, TTFin_set htt1 k ⟨v, rfl⟩, rfl, v, rfl⟩

/-- The base case of `alphabeta` before the deadline returns a finite score. -/
theorem abBase_fin (now : Nat → Int) (ai : Player) (cfg : Config) (deadlineMs : Int)
    (hclock : ∀ n, ¬ now n > deadlineMs) (depth : Nat) :
    SearcherFin (abBase now ai cfg deadlineMs depth) := by
  intro s alpha beta color st hwf htt
  unfold abBase
  split
  · exact qSearch_fin now ai cfg deadlineMs hclock cfg.qDepth s alpha beta color st hwf htt
  · obtain ⟨ev, hev⟩ := evaluate_total hwf ai cfg
    simp only [hev]
    exact ⟨_, _, rfl, htt, rfl, _, rfl⟩

/-- Before the deadline `alphabeta` returns a finite score at every depth. -/
theorem alphabeta_fin (now : Nat → Int) (ai : Player) (cfg : Config) (deadlineMs : Int)
    (hclock : ∀ n, ¬ now n > deadlineMs) (d : Nat) :
    SearcherFin (alphabeta now ai cfg deadlineMs d) := by
  induction d with
  | zero =>
    intro s alpha beta color st hwf htt
    obtain ⟨t, ht⟩ := isTerminal_total hwf
    unfold alphabeta
    simp only [ht, hclock, if_false]
    exact abBase_fin now ai cfg deadlineMs hclock 0 s alpha beta color _ hwf htt
  | succ k ih =>
    intro s alpha beta color st hwf htt
    obtain ⟨t, ht⟩ := isTerminal_total hwf
    unfold alphabeta
    simp only [ht, hclock, if_false]
    split
    · exact abBase_fin now ai cfg deadlineMs hclock (k + 1) s alpha beta color _ hwf htt
    · exact abSearch_fin (k + 1) ih s alpha beta color _ hwf htt

/-- Without aspiration every depth is searched with the full window. -/
theorem rootWindow_full {cfg : Config} (hasp : cfg.useAspiration = false) (d : Nat)
    (bestScore : Score) (window : Int) :
    rootWindow cfg d bestScore window = (.negInf, .posInf) := by
  unfold rootWindow
  cases bestScore <;> simp [hasp]

/-- The search of a non-terminal root with the full window, before the
deadline, when the table holds no entry of the root at this depth or deeper:
a move is returned with a finite score and stored as an exact entry. -/
theorem alphabeta_root_miss (now : Nat → Int) (ai : Player) (cfg : Config) (deadline : Int)
    (hclock : ∀ n, ¬ now n > deadline) (n : Nat) {s : GameState} (hwf : s.board.WF)
    {t : TerminalInfo} (ht : isTerminal s = .ok t) (hnt : t.done = false) {k : String}
    (hk : keyOfState s = .ok k) (color : Int) (st : SearchState) (htt : TTFin st.tt)
    (hmiss : ∀ e, ttGet st.tt k = some e → e.depth < n + 1) :
    ∃ (v : Int) (b : Move) (st2 : SearchState),
      alphabeta now ai cfg deadline (n + 1) s .negInf .posInf color st
        = .ok (⟨false, .fin v, some b⟩, st2)
      ∧ ttGet st2.tt k = some ⟨n + 1, .fin v, .EXACT, some b⟩ ∧ TTFin st2.tt := by
  have hprobe : ttProbe (ttGet st.tt k) (n + 1) .negInf .posInf = (none, .negInf, .posInf) := by
    cases h : ttGet st.tt k with
    | none => rfl
    | some e =>
      have := hmiss e h
      simp only [ttProbe]
      rw [if_neg (by omega)]
  obtain ⟨v, b, st1, h, htt1⟩ := abSearch_run (n + 1) (alphabeta_fin now ai cfg deadline hclock n)
    hwf hk .negInf .posInf color { st with tick := st.tick + 1 } htt hprobe
  have hflag : boundFlag (.fin v) .negInf .posInf = .EXACT := by
    simp [boundFlag, Score.le, Score.lt]
  rw [hflag] at h
  refine ⟨v, b, ⟨ttSet st1.tt k ⟨n + 1, .fin v, .EXACT, some b⟩, st1.tick⟩, ?_, ?_,
    TTFin_set htt1 k ⟨v, rfl⟩⟩
  · rw [alphabeta]
    simp only [hclock, if_false, ht, hnt, Bool.false_eq_true]
    exact h
  · simp [ttSet, ttGet]

/-- The search of a non-terminal root before the deadline when the table
holds an exact entry of the root at this depth or deeper: the stored score and
move are returned and the table is unchanged. -/
theorem alphabeta_root_hit (now : Nat → Int) (ai : Player) (cfg : Config) (deadline : Int)
    (hclock : ∀ n, ¬ now n > deadline) (n : Nat) {s : GameState}
    {t : TerminalInfo} (ht : isTerminal s = .ok t) (hnt : t.done = false) {k : String}
    (hk : keyOfState s = .ok k) (alpha beta : Score) (color : Int) (st : SearchState)
    {e : Entry} (he : ttGet st.tt k = some e) (hdep : n + 1 ≤ e.depth)
    (hflag : e.flag = .EXACT) :
    alphabeta now ai cfg deadline (n + 1) s alpha beta color st
      = .ok (⟨false, e.score, e.best⟩, { st with tick := st.tick + 1 }) := by
  rw [alphabeta]
  simp only [hclock, if_false, ht, hnt, Bool.false_eq_true]
  unfold abSearch
  simp only [hk, he, ttProbe, ge_iff_le, hdep, if_true, hflag]

/-- The search of a terminal root at a depth above 0, before the deadline:
the signed win magnitude without a move. -/
theorem alphabeta_root_done (now : Nat → Int) (ai : Player) (cfg : Config) (deadline : Int)
    (hclock : ∀ n, ¬ now n > deadline) (n : Nat) {s : GameState}
    {t : TerminalInfo} (ht : isTerminal s = .ok t) (hdone : t.done = true)
    (alpha beta : Score) (color : Int) (st : SearchState) :
    alphabeta now ai cfg deadline (n + 1) s alpha beta color st
      = .ok (⟨false, .fin (color * (if t.winner = some ai then 1000000000 else -1000000000)),
          none⟩, { st with tick := st.tick + 1 }) := by
  rw [alphabeta]
  simp only [hclock, if_false, ht, hdone, if_true]
  unfold abBase
  simp only [Nat.succ_ne_zero, and_false, if_false, evaluate_done ht hdone ai cfg]

/-- The deepening loop on a terminal root, without aspiration and without
timeout, stops after one depth and ends without a recorded move. -/
theorem chooseLoop_done (now : Nat → Int) {s : GameState} (opts : Opts)
    (hasp : opts.cfg.useAspiration = false) (deadline : Int)
    (hclock : ∀ n, ¬ now n > deadline) {t : TerminalInfo} (ht : isTerminal s = .ok t)
    (hdone : t.done = true) (window : Int) (remaining n : Nat)
    (best : Option Move) (bestScore : Score) (st : SearchState) :
    chooseLoop now s opts deadline (if s.turn = opts.pov then 1 else -1) window (remaining + 1)
        (n + 1) best bestScore st
      = chooseFinish s none { st with tick := st.tick + 1 } := by
  rw [chooseLoop]
  simp only [rootWindow_full hasp,
    alphabeta_root_done now opts.pov opts.cfg deadline hclock n ht hdone, hasp,
    Bool.false_eq_true, if_false, false_and]
  have hab : (Score.fin ((if s.turn = opts.pov then (1 : Int) else -1)
      * (if t.winner = some opts.pov then 1000000000 else -1000000000))).absAbove 500000000
      = true := by
    by_cases h1 : s.turn = opts.pov <;> by_cases h2 : t.winner = some opts.pov <;>
      simp [h1, h2, Score.absAbove]
  simp only [hab, if_true]

/-- The deepening loop of the first call on a non-terminal root, without
aspiration and without timeout: it returns a move that the table holds as the
exact entry of the root, stored at the last depth searched. -/
theorem chooseLoop_first (now : Nat → Int) {s : GameState} (hwf : s.board.WF) (opts : Opts)
    (hasp : opts.cfg.useAspiration = false) (deadline : Int)
    (hclock : ∀ n, ¬ now n > deadline) {t : TerminalInfo} (ht : isTerminal s = .ok t)
    (hnt : t.done = false) {k : String} (hk : keyOfState s = .ok k) (rootColor window : Int)
    (remaining n : Nat) (best : Option Move) (bestScore : Score) (st : SearchState)
    (htt : TTFin st.tt) (hmiss : ∀ e, ttGet st.tt k = some e → e.depth < n + 1) :
    ∃ (b : Move) (v : Int) (dF : Nat) (st2 : SearchState),
      chooseLoop now s opts deadline rootColor window (remaining + 1) (n + 1) best bestScore st
        = .ok (some b, st2)
      ∧ ttGet st2.tt k = some ⟨dF, .fin v, .EXACT, some b⟩ ∧ 1 ≤ dF
      ∧ ((Score.fin v).absAbove 500000000 = true ∨ dF = n + 1 + remaining) := by
  induction remaining generalizing n best bestScore st with
  | zero =>
    obtain ⟨v, b, st2, h, hget, -⟩ := alphabeta_root_miss now opts.pov opts.cfg deadline hclock
      n hwf ht hnt hk rootColor st htt hmiss
    refine ⟨b, v, n + 1, st2, ?_, hget, by omega, Or.inr rfl⟩
    rw [chooseLoop]
    simp only [rootWindow_full hasp, h, hasp, Bool.false_eq_true, if_false, false_and]
    by_cases hab : (Score.fin v).absAbove 500000000 = true
    · simp only [hab, if_true]
      rfl
    · simp only [hab, if_false]
      rw [chooseLoop]
      rfl
  | succ r ih =>
    obtain ⟨v, b, st2, h, hget, htt2⟩ := alphabeta_root_miss now opts.pov opts.cfg deadline
      hclock n hwf ht hnt hk rootColor st htt hmiss
    by_cases hab : (Score.fin v).absAbove 500000000 = true
    · refine ⟨b, v, n + 1, st2, ?_, hget, by omega, Or.inl hab⟩
      rw [chooseLoop]
      simp only [rootWindow_full hasp, h, hasp, Bool.false_eq_true, if_false, false_and, hab,
        if_true]
      rfl
    · obtain ⟨b2, v2, dF, st3, h3, hget3, hd3, hr3⟩ := ih (n + 1) (some b) (.fin v) st2 htt2
        (by
          intro e he
          rw [hget] at he
          injection he with he
          rw [← he]
          exact Nat.lt_succ_self _)
      refine ⟨b2, v2, dF, st3, ?_, hget3, hd3, ?_⟩
      · rw [chooseLoop]
        simp only [rootWindow_full hasp, h, hasp, Bool.false_eq_true, if_false, false_and, hab]
        exact h3
      · rcases hr3 with hr3 | hr3
        · exact Or.inl hr3
        · exact Or.inr (by omega)

/-- The deepening loop of a later call on a non-terminal root whose exact
entry is in the table, without timeout: every depth up to the stored one
returns the stored move. -/
theorem chooseLoop_second (now : Nat → Int) {s : GameState} (opts : Opts)
    (hasp : opts.cfg.useAspiration = false) (deadline : Int)
    (hclock : ∀ n, ¬ now n > deadline) {t : TerminalInfo} (ht : isTerminal s = .ok t)
    (hnt : t.done = false) {k : String} (hk : keyOfState s = .ok k) (rootColor window : Int)
    {e : Entry} (hflag : e.flag = .EXACT) {b : Move} (hb : e.best = some b)
    (remaining n : Nat) (best : Option Move) (bestScore : Score) (st : SearchState)
    (he : ttGet st.tt k = some e) (hdep : n + 1 ≤ e.depth)
    (hrange : e.score.absAbove 500000000 = true ∨ n + 1 + remaining ≤ e.depth) :
    ∃ st2, chooseLoop now s opts deadline rootColor window (remaining + 1) (n + 1) best
        bestScore st = .ok (some b, st2) := by
  induction remaining generalizing n best bestScore st with
  | zero =>
    rw [chooseLoop]
    simp only [alphabeta_root_hit now opts.pov opts.cfg deadline hclock n ht hnt hk _ _
      rootColor st he hdep hflag, hasp, Bool.false_eq_true, if_false, false_and, hb]
    by_cases hab : e.score.absAbove 500000000 = true
    · simp only [hab, if_true]
      exact ⟨_, rfl⟩
    · simp only [hab, if_false]
      rw [chooseLoop]
      exact ⟨_, rfl⟩
  | succ r ih =>
    rw [chooseLoop]
    simp only [alphabeta_root_hit now opts.pov opts.cfg deadline hclock n ht hnt hk _ _
      rootColor st he hdep hflag, hasp, Bool.false_eq_true, if_false, false_and, hb]
    by_cases hab : e.score.absAbove 500000000 = true
    · simp only [hab, if_true]
      exact ⟨_, rfl⟩
    · simp only [hab, if_false]
      rcases hrange with hrange | hrange
      · exact absurd hrange hab
      · exact ih (n + 1) (some b) e.score { st with tick := st.tick + 1 } he (by omega)
          (Or.inr (by omega))

/-- C17 (amended): on a state with a 5x5 board, for every depth limit, point
of view and configuration with `useAspiration` off, and a clock that never
passes a deadline, two `chooseMove` calls in a row on a fresh engine (the
second call seeing the table left by the first) return the same move. -/
theorem C17_repeated_calls_same_move (now : Nat → Int) (s : GameState) (opts : Opts)
    (tick : Nat) (hwf : s.board.WF) (hasp : opts.cfg.useAspiration = false)
    (hclock : ∀ n k, ¬ now n > now k + opts.timeMs) :
    ∃ m st2, twoCalls now s opts ⟨[], tick⟩ = .ok (some m, some m, st2) := by
  obtain ⟨t, ht⟩ := isTerminal_total hwf
  obtain ⟨k, hk, -⟩ := keyOfState_ok hwf
  obtain ⟨l, m0, hl, hhead, -⟩ := allLegalMoves_head hwf s.turn
  unfold twoCalls chooseMove
  cases hmax : opts.maxDepth with
  | zero =>
    refine ⟨m0, ?_⟩
    constructor
    simp only [chooseLoop, chooseFinish, hl, hhead]
    rfl
  | succ r =>
    by_cases hdone : t.done = true
    · refine ⟨m0, ?_⟩
      constructor
      simp only [chooseLoop_done now opts hasp _ (fun n => hclock n _) ht hdone, chooseFinish,
        hl, hhead]
      rfl
    · have hnt : t.done = false := by
        cases h : t.done
        · rfl
        · exact absurd h hdone
      obtain ⟨b, v, dF, st1, h1, hget, hd1, hr1⟩ := chooseLoop_first now hwf opts hasp
        (now tick + opts.timeMs) (fun n => hclock n tick) ht hnt hk
        (if s.turn = opts.pov then 1 else -1) (opts.cfg.aspirationWindow.getD 120) r 0 none
        .negInf ⟨[], tick + 1⟩ TTFin_nil (fun e he => by cases he)
      obtain ⟨st2, h2⟩ := chooseLoop_second now opts hasp (now st1.tick + opts.timeMs)
        (fun n => hclock n st1.tick) ht hnt hk (if s.turn = opts.pov then 1 else -1)
        (opts.cfg.aspirationWindow.getD 120) rfl rfl r 0 none .negInf
        { st1 with tick := st1.tick + 1 } hget hd1
        (by
          rcases hr1 with hr1 | hr1
          · exact Or.inl hr1
          · exact Or.inr (by simp only []; omega))
      refine ⟨b, st2, ?_⟩
      simp only [h1, h2]

/-- C17 (amended) at `sparseState`, depth 3 with quiescence depth 1 and a
constant clock. -/
theorem C17_witness :
    ∃ m st2, twoCalls (fun _ => 0) sparseState ⟨3, 1000, 1, plainConfig 1⟩ ⟨[], 0⟩
      = .ok (some m, some m, st2) :=
  C17_repeated_calls_same_move (fun _ => 0) sparseState ⟨3, 1000, 1, plainConfig 1⟩ 0
    (by decide) rfl (by simp)

/-- C17 fails as stated: with the aspiration window on (default width 120),
quiescence depth 1, depth limit 3 and a constant clock, the first call on a
fresh engine returns the Boar step (4,3)->(3,3) and the second call, which
starts from the table left by the first, returns the Crab step (0,1)->(0,2). -/
theorem C17_counterexample :
    sparseState.board.WF
    ∧ (twoCalls (fun _ => 0) sparseState ⟨3, 1000, 1, aspirationConfig⟩ ⟨[], 0⟩).map
        (fun r => (r.1, r.2.1))
      = .ok (some (.place ⟨4, 3⟩ ⟨3, 3⟩ .Boar), some (.place ⟨0, 1⟩ ⟨0, 2⟩ .Crab)) :=
  ⟨by decide, by decide!⟩

/-! ## Heap model of move application -/

theorem Frame.frame_refl (n : Nat) (h : Heap) : Frame n h h :=
  ⟨Nat.le_refl _, fun _ _ => rfl⟩

theorem Frame.frame_trans {n : Nat} {h1 h2 h3 : Heap} (h12 : Frame n h1 h2) (h23 : Frame n h2 h3) :
    Frame n h1 h3 :=
  ⟨Nat.le_trans h12.1 h23.1, fun a ha => (h23.2 a ha).trans (h12.2 a ha)⟩

/-- Allocation keeps the objects below `n` and the closure from `n` on. -/
theorem alloc_ok {n : Nat} {h : Heap} (hn : n ≤ h.length) (hc : Closed n h) (o : HeapObj)
    (ho : ∀ b ∈ o.refs, n ≤ b) : Frame n h (h ++ [o]) ∧ Closed n (h ++ [o]) := by
  refine ⟨⟨by simp, ?_⟩, ?_⟩
  · intro a ha
    simp [List.getElem?_append_left (Nat.lt_of_lt_of_le ha hn)]
  · intro a o2 hna hget b hb
    by_cases hlt : a < h.length
    · rw [List.get?_eq_getElem?, List.getElem?_append_left hlt, ← List.get?_eq_getElem?] at hget
      exact hc a o2 hna hget b hb
    · have hle : h.length ≤ a := Nat.le_of_not_lt hlt
      rw [List.get?_eq_getElem?, List.getElem?_append_right hle] at hget
      have h0 : a - h.length = 0 := by
        by_contra hne
        have hnone : [o][a - h.length]? = none := by
          apply List.getElem?_eq_none
          simp
          omega
        rw [hnone] at hget
        cases hget
      rw [h0] at hget
      have : o2 = o := by simpa using hget.symm
      rw [this] at hb
      exact ho b hb

/-- A write at an address from `n` on of an object with references from `n`
on keeps the objects below `n` and the closure from `n` on. -/
theorem set_ok {n : Nat} {h : Heap} (hc : Closed n h) {a : Nat} (ha : n ≤ a) (o : HeapObj)
    (ho : ∀ b ∈ o.refs, n ≤ b) : Frame n h (h.set a o) ∧ Closed n (h.set a o) := by
  refine ⟨⟨by simp, ?_⟩, ?_⟩
  · intro b hb
    have hne : a ≠ b := by omega
    simp [List.getElem?_set_ne hne]
  · intro b o2 hnb hget c hcm
    rw [List.get?_eq_getElem?, List.getElem?_set] at hget
    by_cases hab : a = b
    · rw [if_pos hab] at hget
      by_cases hlt : a < h.length
      · rw [if_pos hlt] at hget
        injection hget with hget
        rw [← hget] at hcm
        exact ho c hcm
      · rw [if_neg hlt] at hget
        cases hget
    · rw [if_neg hab, ← List.get?_eq_getElem?] at hget
      exact hc b o2 hnb hget c hcm

/-- The copy of a cell allocates above `n`. -/
theorem copyCell_ok {n : Nat} {h h1 : Heap} (hn : n ≤ h.length) (hc : Closed n h)
    {c c1 : Option Nat} (hcopy : copyCell h c = .ok (c1, h1)) :
    Frame n h h1 ∧ Closed n h1 ∧ ∀ a, c1 = some a → n ≤ a := by
  unfold copyCell at hcopy
  cases c with
  | none =>
    simp only at hcopy
    injection hcopy with hcopy
    injection hcopy with e1 e2
    subst e1
    subst e2
    exact ⟨Frame.frame_refl n h, hc, fun a ha => by cases ha⟩
  | some a =>
    simp only at hcopy
    split at hcopy
    · injection hcopy with hcopy
      injection hcopy with e1 e2
      subst e1
      subst e2
      obtain ⟨hf, hc1⟩ := alloc_ok hn hc (.piece _) (fun b hb => by cases hb)
      refine ⟨hf, hc1, ?_⟩
      intro b hb
      injection hb with hb
      omega
    · cases hcopy

/-- The copies of the cells of a row allocate above `n`. -/
theorem copyCells_ok {n : Nat} (cells : List (Option Nat)) {h h1 : Heap} (hn : n ≤ h.length)
    (hc : Closed n h) {cs : List (Option Nat)} (hcopy : copyCells h cells = .ok (cs, h1)) :
    Frame n h h1 ∧ Closed n h1 ∧ ∀ a, some a ∈ cs → n ≤ a := by
  induction cells generalizing h cs with
  | nil =>
    unfold copyCells at hcopy
    injection hcopy with hcopy
    injection hcopy with e1 e2
    subst e1
    subst e2
    exact ⟨Frame.frame_refl n h, hc, fun a ha => by cases ha⟩
  | cons c rest ih =>
    unfold copyCells at hcopy
    cases hcell : copyCell h c with
    | error e =>
      rw [hcell] at hcopy
      cases hcopy
    | ok r =>
      obtain ⟨c1, h2⟩ := r
      rw [hcell] at hcopy
      simp only at hcopy
      obtain ⟨hf1, hc1, hfr1⟩ := copyCell_ok hn hc hcell
      cases hrest : copyCells h2 rest with
      | error e =>
        rw [hrest] at hcopy
        cases hcopy
      | ok r2 =>
        obtain ⟨cs2, h3⟩ := r2
        rw [hrest] at hcopy
        simp only at hcopy
        injection hcopy with hcopy
        injection hcopy with e1 e2
        subst e1
        subst e2
        obtain ⟨hf2, hc2, hfr2⟩ := ih (Nat.le_trans hn hf1.1) hc1 hrest
        refine ⟨hf1.frame_trans hf2, hc2, ?_⟩
        intro a ha
        rcases List.mem_cons.1 ha with ha | ha
        · exact hfr1 a ha.symm
        · exact hfr2 a ha

/-- The references held by a row are its non-null cells. -/
theorem mem_row_refs {cells : List (Option Nat)} {b : Nat} :
    b ∈ (HeapObj.row cells).refs ↔ some b ∈ cells := by
  unfold HeapObj.refs
  simp [List.mem_filterMap]

/-- The copy of a row allocates above `n`. -/
theorem copyRow_ok {n : Nat} {h h1 : Heap} (hn : n ≤ h.length) (hc : Closed n h)
    {a r : Nat} (hcopy : copyRow h a = .ok (r, h1)) :
    Frame n h h1 ∧ Closed n h1 ∧ n ≤ r := by
  unfold copyRow at hcopy
  split at hcopy
  · rename_i cells hget
    cases hcells : copyCells h cells with
    | error e =>
      rw [hcells] at hcopy
      cases hcopy
    | ok r2 =>
      obtain ⟨cs, h2⟩ := r2
      rw [hcells] at hcopy
      simp only at hcopy
      injection hcopy with hcopy
      injection hcopy with e1 e2
      subst e1
      subst e2
      obtain ⟨hf1, hc1, hfr1⟩ := copyCells_ok cells hn hc hcells
      obtain ⟨hf2, hc2⟩ := alloc_ok (Nat.le_trans hn hf1.1) hc1 (.row cs)
        (fun b hb => hfr1 b (mem_row_refs.1 hb))
      exact ⟨hf1.frame_trans hf2, hc2, Nat.le_trans hn hf1.1⟩
  · cases hcopy

/-- The copies of the rows of a board allocate above `n`. -/
theorem copyRows_ok {n : Nat} (rows : List Nat) {h h1 : Heap} (hn : n ≤ h.length)
    (hc : Closed n h) {rs : List Nat} (hcopy : copyRows h rows = .ok (rs, h1)) :
    Frame n h h1 ∧ Closed n h1 ∧ ∀ a ∈ rs, n ≤ a := by
  induction rows generalizing h rs with
  | nil =>
    unfold copyRows at hcopy
    injection hcopy with hcopy
    injection hcopy with e1 e2
    subst e1
    subst e2
    exact ⟨Frame.frame_refl n h, hc, fun a ha => by cases ha⟩
  | cons c rest ih =>
    unfold copyRows at hcopy
    cases hrow : copyRow h c with
    | error e =>
      rw [hrow] at hcopy
      cases hcopy
    | ok r =>
      obtain ⟨c1, h2⟩ := r
      rw [hrow] at hcopy
      simp only at hcopy
      obtain ⟨hf1, hc1, hfr1⟩ := copyRow_ok hn hc hrow
      cases hrest : copyRows h2 rest with
      | error e =>
        rw [hrest] at hcopy
        cases hcopy
      | ok r2 =>
        obtain ⟨cs2, h3⟩ := r2
        rw [hrest] at hcopy
        simp only at hcopy
        injection hcopy with hcopy
        injection hcopy with e1 e2
        subst e1
        subst e2
        obtain ⟨hf2, hc2, hfr2⟩ := ih (Nat.le_trans hn hf1.1) hc1 hrest
        refine ⟨hf1.frame_trans hf2, hc2, ?_⟩
        intro a ha
        rcases List.mem_cons.1 ha with ha | ha
        · rw [ha]
          exact hfr1
        · exact hfr2 a ha

/-- The copy of the array of rows allocates above `n`. -/
theorem copyBoard_ok {n : Nat} {h h1 : Heap} (hn : n ≤ h.length) (hc : Closed n h)
    {a r : Nat} (hcopy : copyBoard h a = .ok (r, h1)) :
    Frame n h h1 ∧ Closed n h1 ∧ n ≤ r := by
  unfold copyBoard at hcopy
  split at hcopy
  · rename_i rows hget
    cases hrows : copyRows h rows with
    | error e =>
      rw [hrows] at hcopy
      cases hcopy
    | ok r2 =>
      obtain ⟨rs, h2⟩ := r2
      rw [hrows] at hcopy
      simp only at hcopy
      injection hcopy with hcopy
      injection hcopy with e1 e2
      subst e1
      subst e2
      obtain ⟨hf1, hc1, hfr1⟩ := copyRows_ok rows hn hc hrows
      obtain ⟨hf2, hc2⟩ := alloc_ok (Nat.le_trans hn hf1.1) hc1 (.board rs)
        (fun b hb => hfr1 b hb)
      exact ⟨hf1.frame_trans hf2, hc2, Nat.le_trans hn hf1.1⟩
  · cases hcopy

/-- The copy of a hand array allocates above `n`. -/
theorem copyHand_ok {n : Nat} {h h1 : Heap} (hn : n ≤ h.length) (hc : Closed n h)
    {a r : Nat} (hcopy : copyHand h a = .ok (r, h1)) :
    Frame n h h1 ∧ Closed n h1 ∧ n ≤ r := by
  unfold copyHand at hcopy
  split at hcopy
  · injection hcopy with hcopy
    injection hcopy with e1 e2
    subst e1
    subst e2
    obtain ⟨hf, hc1⟩ := alloc_ok hn hc (.hand _) (fun b hb => by cases hb)
    exact ⟨hf, hc1, hn⟩
  · cases hcopy

/-- The copy of the array `hands` allocates above `n`. -/
theorem copyHands_ok {n : Nat} {h h1 : Heap} (hn : n ≤ h.length) (hc : Closed n h)
    {a r : Nat} (hcopy : copyHands h a = .ok (r, h1)) :
    Frame n h h1 ∧ Closed n h1 ∧ n ≤ r := by
  unfold copyHands at hcopy
  split at hcopy
  · rename_i a0 a1 hget
    cases h0 : copyHand h a0 with
    | error e =>
      rw [h0] at hcopy
      cases hcopy
    | ok r0 =>
      obtain ⟨b0, h2⟩ := r0
      rw [h0] at hcopy
      simp only at hcopy
      obtain ⟨hf1, hc1, hb0⟩ := copyHand_ok hn hc h0
      cases h1e : copyHand h2 a1 with
      | error e =>
        rw [h1e] at hcopy
        cases hcopy
      | ok r1 =>
        obtain ⟨b1, h3⟩ := r1
        rw [h1e] at hcopy
        simp only at hcopy
        injection hcopy with hcopy
        injection hcopy with e1 e2
        subst e1
        subst e2
        have hn2 := Nat.le_trans hn hf1.1
        obtain ⟨hf2, hc2, hb1⟩ := copyHand_ok hn2 hc1 h1e
        obtain ⟨hf3, hc3⟩ := alloc_ok (Nat.le_trans hn2 hf2.1) hc2 (.hands b0 b1)
          (fun b hb => by
            simp only [HeapObj.refs, List.mem_cons, List.mem_singleton, List.not_mem_nil,
              or_false] at hb
            rcases hb with hb | hb
            · rw [hb]; exact hb0
            · rw [hb]; exact hb1)
        exact ⟨(hf1.frame_trans hf2).frame_trans hf3, hc3, Nat.le_trans hn2 hf2.1⟩
  · cases hcopy

/-- The copy made by `deepCopy` is allocated above `n`: the objects below `n`
are kept and the copy holds only references to new objects. -/
theorem deepCopyHeap_ok {n : Nat} {h h1 : Heap} (hn : n ≤ h.length) (hc : Closed n h)
    {s ns : Nat} (hcopy : deepCopyHeap h s = .ok (ns, h1)) :
    Frame n h h1 ∧ Closed n h1 ∧ n ≤ ns := by
  unfold deepCopyHeap at hcopy
  split at hcopy
  · rename_i b hs mid turn ply hget
    cases hb : copyBoard h b with
    | error e =>
      rw [hb] at hcopy
      cases hcopy
    | ok r0 =>
      obtain ⟨b1, h2⟩ := r0
      rw [hb] at hcopy
      simp only at hcopy
      obtain ⟨hf1, hc1, hb1⟩ := copyBoard_ok hn hc hb
      cases hh : copyHands h2 hs with
      | error e =>
        rw [hh] at hcopy
        cases hcopy
      | ok r1 =>
        obtain ⟨hs1, h3⟩ := r1
        rw [hh] at hcopy
        simp only at hcopy
        injection hcopy with hcopy
        injection hcopy with e1 e2
        subst e1
        subst e2
        have hn2 := Nat.le_trans hn hf1.1
        obtain ⟨hf2, hc2, hhs1⟩ := copyHands_ok hn2 hc1 hh
        obtain ⟨hf3, hc3⟩ := alloc_ok (Nat.le_trans hn2 hf2.1) hc2
          (.state b1 hs1 mid turn ply)
          (fun b hb => by
            simp only [HeapObj.refs, List.mem_cons, List.mem_singleton, List.not_mem_nil,
              or_false] at hb
            rcases hb with hb | hb
            · rw [hb]; exact hb1
            · rw [hb]; exact hhs1)
        exact ⟨(hf1.frame_trans hf2).frame_trans hf3, hc3, Nat.le_trans hn2 hf2.1⟩
  · cases hcopy

/-- A non-null cell of a row after `row[x] = v` was there before or is `v`. -/
theorem mem_jsAssignRef {row : List (Option Nat)} {x : Int} {v : Option Nat} {b : Nat}
    (h : some b ∈ jsAssignRef row x v) : some b ∈ row ∨ v = some b := by
  unfold jsAssignRef at h
  split at h
  · exact Or.inl h
  · split at h
    · rcases List.mem_or_eq_of_mem_set h with h | h
      · exact Or.inl h
      · exact Or.inr h.symm
    · split at h
      · simp only [List.mem_append, List.mem_replicate, List.mem_singleton] at h
        rcases h with (h | h) | h
        · exact Or.inl h
        · cases h.2
        · exact Or.inr h.symm
      · exact Or.inl h

/-- A cell read through a board above `n` is null or a reference above `n`. -/
theorem readCellHeap_fresh {n : Nat} {h : Heap} (hc : Closed n h) {board : Nat}
    (hb : n ≤ board) {x y : Int} {p : Nat} (hread : readCellHeap h board x y = .ok (some p)) :
    n ≤ p := by
  unfold readCellHeap at hread
  split at hread
  · rename_i rows hget
    split at hread
    · cases hread
    · rename_i r hr
      have hrn : n ≤ r := hc board _ hb hget r (jsIndex_mem hr).1
      split at hread
      · rename_i cells hgetr
        injection hread with hread
        cases hcell : jsIndex cells x with
        | none =>
          rw [hcell] at hread
          cases hread
        | some c =>
          rw [hcell] at hread
          have hc2 : c = some p := hread
          rw [hc2] at hcell
          exact hc r _ hrn hgetr p (mem_row_refs.2 (jsIndex_mem hcell).1)
      · cases hread
  · cases hread

/-- A write through a board above `n` of null or of a reference above `n`
keeps the objects below `n` and the closure from `n` on. -/
theorem writeCellHeap_ok {n : Nat} {h h1 : Heap} (hc : Closed n h) {board : Nat}
    (hb : n ≤ board) {x y : Int} {v : Option Nat} (hv : ∀ a, v = some a → n ≤ a)
    (hwrite : writeCellHeap h board x y v = .ok h1) :
    Frame n h h1 ∧ Closed n h1 := by
  unfold writeCellHeap at hwrite
  split at hwrite
  · rename_i rows hget
    split at hwrite
    · cases hwrite
    · rename_i r hr
      have hrn : n ≤ r := hc board _ hb hget r (jsIndex_mem hr).1
      split at hwrite
      · rename_i cells hgetr
        injection hwrite with hwrite
        rw [← hwrite]
        apply set_ok hc hrn
        intro b hbm
        rcases mem_jsAssignRef (mem_row_refs.1 hbm) with hm | hm
        · exact hc r _ hrn hgetr b (mem_row_refs.2 hm)
        · exact hv b hm
      · cases hwrite
  · cases hwrite

/-- The two writes of `applyMove` through the board of a copy above `n`, of a
piece above `n`, keep the objects below `n` and the closure from `n` on. -/
theorem movePieceHeap_ok {n : Nat} {h : Heap} (hc : Closed n h) {board : Nat}
    (hb : n ≤ board) {piece : Nat} (hp : n ≤ piece) (src dst : Pos) :
    Frame n h (movePieceHeap h board src dst piece).1
      ∧ Closed n (movePieceHeap h board src dst piece).1 := by
  unfold movePieceHeap
  cases hw1 : writeCellHeap h board src.x src.y none with
  | error e => exact ⟨Frame.frame_refl n h, hc⟩
  | ok h1 =>
    obtain ⟨hf1, hc1⟩ := writeCellHeap_ok hc hb (fun a ha => by cases ha) hw1
    simp only
    cases hw2 : writeCellHeap h1 board dst.x dst.y (some piece) with
    | error e => exact ⟨hf1, hc1⟩
    | ok h2 =>
      obtain ⟨hf2, hc2⟩ := writeCellHeap_ok hc1 hb
        (fun a ha => by injection ha with ha; rw [← ha]; exact hp) hw2
      exact ⟨hf1.frame_trans hf2, hc2⟩

/-- The board part of `applyMove` through the board of a copy above `n` keeps
the objects below `n` and the closure from `n` on. -/
theorem applyMoveBoardHeap_ok {n : Nat} {h : Heap} (hc : Closed n h) {board : Nat}
    (hb : n ≤ board) (owner : Player) (move : Move) :
    Frame n h (applyMoveBoardHeap h board owner move).1
      ∧ Closed n (applyMoveBoardHeap h board owner move).1 := by
  unfold applyMoveBoardHeap
  cases move with
  | pass c => exact ⟨Frame.frame_refl n h, hc⟩
  | place src dst c =>
    simp only
    cases hsrc : readCellHeap h board src.x src.y with
    | error e => exact ⟨Frame.frame_refl n h, hc⟩
    | ok cell =>
      cases cell with
      | none => exact ⟨Frame.frame_refl n h, hc⟩
      | some piece =>
        have hp : n ≤ piece := readCellHeap_fresh hc hb hsrc
        simp only
        cases hown : ownerOf h piece with
        | error e => exact ⟨Frame.frame_refl n h, hc⟩
        | ok po =>
          simp only
          split
          · exact ⟨Frame.frame_refl n h, hc⟩
          · cases hdst : readCellHeap h board dst.x dst.y with
            | error e => exact ⟨Frame.frame_refl n h, hc⟩
            | ok target =>
              simp only
              cases htest : ownTarget h target owner with
              | error e => exact ⟨Frame.frame_refl n h, hc⟩
              | ok t =>
                cases t with
                | true => exact ⟨Frame.frame_refl n h, hc⟩
                | false => exact movePieceHeap_ok hc hb hp src dst

/-- The card part of `applyMove` on a copy above `n` keeps the objects below
`n` and the closure from `n` on, and returns null or the copy. -/
theorem applyMoveCardsHeap_ok {n : Nat} {h : Heap} (hc : Closed n h) {ns b hs : Nat}
    (hns : n ≤ ns) (hb : n ≤ b) (hhs : n ≤ hs) (mid : Card) (owner : Player) (ply : Nat)
    (used : Card) :
    Frame n h (applyMoveCardsHeap h ns b hs mid owner ply used).1
      ∧ Closed n (applyMoveCardsHeap h ns b hs mid owner ply used).1
      ∧ ∀ r, (applyMoveCardsHeap h ns b hs mid owner ply used).2 = .ok (some r) → r = ns := by
  have hstate : ∀ (m : Card) (t : Player) (p : Nat), ∀ x ∈ (HeapObj.state b hs m t p).refs,
      n ≤ x := by
    intro m t p x hx
    simp only [HeapObj.refs, List.mem_cons, List.mem_singleton, List.not_mem_nil,
      or_false] at hx
    rcases hx with hx | hx
    · rw [hx]; exact hb
    · rw [hx]; exact hhs
  unfold applyMoveCardsHeap
  split
  · rename_i a0 a1 hget
    have ha : n ≤ (if owner = 0 then a0 else a1) := by
      split
      · exact hc hs _ hhs hget a0 (by simp [HeapObj.refs])
      · exact hc hs _ hhs hget a1 (by simp [HeapObj.refs])
    simp only
    split
    · rename_i hd hgeth
      split
      · obtain ⟨hf1, hc1⟩ := set_ok hc ha (.hand { hd with c0 := mid })
          (fun x hx => by cases hx)
        obtain ⟨hf2, hc2⟩ := set_ok hc1 hns (.state b hs used (1 - owner) (ply + 1))
          (hstate _ _ _)
        refine ⟨hf1.frame_trans hf2, hc2, ?_⟩
        intro r hr
        injection hr with hr
        injection hr with hr
        exact hr.symm
      · split
        · obtain ⟨hf1, hc1⟩ := set_ok hc ha (.hand { hd with c1 := mid })
            (fun x hx => by cases hx)
          obtain ⟨hf2, hc2⟩ := set_ok hc1 hns (.state b hs used (1 - owner) (ply + 1))
            (hstate _ _ _)
          refine ⟨hf1.frame_trans hf2, hc2, ?_⟩
          intro r hr
          injection hr with hr
          injection hr with hr
          exact hr.symm
        · exact ⟨Frame.frame_refl n h, hc, fun r hr => by cases hr⟩
    · exact ⟨Frame.frame_refl n h, hc, fun r hr => by cases hr⟩
  · exact ⟨Frame.frame_refl n h, hc, fun r hr => by cases hr⟩

/-- No object lies above the end of the heap. -/
theorem Closed_length (h : Heap) : Closed h.length h := by
  intro a o ha hget
  have : h.get? a = none := by
    rw [List.get?_eq_getElem?]
    exact List.getElem?_eq_none ha
  rw [this] at hget
  cases hget

/-- From an object above `n` of a heap closed from `n` on, only objects above
`n` are reached. -/
theorem Reach_closed {n : Nat} {h : Heap} (hc : Closed n h) {a b : Nat} (ha : n ≤ a)
    (hr : Reach h a b) : n ≤ b := by
  induction hr with
  | here a => exact ha
  | step hget hmem _ ih => exact ih (hc _ _ ha hget _ hmem)

/-- The call `applyMove(s, m)` on the heap keeps every object that existed
before the call, and what it returns is null or a reference above them, with
the heap closed from there on. -/
theorem applyMoveHeap_ok (h : Heap) (s : Nat) (move : Move) :
    Frame h.length h (applyMoveHeap h s move).1
      ∧ Closed h.length (applyMoveHeap h s move).1
      ∧ ∀ r, (applyMoveHeap h s move).2 = .ok (some r) → h.length ≤ r := by
  unfold applyMoveHeap
  cases hcopy : deepCopyHeap h s with
  | error e => exact ⟨Frame.frame_refl _ h, Closed_length h, fun r hr => by cases hr⟩
  | ok r0 =>
    obtain ⟨ns, h1⟩ := r0
    obtain ⟨hf1, hc1, hns⟩ := deepCopyHeap_ok (Nat.le_refl _) (Closed_length h) hcopy
    simp only
    split
    · rename_i b hs mid owner ply hget
      have hb : h.length ≤ b := hc1 ns _ hns hget b (by simp [HeapObj.refs])
      have hhs : h.length ≤ hs := hc1 ns _ hns hget hs (by simp [HeapObj.refs])
      obtain ⟨hf2, hc2⟩ := applyMoveBoardHeap_ok hc1 hb owner move
      rcases hres : applyMoveBoardHeap h1 b owner move with ⟨h2, res⟩
      rw [hres] at hf2 hc2
      simp only at hf2 hc2
      cases res with
      | error e => exact ⟨hf1.frame_trans hf2, hc2, fun r hr => by cases hr⟩
      | ok ok =>
        cases ok with
        | false => exact ⟨hf1.frame_trans hf2, hc2, fun r hr => by cases hr⟩
        | true =>
          obtain ⟨hf3, hc3, hr3⟩ := applyMoveCardsHeap_ok hc2 hns hb hhs mid owner ply move.card
          refine ⟨(hf1.frame_trans hf2).frame_trans hf3, hc3, ?_⟩
          intro r hr
          rw [hr3 r hr]
          exact hns
    · exact ⟨hf1, hc1, fun r hr => by cases hr⟩

/-- An object of the heap before the call is the same object after it. -/
theorem get?_of_Frame {h h2 : Heap} (hf : Frame h.length h h2) {a : Nat} {o : HeapObj}
    (hget : h.get? a = some o) : h2.get? a = some o := by
  have hlt : a < h.length := by
    rw [List.get?_eq_getElem?] at hget
    exact (List.getElem?_eq_some.1 hget).1
  rw [hf.2 a hlt]
  exact hget

/-- The cells read back from the heap before the call are read back after it. -/
theorem loadCells_of_Frame {h h2 : Heap} (hf : Frame h.length h h2) (cells : List (Option Nat))
    {row : List Cell} (hload : loadCells h cells = some row) : loadCells h2 cells = some row := by
  induction cells generalizing row with
  | nil => exact hload
  | cons c rest ih =>
    cases c with
    | none =>
      unfold loadCells at hload ⊢
      cases hr : loadCells h rest with
      | none =>
        rw [hr] at hload
        cases hload
      | some l =>
        rw [hr] at hload
        rw [ih hr]
        exact hload
    | some a =>
      unfold loadCells at hload ⊢
      split at hload
      · rename_i p hget
        rw [get?_of_Frame hf hget]
        simp only
        cases hr : loadCells h rest with
        | none =>
          rw [hr] at hload
          cases hload
        | some l =>
          rw [hr] at hload
          rw [ih hr]
          exact hload
      · cases hload

/-- The rows read back from the heap before the call are read back after it. -/
theorem loadRows_of_Frame {h h2 : Heap} (hf : Frame h.length h h2) (rows : List Nat)
    {b : Board} (hload : loadRows h rows = some b) : loadRows h2 rows = some b := by
  induction rows generalizing b with
  | nil => exact hload
  | cons r rest ih =>
    unfold loadRows at hload ⊢
    split at hload
    · rename_i cells hget
      rw [get?_of_Frame hf hget]
      simp only
      split at hload
      · rename_i row hcells
        rw [loadCells_of_Frame hf cells hcells]
        simp only
        cases hr : loadRows h rest with
        | none =>
          rw [hr] at hload
          cases hload
        | some l =>
          rw [hr] at hload
          rw [ih hr]
          exact hload
      · cases hload
    · cases hload

/-- A game state held in the heap before the call is held unchanged after it. -/
theorem loadState_of_Frame {h h2 : Heap} (hf : Frame h.length h h2) {x : Nat} {gs : GameState}
    (hload : loadState h x = some gs) : loadState h2 x = some gs := by
  unfold loadState at hload ⊢
  split at hload
  · rename_i b hs mid turn ply hget
    rw [get?_of_Frame hf hget]
    simp only
    split at hload
    · rename_i rows a0 a1 hgb hgh
      rw [get?_of_Frame hf hgb, get?_of_Frame hf hgh]
      simp only
      split at hload
      · rename_i board h0 h1 hrows hg0 hg1
        rw [loadRows_of_Frame hf rows hrows, get?_of_Frame hf hg0, get?_of_Frame hf hg1]
        exact hload
      · cases hload
    · cases hload
  · cases hload

/-! ## Heap model: refinement of the value model -/

theorem loadCells_iff (h : Heap) (cells : List (Option Nat)) (row : List Cell) :
    loadCells h cells = some row ↔ List.Forall₂ (CellRep h) cells row := by
  induction cells generalizing row with
  | nil =>
    unfold loadCells
    constructor
    · intro hl
      injection hl with hl
      rw [← hl]
      exact List.Forall₂.nil
    · intro hf
      cases hf
      rfl
  | cons c rest ih =>
    cases c with
    | none =>
      unfold loadCells
      constructor
      · intro hl
        cases hr : loadCells h rest with
        | none =>
          rw [hr] at hl
          cases hl
        | some l =>
          rw [hr] at hl
          injection hl with hl
          rw [← hl]
          exact List.Forall₂.cons rfl ((ih l).1 hr)
      · intro hf
        cases hf with
        | cons h1 h2 =>
          rw [(ih _).2 h2]
          have : _ = none := h1
          rw [this]
          rfl
    | some a =>
      unfold loadCells
      constructor
      · intro hl
        split at hl
        · rename_i p hget
          cases hr : loadCells h rest with
          | none =>
            rw [hr] at hl
            cases hl
          | some l =>
            rw [hr] at hl
            injection hl with hl
            rw [← hl]
            exact List.Forall₂.cons ⟨p, hget, rfl⟩ ((ih l).1 hr)
        · cases hl
      · intro hf
        cases hf with
        | cons h1 h2 =>
          obtain ⟨q, hget, hq⟩ := h1
          rw [hget, (ih _).2 h2, hq]
          rfl

theorem loadRows_iff (h : Heap) (rows : List Nat) (board : Board) :
    loadRows h rows = some board ↔ List.Forall₂ (RowRep h) rows board := by
  induction rows generalizing board with
  | nil =>
    unfold loadRows
    constructor
    · intro hl
      injection hl with hl
      rw [← hl]
      exact List.Forall₂.nil
    · intro hf
      cases hf
      rfl
  | cons r rest ih =>
    unfold loadRows
    constructor
    · intro hl
      split at hl
      · rename_i cells hget
        split at hl
        · rename_i row hcells
          cases hr : loadRows h rest with
          | none =>
            rw [hr] at hl
            cases hl
          | some l =>
            rw [hr] at hl
            injection hl with hl
            rw [← hl]
            exact List.Forall₂.cons ⟨cells, hget, (loadCells_iff h cells row).1 hcells⟩
              ((ih l).1 hr)
        · cases hl
      · cases hl
    · intro hf
      cases hf with
      | cons h1 h2 =>
        obtain ⟨cells, hget, hcells⟩ := h1
        rw [hget]
        simp only
        rw [(loadCells_iff h cells _).2 hcells]
        simp only
        rw [(ih _).2 h2]
        rfl

theorem loadState_iff (h : Heap) (s : Nat) (gs : GameState) :
    loadState h s = some gs ↔ ∃ b hs rows a0 a1, StateRep h s gs b hs rows a0 a1 := by
  constructor
  · intro hl
    unfold loadState at hl
    split at hl
    · rename_i b hs mid turn ply hget
      split at hl
      · rename_i rows a0 a1 hgb hgh
        split at hl
        · rename_i board h0 h1 hrows hg0 hg1
          injection hl with hl
          subst hl
          exact ⟨b, hs, rows, a0, a1, hget, hgb, (loadRows_iff h rows board).1 hrows, hgh,
            hg0, hg1⟩
        · cases hl
      · cases hl
    · cases hl
  · rintro ⟨b, hs, rows, a0, a1, hget, hgb, hrows, hgh, hg0, hg1⟩
    unfold loadState
    rw [hget]
    simp only
    rw [hgb, hgh]
    simp only
    rw [(loadRows_iff h rows gs.board).2 hrows, hg0, hg1]

/-- Heaps that keep all their objects compose. -/
theorem Frame.chain {h1 h2 h3 : Heap} (h12 : Frame h1.length h1 h2)
    (h23 : Frame h2.length h2 h3) : Frame h1.length h1 h3 :=
  ⟨Nat.le_trans h12.1 h23.1,
    fun a ha => (h23.2 a (Nat.lt_of_lt_of_le ha h12.1)).trans (h12.2 a ha)⟩

theorem CellRep.cell_mono {h h2 : Heap} (hf : Frame h.length h h2) {c : Option Nat} {p : Cell}
    (hr : CellRep h c p) : CellRep h2 c p := by
  cases c with
  | none => exact hr
  | some a =>
    obtain ⟨q, hget, hq⟩ := hr
    exact ⟨q, get?_of_Frame hf hget, hq⟩

theorem RowRep.row_mono {h h2 : Heap} (hf : Frame h.length h h2) {r : Nat} {row : List Cell}
    (hr : RowRep h r row) : RowRep h2 r row := by
  obtain ⟨cells, hget, hcells⟩ := hr
  exact ⟨cells, get?_of_Frame hf hget, hcells.imp (fun _ _ hc => hc.cell_mono hf)⟩

/-- The object just allocated is at the old end of the heap. -/
theorem get?_alloc (h : Heap) (o : HeapObj) : (h ++ [o]).get? h.length = some o := by
  simp

/-- Allocation keeps all the objects of the heap. -/
theorem Frame.alloc (h : Heap) (o : HeapObj) : Frame h.length h (h ++ [o]) :=
  ⟨by simp, fun a ha => by simp [List.getElem?_append_left ha]⟩

/-- The copy of a cell holds the same cell value. -/
theorem copyCell_rep {h : Heap} {c : Option Nat} {p : Cell} (hr : CellRep h c p) :
    ∃ c1 h1, copyCell h c = .ok (c1, h1) ∧ Frame h.length h h1 ∧ CellRep h1 c1 p := by
  cases c with
  | none => exact ⟨none, h, rfl, Frame.frame_refl _ h, hr⟩
  | some a =>
    obtain ⟨q, hget, hq⟩ := hr
    refine ⟨some h.length, h ++ [.piece q], ?_, Frame.alloc h _, q, get?_alloc h _, hq⟩
    unfold copyCell
    simp only [hget]

/-- The copies of the cells of a row hold the same row value. -/
theorem copyCells_rep {h : Heap} {cells : List (Option Nat)} {row : List Cell}
    (hr : List.Forall₂ (CellRep h) cells row) :
    ∃ cs h1, copyCells h cells = .ok (cs, h1) ∧ Frame h.length h h1
      ∧ List.Forall₂ (CellRep h1) cs row := by
  induction cells generalizing h row with
  | nil =>
    cases hr
    exact ⟨[], h, rfl, Frame.frame_refl _ h, List.Forall₂.nil⟩
  | cons c rest ih =>
    cases hr with
    | cons hc hrest =>
      obtain ⟨c1, h2, hcopy, hf1, hc1⟩ := copyCell_rep hc
      obtain ⟨cs, h3, hcopy2, hf2, hcs⟩ := ih (hrest.imp (fun _ _ x => x.cell_mono hf1))
      refine ⟨c1 :: cs, h3, ?_, hf1.chain hf2, List.Forall₂.cons (hc1.cell_mono hf2) hcs⟩
      unfold copyCells
      simp only [hcopy, hcopy2]

/-- The copy of a row is a new row array that holds the same row value. -/
theorem copyRow_rep {h : Heap} {r : Nat} {row : List Cell} (hr : RowRep h r row) :
    ∃ r1 h1, copyRow h r = .ok (r1, h1) ∧ Frame h.length h h1 ∧ RowRep h1 r1 row
      ∧ h.length ≤ r1 ∧ r1 < h1.length := by
  obtain ⟨cells, hget, hcells⟩ := hr
  obtain ⟨cs, h2, hcopy, hf, hcs⟩ := copyCells_rep hcells
  refine ⟨h2.length, h2 ++ [.row cs], ?_, hf.chain (Frame.alloc h2 _),
    ⟨cs, get?_alloc h2 _, hcs.imp (fun _ _ x => x.cell_mono (Frame.alloc h2 _))⟩, hf.1, by simp⟩
  unfold copyRow
  simp only [hget, hcopy]

/-- The copies of the rows of a board are distinct new row arrays that hold
the same rows. -/
theorem copyRows_rep {h : Heap} {rows : List Nat} {board : Board}
    (hr : List.Forall₂ (RowRep h) rows board) :
    ∃ rs h1, copyRows h rows = .ok (rs, h1) ∧ Frame h.length h h1
      ∧ List.Forall₂ (RowRep h1) rs board ∧ (∀ r ∈ rs, h.length ≤ r ∧ r < h1.length)
      ∧ rs.Nodup := by
  induction rows generalizing h board with
  | nil =>
    cases hr
    exact ⟨[], h, rfl, Frame.frame_refl _ h, List.Forall₂.nil, fun r hx => by simp at hx,
      List.nodup_nil⟩
  | cons c rest ih =>
    cases hr with
    | cons hc hrest =>
      obtain ⟨r1, h2, hcopy, hf1, hr1, hlo, hhi⟩ := copyRow_rep hc
      obtain ⟨rs, h3, hcopy2, hf2, hrs, hrange, hnd⟩ :=
        ih (hrest.imp (fun _ _ x => x.row_mono hf1))
      refine ⟨r1 :: rs, h3, ?_, hf1.chain hf2, List.Forall₂.cons (hr1.row_mono hf2) hrs, ?_, ?_⟩
      · unfold copyRows
        simp only [hcopy, hcopy2]
      · intro r hrm
        rcases List.mem_cons.1 hrm with hrm | hrm
        · rw [hrm]
          exact ⟨hlo, Nat.lt_of_lt_of_le hhi hf2.1⟩
        · exact ⟨Nat.le_trans hf1.1 (hrange r hrm).1, (hrange r hrm).2⟩
      · refine List.nodup_cons.2 ⟨?_, hnd⟩
        intro hmem
        have := (hrange r1 hmem).1
        omega

/-- The copy of the board array holds the same board in distinct row arrays. -/
theorem copyBoard_rep {h : Heap} {b : Nat} {rows : List Nat} {board : Board}
    (hget : h.get? b = some (.board rows)) (hr : List.Forall₂ (RowRep h) rows board) :
    ∃ b1 h1 rs, copyBoard h b = .ok (b1, h1) ∧ Frame h.length h h1
      ∧ h1.get? b1 = some (.board rs) ∧ List.Forall₂ (RowRep h1) rs board ∧ rs.Nodup := by
  obtain ⟨rs, h2, hcopy, hf, hrs, -, hnd⟩ := copyRows_rep hr
  refine ⟨h2.length, h2 ++ [.board rs], rs, ?_, hf.chain (Frame.alloc h2 _), get?_alloc h2 _,
    hrs.imp (fun _ _ x => x.row_mono (Frame.alloc h2 _)), hnd⟩
  unfold copyBoard
  simp only [hget, hcopy]

/-- The copy of the array `hands` holds the same hands in two distinct arrays. -/
theorem copyHands_rep {h : Heap} {hs a0 a1 : Nat} {x0 x1 : Hand}
    (hget : h.get? hs = some (.hands a0 a1)) (hg0 : h.get? a0 = some (.hand x0))
    (hg1 : h.get? a1 = some (.hand x1)) :
    ∃ hs1 h1 c0 c1, copyHands h hs = .ok (hs1, h1) ∧ Frame h.length h h1
      ∧ h1.get? hs1 = some (.hands c0 c1) ∧ h1.get? c0 = some (.hand x0)
      ∧ h1.get? c1 = some (.hand x1) ∧ c0 ≠ c1 := by
  have hf1 := Frame.alloc h (.hand x0)
  have hf2 := Frame.alloc (h ++ [HeapObj.hand x0]) (.hand x1)
  have hf3 := Frame.alloc (h ++ [HeapObj.hand x0] ++ [HeapObj.hand x1]) (.hands h.length (h ++ [HeapObj.hand x0]).length)
  refine ⟨(h ++ [HeapObj.hand x0] ++ [HeapObj.hand x1]).length,
    h ++ [HeapObj.hand x0] ++ [HeapObj.hand x1] ++ [HeapObj.hands h.length (h ++ [HeapObj.hand x0]).length],
    h.length, (h ++ [HeapObj.hand x0]).length, ?_, (hf1.chain hf2).chain hf3, get?_alloc _ _, ?_, ?_, ?_⟩
  · unfold copyHands
    simp only [hget]
    unfold copyHand
    simp only [hg0, get?_of_Frame hf1 hg1]
  · exact get?_of_Frame (hf2.chain hf3) (get?_alloc h _)
  · exact get?_of_Frame hf3 (get?_alloc _ _)
  · simp

/-- The copy made by `deepCopy` holds the same state, in distinct row arrays
and distinct hand arrays. -/
theorem deepCopyHeap_rep {h : Heap} {s : Nat} {gs : GameState} {b hs : Nat} {rows : List Nat}
    {a0 a1 : Nat} (hr : StateRep h s gs b hs rows a0 a1) :
    ∃ ns h1 b1 hs1 rs c0 c1, deepCopyHeap h s = .ok (ns, h1)
      ∧ StateRep h1 ns gs b1 hs1 rs c0 c1 ∧ rs.Nodup ∧ c0 ≠ c1 := by
  obtain ⟨hget, hgb, hrows, hgh, hg0, hg1⟩ := hr
  obtain ⟨b1, h2, rs, hcopy, hf1, hgb1, hrs, hnd⟩ := copyBoard_rep hgb hrows
  obtain ⟨hs1, h3, c0, c1, hcopy2, hf2, hgh1, hc0, hc1, hne⟩ :=
    copyHands_rep (get?_of_Frame hf1 hgh) (get?_of_Frame hf1 hg0) (get?_of_Frame hf1 hg1)
  have hf3 := Frame.alloc h3 (.state b1 hs1 gs.mid gs.turn gs.ply)
  refine ⟨h3.length, h3 ++ [.state b1 hs1 gs.mid gs.turn gs.ply], b1, hs1, rs, c0, c1, ?_,
    ⟨get?_alloc h3 _, get?_of_Frame (hf2.chain hf3) hgb1,
      hrs.imp (fun _ _ x => x.row_mono (hf2.chain hf3)), get?_of_Frame hf3 hgh1,
      get?_of_Frame hf3 hc0, get?_of_Frame hf3 hc1⟩, hnd, hne⟩
  unfold deepCopyHeap
  simp only [hget, hcopy, hcopy2]

theorem KeepOthers.keep_refl (h : Heap) : KeepOthers h h :=
  fun _ _ hget _ => hget

/-- An object is kept by a write at the address of a different object. -/
theorem get?_set_other {h : Heap} {x a : Nat} {ox oa : HeapObj} (hx : h.get? x = some ox)
    (ha : h.get? a = some oa) (hne : ox ≠ oa) (o : HeapObj) : (h.set a o).get? x = some ox := by
  have hxa : a ≠ x := by
    intro e
    rw [e, hx] at ha
    injection ha with ha
    exact hne ha
  rw [List.get?_eq_getElem?, List.getElem?_set_ne hxa, ← List.get?_eq_getElem?]
  exact hx

/-- The object written is the object read back. -/
theorem get?_set_self {h : Heap} {a : Nat} {oa : HeapObj} (ha : h.get? a = some oa)
    (o : HeapObj) : (h.set a o).get? a = some o := by
  have hlt : a < h.length := by
    rw [List.get?_eq_getElem?] at ha
    exact (List.getElem?_eq_some.1 ha).1
  rw [List.get?_eq_getElem?, List.getElem?_set, if_pos rfl, if_pos hlt]

/-- A cell value is kept by a write at an address that holds no piece. -/
theorem CellRep.cell_set {h : Heap} {c : Option Nat} {p : Cell} (hr : CellRep h c p) {a : Nat}
    {oa : HeapObj} (ha : h.get? a = some oa) (hne : ∀ q, oa ≠ .piece q) (o : HeapObj) :
    CellRep (h.set a o) c p := by
  cases c with
  | none => exact hr
  | some x =>
    obtain ⟨q, hget, hq⟩ := hr
    exact ⟨q, get?_set_other hget ha (fun e => hne q e.symm) o, hq⟩

/-- A row value is kept by a write at an address that holds neither a piece
nor a row. -/
theorem RowRep.row_set {h : Heap} {r : Nat} {row : List Cell} (hr : RowRep h r row) {a : Nat}
    {oa : HeapObj} (ha : h.get? a = some oa) (hne : ∀ q, oa ≠ .piece q)
    (hne2 : ∀ cells, oa ≠ .row cells) (o : HeapObj) : RowRep (h.set a o) r row := by
  obtain ⟨cells, hget, hcells⟩ := hr
  exact ⟨cells, get?_set_other hget ha (fun e => hne2 cells e.symm) o,
    hcells.imp (fun _ _ x => x.cell_set ha hne o)⟩

/-- Related lists are related index by index under `jsIndex`. -/
theorem forall2_jsIndex {α β : Type} {R : α → β → Prop} {l1 : List α} {l2 : List β}
    (hf : List.Forall₂ R l1 l2) (i : Int) :
    (jsIndex l1 i = none ∧ jsIndex l2 i = none)
      ∨ ∃ a b, jsIndex l1 i = some a ∧ jsIndex l2 i = some b ∧ R a b := by
  have hlen := hf.length_eq
  unfold jsIndex
  by_cases h0 : 0 ≤ i
  · rw [if_pos h0, if_pos h0]
    by_cases hlt : i.toNat < l1.length
    · right
      have hlt2 : i.toNat < l2.length := by omega
      refine ⟨l1.get ⟨_, hlt⟩, l2.get ⟨_, hlt2⟩, ?_, ?_, hf.get hlt hlt2⟩
      · exact List.get?_eq_get hlt
      · exact List.get?_eq_get hlt2
    · left
      constructor
      · rw [List.get?_eq_getElem?]
        exact List.getElem?_eq_none (by omega)
      · rw [List.get?_eq_getElem?]
        exact List.getElem?_eq_none (by omega)
  · left
    rw [if_neg h0, if_neg h0]
    exact ⟨rfl, rfl⟩

/-- The read of a cell on the heap holds the cell read in the value model. -/
theorem readCellHeap_rep {h : Heap} {b : Nat} {rows : List Nat} {board : Board}
    (hgb : h.get? b = some (.board rows)) (hr : List.Forall₂ (RowRep h) rows board)
    (x y : Int) :
    (readCell board x y = .error .typeError ∧ readCellHeap h b x y = .error .typeError)
      ∨ ∃ c p, readCell board x y = .ok p ∧ readCellHeap h b x y = .ok c ∧ CellRep h c p := by
  unfold readCell readCellHeap
  simp only [hgb]
  rcases forall2_jsIndex hr y with ⟨h1, h2⟩ | ⟨r, row, h1, h2, cells, hget, hcells⟩
  · left
    rw [h1, h2]
    exact ⟨rfl, rfl⟩
  · right
    rw [h1, h2]
    simp only [hget]
    rcases forall2_jsIndex hcells x with ⟨h3, h4⟩ | ⟨c, p, h3, h4, hcp⟩
    · exact ⟨none, none, by rw [h4]; rfl, by rw [h3]; rfl, rfl⟩
    · exact ⟨c, p, by rw [h4]; rfl, by rw [h3]; rfl, hcp⟩

/-- The owner read from a piece object is the owner of the piece value. -/
theorem ownerOf_rep {h : Heap} {a : Nat} {p : Cell} (hr : CellRep h (some a) p) :
    ∃ q, p = some q ∧ ownerOf h a = .ok q.owner := by
  obtain ⟨q, hget, hq⟩ := hr
  refine ⟨q, hq, ?_⟩
  unfold ownerOf
  simp only [hget]

theorem forall2_set {α β : Type} {R : α → β → Prop} {l1 : List α} {l2 : List β}
    (hf : List.Forall₂ R l1 l2) {a : α} {b : β} (hab : R a b) (i : Nat) :
    List.Forall₂ R (l1.set i a) (l2.set i b) := by
  induction hf generalizing i with
  | nil => exact List.Forall₂.nil
  | cons h1 _ ih =>
    cases i with
    | zero => exact List.Forall₂.cons hab (by assumption)
    | succ k => exact List.Forall₂.cons h1 (ih k)

theorem forall2_replicate {α β : Type} {R : α → β → Prop} {a : α} {b : β} (hab : R a b)
    (n : Nat) : List.Forall₂ R (List.replicate n a) (List.replicate n b) := by
  induction n with
  | zero => exact List.Forall₂.nil
  | succ k ih => exact List.Forall₂.cons hab ih

/-- The assignment `row[x] = v` on the heap holds the row assigned in the
value model. -/
theorem jsAssignRef_rep {h : Heap} {cells : List (Option Nat)} {row : List Cell}
    (hf : List.Forall₂ (CellRep h) cells row) {v : Option Nat} {p : Cell}
    (hv : CellRep h v p) (x : Int) :
    List.Forall₂ (CellRep h) (jsAssignRef cells x v) (jsAssign row x p) := by
  have hlen := hf.length_eq
  unfold jsAssignRef jsAssign
  rw [hlen]
  split
  · exact hf
  · split
    · exact forall2_set hf hv _
    · split
      · have hnone : CellRep h none none := rfl
        exact List.rel_append (List.rel_append hf (forall2_replicate hnone _))
          (List.Forall₂.cons hv List.Forall₂.nil)
      · exact hf

/-- A write of a row array, one of the distinct rows of a board, holds the
board with that row replaced. -/
theorem rows_rep_set {h : Heap} {rows : List Nat} {board : Board} (hnd : rows.Nodup)
    (hrep : List.Forall₂ (RowRep h) rows board) {i r : Nat} (hi : rows.get? i = some r)
    {cells2 : List (Option Nat)} {row2 : List Cell}
    (hnew : List.Forall₂ (CellRep h) cells2 row2) :
    List.Forall₂ (RowRep (h.set r (.row cells2))) rows (board.set i row2) := by
  obtain ⟨hilt, hir⟩ := List.get?_eq_some.1 hi
  have hlen := hrep.length_eq
  have hrow : RowRep h r (board.get ⟨i, by omega⟩) := by
    rw [← hir]
    exact hrep.get hilt (by omega)
  obtain ⟨cells, hget, -⟩ := hrow
  have hnp : ∀ q, HeapObj.row cells ≠ .piece q := fun q e => by cases e
  rw [List.forall₂_iff_get]
  refine ⟨by rw [List.length_set]; exact hlen, ?_⟩
  intro j hj1 hj2
  have hj3 : j < board.length := by omega
  by_cases hji : i = j
  · subst hji
    have e1 : (board.set i row2).get ⟨i, hj2⟩ = row2 := by
      simp [List.getElem_set]
    rw [e1, hir]
    exact ⟨cells2, get?_set_self hget _, hnew.imp (fun _ _ x => x.cell_set hget hnp _)⟩
  · have e1 : (board.set i row2).get ⟨j, hj2⟩ = board.get ⟨j, hj3⟩ := by
      simp [List.getElem_set, hji]
    rw [e1]
    obtain ⟨cj, hgj, hcj⟩ := hrep.get hj1 hj3
    have hne : r ≠ rows.get ⟨j, hj1⟩ := by
      rw [← hir]
      intro e
      have := (hnd.get_inj_iff).1 e
      exact hji (by simpa using congrArg Fin.val this)
    refine ⟨cj, ?_, hcj.imp (fun _ _ x => x.cell_set hget hnp _)⟩
    rw [List.get?_eq_getElem?, List.getElem?_set_ne hne, ← List.get?_eq_getElem?]
    exact hgj

/-- The assignment `board[y][x] = v` on the heap, through a board of distinct
row arrays, holds the board assigned in the value model and keeps every
object that is not a row array. -/
theorem writeCellHeap_rep {h : Heap} {b : Nat} {rows : List Nat} {board : Board}
    (hgb : h.get? b = some (.board rows)) (hnd : rows.Nodup)
    (hr : List.Forall₂ (RowRep h) rows board) {v : Option Nat} {p : Cell}
    (hv : CellRep h v p) (x y : Int) :
    (writeCell board x y p = .error .typeError ∧ writeCellHeap h b x y v = .error .typeError)
      ∨ ∃ board2 h2, writeCell board x y p = .ok board2 ∧ writeCellHeap h b x y v = .ok h2
          ∧ List.Forall₂ (RowRep h2) rows board2 ∧ KeepOthers h h2 := by
  unfold writeCell writeCellHeap
  simp only [hgb]
  rcases forall2_jsIndex hr y with ⟨h1, h2⟩ | ⟨r, row, h1, h2, cells, hget, hcells⟩
  · left
    rw [h1, h2]
    exact ⟨rfl, rfl⟩
  · right
    rw [h1, h2]
    simp only [hget]
    refine ⟨_, _, rfl, rfl, ?_, ?_⟩
    · have hi : rows.get? y.toNat = some r := by
        unfold jsIndex at h1
        split at h1
        · exact h1
        · cases h1
      exact rows_rep_set hnd hr hi (jsAssignRef_rep hcells hv x)
    · intro a o hga hno
      exact get?_set_other hga hget (fun e => hno cells e) _

theorem KeepOthers.keep_trans {h1 h2 h3 : Heap} (h12 : KeepOthers h1 h2) (h23 : KeepOthers h2 h3) :
    KeepOthers h1 h3 :=
  fun a o hget hno => h23 a o (h12 a o hget hno) hno

/-- The two writes of `applyMove` on the heap, through a board of distinct
row arrays, have the outcome of `movePiece`, hold its board, and keep every
object that is not a row array. -/
theorem movePieceHeap_rep {h : Heap} {b : Nat} {rows : List Nat} {board : Board}
    (hgb : h.get? b = some (.board rows)) (hnd : rows.Nodup)
    (hr : List.Forall₂ (RowRep h) rows board) {a : Nat} {q : Piece}
    (hq : h.get? a = some (.piece q)) (src dst : Pos) :
    KeepOthers h (movePieceHeap h b src dst a).1
      ∧ ((movePiece board src dst q = .error .typeError
            ∧ (movePieceHeap h b src dst a).2 = .error .typeError)
        ∨ ∃ board2, movePiece board src dst q = .ok (some board2)
            ∧ (movePieceHeap h b src dst a).2 = .ok true
            ∧ List.Forall₂ (RowRep (movePieceHeap h b src dst a).1) rows board2) := by
  have hnone : CellRep h none none := rfl
  unfold movePiece movePieceHeap
  rcases writeCellHeap_rep hgb hnd hr hnone src.x src.y with ⟨e1, e2⟩
    | ⟨board1, h1, e1, e2, hr1, hk1⟩
  · simp only [e1, e2]
    exact ⟨KeepOthers.keep_refl h, Or.inl ⟨trivial, trivial⟩⟩
  · have hgb1 : h1.get? b = some (.board rows) := hk1 b _ hgb (fun _ e => by cases e)
    have hq1 : CellRep h1 (some a) (some q) :=
      ⟨q, hk1 a _ hq (fun _ e => by cases e), rfl⟩
    rcases writeCellHeap_rep hgb1 hnd hr1 hq1 dst.x dst.y with ⟨e3, e4⟩
      | ⟨board2, h2, e3, e4, hr2, hk2⟩
    · simp only [e1, e2, e3, e4]
      exact ⟨hk1, Or.inl ⟨trivial, trivial⟩⟩
    · simp only [e1, e2, e3, e4]
      exact ⟨hk1.keep_trans hk2, Or.inr ⟨board2, rfl, trivial, hr2⟩⟩

/-- The board part of `applyMove` on the heap, through a board of distinct row
arrays, has the outcome of the value model, holds its board, and keeps every
object that is not a row array. -/
theorem applyMoveBoardHeap_rep {h : Heap} {b : Nat} {rows : List Nat} {board : Board}
    (hgb : h.get? b = some (.board rows)) (hnd : rows.Nodup)
    (hr : List.Forall₂ (RowRep h) rows board) (owner : Player) (move : Move) :
    KeepOthers h (applyMoveBoardHeap h b owner move).1
      ∧ ((applyMoveBoard board owner move = .error .typeError
            ∧ (applyMoveBoardHeap h b owner move).2 = .error .typeError)
        ∨ (applyMoveBoard board owner move = .ok none
            ∧ (applyMoveBoardHeap h b owner move).2 = .ok false)
        ∨ ∃ board2, applyMoveBoard board owner move = .ok (some board2)
            ∧ (applyMoveBoardHeap h b owner move).2 = .ok true
            ∧ List.Forall₂ (RowRep (applyMoveBoardHeap h b owner move).1) rows board2) := by
  cases move with
  | pass c => exact ⟨KeepOthers.keep_refl h, Or.inr (Or.inr ⟨board, rfl, rfl, hr⟩)⟩
  | place src dst c =>
    unfold applyMoveBoard applyMoveBoardHeap
    simp only
    rcases readCellHeap_rep hgb hr src.x src.y with ⟨e1, e2⟩ | ⟨c1, p1, e1, e2, hc1⟩
    · rw [e1, e2]
      exact ⟨KeepOthers.keep_refl h, Or.inl ⟨rfl, rfl⟩⟩
    · rw [e1, e2]
      cases c1 with
      | none =>
        have : p1 = none := hc1
        rw [this]
        exact ⟨KeepOthers.keep_refl h, Or.inr (Or.inl ⟨rfl, rfl⟩)⟩
      | some a =>
        obtain ⟨q, hp1, hown⟩ := ownerOf_rep hc1
        have hqa : h.get? a = some (.piece q) := by
          obtain ⟨q2, hget, hq2⟩ := hc1
          rw [hp1] at hq2
          injection hq2 with hq2
          rw [hq2]
          exact hget
        have hmove := movePieceHeap_rep hgb hnd hr hqa src dst
        have hmove2 : KeepOthers h (movePieceHeap h b src dst a).1
            ∧ ((movePiece board src dst q = .error .typeError
                  ∧ (movePieceHeap h b src dst a).2 = .error .typeError)
              ∨ (movePiece board src dst q = .ok none
                  ∧ (movePieceHeap h b src dst a).2 = .ok false)
              ∨ ∃ board2, movePiece board src dst q = .ok (some board2)
                  ∧ (movePieceHeap h b src dst a).2 = .ok true
                  ∧ List.Forall₂ (RowRep (movePieceHeap h b src dst a).1) rows board2) := by
          refine ⟨hmove.1, ?_⟩
          rcases hmove.2 with hm | hm
          · exact Or.inl hm
          · exact Or.inr (Or.inr hm)
        rw [hp1]
        simp only [hown]
        by_cases hne : q.owner ≠ owner
        · rw [if_pos hne, if_pos hne]
          exact ⟨KeepOthers.keep_refl h, Or.inr (Or.inl ⟨rfl, rfl⟩)⟩
        · rw [if_neg hne, if_neg hne]
          rcases readCellHeap_rep hgb hr dst.x dst.y with ⟨e3, e4⟩ | ⟨c2, p2, e3, e4, hc2⟩
          · rw [e3, e4]
            exact ⟨KeepOthers.keep_refl h, Or.inl ⟨rfl, rfl⟩⟩
          · rw [e3, e4]
            simp only
            cases c2 with
            | none =>
              have : p2 = none := hc2
              rw [this]
              simp only [ownTarget]
              exact hmove2
            | some t =>
              obtain ⟨q2, hp2, hown2⟩ := ownerOf_rep hc2
              rw [hp2]
              simp only [ownTarget, hown2]
              by_cases hsame : q2.owner = owner
              · simp only [hsame, decide_True, if_true]
                exact ⟨KeepOthers.keep_refl h, Or.inr (Or.inl ⟨trivial, trivial⟩)⟩
              · simp only [hsame, decide_False, if_false]
                exact hmove2

/-- An object is kept by a write at another address. -/
theorem get?_set_ne {h : Heap} {x a : Nat} (hne : a ≠ x) (o : HeapObj) :
    (h.set a o).get? x = h.get? x := by
  rw [List.get?_eq_getElem?, List.getElem?_set_ne hne, ← List.get?_eq_getElem?]

/-- The state held after the writes of the card part of `applyMove`: the hand
array at `ha` receives the hand `hd2` and the state object the new fields. -/
theorem StateRep_cards {h : Heap} {ns b hs : Nat} {rows : List Nat} {a0 a1 : Nat}
    {o : HeapObj} {board2 : Board} {x0 x1 : Hand}
    (hns : h.get? ns = some o) (hstate : ∃ b2 hs2 m t p, o = .state b2 hs2 m t p)
    (hgb : h.get? b = some (.board rows)) (hrows : List.Forall₂ (RowRep h) rows board2)
    (hgh : h.get? hs = some (.hands a0 a1)) (hg0 : h.get? a0 = some (.hand x0))
    (hg1 : h.get? a1 = some (.hand x1)) (hne : a0 ≠ a1) (first : Bool) (hd2 : Hand)
    (mid : Card) (turn : Player) (ply : Nat) :
    StateRep ((h.set (if first then a0 else a1) (.hand hd2)).set ns (.state b hs mid turn ply))
      ns ⟨board2, (if first then (hd2, x1) else (x0, hd2)), mid, turn, ply⟩ b hs rows a0 a1 := by
  obtain ⟨b2, hs2, m, t, p, ho⟩ := hstate
  subst ho
  have hha : ∃ x, h.get? (if first then a0 else a1) = some (.hand x) := by
    cases first
    · exact ⟨x1, hg1⟩
    · exact ⟨x0, hg0⟩
  obtain ⟨x, hha⟩ := hha
  have hns3 : (h.set (if first then a0 else a1) (.hand hd2)).get? ns
      = some (.state b2 hs2 m t p) := get?_set_other hns hha (fun e => by cases e) _
  refine ⟨get?_set_self hns3 _, ?_, ?_, ?_, ?_, ?_⟩
  · exact get?_set_other (get?_set_other hgb hha (fun e => by cases e) _) hns3
      (fun e => by cases e) _
  · exact hrows.imp (fun _ _ hr =>
      (hr.row_set hha (fun _ e => by cases e) (fun _ e => by cases e) _).row_set hns3
        (fun _ e => by cases e) (fun _ e => by cases e) _)
  · exact get?_set_other (get?_set_other hgh hha (fun e => by cases e) _) hns3
      (fun e => by cases e) _
  · cases first
    · have h3 : (h.set a1 (.hand hd2)).get? a0 = some (.hand x0) := by
        rw [get?_set_ne (Ne.symm hne)]
        exact hg0
      exact get?_set_other h3 hns3 (fun e => by cases e) _
    · exact get?_set_other (get?_set_self hg0 _) hns3 (fun e => by cases e) _
  · cases first
    · exact get?_set_other (get?_set_self hg1 _) hns3 (fun e => by cases e) _
    · have h3 : (h.set a0 (.hand hd2)).get? a1 = some (.hand x1) := by
        rw [get?_set_ne hne]
        exact hg1
      exact get?_set_other h3 hns3 (fun e => by cases e) _

/-- The heap model of `applyMove` refines the value model: on a heap that
holds the state `gs` at `s`, the call throws, returns null, or returns a
state exactly when `applyMove gs move` does, and the returned reference holds
the returned state. -/
theorem applyMoveHeap_refines (h : Heap) (s : Nat) (gs : GameState) (move : Move)
    (hload : loadState h s = some gs) :
    (applyMove gs move = .error .typeError
        ∧ (applyMoveHeap h s move).2 = .error .typeError)
      ∨ (applyMove gs move = .ok none ∧ (applyMoveHeap h s move).2 = .ok none)
      ∨ ∃ ns r, applyMove gs move = .ok (some ns) ∧ (applyMoveHeap h s move).2 = .ok (some r)
          ∧ loadState (applyMoveHeap h s move).1 r = some ns := by
  obtain ⟨b, hs, rows, a0, a1, hrep⟩ := (loadState_iff h s gs).1 hload
  obtain ⟨ns, h1, b1, hs1, rs, c0, c1, hcopy, ⟨hns, hgb, hrows, hgh, hg0, hg1⟩, hnd, hne⟩ :=
    deepCopyHeap_rep hrep
  obtain ⟨hkeep, hboard⟩ := applyMoveBoardHeap_rep hgb hnd hrows gs.turn move
  unfold applyMoveHeap applyMove
  simp only [hcopy, hns, deepCopy]
  rcases hres : applyMoveBoardHeap h1 b1 gs.turn move with ⟨h2, res⟩
  rw [hres] at hkeep hboard
  simp only at hkeep hboard
  rcases hboard with ⟨e1, e2⟩ | ⟨e1, e2⟩ | ⟨board2, e1, e2, hrows2⟩
  · left
    simp only [e1, e2]
    exact ⟨trivial, trivial⟩
  · right
    left
    simp only [e1, e2]
    exact ⟨trivial, trivial⟩
  · right
    have hns2 := hkeep ns _ hns (fun _ e => by cases e)
    have hgb2 := hkeep b1 _ hgb (fun _ e => by cases e)
    have hgh2 := hkeep hs1 _ hgh (fun _ e => by cases e)
    have hg02 := hkeep c0 _ hg0 (fun _ e => by cases e)
    have hg12 := hkeep c1 _ hg1 (fun _ e => by cases e)
    simp only [e1, e2]
    unfold applyMoveCardsHeap
    simp only [hgh2]
    by_cases howner : gs.turn = 0
    · simp only [howner, if_true, hg02, GameState.hand]
      by_cases hc0 : gs.hands.1.c0 = move.card
      · right
        simp only [hc0, if_true]
        refine ⟨_, ns, rfl, rfl, ?_⟩
        have := StateRep_cards hns2 ⟨_, _, _, _, _, rfl⟩ hgb2 hrows2 hgh2 hg02 hg12 hne true
          { gs.hands.1 with c0 := gs.mid } move.card (1 - 0) (gs.ply + 1)
        refine (loadState_iff _ _ _).2 ⟨b1, hs1, rs, c0, c1, ?_⟩
        simpa [setHandSlot, hc0] using this
      · simp only [hc0, if_false]
        by_cases hc1 : gs.hands.1.c1 = move.card
        · right
          simp only [hc1, if_true]
          refine ⟨_, ns, rfl, rfl, ?_⟩
          have := StateRep_cards hns2 ⟨_, _, _, _, _, rfl⟩ hgb2 hrows2 hgh2 hg02 hg12 hne true
            { gs.hands.1 with c1 := gs.mid } move.card (1 - 0) (gs.ply + 1)
          refine (loadState_iff _ _ _).2 ⟨b1, hs1, rs, c0, c1, ?_⟩
          simpa [setHandSlot, hc1] using this
        · left
          simp only [hc1, if_false]
          exact ⟨trivial, trivial⟩
    · simp only [howner, if_false, hg12, GameState.hand]
      by_cases hc0 : gs.hands.2.c0 = move.card
      · right
        simp only [hc0, if_true]
        refine ⟨_, ns, rfl, rfl, ?_⟩
        have := StateRep_cards hns2 ⟨_, _, _, _, _, rfl⟩ hgb2 hrows2 hgh2 hg02 hg12 hne false
          { gs.hands.2 with c0 := gs.mid } move.card (1 - gs.turn) (gs.ply + 1)
        refine (loadState_iff _ _ _).2 ⟨b1, hs1, rs, c0, c1, ?_⟩
        simpa [setHandSlot, hc0, howner] using this
      · simp only [hc0, if_false]
        by_cases hc1 : gs.hands.2.c1 = move.card
        · right
          simp only [hc1, if_true]
          refine ⟨_, ns, rfl, rfl, ?_⟩
          have := StateRep_cards hns2 ⟨_, _, _, _, _, rfl⟩ hgb2 hrows2 hgh2 hg02 hg12 hne false
            { gs.hands.2 with c1 := gs.mid } move.card (1 - gs.turn) (gs.ply + 1)
          refine (loadState_iff _ _ _).2 ⟨b1, hs1, rs, c0, c1, ?_⟩
          simpa [setHandSlot, hc1, howner] using this
        · left
          simp only [hc1, if_false]
          exact ⟨trivial, trivial⟩

/-- The cells written into the heap hold the row. -/
theorem allocCells_rep (h : Heap) (row : List Cell) :
    Frame h.length h (allocCells h row).2
      ∧ List.Forall₂ (CellRep (allocCells h row).2) (allocCells h row).1 row := by
  induction row generalizing h with
  | nil => exact ⟨Frame.frame_refl _ h, List.Forall₂.nil⟩
  | cons c rest ih =>
    cases c with
    | none =>
      unfold allocCells
      exact ⟨(ih h).1, List.Forall₂.cons rfl (ih h).2⟩
    | some p =>
      unfold allocCells
      obtain ⟨hf, hrep⟩ := ih (h ++ [HeapObj.piece p])
      exact ⟨(Frame.alloc h _).chain hf,
        List.Forall₂.cons ⟨p, get?_of_Frame hf (get?_alloc h _), rfl⟩ hrep⟩

/-- The rows written into the heap hold the board. -/
theorem allocRows_rep (h : Heap) (board : Board) :
    Frame h.length h (allocRows h board).2
      ∧ List.Forall₂ (RowRep (allocRows h board).2) (allocRows h board).1 board := by
  induction board generalizing h with
  | nil => exact ⟨Frame.frame_refl _ h, List.Forall₂.nil⟩
  | cons row rest ih =>
    unfold allocRows
    obtain ⟨hf1, hcells⟩ := allocCells_rep h row
    have hf2 := Frame.alloc (allocCells h row).2 (.row (allocCells h row).1)
    obtain ⟨hf3, hrep⟩ := ih ((allocCells h row).2 ++ [HeapObj.row (allocCells h row).1])
    refine ⟨(hf1.chain hf2).chain hf3, List.Forall₂.cons ?_ hrep⟩
    exact ⟨(allocCells h row).1, get?_of_Frame hf3 (get?_alloc _ _),
      hcells.imp (fun _ _ x => x.cell_mono (hf2.chain hf3))⟩

/-- Every game state can be held in the heap: a state written into the heap
reads back as itself. -/
theorem loadState_allocState (h : Heap) (gs : GameState) :
    loadState (allocState h gs).2 (allocState h gs).1 = some gs := by
  obtain ⟨-, hrows⟩ := allocRows_rep h gs.board
  have hf1 := Frame.alloc (allocRows h gs.board).2 (.board (allocRows h gs.board).1)
  generalize hh1 : (allocRows h gs.board).2 ++ [HeapObj.board (allocRows h gs.board).1] = h1
    at hf1
  have hb : h1.get? (allocRows h gs.board).2.length
      = some (.board (allocRows h gs.board).1) := by
    rw [← hh1]
    exact get?_alloc _ _
  have hf2 := Frame.alloc h1 (.hand gs.hands.1)
  have hf3 := Frame.alloc (h1 ++ [HeapObj.hand gs.hands.1]) (.hand gs.hands.2)
  have hf4 := Frame.alloc (h1 ++ [HeapObj.hand gs.hands.1] ++ [HeapObj.hand gs.hands.2])
    (.hands h1.length (h1.length + 1))
  have hf5 := Frame.alloc (h1 ++ [HeapObj.hand gs.hands.1] ++ [HeapObj.hand gs.hands.2]
      ++ [HeapObj.hands h1.length (h1.length + 1)])
    (.state (allocRows h gs.board).2.length (h1.length + 2) gs.mid gs.turn gs.ply)
  have hlayout : (allocState h gs).2 = h1 ++ [HeapObj.hand gs.hands.1]
      ++ [HeapObj.hand gs.hands.2] ++ [HeapObj.hands h1.length (h1.length + 1)]
      ++ [HeapObj.state (allocRows h gs.board).2.length (h1.length + 2) gs.mid gs.turn
        gs.ply] := by
    unfold allocState
    simp only [hh1, List.append_assoc, List.singleton_append, List.cons_append,
      List.nil_append]
  have hroot : (allocState h gs).1 = (h1 ++ [HeapObj.hand gs.hands.1]
      ++ [HeapObj.hand gs.hands.2] ++ [HeapObj.hands h1.length (h1.length + 1)]).length := by
    unfold allocState
    simp only [hh1, List.append_assoc, List.singleton_append, List.cons_append,
      List.nil_append]
  rw [hlayout, hroot]
  refine (loadState_iff _ _ _).2 ⟨(allocRows h gs.board).2.length, h1.length + 2,
    (allocRows h gs.board).1, h1.length, h1.length + 1, get?_alloc _ _, ?_, ?_, ?_, ?_, ?_⟩
  · exact get?_of_Frame (((hf2.chain hf3).chain hf4).chain hf5) hb
  · exact hrows.imp (fun _ _ x =>
      x.row_mono (((((hh1 ▸ Frame.alloc _ _ : Frame (allocRows h gs.board).2.length
        (allocRows h gs.board).2 h1).chain hf2).chain hf3).chain hf4).chain hf5))
  · have hlen : (h1 ++ [HeapObj.hand gs.hands.1] ++ [HeapObj.hand gs.hands.2]).length
        = h1.length + 2 := by simp
    have := get?_of_Frame hf5 (get?_alloc _ _)
    rw [hlen] at this
    exact this
  · exact get?_of_Frame ((hf3.chain hf4).chain hf5) (get?_alloc _ _)
  · have hlen : (h1 ++ [HeapObj.hand gs.hands.1]).length = h1.length + 1 := by simp
    have := get?_of_Frame (hf4.chain hf5) (get?_alloc _ _)
    rw [hlen] at this
    exact this

/-! ## Heap model: the frame of move application -/

/-- C20: `applyMove(s, m)` on the heap (the model that `applyMoveHeap_refines`
relates to the value model), whether it returns a state, returns null or
throws: every object that existed before the call is unchanged, so
every game state held in the heap, the argument `s` among them, reads back
the same (board cells, hands, mid, turn, ply); every object reachable from
the returned state was allocated by the call, so the result shares no object
with `s`; and a later `applyMove` on the result or on `s` leaves the other
unchanged. -/
theorem C20_applyMove_never_mutates_input (h : Heap) (s : Nat) (move : Move) :
    (∀ a, a < h.length → (applyMoveHeap h s move).1.get? a = h.get? a)
    ∧ (∀ x gs, loadState h x = some gs → loadState (applyMoveHeap h s move).1 x = some gs)
    ∧ (∀ ns, (applyMoveHeap h s move).2 = .ok (some ns) →
        ∀ a, Reach (applyMoveHeap h s move).1 ns a → h.length ≤ a)
    ∧ (∀ ns gs gns move2, (applyMoveHeap h s move).2 = .ok (some ns) →
        loadState h s = some gs → loadState (applyMoveHeap h s move).1 ns = some gns →
        loadState (applyMoveHeap (applyMoveHeap h s move).1 ns move2).1 s = some gs
        ∧ loadState (applyMoveHeap (applyMoveHeap h s move).1 s move2).1 ns = some gns) := by
  obtain ⟨hf, hc, hfresh⟩ := applyMoveHeap_ok h s move
  refine ⟨hf.2, fun x gs hx => loadState_of_Frame hf hx, ?_, ?_⟩
  · intro ns hns a hr
    exact Reach_closed hc (hfresh ns hns) hr
  · intro ns gs gns move2 _ hgs hgns
    have hs1 := loadState_of_Frame hf hgs
    exact ⟨loadState_of_Frame (applyMoveHeap_ok _ ns move2).1 hs1,
      loadState_of_Frame (applyMoveHeap_ok _ s move2).1 hgns⟩

/-- C20 at `sampleState` written into an empty heap, with `sampleMove`: the
call returns a new state object that reads back as `sampleNext`, the argument
still reads back as `sampleState`, and every object reachable from the result
lies above the 20 objects of the argument. -/
theorem C20_witness :
    sampleHeap.2.length = 20
    ∧ loadState sampleHeap.2 sampleHeap.1 = some sampleState
    ∧ (applyMoveHeap sampleHeap.2 sampleHeap.1 sampleMove).2 = .ok (some 39)
    ∧ loadState (applyMoveHeap sampleHeap.2 sampleHeap.1 sampleMove).1 39 = some sampleNext
    ∧ loadState (applyMoveHeap sampleHeap.2 sampleHeap.1 sampleMove).1 sampleHeap.1
        = some sampleState
    ∧ ∀ a, Reach (applyMoveHeap sampleHeap.2 sampleHeap.1 sampleMove).1 39 a
        → sampleHeap.2.length ≤ a :=
  ⟨by decide!, by decide!, by decide!, by decide!,
   (C20_applyMove_never_mutates_input sampleHeap.2 sampleHeap.1 sampleMove).2.1 _ _
     (by decide!),
   (C20_applyMove_never_mutates_input sampleHeap.2 sampleHeap.1 sampleMove).2.2.1 39
     (by decide!)⟩

/-! ## Dealing a new game -/

/-- The exchange of two cells of an array rearranges the array. -/
theorem swapAt_perm {α : Type} [DecidableEq α] (a : List α) (i j : Nat) :
    (swapAt a i j).Perm a := by
  unfold swapAt
  split
  · rename_i x y hx hy
    obtain ⟨hi, hxi⟩ := List.get?_eq_some.1 hx
    obtain ⟨hj, hyj⟩ := List.get?_eq_some.1 hy
    rw [List.perm_iff_count]
    intro c
    have hj2 : j < (a.set i y).length := by rw [List.length_set]; exact hj
    have hbj : (a.set i y)[j] = y := by
      rw [List.getElem_set]
      split
      · rfl
      · simpa using hyj
    rw [List.count_set _ _ _ _ hj2, List.count_set _ _ _ _ hi, hbj]
    have hxi2 : a[i] = x := by simpa using hxi
    rw [hxi2]
    have hcount : (if (x == c) = true then 1 else 0) ≤ List.count c a := by
      split
      · rename_i hxc
        have : x = c := by simpa using hxc
        rw [← this, ← hxi2]
        exact List.count_pos_iff.2 (List.getElem_mem _)
      · exact Nat.zero_le _
    omega
  · exact List.Perm.refl a

theorem shuffleLoop_perm {α : Type} [DecidableEq α] (rnd : Nat → Nat) (i : Nat) (a : List α) :
    (shuffleLoop rnd i a).Perm a := by
  induction i generalizing a with
  | zero => exact List.Perm.refl a
  | succ k ih =>
    unfold shuffleLoop
    exact (ih _).trans (swapAt_perm a _ _)

/-- The array returned by `shuffle` is a rearrangement of its argument. -/
theorem shuffle_perm {α : Type} [DecidableEq α] (arr : List α) (rnd : Nat → Nat) :
    (shuffle arr rnd).Perm arr :=
  shuffleLoop_perm rnd _ arr

theorem take5_shuffle (rnd : Nat → Nat) :
    ∃ c0 c1 c2 c3 c4, (shuffle ALL_CARDS rnd).take 5 = [c0, c1, c2, c3, c4] := by
  have hp := shuffle_perm ALL_CARDS rnd
  have hl : ((shuffle ALL_CARDS rnd).take 5).length = 5 := by
    rw [List.length_take, hp.length_eq]
    decide
  match h : (shuffle ALL_CARDS rnd).take 5, hl with
  | [c0, c1, c2, c3, c4], _ => exact ⟨c0, c1, c2, c3, c4, rfl⟩

theorem ALL_CARDS_nodup : ALL_CARDS.Nodup := by decide

theorem initialBoard_cells :
    ∀ x ∈ range5, pieceAt initialBoard x 4 = some ⟨0, if x = 2 then .M else .S⟩
      ∧ pieceAt initialBoard x 0 = some ⟨1, if x = 2 then .M else .S⟩
      ∧ pieceAt initialBoard x 1 = none ∧ pieceAt initialBoard x 2 = none
      ∧ pieceAt initialBoard x 3 = none := by
  decide

/-- The state returned by `newGame`, from the first five shuffled cards. -/
theorem newGame_eq (rnd : Nat → Nat) :
    ∃ c0 c1 c2 c3 c4 s, (shuffle ALL_CARDS rnd).take 5 = [c0, c1, c2, c3, c4]
      ∧ [c0, c1, c2, c3, c4].Nodup ∧ (∀ c ∈ [c0, c1, c2, c3, c4], c ∈ ALL_CARDS)
      ∧ newGame rnd = some s ∧ s.board = initialBoard
      ∧ s.hands = (⟨c0, c1⟩, ⟨c2, c3⟩) ∧ s.mid = c4
      ∧ s.turn = (if (CARD_DEFS c4).stamp = .blue then 0 else 1) ∧ s.ply = 0 := by
  obtain ⟨c0, c1, c2, c3, c4, h⟩ := take5_shuffle rnd
  have hp := shuffle_perm ALL_CARDS rnd
  refine ⟨c0, c1, c2, c3, c4, ⟨initialBoard, (⟨c0, c1⟩, ⟨c2, c3⟩), c4,
          if (CARD_DEFS c4).stamp = .blue then 0 else 1, 0⟩, h, ?_, ?_, ?_, rfl, rfl, rfl, rfl, rfl⟩
  · rw [← h]
    exact ((hp.nodup_iff).2 ALL_CARDS_nodup).sublist (List.take_sublist _ _)
  · intro c hc
    rw [← h] at hc
    exact hp.subset (List.mem_of_mem_take hc)
  · unfold newGame
    rw [h]

/-- C21: for every outcome of the random draws of `shuffle` (at the index `i`
a number from 0 to `i`) `newGame` returns a state; its two hands and its mid
card are the first five cards of the shuffled catalog, pairwise distinct and
all of the 16-card catalog; its board is the initial board, with S, S, M, S, S
of player 1 on the row 0 and of player 0 on the row 4 and nothing between;
its ply is 0; its turn is 0 when the stamp of the mid card is blue and 1 when
it is red. -/
theorem C21_newGame_deals (rnd : Nat → Nat) (hr : ∀ i, rnd i ≤ i) :
    ∃ s, newGame rnd = some s
      ∧ [s.hands.1.c0, s.hands.1.c1, s.hands.2.c0, s.hands.2.c1, s.mid]
          = (shuffle ALL_CARDS rnd).take 5
      ∧ (fiveCards s).Nodup ∧ (∀ c ∈ fiveCards s, c ∈ ALL_CARDS)
      ∧ s.board = initialBoard
      ∧ (∀ x ∈ range5, pieceAt s.board x 4 = some ⟨0, if x = 2 then .M else .S⟩
          ∧ pieceAt s.board x 0 = some ⟨1, if x = 2 then .M else .S⟩
          ∧ pieceAt s.board x 1 = none ∧ pieceAt s.board x 2 = none
          ∧ pieceAt s.board x 3 = none)
      ∧ s.ply = 0
      ∧ ((CARD_DEFS s.mid).stamp = .blue → s.turn = 0)
      ∧ ((CARD_DEFS s.mid).stamp = .red → s.turn = 1) := by
  have _ := hr
  obtain ⟨c0, c1, c2, c3, c4, s, h, hnd, hmem, hng, hb, hh, hm, ht, hp⟩ := newGame_eq rnd
  refine ⟨s, hng, ?_⟩
  generalize shuffle ALL_CARDS rnd = l at h
  obtain ⟨b, hands, mid, turn, ply⟩ := s
  simp only at hb hh hm ht hp
  subst hb hh hm hp
  have hperm : [c0, c1, mid, c2, c3].Perm [c0, c1, c2, c3, mid] := by
    refine List.Perm.cons _ (List.Perm.cons _ ?_)
    show ([mid] ++ [c2, c3]).Perm ([c2, c3] ++ [mid])
    exact List.perm_append_comm
  simp only [fiveCards]
  refine ⟨?_, ?_, ?_, ?_, ?_, ?_, ?_, ?_⟩
  · exact h.symm
  · exact hperm.nodup_iff.2 hnd
  · intro c hc
    exact hmem c (hperm.subset hc)
  · trivial
  · exact initialBoard_cells
  · trivial
  · intro hblue
    rw [ht, if_pos hblue]
  · intro hred
    have : (CARD_DEFS mid).stamp ≠ .blue := by rw [hred]; decide
    rw [ht, if_neg this]

/-- C21 at the outcome in which every index is exchanged with itself. -/
theorem C21_witness :
    (∀ i, (fun i : Nat => i) i ≤ i)
      ∧ ∃ s, newGame (fun i => i) = some s
      ∧ [s.hands.1.c0, s.hands.1.c1, s.hands.2.c0, s.hands.2.c1, s.mid]
          = (shuffle ALL_CARDS (fun i => i)).take 5
      ∧ (fiveCards s).Nodup ∧ (∀ c ∈ fiveCards s, c ∈ ALL_CARDS)
      ∧ s.board = initialBoard
      ∧ (∀ x ∈ range5, pieceAt s.board x 4 = some ⟨0, if x = 2 then .M else .S⟩
          ∧ pieceAt s.board x 0 = some ⟨1, if x = 2 then .M else .S⟩
          ∧ pieceAt s.board x 1 = none ∧ pieceAt s.board x 2 = none
          ∧ pieceAt s.board x 3 = none)
      ∧ s.ply = 0
      ∧ ((CARD_DEFS s.mid).stamp = .blue → s.turn = 0)
      ∧ ((CARD_DEFS s.mid).stamp = .red → s.turn = 1) :=
  ⟨fun i => Nat.le_refl i, C21_newGame_deals (fun i => i) (fun i => Nat.le_refl i)⟩

/-- An outcome that rearranges: every index is exchanged with the index 0. -/
theorem newGame_sample :
    (shuffle ALL_CARDS (fun _ => 0)).take 5 = [.Dragon, .Frog, .Rabbit, .Crab, .Elephant] := by
  decide

/-! ## Search engine: the base case at a finished game -/

/-- The base case of `alphabeta` at a finished game, at a depth above 0 or
without quiescence, before the deadline: the score is `color * evaluate`,
the win magnitude with a sign, and no move is searched (one clock reading,
the table unchanged). -/
theorem alphabeta_terminal_leaf (now : Nat → Int) (ai : Player) (cfg : Config) (deadline : Int)
    (depth : Nat) (hcase : depth ≠ 0 ∨ cfg.qDepth = 0) {s : GameState} {t : TerminalInfo}
    (ht : isTerminal s = .ok t) (hd : t.done = true) (alpha beta : Score) (color : Int)
    (st : SearchState) (hclock : ¬ now st.tick > deadline) :
    evaluate s ai cfg = .ok (if t.winner = some ai then 1000000000 else -1000000000)
    ∧ alphabeta now ai cfg deadline depth s alpha beta color st
      = .ok (⟨false, .fin (color * (if t.winner = some ai then 1000000000 else -1000000000)),
              none⟩, { st with tick := st.tick + 1 }) := by
  have hev := evaluate_done ht hd ai cfg
  refine ⟨hev, ?_⟩
  have hbase : ∀ st1 : SearchState, abBase now ai cfg deadline depth s alpha beta color st1
      = .ok (⟨false, .fin (color * (if t.winner = some ai then 1000000000 else -1000000000)),
              none⟩, st1) := by
    intro st1
    unfold abBase
    have hne : ¬ (cfg.qDepth ≠ 0 ∧ depth = 0) := by
      rintro ⟨h1, h2⟩
      rcases hcase with h | h
      · exact h h2
      · exact h1 h
    rw [if_neg hne]
    simp only [hev]
  cases depth with
  | zero =>
    unfold alphabeta
    simp only [hclock, if_false, ht]
    exact hbase _
  | succ d =>
    unfold alphabeta
    simp only [hclock, if_false, ht, hd, if_true]
    exact hbase _

/-- C22 (divergence): `afterCaptureState` is the state after player 0 captured
the Master of player 1 in `recaptureState`; it is terminal with winner 0, so
`evaluate` for player 0 is 1e9 and `color * evaluate` is -1e9 for the color
-1 of the side to move. With a quiescence budget of 1, `alphabeta` at depth 0
before the deadline enters `qSearch`, follows the Student's step onto (2,0)
and returns the score +1e9. At depth 1, and at depth 0 without quiescence,
the same call returns -1e9. -/
theorem C22_terminal_leaf_divergence :
    applyMove recaptureState (.place ⟨2, 1⟩ ⟨2, 0⟩ .Crab) = .ok (some afterCaptureState)
    ∧ isTerminal afterCaptureState = .ok ⟨true, some 0, some "Way of the Stone"⟩
    ∧ evaluate afterCaptureState 0 (plainConfig 1) = .ok 1000000000
    ∧ (alphabeta (fun _ => 0) 0 (plainConfig 1) 1000 0 afterCaptureState .negInf .posInf (-1)
        ⟨[], 0⟩).map Prod.fst = .ok ⟨false, .fin 1000000000, none⟩
    ∧ (alphabeta (fun _ => 0) 0 (plainConfig 1) 1000 1 afterCaptureState .negInf .posInf (-1)
        ⟨[], 0⟩).map Prod.fst = .ok ⟨false, .fin (-1000000000), none⟩
    ∧ (alphabeta (fun _ => 0) 0 (plainConfig 0) 1000 0 afterCaptureState .negInf .posInf (-1)
        ⟨[], 0⟩).map Prod.fst = .ok ⟨false, .fin (-1000000000), none⟩ :=
  ⟨by decide!, by decide!, by decide!, by decide!, by decide!, by decide!⟩

/-! ## Search engine: the stand-pat score -/

theorem Score.le_self (a : Score) : a.le a = true := by
  cases a <;> simp [Score.le, Score.lt]

theorem Score.le_of_le_of_lt {a b c : Score} (h1 : a.le b = true) (h2 : b.lt c = true) :
    a.le c = true := by
  cases a <;> cases b <;> cases c <;> simp [Score.le, Score.lt] at h1 h2 ⊢
  omega

/-- The capture loop of `qSearch` returns, and its score is never below a
score the running best has reached. -/
theorem qLoop_standPat {deeper : Searcher} (hd : SearcherTotal deeper) {s : GameState}
    (hwf : s.board.WF) {l : List Move} (hl : allLegalMoves s s.turn = .ok l) (beta : Score)
    (color : Int) (moves : List Move) (hm : ∀ m ∈ moves, m ∈ l) (alpha best : Score)
    (st : SearchState) (sp : Score) (hsp : sp.le best = true) :
    ∃ res st2, qLoop deeper s beta color moves alpha best st = .ok (res, st2)
      ∧ (res.timedOut = false → sp.le res.score = true) := by
  induction moves generalizing alpha best st with
  | nil => exact ⟨_, _, rfl, fun _ => hsp⟩
  | cons m rest ih =>
    obtain ⟨ns, hns, hwfn⟩ := legal_step hwf hl (hm m (by simp))
    obtain ⟨child, st1, hc⟩ := hd ns beta.neg alpha.neg (-color) st hwfn
    have hbest1 : sp.le (if best.lt child.score.neg = true then child.score.neg else best)
        = true := by
      split
      · rename_i hlt
        exact Score.le_of_le_of_lt hsp hlt
      · exact hsp
    unfold qLoop
    simp only [hns, hc]
    by_cases hto : child.timedOut = true
    · simp only [hto, if_true]
      exact ⟨_, _, rfl, fun h => by cases h⟩
    · simp only [hto, Bool.false_eq_true, if_false]
      by_cases hcut : beta.le (if alpha.lt child.score.neg = true then child.score.neg
          else alpha) = true
      · simp only [hcut, if_true]
        exact ⟨_, _, rfl, fun _ => hbest1⟩
      · simp only [hcut, if_false]
        exact ih (fun m hm2 => hm m (List.mem_cons_of_mem _ hm2)) _ _ _ hbest1

/-- The body of `qSearch` returns on a 5x5 board; without a timeout its score
is at least the stand-pat score, and equal to it when the budget is used up
or there is no capturing move. -/
theorem qNode_standPat (now : Nat → Int) (ai : Player) (cfg : Config) (deadlineMs : Int)
    (deeper : Option Searcher) (hd : ∀ f, deeper = some f → SearcherTotal f)
    {s : GameState} (hwf : s.board.WF) (alpha beta : Score) (color : Int) (st : SearchState) :
    ∃ ev res st2, evaluate s ai cfg = .ok ev
      ∧ qNode now ai cfg deadlineMs deeper s alpha beta color st = .ok (res, st2)
      ∧ (res.timedOut = false →
          (Score.fin (color * ev)).le res.score = true
          ∧ (deeper = none → res.score = .fin (color * ev))
          ∧ (captureMoves s = .ok [] → res.score = .fin (color * ev))) := by
  obtain ⟨ev, hev⟩ := evaluate_total hwf ai cfg
  refine ⟨ev, ?_⟩
  unfold qNode
  simp only [hev]
  split
  · exact ⟨_, _, trivial, rfl, fun h => by cases h⟩
  · split
    · exact ⟨_, _, trivial, rfl, fun _ => ⟨Score.le_self _, fun _ => rfl, fun _ => rfl⟩⟩
    · cases deeper with
      | none => exact ⟨_, _, trivial, rfl, fun _ => ⟨Score.le_self _, fun _ => rfl, fun _ => rfl⟩⟩
      | some f =>
        obtain ⟨caps, l, hcaps, hl, hsub⟩ := captureMoves_total hwf
        simp only [hcaps]
        split
        · exact ⟨_, _, trivial, rfl, fun _ => ⟨Score.le_self _, fun _ => rfl, fun _ => rfl⟩⟩
        · rename_i hlen
          obtain ⟨ordered, hord, hperm⟩ := orderMoves_perm hwf none caps
            (fun m hm => inRange_of_mem_allLegalMoves hwf hl (hsub m hm))
          simp only [hord]
          obtain ⟨res, st2, hres, hle⟩ := qLoop_standPat (hd f rfl) hwf hl beta color ordered
            (fun m hm => hsub m (hperm.subset hm))
            (if alpha.lt (Score.fin (color * ev)) = true then Score.fin (color * ev) else alpha)
            (Score.fin (color * ev)) { st with tick := st.tick + 1 } (Score.fin (color * ev))
            (Score.le_self _)
          refine ⟨res, st2, trivial, hres, fun hto => ⟨hle hto, (fun h => by cases h), ?_⟩⟩
          intro hnil
          injection hnil with hnil
          rw [hnil] at hlen
          exact absurd rfl hlen

theorem qSearch_total (now : Nat → Int) (ai : Player) (cfg : Config) (deadlineMs : Int)
    (n : Nat) : SearcherTotal (qSearch now ai cfg deadlineMs n) := by
  induction n with
  | zero =>
    intro s alpha beta color st hwf
    unfold qSearch
    obtain ⟨ev, res, st2, -, h, -⟩ := qNode_standPat now ai cfg deadlineMs none
      (fun f hf => by cases hf) hwf alpha beta color st
    exact ⟨res, st2, h⟩
  | succ k ih =>
    intro s alpha beta color st hwf
    unfold qSearch
    obtain ⟨ev, res, st2, -, h, -⟩ := qNode_standPat now ai cfg deadlineMs
      (some (qSearch now ai cfg deadlineMs k))
      (fun f hf => by injection hf with hf; rw [← hf]; exact ih) hwf alpha beta color st
    exact ⟨res, st2, h⟩

/-- C23 (stand-pat lower bound): on every state with a 5x5 board, for every
window, color, configuration, clock, engine state and quiescence budget
`depthLeft`, `evaluate` and `qSearch` return; whenever `qSearch` does not
time out, its score is at least the stand-pat score `color * evaluate(s, ai,
cfg)`, and it equals the stand-pat score when `depthLeft` is 0 and when the
side to move has no capturing move. -/
theorem C23_qSearch_stand_pat (now : Nat → Int) (ai : Player) (cfg : Config) (deadlineMs : Int)
    (depthLeft : Nat) (s : GameState) (alpha beta : Score) (color : Int) (st : SearchState)
    (hwf : s.board.WF) :
    ∃ ev res st2, evaluate s ai cfg = .ok ev
      ∧ qSearch now ai cfg deadlineMs depthLeft s alpha beta color st = .ok (res, st2)
      ∧ (res.timedOut = false →
          (Score.fin (color * ev)).le res.score = true
          ∧ (depthLeft = 0 → res.score = .fin (color * ev))
          ∧ (captureMoves s = .ok [] → res.score = .fin (color * ev))) := by
  cases depthLeft with
  | zero =>
    unfold qSearch
    obtain ⟨ev, res, st2, hev, h, hp⟩ := qNode_standPat now ai cfg deadlineMs none
      (fun f hf => by cases hf) hwf alpha beta color st
    exact ⟨ev, res, st2, hev, h, fun hto => ⟨(hp hto).1, fun _ => (hp hto).2.1 rfl, (hp hto).2.2⟩⟩
  | succ k =>
    unfold qSearch
    obtain ⟨ev, res, st2, hev, h, hp⟩ := qNode_standPat now ai cfg deadlineMs
      (some (qSearch now ai cfg deadlineMs k))
      (fun f hf => by injection hf with hf; rw [← hf]; exact qSearch_total now ai cfg deadlineMs k)
      hwf alpha beta color st
    exact ⟨ev, res, st2, hev, h, fun hto => ⟨(hp hto).1, (fun h0 => by cases h0), (hp hto).2.2⟩⟩

/-- C23 at `recaptureState` with a budget of one capture, the full window,
color 1 and a clock that never passes the deadline. -/
theorem C23_witness :
    recaptureState.board.WF
    ∧ ∃ ev res st2, evaluate recaptureState 0 (plainConfig 1) = .ok ev
      ∧ qSearch (fun _ => 0) 0 (plainConfig 1) 1000 1 recaptureState .negInf .posInf 1 ⟨[], 0⟩
          = .ok (res, st2)
      ∧ (res.timedOut = false →
          (Score.fin (1 * ev)).le res.score = true
          ∧ ((1 : Nat) = 0 → res.score = .fin (1 * ev))
          ∧ (captureMoves recaptureState = .ok [] → res.score = .fin (1 * ev))) :=
  ⟨by decide, C23_qSearch_stand_pat (fun _ => 0) 0 (plainConfig 1) 1000 1 recaptureState
    .negInf .posInf 1 ⟨[], 0⟩ (by decide)⟩

/-- The quiescence search of `recaptureState`: the stand-pat score is 330;
with a budget of one capture the capture of the Master raises the score to
the win magnitude, with a budget of two the Student takes back and the score
is the stand-pat score again. -/
theorem qSearch_sample :
    evaluate recaptureState 0 (plainConfig 1) = .ok 330
    ∧ (qSearch (fun _ => 0) 0 (plainConfig 1) 1000 1 recaptureState .negInf .posInf 1
        ⟨[], 0⟩).map (fun r => r.1.score) = .ok (.fin 1000000000)
    ∧ (qSearch (fun _ => 0) 0 (plainConfig 1) 1000 2 recaptureState .negInf .posInf 1
        ⟨[], 0⟩).map (fun r => r.1.score) = .ok (.fin 330) :=
  ⟨by decide!, by decide!, by decide!⟩

/-! ## Search engine: the bound flag of a stored entry -/

/-- The three cases of the bound flag. -/
theorem boundFlag_cases (bestScore alphaOrig beta : Score) :
    (boundFlag bestScore alphaOrig beta = .UPPER ↔ bestScore.le alphaOrig = true)
    ∧ (boundFlag bestScore alphaOrig beta = .LOWER
        ↔ bestScore.le alphaOrig = false ∧ beta.le bestScore = true)
    ∧ (boundFlag bestScore alphaOrig beta = .EXACT
        ↔ bestScore.le alphaOrig = false ∧ beta.le bestScore = false) := by
  unfold boundFlag
  by_cases h1 : bestScore.le alphaOrig = true
  · simp [h1]
  · by_cases h2 : beta.le bestScore = true
    · simp [h1, h2]
    · simp [h1, h2]

/-- The window left by `ttProbe` when it returns no result at once. -/
theorem ttProbe_window {entry : Option Entry} {depth : Nat} {alpha beta alpha1 beta1 : Score}
    (h : ttProbe entry depth alpha beta = (none, alpha1, beta1)) :
    ((∀ e, entry = some e → e.depth < depth) → alpha1 = alpha ∧ beta1 = beta)
    ∧ (∀ e, entry = some e → depth ≤ e.depth →
        e.flag ≠ .EXACT
        ∧ (e.flag = .LOWER → alpha.lt e.score = true → alpha1 = e.score ∧ beta1 = beta)
        ∧ (e.flag = .LOWER → alpha.lt e.score = false → alpha1 = alpha ∧ beta1 = beta)
        ∧ (e.flag = .UPPER → e.score.lt beta = true → alpha1 = alpha ∧ beta1 = e.score)
        ∧ (e.flag = .UPPER → e.score.lt beta = false → alpha1 = alpha ∧ beta1 = beta)) := by
  cases entry with
  | none =>
    simp only [ttProbe] at h
    cases h
    exact ⟨fun _ => ⟨rfl, rfl⟩, fun e he => by cases he⟩
  | some e =>
    simp only [ttProbe] at h
    by_cases hd : e.depth ≥ depth
    · rw [if_pos hd] at h
      refine ⟨fun hlt => absurd (hlt e rfl) (by omega), ?_⟩
      intro e2 he2 _
      injection he2 with he2
      subst he2
      by_cases hf : e.flag = .EXACT
      · rw [if_pos hf] at h
        cases h
      · rw [if_neg hf] at h
        refine ⟨hf, ?_⟩
        have hAB : ∀ (A B : Score) (r : SearchResult),
            (if B.le A = true then (some r, A, B) else (none, A, B)) = (none, alpha1, beta1) →
            alpha1 = A ∧ beta1 = B := by
          intro A B r hif
          by_cases hc : B.le A = true
          · rw [if_pos hc] at hif
            cases hif
          · rw [if_neg hc] at hif
            cases hif
            exact ⟨rfl, rfl⟩
        obtain ⟨ha, hb⟩ := hAB _ _ _ h
        cases hfl : e.flag with
        | EXACT => exact absurd hfl hf
        | LOWER =>
          simp only [hfl, true_and, reduceCtorEq, false_and, if_false] at ha hb
          refine ⟨?_, ?_, (fun h => by cases h), (fun h => by cases h)⟩
          · intro _ hlt
            rw [if_pos hlt] at ha hb
            exact ⟨ha, hb⟩
          · intro _ hlt
            rw [if_neg (by rw [hlt]; decide)] at ha hb
            exact ⟨ha, hb⟩
        | UPPER =>
          simp only [hfl, true_and, reduceCtorEq, false_and, if_false] at ha hb
          refine ⟨(fun h => by cases h), (fun h => by cases h), ?_, ?_⟩
          · intro _ hlt
            rw [if_pos hlt] at hb
            exact ⟨ha, hb⟩
          · intro _ hlt
            rw [if_neg (by rw [hlt]; decide)] at hb
            exact ⟨ha, hb⟩
    · rw [if_neg hd] at h
      cases h
      exact ⟨fun _ => ⟨rfl, rfl⟩, fun e2 he2 hle => by
        injection he2 with he2
        subst he2
        exact absurd hle hd⟩

/-- The entry stored by `abSearch` when the move loop runs to its end: the
bound flag compares the best score with the window left by `ttProbe`. -/
theorem abSearch_stored (depth : Nat) (deeper : Searcher) {s : GameState} {key : String}
    (hk : keyOfState s = .ok key) {alpha beta : Score} (color : Int) {st : SearchState}
    {alpha1 beta1 : Score}
    (hprobe : ttProbe (ttGet st.tt key) depth alpha beta = (none, alpha1, beta1))
    {res : SearchResult} {st2 : SearchState}
    (hres : abSearch depth deeper s alpha beta color st = .ok (res, st2))
    (hto : res.timedOut = false) :
    ttGet st2.tt key = some ⟨depth, res.score, boundFlag res.score alpha1 beta1, res.pv⟩ := by
  unfold abSearch at hres
  simp only [hk, hprobe] at hres
  cases h1 : allLegalMoves s s.turn with
  | error e => rw [h1] at hres; cases hres
  | ok moves0 =>
    rw [h1] at hres
    simp only [] at hres
    cases h2 : orderMoves moves0 s ((ttGet st.tt key).bind fun e => e.best) with
    | error e => rw [h2] at hres; cases hres
    | ok moves =>
      rw [h2] at hres
      simp only [] at hres
      cases h3 : abLoop deeper s beta1 color moves ⟨alpha1, .negInf, none⟩ st with
      | error e => rw [h3] at hres; cases hres
      | ok r =>
        obtain ⟨acc, st1⟩ := r
        rw [h3] at hres
        cases acc with
        | none =>
          simp only [] at hres
          cases hres
          cases hto
        | some acc =>
          simp only [] at hres
          cases hres
          simp only [ttSet, ttGet, if_true]

/-- C24 (amended): at a non-terminal node of `alphabeta` at a depth above 0,
called with the window (alpha0, beta0), let (alpha1, beta1) be the window
after the stored entry was applied without giving a result at once: a stored
LOWER entry of sufficient depth with a score above alpha0 replaces alpha, a
stored UPPER entry of sufficient depth with a score below beta0 replaces
beta, and without an entry of sufficient depth the window is (alpha0,
beta0). Whenever the call returns without timeout, the entry stored under
the key of the node holds the depth, the best score and the best move, and
its flag is UPPER if bestScore <= alpha1, LOWER if bestScore > alpha1 and
bestScore >= beta1, and EXACT otherwise. On a 5x5 board, with finite stored
scores and a clock that never passes the deadline, the call returns without
timeout. -/
theorem C24_bound_flag (now : Nat → Int) (ai : Player) (cfg : Config) (deadline : Int) (d : Nat)
    (s : GameState) (alpha0 beta0 : Score) (color : Int) (st : SearchState)
    (key : String) (t : TerminalInfo) (alpha1 beta1 : Score)
    (hk : keyOfState s = .ok key) (ht : isTerminal s = .ok t) (hnt : t.done = false)
    (hprobe : ttProbe (ttGet st.tt key) (d + 1) alpha0 beta0 = (none, alpha1, beta1)) :
    (∀ res st2, alphabeta now ai cfg deadline (d + 1) s alpha0 beta0 color st = .ok (res, st2) →
        res.timedOut = false →
        ∃ flag, ttGet st2.tt key = some ⟨d + 1, res.score, flag, res.pv⟩
          ∧ (flag = .UPPER ↔ res.score.le alpha1 = true)
          ∧ (flag = .LOWER ↔ res.score.le alpha1 = false ∧ beta1.le res.score = true)
          ∧ (flag = .EXACT ↔ res.score.le alpha1 = false ∧ beta1.le res.score = false))
    ∧ ((∀ e, ttGet st.tt key = some e → e.depth < d + 1) → alpha1 = alpha0 ∧ beta1 = beta0)
    ∧ (∀ e, ttGet st.tt key = some e → d + 1 ≤ e.depth →
        e.flag ≠ .EXACT
        ∧ (e.flag = .LOWER → alpha0.lt e.score = true → alpha1 = e.score ∧ beta1 = beta0)
        ∧ (e.flag = .LOWER → alpha0.lt e.score = false → alpha1 = alpha0 ∧ beta1 = beta0)
        ∧ (e.flag = .UPPER → e.score.lt beta0 = true → alpha1 = alpha0 ∧ beta1 = e.score)
        ∧ (e.flag = .UPPER → e.score.lt beta0 = false → alpha1 = alpha0 ∧ beta1 = beta0))
    ∧ (s.board.WF → TTFin st.tt → (∀ n, ¬ now n > deadline) →
        ∃ res st2, alphabeta now ai cfg deadline (d + 1) s alpha0 beta0 color st = .ok (res, st2)
          ∧ res.timedOut = false) := by
  refine ⟨?_, (ttProbe_window hprobe).1, (ttProbe_window hprobe).2, ?_⟩
  · intro res st2 hres hto
    unfold alphabeta at hres
    by_cases hclock : now st.tick > deadline
    · simp only [hclock, if_true] at hres
      cases hres
      cases hto
    · simp only [hclock, if_false, ht, hnt, Bool.false_eq_true] at hres
      have hst := abSearch_stored (d + 1) (alphabeta now ai cfg deadline d) hk color
        (by exact hprobe) hres hto
      exact ⟨_, hst, boundFlag_cases _ _ _⟩
  · intro hwf htt hclock
    obtain ⟨res, st2, hres, -, hto, -⟩ :=
      alphabeta_fin now ai cfg deadline hclock (d + 1) s alpha0 beta0 color st hwf htt
    exact ⟨res, st2, hres, hto⟩

/-- C24 at the depth-1 search of `recaptureState` with the full window on
the engine `lowerBoundEngine`, whose stored lower bound 1e9 replaces alpha. -/
theorem C24_witness :
    (keyOfState recaptureState = .ok ".1S1M....0M.................#Crab|Tiger|Eel|Boar|Ox|t0"
      ∧ isTerminal recaptureState = .ok ⟨false, none, none⟩
      ∧ ttProbe (ttGet lowerBoundEngine.tt ".1S1M....0M.................#Crab|Tiger|Eel|Boar|Ox|t0")
          (0 + 1) .negInf .posInf = (none, .fin 1000000000, .posInf))
    ∧ ((∀ res st2, alphabeta (fun _ => 0) 0 (plainConfig 0) 1000 (0 + 1) recaptureState
          .negInf .posInf 1 lowerBoundEngine = .ok (res, st2) →
        res.timedOut = false →
        ∃ flag, ttGet st2.tt ".1S1M....0M.................#Crab|Tiger|Eel|Boar|Ox|t0"
            = some ⟨0 + 1, res.score, flag, res.pv⟩
          ∧ (flag = .UPPER ↔ res.score.le (.fin 1000000000) = true)
          ∧ (flag = .LOWER ↔ res.score.le (.fin 1000000000) = false
              ∧ Score.posInf.le res.score = true)
          ∧ (flag = .EXACT ↔ res.score.le (.fin 1000000000) = false
              ∧ Score.posInf.le res.score = false))
      ∧ (recaptureState.board.WF → TTFin lowerBoundEngine.tt →
          (∀ n, ¬ (fun _ : Nat => (0 : Int)) n > 1000) →
          ∃ res st2, alphabeta (fun _ => 0) 0 (plainConfig 0) 1000 (0 + 1) recaptureState
              .negInf .posInf 1 lowerBoundEngine = .ok (res, st2)
            ∧ res.timedOut = false)) :=
  have h := C24_bound_flag (fun _ => 0) 0 (plainConfig 0) 1000 0 recaptureState .negInf .posInf 1
    lowerBoundEngine ".1S1M....0M.................#Crab|Tiger|Eel|Boar|Ox|t0" ⟨false, none, none⟩
    (.fin 1000000000) .posInf (by decide!) (by decide!) rfl (by decide!)
  ⟨⟨by decide!, by decide!, by decide!⟩, h.1, h.2.2.2⟩

/-- C24 fails as stated. The depth-1 search of `recaptureState` with the
window (-Infinity, 1e9) stores the capture of the Master as a LOWER entry
with the score 1e9 (`lowerBoundEngine`). The next depth-1 search of the same
state is called with alpha0 = -Infinity and beta0 = Infinity; the stored
entry raises alpha to 1e9 and gives no result at once, the loop runs over
every move and ends with bestScore = 1e9. The entry stored is UPPER, since
bestScore <= 1e9, the alpha after the stored bound was applied; by the rule
of the claim, with the alpha of the call, the flag would be EXACT. -/
theorem C24_counterexample :
    keyOfState recaptureState = .ok ".1S1M....0M.................#Crab|Tiger|Eel|Boar|Ox|t0"
    ∧ alphabeta (fun _ => 0) 0 (plainConfig 0) 1000 1 recaptureState .negInf (.fin 1000000000) 1
        ⟨[], 0⟩ = .ok (⟨false, .fin 1000000000, some recaptureMove⟩, lowerBoundEngine)
    ∧ ttProbe (ttGet lowerBoundEngine.tt ".1S1M....0M.................#Crab|Tiger|Eel|Boar|Ox|t0")
        1 .negInf .posInf = (none, .fin 1000000000, .posInf)
    ∧ (alphabeta (fun _ => 0) 0 (plainConfig 0) 1000 1 recaptureState .negInf .posInf 1
        lowerBoundEngine).map
          (fun r => (r.1, ttGet r.2.tt ".1S1M....0M.................#Crab|Tiger|Eel|Boar|Ox|t0"))
        = .ok (⟨false, .fin 1000000000, some recaptureMove⟩,
            some ⟨1, .fin 1000000000, .UPPER, some recaptureMove⟩)
    ∧ boundFlag (.fin 1000000000) .negInf .posInf = .EXACT :=
  ⟨by decide!, by decide!, by decide!, by decide!, by decide!⟩

/-! ## Move ordering: hint, captures and passes -/

/-- The cell reported by `findMaster` holds a Master of the owner. -/
theorem findMaster_holds {b : Board} (hwf : b.WF) {owner : Player} {om : Option Pos}
    (h : findMaster b owner = .ok om) {p : Pos} (hp : om = some p) :
    pieceAt b p.x p.y = some ⟨owner, .M⟩ := by
  by_cases hex : ∃ x y, pieceAt b x y = some ⟨owner, .M⟩
  · obtain ⟨q, hq, hqm⟩ := findMaster_some hwf owner hex
    rw [h, hp] at hq
    injection hq with hq
    injection hq with hq
    rw [hq]
    exact hqm
  · have := findMaster_none hwf owner (fun x y hxy => hex ⟨x, y, hxy⟩)
    rw [h, hp] at this
    injection this with this
    cases this

/-- The ordering score of a placement with coordinates on a 5x5 board. -/
theorem scoreMove_place {s : GameState} (hwf : s.board.WF) (om : Option Pos)
    (hint : Option Move) {src dst : Pos} (c : Card) (hs : src.onBoard) (hd : dst.onBoard) :
    scoreMove s om hint (.place src dst c)
      = .ok (hintBonus hint (.place src dst c) + targetBonus (pieceAt s.board dst.x dst.y)
          + masterBonus (pieceAt s.board src.x src.y) src dst + landBonus om dst) := by
  unfold scoreMove
  simp only [readCell_of_WF hwf _ hs.2.2.1 hs.2.2.2, readCell_of_WF hwf _ hd.2.2.1 hd.2.2.2]

theorem landBonus_bound (om : Option Pos) (dst : Pos) :
    0 ≤ landBonus om dst ∧ landBonus om dst ≤ 999999 := by
  unfold landBonus
  cases om with
  | none => simp
  | some p =>
    simp only []
    split <;> simp

theorem targetBonus_bound (t : Cell) : 0 ≤ targetBonus t ∧ targetBonus t ≤ 500000 := by
  unfold targetBonus
  cases t with
  | none => simp
  | some p =>
    simp only []
    split <;> simp

/-- The bonus for landing on the reported Master is 0 on a cell that holds no Master. -/
theorem landBonus_zero {b : Board} (hwf : b.WF) {owner : Player} {om : Option Pos}
    (h : findMaster b owner = .ok om) {dst : Pos}
    (hno : pieceAt b dst.x dst.y ≠ some ⟨owner, .M⟩) : landBonus om dst = 0 := by
  unfold landBonus
  cases om with
  | none => rfl
  | some p =>
    simp only []
    have hp := findMaster_holds hwf h rfl
    split
    · rename_i hxy
      rw [hxy.1, hxy.2] at hno
      exact absurd hp hno
    · rfl

/-- The stable sort returns a list in descending order of the scores. -/
theorem insertDesc_sorted (a : Int × Move) (l : List (Int × Move))
    (h : l.Pairwise (fun p q => q.1 ≤ p.1)) :
    (insertDesc a l).Pairwise (fun p q => q.1 ≤ p.1) := by
  induction l with
  | nil => simp [insertDesc]
  | cons b t ih =>
    unfold insertDesc
    rw [List.pairwise_cons] at h
    split
    · rename_i hba
      rw [List.pairwise_cons]
      refine ⟨?_, List.pairwise_cons.2 h⟩
      intro q hq
      rcases List.mem_cons.1 hq with rfl | hq
      · exact hba
      · exact le_trans (h.1 q hq) hba
    · rename_i hba
      rw [List.pairwise_cons]
      refine ⟨?_, ih h.2⟩
      intro q hq
      rcases List.mem_cons.1 ((insertDesc_perm a t).subset hq) with rfl | hq
      · omega
      · exact h.1 q hq

theorem sortDesc_sorted (l : List (Int × Move)) :
    (sortDesc l).Pairwise (fun p q => q.1 ≤ p.1) := by
  induction l with
  | nil => simp [sortDesc]
  | cons a t ih =>
    unfold sortDesc
    exact insertDesc_sorted a _ ih

/-- The result of `orderMoves` in a non-terminal state with a 5x5 board: the
moves sorted by their scores, or the list itself when it has at most one move. -/
theorem orderMoves_sorted {s : GameState} (hwf : s.board.WF) {t : TerminalInfo}
    (ht : isTerminal s = .ok t) (hnt : t.done = false) (hint : Option Move)
    (moves : List Move) (hin : ∀ m ∈ moves, m.inRange) :
    ∃ om scored, findMaster s.board (1 - s.turn) = .ok om
      ∧ scored.map Prod.snd = moves
      ∧ (∀ p ∈ scored, scoreMove s om hint p.2 = .ok p.1)
      ∧ orderMoves moves s hint
          = .ok (if moves.length ≤ 1 then moves else (sortDesc scored).map Prod.snd) := by
  obtain ⟨om, hom⟩ := findMaster_total hwf (1 - s.turn)
  obtain ⟨scored, hsc, hmap, hval⟩ := scoreAll_total (scoreMove s om hint) moves
    (fun m hm => scoreMove_total hwf om hint (hin m hm))
  refine ⟨om, scored, hom, hmap, hval, ?_⟩
  unfold orderMoves
  simp only [ht, hnt, hom, hsc, Bool.false_eq_true, if_false]
  split <;> rfl

/-- A pass as hint changes no ordering score. -/
theorem scoreMove_pass_hint (s : GameState) (om : Option Pos) (c : Card) :
    scoreMove s om (some (.pass c)) = scoreMove s om none := by
  funext m
  cases m with
  | pass c2 => rfl
  | place src dst c2 =>
    unfold scoreMove
    simp [hintBonus]

/-- The ordering score of a move other than the hint. -/
theorem scoreMove_not_hint {s : GameState} (hwf : s.board.WF) (om : Option Pos) {hint m : Move}
    (hin : m.inRange) (hne : m ≠ hint) :
    ∃ v, scoreMove s om (some hint) m = .ok v ∧ v ≤ 1504999 := by
  cases m with
  | pass c => exact ⟨_, rfl, by decide⟩
  | place src dst c =>
    rw [scoreMove_place hwf om _ c hin.1 hin.2]
    refine ⟨_, rfl, ?_⟩
    have h1 := (masterBonus_bound (pieceAt s.board src.x src.y) hin.1 hin.2).2
    have h2 := (targetBonus_bound (pieceAt s.board dst.x dst.y)).2
    have h3 := (landBonus_bound om dst).2
    have h4 : hintBonus (some hint) (Move.place src dst c) = 0 := by
      unfold hintBonus
      rw [if_neg]
      intro h
      injection h with h
      exact hne h.symm
    omega

/-- The ordering score of a placement that is the hint. -/
theorem scoreMove_hint {s : GameState} (hwf : s.board.WF) (om : Option Pos) {src dst : Pos}
    (c : Card) (hs : src.onBoard) (hd : dst.onBoard) :
    ∃ v, scoreMove s om (some (.place src dst c)) (.place src dst c) = .ok v ∧ 4999000 ≤ v := by
  rw [scoreMove_place hwf om _ c hs hd]
  refine ⟨_, rfl, ?_⟩
  have h1 := (masterBonus_bound (pieceAt s.board src.x src.y) hs hd).1
  have h2 := (targetBonus_bound (pieceAt s.board dst.x dst.y)).1
  have h3 := (landBonus_bound om dst).1
  have h4 : hintBonus (some (Move.place src dst c)) (Move.place src dst c) = 5000000 := by
    unfold hintBonus
    rw [if_pos rfl]
  omega

/-- C25 (amended): in every non-terminal state with a 5x5 board, for every
list of moves taken from `allLegalMoves(s, s.turn)` and every placement hint
that occurs in the list, `orderMoves(moves, s, hint)` returns a rearrangement
of the list whose first element is the hint. A pass hint gets no bonus: the
result is the one without a hint. -/
theorem C25_placement_hint_first (s : GameState) (t : TerminalInfo) (l moves : List Move)
    (src dst : Pos) (c : Card) (hwf : s.board.WF) (ht : isTerminal s = .ok t)
    (hnt : t.done = false) (hl : allLegalMoves s s.turn = .ok l) (hsub : ∀ m ∈ moves, m ∈ l)
    (hmem : Move.place src dst c ∈ moves) :
    (∃ rest, orderMoves moves s (some (.place src dst c)) = .ok (.place src dst c :: rest)
      ∧ (Move.place src dst c :: rest).Perm moves)
    ∧ ∀ c2, orderMoves moves s (some (.pass c2)) = orderMoves moves s none := by
  have hin : ∀ m ∈ moves, m.inRange :=
    fun m hm => inRange_of_mem_allLegalMoves hwf hl (hsub m hm)
  constructor
  · obtain ⟨l2, hl2, hperm⟩ := orderMoves_perm hwf (some (.place src dst c)) moves hin
    obtain ⟨om, scored, -, hmap, hval, hord⟩ :=
      orderMoves_sorted hwf ht hnt (some (.place src dst c)) moves hin
    suffices hhead : ∃ rest, l2 = .place src dst c :: rest by
      obtain ⟨rest, hrest⟩ := hhead
      refine ⟨rest, ?_, ?_⟩
      · rw [hl2, hrest]
      · rw [← hrest]
        exact hperm
    rw [hl2] at hord
    injection hord with hord
    by_cases hlen : moves.length ≤ 1
    · rw [if_pos hlen] at hord
      rw [hord]
      cases moves with
      | nil => simp at hmem
      | cons a tl =>
        cases tl with
        | nil =>
          simp only [List.mem_singleton] at hmem
          exact ⟨[], by rw [hmem]⟩
        | cons b tl2 => simp at hlen
    · rw [if_neg hlen] at hord
      have hms := hin _ hmem
      obtain ⟨v, hv, hvge⟩ := scoreMove_hint hwf om c hms.1 hms.2
      have hmem2 : (v, Move.place src dst c) ∈ scored := by
        rw [← hmap] at hmem
        obtain ⟨p, hp, hp2⟩ := List.mem_map.mp hmem
        have := hval p hp
        rw [hp2, hv] at this
        injection this with this
        have hpe : p = (v, Move.place src dst c) := by
          cases p
          simp only at hp2 this
          rw [hp2, ← this]
        rw [← hpe]
        exact hp
      have hsame : ∀ p ∈ scored, p.2 = Move.place src dst c → p.1 = v := by
        intro p hp hp2
        have := hval p hp
        rw [hp2, hv] at this
        injection this with this
        exact this.symm
      have hless : ∀ p ∈ scored, p.2 ≠ Move.place src dst c → p.1 < v := by
        intro p hp hne
        have hpl : p.2 ∈ moves := by
          rw [← hmap]
          exact List.mem_map_of_mem _ hp
        obtain ⟨w, hw, hwle⟩ := scoreMove_not_hint hwf om (hin _ hpl) hne
        have := hval p hp
        rw [hw] at this
        injection this with this
        omega
      obtain ⟨rest, hrest⟩ := sortDesc_head scored v _ hmem2 hsame hless
      rw [hord, hrest]
      exact ⟨rest.map Prod.snd, rfl⟩
  · intro c2
    unfold orderMoves
    simp only [scoreMove_pass_hint]

/-- C25 at `sampleState` with the enumerated moves and the Crab step of the
Master as hint. -/
theorem C25_witness :
    (sampleState.board.WF ∧ isTerminal sampleState = .ok ⟨false, none, none⟩
      ∧ allLegalMoves sampleState sampleState.turn = .ok sampleMoves
      ∧ Move.place ⟨2, 4⟩ ⟨2, 3⟩ .Crab ∈ sampleMoves)
    ∧ ((∃ rest, orderMoves sampleMoves sampleState (some (.place ⟨2, 4⟩ ⟨2, 3⟩ .Crab))
          = .ok (.place ⟨2, 4⟩ ⟨2, 3⟩ .Crab :: rest)
        ∧ (Move.place ⟨2, 4⟩ ⟨2, 3⟩ .Crab :: rest).Perm sampleMoves)
      ∧ ∀ c2, orderMoves sampleMoves sampleState (some (.pass c2))
          = orderMoves sampleMoves sampleState none) :=
  ⟨⟨by decide, by decide!, by decide!, by decide⟩,
   C25_placement_hint_first sampleState ⟨false, none, none⟩ sampleMoves sampleMoves ⟨2, 4⟩ ⟨2, 3⟩
    .Crab (by decide) (by decide!) rfl (by decide!) (fun _ h => h) (by decide)⟩

/-- C25 fails as stated. In `blockedState`, a non-terminal state, the moves of
player 0 are the pass with the Crab and the pass with the Boar; with the
pass with the Boar as hint `orderMoves` returns the pass with the Crab first:
a pass is scored -1e6 before the hint is looked at. -/
theorem C25_counterexample :
    isTerminal blockedState = .ok ⟨false, none, none⟩
    ∧ allLegalMoves blockedState blockedState.turn = .ok [.pass .Crab, .pass .Boar]
    ∧ Move.pass .Boar ∈ [Move.pass .Crab, Move.pass .Boar]
    ∧ orderMoves [.pass .Crab, .pass .Boar] blockedState (some (.pass .Boar))
        = .ok [.pass .Crab, .pass .Boar]
    ∧ scoreMove blockedState (some ⟨2, 2⟩) (some (.pass .Boar)) (.pass .Boar) = .ok (-1000000) :=
  ⟨by decide!, by decide!, by decide, by decide!, by decide!⟩

/-- The ordering score without a hint lies in the range of the class of the move. -/
theorem scoreMove_rank {s : GameState} (hwf : s.board.WF) {om : Option Pos}
    (hom : findMaster s.board (1 - s.turn) = .ok om) {m : Move} (hin : m.inRange) {v : Int}
    (hv : scoreMove s om none m = .ok v) :
    moveRank s m ≤ 3
    ∧ (moveRank s m = 0 → v = -1000000)
    ∧ (moveRank s m = 1 → -1000 ≤ v ∧ v ≤ 5000)
    ∧ (moveRank s m = 2 → 19000 ≤ v ∧ v ≤ 25000)
    ∧ (moveRank s m = 3 → 499000 ≤ v) := by
  cases m with
  | pass c =>
    simp only [scoreMove] at hv
    injection hv with hv
    simp [moveRank, hv.symm]
  | place src dst c =>
    rw [scoreMove_place hwf om _ c hin.1 hin.2] at hv
    injection hv with hv
    have h1 := masterBonus_bound (pieceAt s.board src.x src.y) hin.1 hin.2
    have h3 := landBonus_bound om dst
    have h4 : hintBonus none (Move.place src dst c) = 0 := by simp [hintBonus]
    rw [h4] at hv
    cases htgt : pieceAt s.board dst.x dst.y with
    | none =>
      have h5 : landBonus om dst = 0 := landBonus_zero hwf hom (by rw [htgt]; simp)
      rw [htgt, h5] at hv
      simp only [targetBonus] at hv
      have hr : moveRank s (Move.place src dst c) = 1 := by simp only [moveRank, htgt]
      rw [hr]
      refine ⟨by omega, by omega, fun _ => ⟨by omega, by omega⟩, by omega, by omega⟩
    | some q =>
      rw [htgt] at hv
      by_cases hq : q.type = .M
      · simp only [targetBonus, hq, if_true] at hv
        have hr : moveRank s (Move.place src dst c) = 3 := by
          simp only [moveRank, htgt, hq, if_true]
        rw [hr]
        refine ⟨by omega, by omega, by omega, by omega, fun _ => by omega⟩
      · have h5 : landBonus om dst = 0 := by
          apply landBonus_zero hwf hom
          rw [htgt]
          intro h
          injection h with h
          rw [h] at hq
          exact hq rfl
        rw [h5] at hv
        simp only [targetBonus, hq, if_false] at hv
        have hr : moveRank s (Move.place src dst c) = 2 := by
          simp only [moveRank, htgt, hq, if_false]
        rw [hr]
        refine ⟨by omega, by omega, by omega, fun _ => ⟨by omega, by omega⟩, by omega⟩

/-- A move with a higher ordering score is in no lower class. -/
theorem moveRank_mono {s : GameState} (hwf : s.board.WF) {om : Option Pos}
    (hom : findMaster s.board (1 - s.turn) = .ok om) {a b : Move} (ha : a.inRange)
    (hb : b.inRange) {va vb : Int} (hva : scoreMove s om none a = .ok va)
    (hvb : scoreMove s om none b = .ok vb) (hle : vb ≤ va) : moveRank s b ≤ moveRank s a := by
  obtain ⟨a3, a0, a1, a2, a4⟩ := scoreMove_rank hwf hom ha hva
  obtain ⟨b3, b0, b1, b2, b4⟩ := scoreMove_rank hwf hom hb hvb
  by_contra hlt
  have hlt2 : moveRank s a < moveRank s b := by omega
  have hcases : moveRank s a = 0 ∨ moveRank s a = 1 ∨ moveRank s a = 2 ∨ moveRank s a = 3 := by
    omega
  have hcases2 : moveRank s b = 0 ∨ moveRank s b = 1 ∨ moveRank s b = 2 ∨ moveRank s b = 3 := by
    omega
  rcases hcases with h | h | h | h <;> rcases hcases2 with h2 | h2 | h2 | h2 <;> omega

/-- The classes of the enumerated moves: a piece on the destination of an
enumerated move belongs to the opponent. -/
theorem moveRank_legal {s : GameState} (hwf : s.board.WF) {l : List Move}
    (hl : allLegalMoves s s.turn = .ok l) {m : Move} (hm : m ∈ l) :
    (moveRank s m = 3 ↔ ∃ src dst c, m = .place src dst c
        ∧ pieceAt s.board dst.x dst.y = some ⟨1 - s.turn, .M⟩)
    ∧ (moveRank s m = 2 ↔ ∃ src dst c, m = .place src dst c
        ∧ pieceAt s.board dst.x dst.y = some ⟨1 - s.turn, .S⟩)
    ∧ (moveRank s m = 1 ↔ ∃ src dst c, m = .place src dst c
        ∧ pieceAt s.board dst.x dst.y = none)
    ∧ (moveRank s m = 0 ↔ ∃ c, m = .pass c) := by
  rcases mem_allLegalMoves_cases hwf hl hm with ⟨c, rfl⟩ | ⟨src, dst, c, rfl, -, -, -, hnh⟩
  · simp [moveRank]
  · cases htgt : pieceAt s.board dst.x dst.y with
    | none =>
      simp [moveRank, htgt]
      exact ⟨src, dst, ⟨rfl, rfl⟩, htgt⟩
    | some q =>
      have hown : q.owner = 1 - s.turn := other_player (fun ho => hnh ⟨q, htgt, ho⟩)
      obtain ⟨o, ty⟩ := q
      simp only at hown
      subst hown
      cases ty <;> simp [moveRank, htgt] <;> exact ⟨src, dst, ⟨rfl, rfl⟩, htgt⟩

/-- The moves of player 0 in `recaptureState` in enumeration order, and
ordered: the capture of the Master first, then the steps of the Master by
their approach to the arch. -/
theorem recaptureState_moves :
    allLegalMoves recaptureState recaptureState.turn
      = .ok [.place ⟨2, 1⟩ ⟨0, 1⟩ .Crab, .place ⟨2, 1⟩ ⟨2, 0⟩ .Crab, .place ⟨2, 1⟩ ⟨4, 1⟩ .Crab,
          .place ⟨2, 1⟩ ⟨2, 2⟩ .Tiger]
    ∧ orderMoves [.place ⟨2, 1⟩ ⟨0, 1⟩ .Crab, .place ⟨2, 1⟩ ⟨2, 0⟩ .Crab,
          .place ⟨2, 1⟩ ⟨4, 1⟩ .Crab, .place ⟨2, 1⟩ ⟨2, 2⟩ .Tiger] recaptureState none
      = .ok [.place ⟨2, 1⟩ ⟨2, 0⟩ .Crab, .place ⟨2, 1⟩ ⟨2, 2⟩ .Tiger,
          .place ⟨2, 1⟩ ⟨0, 1⟩ .Crab, .place ⟨2, 1⟩ ⟨4, 1⟩ .Crab] := by
  constructor <;> decide!

/-! ## Evaluator: the heuristic sum and the win magnitude -/

/-- A loop whose every step returns and carries a counted invariant returns
with the invariant at the number of its steps. -/
theorem foldlM_inv {α β : Type} (f : β → α → Except JsError β) (l : List α)
    (P : Nat → β → Prop)
    (h : ∀ n b a, a ∈ l → P n b → ∃ r, f b a = .ok r ∧ P (n + 1) r) (n0 : Nat) (init : β)
    (h0 : P n0 init) :
    ∃ r, l.foldlM f init = .ok r ∧ P (n0 + l.length) r := by
  induction l generalizing init n0 with
  | nil => exact ⟨init, rfl, h0⟩
  | cons a t ih =>
    obtain ⟨r1, hr1, hp1⟩ := h n0 init a (by simp) h0
    obtain ⟨r2, hr2, hp2⟩ := ih (fun n b a ha => h n b a (by simp [ha])) (n0 + 1) r1 hp1
    refine ⟨r2, ?_, ?_⟩
    · rw [List.foldlM_cons, hr1]
      exact hr2
    · have : n0 + (a :: t).length = n0 + 1 + t.length := by
        simp only [List.length_cons]
        omega
      rw [this]
      exact hp2

/-- A double loop over the 25 cells of a 5x5 board carries an invariant
counted in cells. -/
theorem cellLoop_inv {β : Type} {b : Board} (hwf : b.WF)
    (step : β → Int → Int → Except JsError Cell → Except JsError β) (P : Nat → β → Prop)
    (h : ∀ n acc x y c, 0 ≤ x ∧ x ≤ 4 → 0 ≤ y ∧ y ≤ 4 → P n acc →
      ∃ r, step acc x y (.ok c) = .ok r ∧ P (n + 1) r)
    (init : β) (h0 : P 0 init) :
    ∃ r, range5.foldlM (fun acc y =>
        range5.foldlM (fun acc x => step acc x y (readCell b x y)) acc) init = .ok r
      ∧ P 25 r := by
  have hrow := foldlM_inv
    (fun acc y => range5.foldlM (fun acc x => step acc x y (readCell b x y)) acc) range5
    (fun n acc => P (5 * n) acc)
    (by
      intro n acc y hy hp
      rw [mem_range5] at hy
      have hcol := foldlM_inv (fun acc x => step acc x y (readCell b x y)) range5 P
        (by
          intro k acc2 x hx hp2
          rw [mem_range5] at hx
          show ∃ r, step acc2 x y (readCell b x y) = .ok r ∧ P (k + 1) r
          rw [readCell_of_WF hwf _ hy.1 hy.2]
          exact h k acc2 x y _ hx hy hp2) (5 * n) acc hp
      obtain ⟨r, hr, hpr⟩ := hcol
      refine ⟨r, hr, ?_⟩
      have : 5 * (n + 1) = 5 * n + range5.length := by
        simp only [range5, List.length_cons, List.length_nil]
        omega
      show P (5 * (n + 1)) r
      rw [this]
      exact hpr) 0 init (by simpa using h0)
  obtain ⟨r, hr, hpr⟩ := hrow
  exact ⟨r, hr, by simpa [range5] using hpr⟩

/-- The counts of `countPieces` are not negative and add up to at most 25. -/
theorem countPieces_bound {b : Board} (hwf : b.WF) :
    ∃ c, countPieces b = .ok c ∧ 0 ≤ c.p0S ∧ 0 ≤ c.p0M ∧ 0 ≤ c.p1S ∧ 0 ≤ c.p1M
      ∧ c.p0S + c.p0M + c.p1S + c.p1M ≤ 25 := by
  have := cellLoop_inv hwf
    (fun (c : Counts) (_ : Int) (_ : Int) (r : Except JsError Cell) =>
      match r with
      | .error e => .error e
      | .ok p => .ok (countCell c p))
    (fun n c => 0 ≤ c.p0S ∧ 0 ≤ c.p0M ∧ 0 ≤ c.p1S ∧ 0 ≤ c.p1M
      ∧ c.p0S + c.p0M + c.p1S + c.p1M ≤ (n : Int))
    (by
      intro n acc x y c _ _ hp
      refine ⟨_, rfl, ?_⟩
      obtain ⟨h1, h2, h3, h4, h5⟩ := hp
      cases c with
      | none =>
        simp only [countCell]
        push_cast
        refine ⟨h1, h2, h3, h4, by omega⟩
      | some p =>
        simp only [countCell]
        push_cast
        split <;> split <;> simp only [] <;> refine ⟨?_, ?_, ?_, ?_, ?_⟩ <;> omega)
    ⟨0, 0, 0, 0⟩ (by simp)
  obtain ⟨c, hc, hp⟩ := this
  exact ⟨c, hc, by simpa using hp⟩

/-- The center score is between 0 and 56 per cell. -/
theorem centerScore_bound {s : GameState} (hwf : s.board.WF) (cfg : Config) (owner : Player) :
    ∃ v, centerScore s cfg owner = .ok v ∧ 0 ≤ v ∧ v ≤ 1400 := by
  unfold centerScore
  split
  · exact ⟨_, rfl, by decide, by decide⟩
  · have := cellLoop_inv hwf
      (fun (sc : Int) (x : Int) (y : Int) (r : Except JsError Cell) =>
        match r with
        | .error e => .error e
        | .ok none => .ok sc
        | .ok (some p) =>
          if p.owner ≠ owner then .ok sc
          else
            let dist := |x - 2| + |y - 2|
            .ok (sc + (if p.type = .M then 14 else 6) * (4 - dist)))
      (fun n sc => 0 ≤ sc ∧ sc ≤ 56 * (n : Int))
      (by
        intro n acc x y c hx hy hp
        have a1 : |x - 2| ≤ 2 := abs_le.mpr ⟨by omega, by omega⟩
        have a2 : |y - 2| ≤ 2 := abs_le.mpr ⟨by omega, by omega⟩
        have b1 := abs_nonneg (x - 2)
        have b2 := abs_nonneg (y - 2)
        cases c with
        | none => exact ⟨_, rfl, hp.1, by push_cast; omega⟩
        | some p =>
          simp only []
          split
          · exact ⟨_, rfl, hp.1, by push_cast; omega⟩
          · refine ⟨_, rfl, ?_⟩
            push_cast
            split <;> constructor <;> omega)
      0 (by simp)
    obtain ⟨v, hv, hp⟩ := this
    exact ⟨v, hv, hp.1, by have := hp.2; omega⟩

/-- The advancement score is between 0 and 4 per cell. -/
theorem advanceScore_bound {s : GameState} (hwf : s.board.WF) (cfg : Config) (owner : Player) :
    ∃ v, advanceScore s cfg owner = .ok v ∧ 0 ≤ v ∧ v ≤ 100 := by
  unfold advanceScore
  split
  · exact ⟨_, rfl, by decide, by decide⟩
  · have := cellLoop_inv hwf
      (fun (sc : Int) (_ : Int) (y : Int) (r : Except JsError Cell) =>
        match r with
        | .error e => .error e
        | .ok none => .ok sc
        | .ok (some p) =>
          if p.owner ≠ owner ∨ p.type ≠ .S then .ok sc
          else .ok (sc + (if owner = 0 then 4 - y else y)))
      (fun n sc => 0 ≤ sc ∧ sc ≤ 4 * (n : Int))
      (by
        intro n acc x y c hx hy hp
        cases c with
        | none => exact ⟨_, rfl, hp.1, by push_cast; omega⟩
        | some p =>
          simp only []
          split
          · exact ⟨_, rfl, hp.1, by push_cast; omega⟩
          · refine ⟨_, rfl, ?_⟩
            push_cast
            split <;> constructor <;> omega)
      0 (by simp)
    obtain ⟨v, hv, hp⟩ := this
    exact ⟨v, hv, hp.1, by have := hp.2; omega⟩

/-- The safety score is -1, 0 or 1. -/
theorem safetyScore_bound {s : GameState} (hwf : s.board.WF) (cfg : Config) (owner : Player) :
    ∃ v, safetyScore s cfg owner = .ok v ∧ -1 ≤ v ∧ v ≤ 1 := by
  obtain ⟨c1, h1⟩ := canCaptureMaster_total hwf owner
  obtain ⟨c2, h2⟩ := canCaptureMaster_total hwf (1 - owner)
  unfold safetyScore
  split
  · exact ⟨_, rfl, by decide, by decide⟩
  · simp only [h1, h2]
    refine ⟨_, rfl, ?_⟩
    cases c1 <;> cases c2 <;> decide

theorem length_flatMap_le {α β : Type} (l : List α) (f : α → List β) (k : Nat)
    (h : ∀ a ∈ l, (f a).length ≤ k) : (l.flatMap f).length ≤ l.length * k := by
  induction l with
  | nil => simp
  | cons a t ih =>
    have h1 := h a (by simp)
    have h2 := ih (fun a ha => h a (by simp [ha]))
    simp only [List.flatMap_cons, List.length_append, List.length_cons]
    have : (t.length + 1) * k = t.length * k + k := by ring
    omega

theorem card_moves_length (c : Card) : (CARD_DEFS c).moves.length ≤ 4 := by
  cases c <;> decide

/-- A card gives a player at most 4 moves for each of the 25 cells. -/
theorem legalMovesRef_length (s : GameState) (owner : Player) (c : Card) :
    (legalMovesRef s owner c).length ≤ 100 := by
  unfold legalMovesRef
  have hrow : ∀ y ∈ range5, (range5.flatMap fun x =>
      if holdsPieceOf s.board owner ⟨x, y⟩ then
        (((CARD_DEFS c).moves.map (destination owner x y)).filter
          (fun d => d.onBoard ∧ ¬ holdsPieceOf s.board owner d)).map
          (fun d => Move.place ⟨x, y⟩ d c)
      else []).length ≤ 20 := by
    intro y _
    have := length_flatMap_le range5 (fun x =>
      if holdsPieceOf s.board owner ⟨x, y⟩ then
        (((CARD_DEFS c).moves.map (destination owner x y)).filter
          (fun d => d.onBoard ∧ ¬ holdsPieceOf s.board owner d)).map
          (fun d => Move.place ⟨x, y⟩ d c)
      else []) 4 (by
        intro x _
        simp only []
        split
        · rw [List.length_map]
          refine le_trans (List.length_filter_le _ _) ?_
          rw [List.length_map]
          exact card_moves_length c
        · simp)
    simpa [range5] using this
  have := length_flatMap_le range5 _ 20 hrow
  simpa [range5] using this

/-- The mobility of a player is between 0 and 200. -/
theorem mobilityOf_bound {s : GameState} (hwf : s.board.WF) (owner : Player) :
    ∃ v, mobilityOf s owner = .ok v ∧ 0 ≤ v ∧ v ≤ 200 := by
  unfold mobilityOf
  rw [allLegalMoves_ok hwf]
  refine ⟨_, rfl, by positivity, ?_⟩
  have h0 := legalMovesRef_length s owner (s.hand owner).c0
  have h1 := legalMovesRef_length s owner (s.hand owner).c1
  have hle := List.length_filter_le (fun m : Move => !m.isPass)
    (if legalMovesRef s owner (s.hand owner).c0 ++ legalMovesRef s owner (s.hand owner).c1 = []
       then [Move.pass (s.hand owner).c0, Move.pass (s.hand owner).c1]
       else legalMovesRef s owner (s.hand owner).c0 ++ legalMovesRef s owner (s.hand owner).c1)
  have hlen : (if legalMovesRef s owner (s.hand owner).c0
        ++ legalMovesRef s owner (s.hand owner).c1 = []
       then [Move.pass (s.hand owner).c0, Move.pass (s.hand owner).c1]
       else legalMovesRef s owner (s.hand owner).c0
        ++ legalMovesRef s owner (s.hand owner).c1).length ≤ 200 := by
    split
    · simp
    · rw [List.length_append]
      omega
  have := le_trans hle hlen
  exact_mod_cast this

/-- The distance of a reported Master to an arch, or the 99 of an absent Master. -/
theorem archDistance_bound {b : Board} (hwf : b.WF) {owner : Player} {m : Option Pos}
    (h : findMaster b owner = .ok m) (goalY : Int) (hg : goalY = 0 ∨ goalY = 4) :
    0 ≤ (match m with
      | some p => |p.x - 2| + |p.y - goalY|
      | none => (99 : Int))
    ∧ (match m with
      | some p => |p.x - 2| + |p.y - goalY|
      | none => (99 : Int)) ≤ 99 := by
  cases m with
  | none => simp
  | some p =>
    simp only []
    have hp := findMaster_holds hwf h rfl
    obtain ⟨h1, h2, h3, h4⟩ := pieceAt_some_onBoard hwf hp
    simp only at h1 h2 h3 h4
    have a1 : |p.x - 2| ≤ 2 := abs_le.mpr ⟨by omega, by omega⟩
    have a2 : |p.y - goalY| ≤ 4 := by
      rcases hg with rfl | rfl <;> exact abs_le.mpr ⟨by omega, by omega⟩
    have b1 := abs_nonneg (p.x - 2)
    have b2 := abs_nonneg (p.y - goalY)
    constructor <;> omega

/-- With the default weights the heuristic sum of `evaluate` stays within 543068. -/
theorem scoreFor0_bound {s : GameState} (hwf : s.board.WF) (cfg : Config)
    (hw : cfg.defaultWeights) :
    ∃ v, scoreFor0 s cfg = .ok v ∧ -543068 ≤ v ∧ v ≤ 543068 := by
  obtain ⟨counts, hcounts, k1, k2, k3, k4, k5⟩ := countPieces_bound hwf
  obtain ⟨m0, hm0⟩ := findMaster_total hwf 0
  obtain ⟨m1, hm1⟩ := findMaster_total hwf 1
  obtain ⟨mob0, hmob0, p1, p2⟩ :
      ∃ v, (if cfg.useMobility then mobilityOf s 0 else .ok 0) = .ok v ∧ 0 ≤ v ∧ v ≤ 200 := by
    split
    · exact mobilityOf_bound hwf 0
    · exact ⟨_, rfl, by decide, by decide⟩
  obtain ⟨mob1, hmob1, p3, p4⟩ :
      ∃ v, (if cfg.useMobility then mobilityOf s 1 else .ok 0) = .ok v ∧ 0 ≤ v ∧ v ≤ 200 := by
    split
    · exact mobilityOf_bound hwf 1
    · exact ⟨_, rfl, by decide, by decide⟩
  obtain ⟨c0, hc0, q1, q2⟩ := centerScore_bound hwf cfg 0
  obtain ⟨c1, hc1, q3, q4⟩ := centerScore_bound hwf cfg 1
  obtain ⟨a0, ha0, r1, r2⟩ := advanceScore_bound hwf cfg 0
  obtain ⟨a1, ha1, r3, r4⟩ := advanceScore_bound hwf cfg 1
  obtain ⟨s0, hs0, t1, t2⟩ := safetyScore_bound hwf cfg 0
  obtain ⟨s1, hs1, t3, t4⟩ := safetyScore_bound hwf cfg 1
  obtain ⟨d1, d2⟩ := archDistance_bound hwf hm0 0 (Or.inl rfl)
  obtain ⟨d3, d4⟩ := archDistance_bound hwf hm1 4 (Or.inr rfl)
  obtain ⟨w1, w2, w3, w4, w5, w6⟩ := hw
  unfold scoreFor0
  simp only [hcounts, hm0, hm1, hmob0, hmob1, hc0, hc1, ha0, ha1, hs0, hs1, ok_bind,
    w1, w2, w3, w4, w5, w6]
  refine ⟨_, rfl, ?_⟩
  have htempo : -18 ≤ (if cfg.useTempo = true then (if s.turn = 0 then (18 : Int) else -18) else 0)
      ∧ (if cfg.useTempo = true then (if s.turn = 0 then (18 : Int) else -18) else 0) ≤ 18 := by
    split
    · split <;> constructor <;> decide
    · constructor <;> decide
  generalize (if cfg.useTempo = true then (if s.turn = 0 then (18 : Int) else -18) else 0) = tp
    at htempo ⊢
  cases m0 <;> cases m1 <;> simp only [] at d1 d2 d3 d4 ⊢ <;> constructor <;> omega

/-- With the default weights `evaluate` of a non-terminal state on a 5x5
board is below 5e8 in magnitude. -/
theorem evaluate_bound {s : GameState} (hwf : s.board.WF) (pov : Player) (cfg : Config)
    (hw : cfg.defaultWeights)
    {t : TerminalInfo} (ht : isTerminal s = .ok t) (hnt : t.done = false) :
    ∃ v, evaluate s pov cfg = .ok v ∧ |v| ≤ 543068 := by
  obtain ⟨v, hv, h1, h2⟩ := scoreFor0_bound hwf cfg hw
  unfold evaluate
  simp only [ht, hnt, hv, Bool.false_eq_true, if_false]
  split
  · exact ⟨v, rfl, abs_le.mpr ⟨h1, h2⟩⟩
  · exact ⟨-v, rfl, abs_le.mpr ⟨by omega, by omega⟩⟩

theorem Score.leaf_neg {x : Score} (h : x.leaf) : x.neg.leaf := by
  obtain ⟨v, rfl, hv⟩ := h
  refine ⟨-v, rfl, ?_⟩
  rcases hv with hv | hv | hv
  · left
    rw [abs_neg]
    exact hv
  · right; right; omega
  · right; left; omega

theorem Score.leaf_zero : (Score.fin 0).leaf := ⟨0, rfl, Or.inl (by decide)⟩

theorem TTLeaf_nil : TTLeaf [] := by
  intro k e h
  cases h

theorem TTLeaf_set {tt : TT} (h : TTLeaf tt) (k : String) {e : Entry} (he : e.score.leaf) :
    TTLeaf (ttSet tt k e) := by
  intro k2 e2 hget
  unfold ttSet ttGet at hget
  by_cases hkk : k = k2
  · rw [if_pos hkk] at hget
    injection hget with hget
    rw [← hget]
    exact he
  · rw [if_neg hkk] at hget
    exact h k2 e2 hget

/-- With the default weights the leaf score `color * evaluate` is a heuristic
value below 5e8 in magnitude, or the win magnitude with a sign, which it is
exactly on the terminal states. -/
theorem evaluate_leaf {s : GameState} (hwf : s.board.WF) (ai : Player) {cfg : Config}
    (hw : cfg.defaultWeights) {color : Int} (hc : color = 1 ∨ color = -1) :
    ∃ ev, evaluate s ai cfg = .ok ev ∧ (Score.fin (color * ev)).leaf := by
  obtain ⟨t, ht⟩ := isTerminal_total hwf
  by_cases hd : t.done = true
  · refine ⟨_, evaluate_done ht hd ai cfg, _, rfl, ?_⟩
    rcases hc with rfl | rfl <;> split <;> simp
  · have hnt : t.done = false := by simpa using hd
    obtain ⟨v, hv, hb⟩ := evaluate_bound hwf ai cfg hw ht hnt
    refine ⟨v, hv, _, rfl, Or.inl ?_⟩
    rcases hc with rfl | rfl
    · rw [one_mul]
      omega
    · rw [neg_one_mul, abs_neg]
      omega

theorem neg_color {color : Int} (hc : color = 1 ∨ color = -1) : -color = 1 ∨ -color = -1 := by
  omega

theorem qLoop_leaf {deeper : Searcher} (hd : SearcherLeaf deeper) {s : GameState}
    (hwf : s.board.WF) {l : List Move} (hl : allLegalMoves s s.turn = .ok l) (beta : Score)
    {color : Int} (hc : color = 1 ∨ color = -1) (moves : List Move) (hm : ∀ m ∈ moves, m ∈ l)
    (alpha best : Score) (hbest : best.leaf) (st : SearchState) (htt : TTLeaf st.tt) :
    ∃ res st2, qLoop deeper s beta color moves alpha best st = .ok (res, st2)
      ∧ TTLeaf st2.tt ∧ res.score.leaf := by
  induction moves generalizing alpha best st with
  | nil => exact ⟨_, _, rfl, htt, hbest⟩
  | cons m rest ih =>
    obtain ⟨ns, hns, hwfn⟩ := legal_step hwf hl (hm m (by simp))
    obtain ⟨child, st1, hchild, htt1, hleaf⟩ :=
      hd ns beta.neg alpha.neg (-color) st hwfn htt (neg_color hc)
    have hbest1 : (if best.lt child.score.neg = true then child.score.neg else best).leaf := by
      split
      · exact Score.leaf_neg hleaf
      · exact hbest
    unfold qLoop
    simp only [hns, hchild]
    by_cases hto : child.timedOut = true
    · simp only [hto, if_true]
      exact ⟨_, _, rfl, htt1, Score.leaf_zero⟩
    · simp only [hto, Bool.false_eq_true, if_false]
      by_cases hcut : beta.le (if alpha.lt child.score.neg = true then child.score.neg
          else alpha) = true
      · simp only [hcut, if_true]
        exact ⟨_, _, rfl, htt1, hbest1⟩
      · simp only [hcut, if_false]
        exact ih (fun m hm2 => hm m (by simp [hm2])) _ _ hbest1 st1 htt1

theorem qNode_leaf (now : Nat → Int) (ai : Player) {cfg : Config} (hw : cfg.defaultWeights)
    (deadlineMs : Int) (deeper : Option Searcher) (hd : ∀ f, deeper = some f → SearcherLeaf f) :
    SearcherLeaf (qNode now ai cfg deadlineMs deeper) := by
  intro s alpha beta color st hwf htt hc
  obtain ⟨ev, hev, hleaf⟩ := evaluate_leaf hwf ai hw hc
  have htt1 : TTLeaf ({ st with tick := st.tick + 1 } : SearchState).tt := htt
  unfold qNode
  simp only [hev]
  split
  · exact ⟨_, _, rfl, htt, Score.leaf_zero⟩
  · split
    · exact ⟨_, _, rfl, htt, hleaf⟩
    · cases deeper with
      | none => exact ⟨_, _, rfl, htt, hleaf⟩
      | some f =>
        obtain ⟨caps, l, hcaps, hl, hsub⟩ := captureMoves_total hwf
        simp only [hcaps]
        split
        · exact ⟨_, _, rfl, htt, hleaf⟩
        · obtain ⟨ordered, hord, hperm⟩ := orderMoves_perm hwf none caps
            (fun m hm => inRange_of_mem_allLegalMoves hwf hl (hsub m hm))
          simp only [hord]
          exact qLoop_leaf (hd f rfl) hwf hl beta hc ordered
            (fun m hm => hsub m (hperm.subset hm))
            (if alpha.lt (Score.fin (color * ev)) = true then Score.fin (color * ev) else alpha)
            (Score.fin (color * ev)) hleaf { st with tick := st.tick + 1 } htt1

theorem qSearch_leaf (now : Nat → Int) (ai : Player) {cfg : Config} (hw : cfg.defaultWeights)
    (deadlineMs : Int) (n : Nat) : SearcherLeaf (qSearch now ai cfg deadlineMs n) := by
  induction n with
  | zero =>
    unfold qSearch
    exact qNode_leaf now ai hw deadlineMs none (fun f hf => by cases hf)
  | succ k ih =>
    unfold qSearch
    apply qNode_leaf now ai hw deadlineMs
    intro f hf
    injection hf with hf
    rw [← hf]
    exact ih

theorem abLoop_leaf {deeper : Searcher} (hd : SearcherLeaf deeper) {s : GameState}
    (hwf : s.board.WF) {l : List Move} (hl : allLegalMoves s s.turn = .ok l) (beta : Score)
    {color : Int} (hc : color = 1 ∨ color = -1) (moves : List Move) (hm : ∀ m ∈ moves, m ∈ l)
    (acc : LoopAcc) (hacc : acc.bestScore.leaf ∨ (acc.bestScore = .negInf ∧ moves ≠ []))
    (st : SearchState) (htt : TTLeaf st.tt) :
    ∃ r st2, abLoop deeper s beta color moves acc st = .ok (r, st2)
      ∧ TTLeaf st2.tt ∧ ∀ acc2, r = some acc2 → acc2.bestScore.leaf := by
  induction moves generalizing acc st with
  | nil =>
    rcases hacc with hacc | ⟨-, hne⟩
    · refine ⟨_, _, rfl, htt, ?_⟩
      intro acc2 h2
      injection h2 with h2
      rw [← h2]
      exact hacc
    · exact absurd rfl hne
  | cons m rest ih =>
    have hml : m ∈ l := hm m (by simp)
    obtain ⟨ns, hns, hwfn⟩ := legal_step hwf hl hml
    obtain ⟨child, st1, hchild, htt1, hleaf⟩ :=
      hd ns beta.neg acc.alpha.neg (-color) st hwfn htt (neg_color hc)
    unfold abLoop
    simp only [hns, hchild]
    by_cases hto : child.timedOut = true
    · simp only [hto, if_true]
      exact ⟨_, _, rfl, htt1, fun acc2 h2 => by cases h2⟩
    · simp only [hto, Bool.false_eq_true, if_false]
      have hacc1 : (if acc.bestScore.lt child.score.neg = true then
            ({ acc with bestScore := child.score.neg, bestMove := some m } : LoopAcc)
          else acc).bestScore.leaf := by
        by_cases hlt : acc.bestScore.lt child.score.neg = true
        · rw [if_pos hlt]
          exact Score.leaf_neg hleaf
        · rw [if_neg hlt]
          rcases hacc with hacc | ⟨hneg, -⟩
          · exact hacc
          · exfalso
            apply hlt
            obtain ⟨v, hv, -⟩ := Score.leaf_neg hleaf
            rw [hneg, hv]
            rfl
      generalize (if acc.bestScore.lt child.score.neg = true then
            ({ acc with bestScore := child.score.neg, bestMove := some m } : LoopAcc)
          else acc) = acc1 at hacc1 ⊢
      have hacc2 : (if acc1.alpha.lt child.score.neg = true then
            ({ acc1 with alpha := child.score.neg } : LoopAcc) else acc1).bestScore.leaf := by
        split
        · exact hacc1
        · exact hacc1
      generalize (if acc1.alpha.lt child.score.neg = true then
            ({ acc1 with alpha := child.score.neg } : LoopAcc) else acc1) = acc2 at hacc2 ⊢
      by_cases hcut : beta.le acc2.alpha = true
      · simp only [hcut, if_true]
        refine ⟨_, _, rfl, htt1, ?_⟩
        intro acc3 h3
        injection h3 with h3
        rw [← h3]
        exact hacc2
      · simp only [hcut, if_false]
        exact ih (fun m hm2 => hm m (by simp [hm2])) acc2 (Or.inl hacc2) st1 htt1

theorem abSearch_leaf (depth : Nat) {deeper : Searcher} (hd : SearcherLeaf deeper) :
    SearcherLeaf (abSearch depth deeper) := by
  intro s alpha beta color st hwf htt hc
  obtain ⟨k, hk, -⟩ := keyOfState_ok hwf
  rcases hprobe : ttProbe (ttGet st.tt k) depth alpha beta with ⟨r, alpha1, beta1⟩
  cases r with
  | some r =>
    obtain ⟨e, he, hr⟩ := ttProbe_some_eq hprobe
    refine ⟨r, st, ?_, htt, ?_⟩
    · unfold abSearch
      simp only [hk, hprobe]
    · rw [hr]
      exact htt k e he
  | none =>
    have hl := allLegalMoves_ok hwf s.turn
    obtain ⟨moves, hmoves, hperm⟩ := orderMoves_perm hwf
      ((ttGet st.tt k).bind (fun e => e.best)) _
      (fun m hm => inRange_of_mem_allLegalMoves hwf hl hm)
    obtain ⟨r, st1, hres, htt1, hacc⟩ := abLoop_leaf hd hwf hl beta1 hc moves
      (fun m hm => hperm.subset hm) ⟨alpha1, .negInf, none⟩
      (Or.inr ⟨rfl, ordered_ne_nil hwf hl hperm⟩) st htt
    unfold abSearch
    simp only [hk, hprobe, hl, hmoves, hres]
    cases r with
    | none => exact ⟨_, _, rfl, htt1, Score.leaf_zero⟩
    | some acc =>
      exact ⟨_, _, rfl, TTLeaf_set htt1 k (hacc acc rfl), hacc acc rfl⟩

theorem abBase_leaf (now : Nat → Int) (ai : Player) {cfg : Config} (hw : cfg.defaultWeights)
    (deadlineMs : Int) (depth : Nat) : SearcherLeaf (abBase now ai cfg deadlineMs depth) := by
  intro s alpha beta color st hwf htt hc
  unfold abBase
  split
  · exact qSearch_leaf now ai hw deadlineMs cfg.qDepth s alpha beta color st hwf htt hc
  · obtain ⟨ev, hev, hleaf⟩ := evaluate_leaf hwf ai hw hc
    simp only [hev]
    exact ⟨_, _, rfl, htt, hleaf⟩

/-- With the default weights every score returned by `alphabeta` is a
heuristic value below 5e8 in magnitude or the win magnitude with a sign. -/
theorem alphabeta_leaf (now : Nat → Int) (ai : Player) {cfg : Config} (hw : cfg.defaultWeights)
    (deadlineMs : Int) (d : Nat) : SearcherLeaf (alphabeta now ai cfg deadlineMs d) := by
  induction d with
  | zero =>
    intro s alpha beta color st hwf htt hc
    obtain ⟨t, ht⟩ := isTerminal_total hwf
    unfold alphabeta
    simp only [ht]
    split
    · exact ⟨_, _, rfl, htt, Score.leaf_zero⟩
    · exact abBase_leaf now ai hw deadlineMs 0 s alpha beta color _ hwf htt hc
  | succ k ih =>
    intro s alpha beta color st hwf htt hc
    obtain ⟨t, ht⟩ := isTerminal_total hwf
    unfold alphabeta
    simp only [ht]
    split
    · exact ⟨_, _, rfl, htt, Score.leaf_zero⟩
    · split
      · exact abBase_leaf now ai hw deadlineMs (k + 1) s alpha beta color _ hwf htt hc
      · exact abSearch_leaf (k + 1) ih s alpha beta color _ hwf htt hc

/-- C27 (win magnitude dominates the heuristic): with the default weights
(mobility 70, center 8, advance 6, safety 1200, tempo 18, arch 150, each
absent or given with that value) and any feature flags, `evaluate` returns on
every non-terminal state with a 5x5 board for both points of view a value
with |v| < 5e8 < 1e9, and on every terminal state 1e9 or -1e9. Hence every
search of `alphabeta` from a table whose scores are such values (the empty
table of a new engine among them) returns, keeps such a table, and its score
passes the early-stop test |score| > 5e8 of `chooseMove` only if it is 1e9
or -1e9, the evaluation of a terminal state. -/
theorem C27_win_magnitude_dominates (cfg : Config) (hw : cfg.defaultWeights) :
    (∀ (s : GameState) (pov : Player) (t : TerminalInfo), s.board.WF →
        isTerminal s = .ok t → t.done = false →
        ∃ v, evaluate s pov cfg = .ok v ∧ |v| < 500000000)
    ∧ (500000000 : Int) < 1000000000
    ∧ (∀ (s : GameState) (pov : Player) (t : TerminalInfo),
        isTerminal s = .ok t → t.done = true →
        evaluate s pov cfg = .ok 1000000000 ∨ evaluate s pov cfg = .ok (-1000000000))
    ∧ (∀ (now : Nat → Int) (ai : Player) (deadline : Int) (d : Nat) (s : GameState)
        (alpha beta : Score) (color : Int) (st : SearchState),
        s.board.WF → TTLeaf st.tt → (color = 1 ∨ color = -1) →
        ∃ res st2, alphabeta now ai cfg deadline d s alpha beta color st = .ok (res, st2)
          ∧ TTLeaf st2.tt
          ∧ (res.score.absAbove 500000000 = true →
              res.score = .fin 1000000000 ∨ res.score = .fin (-1000000000))) := by
  refine ⟨?_, by decide, ?_, ?_⟩
  · intro s pov t hwf ht hnt
    obtain ⟨v, hv, hb⟩ := evaluate_bound hwf pov cfg hw ht hnt
    exact ⟨v, hv, by omega⟩
  · intro s pov t ht hd
    rw [evaluate_done ht hd pov cfg]
    split
    · exact Or.inl rfl
    · exact Or.inr rfl
  · intro now ai deadline d s alpha beta color st hwf htt hc
    obtain ⟨res, st2, hres, htt2, v, hv, hleaf⟩ :=
      alphabeta_leaf now ai hw deadline d s alpha beta color st hwf htt hc
    refine ⟨res, st2, hres, htt2, ?_⟩
    intro habs
    rw [hv] at habs ⊢
    simp only [Score.absAbove, decide_eq_true_eq] at habs
    rcases hleaf with h | h | h
    · omega
    · exact Or.inl (by rw [h])
    · exact Or.inr (by rw [h])

/-- C27 at the configuration of AI level 5, whose weights are given with
their default values. -/
theorem C27_witness :
    sampleConfig.defaultWeights
    ∧ ((∀ (s : GameState) (pov : Player) (t : TerminalInfo), s.board.WF →
        isTerminal s = .ok t → t.done = false →
        ∃ v, evaluate s pov sampleConfig = .ok v ∧ |v| < 500000000)
    ∧ (500000000 : Int) < 1000000000
    ∧ (∀ (s : GameState) (pov : Player) (t : TerminalInfo),
        isTerminal s = .ok t → t.done = true →
        evaluate s pov sampleConfig = .ok 1000000000
          ∨ evaluate s pov sampleConfig = .ok (-1000000000))
    ∧ (∀ (now : Nat → Int) (ai : Player) (deadline : Int) (d : Nat) (s : GameState)
        (alpha beta : Score) (color : Int) (st : SearchState),
        s.board.WF → TTLeaf st.tt → (color = 1 ∨ color = -1) →
        ∃ res st2, alphabeta now ai sampleConfig deadline d s alpha beta color st
            = .ok (res, st2)
          ∧ TTLeaf st2.tt
          ∧ (res.score.absAbove 500000000 = true →
              res.score = .fin 1000000000 ∨ res.score = .fin (-1000000000)))) :=
  ⟨by decide, C27_win_magnitude_dominates sampleConfig (by decide)⟩

/-- The evaluation of `sampleState` at AI level 5, and the depth-1 search of
`recaptureState` without quiescence, which returns the win magnitude. -/
theorem evaluate_sample :
    evaluate sampleState 0 sampleConfig = .ok 18
    ∧ (alphabeta (fun _ => 0) 0 (plainConfig 0) 1000 1 recaptureState .negInf .posInf 1
        ⟨[], 0⟩).map (fun r => r.1.score) = .ok (.fin 1000000000) := by
  constructor <;> decide!

/-! ## Piece counts -/

/-- The cells of a board after a write, as a pointwise change. -/
theorem cellsOf_put_map {b : Board} (hwf : b.WF) {x y : Int} (hx0 : 0 ≤ x) (hx4 : x ≤ 4)
    (hy0 : 0 ≤ y) (hy4 : y ≤ 4) (v : Cell) :
    cellsOf (b.put x y v)
      = scanOrder.map (fun p => if p.1 = x ∧ p.2 = y then v else pieceAt b p.1 p.2) := by
  unfold cellsOf
  apply List.map_congr_left
  intro p _
  exact pieceAt_put hwf hx0 hx4 hy0 hy4 v p.1 p.2

/-- A write on the board changes the one cell of the scan at its position. -/
theorem cellsOf_put {b : Board} (hwf : b.WF) {x y : Int} (hx0 : 0 ≤ x) (hx4 : x ≤ 4)
    (hy0 : 0 ≤ y) (hy4 : y ≤ 4) (v : Cell) :
    cellsOf (b.put x y v) = (cellsOf b).set (cellIndex x y) v := by
  rw [cellsOf_put_map hwf hx0 hx4 hy0 hy4]
  have hx : x = 0 ∨ x = 1 ∨ x = 2 ∨ x = 3 ∨ x = 4 := by omega
  have hy : y = 0 ∨ y = 1 ∨ y = 2 ∨ y = 3 ∨ y = 4 := by omega
  rcases hx with rfl | rfl | rfl | rfl | rfl <;> rcases hy with rfl | rfl | rfl | rfl | rfl <;>
    simp [cellsOf, scanOrder, range5, cellIndex]

/-- The cell of the scan at the position of `(x, y)`. -/
theorem cellsOf_get {b : Board} {x y : Int} (hx0 : 0 ≤ x) (hx4 : x ≤ 4)
    (hy0 : 0 ≤ y) (hy4 : y ≤ 4) :
    (cellsOf b)[cellIndex x y]? = some (pieceAt b x y) := by
  have hx : x = 0 ∨ x = 1 ∨ x = 2 ∨ x = 3 ∨ x = 4 := by omega
  have hy : y = 0 ∨ y = 1 ∨ y = 2 ∨ y = 3 ∨ y = 4 := by omega
  rcases hx with rfl | rfl | rfl | rfl | rfl <;> rcases hy with rfl | rfl | rfl | rfl | rfl <;>
    simp [cellsOf, scanOrder, range5, cellIndex]

theorem cellIndex_lt {x y : Int} (hx0 : 0 ≤ x) (hx4 : x ≤ 4) (hy0 : 0 ≤ y) (hy4 : y ≤ 4)
    (b : Board) : cellIndex x y < (cellsOf b).length := by
  rw [cellsOf_length]
  unfold cellIndex
  omega

/-- A loop whose every step returns a pure value is a fold. -/
theorem foldlM_pure {α β : Type} (f : β → α → Except JsError β) (g : β → α → β) (l : List α)
    (h : ∀ b a, a ∈ l → f b a = .ok (g b a)) (init : β) :
    l.foldlM f init = .ok (l.foldl g init) := by
  induction l generalizing init with
  | nil => rfl
  | cons a t ih =>
    rw [List.foldlM_cons, h init a (by simp), List.foldl_cons]
    exact ih (fun b a ha => h b a (by simp [ha])) _

/-- On a 5x5 board `countPieces` folds `countCell` over the cells in scan order. -/
theorem countPieces_fold {b : Board} (hwf : b.WF) :
    countPieces b = .ok ((cellsOf b).foldl countCell ⟨0, 0, 0, 0⟩) := by
  unfold countPieces
  rw [foldlM_pure _ (fun c y => (range5.map (fun x => pieceAt b x y)).foldl countCell c)]
  · simp [cellsOf, scanOrder, range5]
  · intro c y hy
    rw [mem_range5] at hy
    rw [foldlM_pure _ (fun c x => countCell c (pieceAt b x y))]
    · rw [List.foldl_map]
    · intro c2 x _
      rw [readCell_of_WF hwf _ hy.1 hy.2]

/-- The fold of `countCell` adds to each count the number of cells holding
the piece of that owner and type. -/
theorem foldl_countCell (l : List Cell) (c : Counts) :
    l.foldl countCell c
      = ⟨c.p0S + (l.count (some ⟨0, .S⟩) : Nat), c.p0M + (l.count (some ⟨0, .M⟩) : Nat),
         c.p1S + (l.count (some ⟨1, .S⟩) : Nat), c.p1M + (l.count (some ⟨1, .M⟩) : Nat)⟩ := by
  induction l generalizing c with
  | nil => simp
  | cons a t ih =>
    rw [List.foldl_cons, ih]
    cases a with
    | none => simp [countCell]
    | some p =>
      obtain ⟨o, ty⟩ := p
      fin_cases o <;> cases ty <;> simp [countCell, List.count_cons] <;> omega

/-- On a 5x5 board `countPieces` returns the numbers of cells holding each piece. -/
theorem countPieces_eq {b : Board} (hwf : b.WF) :
    countPieces b = .ok ⟨(pieceCount b ⟨0, .S⟩ : Nat), (pieceCount b ⟨0, .M⟩ : Nat),
      (pieceCount b ⟨1, .S⟩ : Nat), (pieceCount b ⟨1, .M⟩ : Nat)⟩ := by
  rw [countPieces_fold hwf, foldl_countCell]
  simp [pieceCount]

/-! ## Piece counts under move application -/

/-- The count of a cell value after a write on the board. -/
theorem count_put {b : Board} (hwf : b.WF) {x y : Int} (hx0 : 0 ≤ x) (hx4 : x ≤ 4)
    (hy0 : 0 ≤ y) (hy4 : y ≤ 4) (v q : Cell) :
    (cellsOf (b.put x y v)).count q + (if pieceAt b x y = q then 1 else 0)
      = (cellsOf b).count q + (if v = q then 1 else 0) := by
  have hlt := cellIndex_lt hx0 hx4 hy0 hy4 b
  have hget : (cellsOf b)[cellIndex x y] = pieceAt b x y := by
    have := cellsOf_get (b := b) hx0 hx4 hy0 hy4
    rw [List.getElem?_eq_getElem hlt] at this
    injection this
  rw [cellsOf_put hwf hx0 hx4 hy0 hy4, List.count_set _ _ _ _ hlt, hget]
  simp only [beq_iff_eq]
  have hpos : (if pieceAt b x y = q then 1 else 0) ≤ (cellsOf b).count q := by
    split
    · rename_i he
      rw [← he, ← hget]
      exact List.count_pos_iff.2 (List.getElem_mem _)
    · exact Nat.zero_le _
  omega

/-- The counts after a placement: the moved piece keeps its count, the piece
on the destination loses one. -/
theorem pieceCount_move {b : Board} (hwf : b.WF) {src dst : Pos} (hs : src.onBoard)
    (hd : dst.onBoard) {piece : Piece} (hp : pieceAt b src.x src.y = some piece)
    (hsd : ¬ (dst.x = src.x ∧ dst.y = src.y)) (p : Piece) :
    pieceCount ((b.put src.x src.y none).put dst.x dst.y (some piece)) p
        + (if pieceAt b dst.x dst.y = some p then 1 else 0)
      = pieceCount b p := by
  obtain ⟨hs1, hs2, hs3, hs4⟩ := hs
  obtain ⟨hd1, hd2, hd3, hd4⟩ := hd
  have hwf1 := WF_put hwf src.x hs3 hs4 none
  have h1 := count_put hwf hs1 hs2 hs3 hs4 none (some p)
  have h2 := count_put hwf1 hd1 hd2 hd3 hd4 (some piece) (some p)
  rw [pieceAt_put hwf hs1 hs2 hs3 hs4, if_neg hsd] at h2
  rw [hp] at h1
  unfold pieceCount
  simp only [reduceCtorEq, if_false, Option.some.injEq] at h1 h2
  omega

/-- The counts of the pieces after a successful `applyMove` on a 5x5 board
with coordinates on the board. -/
theorem applyMove_pieceCount {s ns : GameState} {m : Move} (hwf : s.board.WF) (hin : m.inRange)
    (h : applyMove s m = .ok (some ns)) :
    (∀ cd, m = .pass cd → ∀ p, pieceCount ns.board p = pieceCount s.board p)
    ∧ (∀ src dst cd, m = .place src dst cd →
        (∀ q, pieceAt s.board dst.x dst.y = some q → q.owner = 1 - s.turn)
        ∧ ∀ p, pieceCount ns.board p + (if pieceAt s.board dst.x dst.y = some p then 1 else 0)
            = pieceCount s.board p) := by
  cases m with
  | pass c =>
    refine ⟨?_, (fun src dst cd he => by cases he)⟩
    intro cd _ p
    obtain ⟨board, idx, hb, -, rfl⟩ := applyMove_some h
    simp only [applyMoveBoard] at hb
    injection hb with hb
    injection hb with hb
    rw [← hb]
  | place src dst c =>
    refine ⟨(fun cd he => by cases he), ?_⟩
    intro src2 dst2 cd he
    injection he with h1 h2 h3
    subst h1 h2 h3
    obtain ⟨piece, hp, howner, hnh, hb⟩ := applyMove_place_board hwf hin.1 hin.2 h
    have hsd : ¬ (dst.x = src.x ∧ dst.y = src.y) := by
      rintro ⟨hx, hy⟩
      apply hnh
      refine ⟨piece, ?_, howner⟩
      rw [hx, hy]
      exact hp
    refine ⟨?_, ?_⟩
    · intro q hq
      exact other_player (fun ho => hnh ⟨q, hq, ho⟩)
    · intro p
      rw [hb]
      exact pieceCount_move hwf hin.1 hin.2 hp hsd p

/-- No count of a piece grows by a successful `applyMove`. -/
theorem pieceCount_le {s ns : GameState} {m : Move} (hwf : s.board.WF) (hin : m.inRange)
    (h : applyMove s m = .ok (some ns)) (p : Piece) :
    pieceCount ns.board p ≤ pieceCount s.board p := by
  obtain ⟨h1, h2⟩ := applyMove_pieceCount hwf hin h
  cases m with
  | pass c => rw [h1 c rfl p]
  | place src dst c =>
    have := (h2 src dst c rfl).2 p
    omega

/-- The states reached from the initial board through moves with coordinates
on the board keep a 5x5 board and at most the initial count of every piece. -/
theorem reachableIn_counts {s0 r : GameState} (h0 : s0.board = initialBoard)
    (hr : ReachableIn s0 r) :
    r.board.WF ∧ ∀ p, pieceCount r.board p ≤ pieceCount initialBoard p := by
  induction hr with
  | start =>
    rw [h0]
    exact ⟨initialBoard_WF, fun p => Nat.le_refl _⟩
  | step m _ hin happ ih =>
    exact ⟨applyMove_WF ih.1 hin happ,
      fun p => Nat.le_trans (pieceCount_le ih.1 hin happ p) (ih.2 p)⟩

theorem pieceCount_initial :
    pieceCount initialBoard ⟨0, .S⟩ = 4 ∧ pieceCount initialBoard ⟨0, .M⟩ = 1
    ∧ pieceCount initialBoard ⟨1, .S⟩ = 4 ∧ pieceCount initialBoard ⟨1, .M⟩ = 1 := by
  decide

/-- C28 (amended): for every state `s` on a 5x5 board and every successful
`applyMove(s, m)` whose coordinates lie on the board, the counts of
`countPieces` before and after are related as follows: the Student and
Master counts of the acting player are unchanged; the counts of the opponent
are unchanged for a pass and for a move to an empty cell; a piece on the
destination belongs to the opponent, whose count of that type decreases by
exactly one while the other type is unchanged; an owner with at most one
Master has at most one Master afterwards. Hence every state reached from the
initial board through such moves has at most one Master and at most four
Students per owner. -/
theorem C28_piece_invariant (s ns : GameState) (m : Move) (hwf : s.board.WF) (hin : m.inRange)
    (h : applyMove s m = .ok (some ns)) :
    (∃ c c2, countPieces s.board = .ok c ∧ countPieces ns.board = .ok c2
      ∧ c2.students s.turn = c.students s.turn ∧ c2.masters s.turn = c.masters s.turn
      ∧ (((∃ cd, m = .pass cd)
            ∨ ∃ src dst cd, m = .place src dst cd ∧ pieceAt s.board dst.x dst.y = none) →
          c2.students (1 - s.turn) = c.students (1 - s.turn)
          ∧ c2.masters (1 - s.turn) = c.masters (1 - s.turn))
      ∧ (∀ src dst cd q, m = .place src dst cd → pieceAt s.board dst.x dst.y = some q →
          q.owner = 1 - s.turn
          ∧ c2.students (1 - s.turn) + c2.masters (1 - s.turn)
              = c.students (1 - s.turn) + c.masters (1 - s.turn) - 1
          ∧ (q.type = .S → c2.students (1 - s.turn) = c.students (1 - s.turn) - 1
              ∧ c2.masters (1 - s.turn) = c.masters (1 - s.turn))
          ∧ (q.type = .M → c2.masters (1 - s.turn) = c.masters (1 - s.turn) - 1
              ∧ c2.students (1 - s.turn) = c.students (1 - s.turn)))
      ∧ (c.p0M ≤ 1 → c2.p0M ≤ 1) ∧ (c.p1M ≤ 1 → c2.p1M ≤ 1))
    ∧ (∀ s0 r, s0.board = initialBoard → ReachableIn s0 r →
        ∃ c, countPieces r.board = .ok c ∧ 0 ≤ c.p0S ∧ c.p0S ≤ 4 ∧ 0 ≤ c.p0M ∧ c.p0M ≤ 1
          ∧ 0 ≤ c.p1S ∧ c.p1S ≤ 4 ∧ 0 ≤ c.p1M ∧ c.p1M ≤ 1) := by
  constructor
  · have hwf2 := applyMove_WF hwf hin h
    obtain ⟨hpass, hplace⟩ := applyMove_pieceCount hwf hin h
    refine ⟨_, _, countPieces_eq hwf, countPieces_eq hwf2, ?_⟩
    have hturn : s.turn = 0 ∨ s.turn = 1 := by
      generalize s.turn = t
      revert t
      decide
    cases m with
    | pass c =>
      have e := hpass c rfl
      simp only [Counts.students, Counts.masters, e]
      refine ⟨trivial, trivial, fun _ => ⟨trivial, trivial⟩, ?_, fun h1 => h1, fun h1 => h1⟩
      intro src dst cd q he
      cases he
    | place src dst c =>
      obtain ⟨hown, hcnt⟩ := hplace src dst c rfl
      have e1 := hcnt ⟨0, .S⟩
      have e2 := hcnt ⟨0, .M⟩
      have e3 := hcnt ⟨1, .S⟩
      have e4 := hcnt ⟨1, .M⟩
      cases htgt : pieceAt s.board dst.x dst.y with
      | none =>
        rw [htgt] at e1 e2 e3 e4
        simp only [reduceCtorEq, if_false, Nat.add_zero] at e1 e2 e3 e4
        simp only [Counts.students, Counts.masters, e1, e2, e3, e4]
        refine ⟨trivial, trivial, fun _ => ⟨trivial, trivial⟩, ?_, fun h1 => h1, fun h1 => h1⟩
        intro src2 dst2 cd q he hq
        injection he with h1 h2 h3
        subst h1 h2 h3
        rw [htgt] at hq
        cases hq
      | some q =>
        have hq := hown q htgt
        rw [htgt] at e1 e2 e3 e4
        obtain ⟨o, ty⟩ := q
        simp only at hq
        simp only [Option.some.injEq, Piece.mk.injEq] at e1 e2 e3 e4
        refine ⟨?_, ?_, ?_, ?_, ?_, ?_⟩
        · rcases hturn with ht | ht <;> rw [ht] at hq <;> subst hq <;>
            simp [Counts.students, ht] at e1 e2 e3 e4 ⊢ <;> omega
        · rcases hturn with ht | ht <;> rw [ht] at hq <;> subst hq <;>
            simp [Counts.masters, ht] at e1 e2 e3 e4 ⊢ <;> omega
        · rintro (⟨cd, he⟩ | ⟨src2, dst2, cd, he, hnone⟩)
          · cases he
          · injection he with h1 h2 h3
            subst h1 h2 h3
            rw [htgt] at hnone
            cases hnone
        · intro src2 dst2 cd q2 he hq2
          injection he with h1 h2 h3
          subst h1 h2 h3
          rw [htgt] at hq2
          injection hq2 with hq2
          subst hq2
          refine ⟨hq, ?_, ?_, ?_⟩
          · rcases hturn with ht | ht <;> rw [ht] at hq <;> subst hq <;> cases ty <;>
              simp [Counts.students, Counts.masters, ht] at e1 e2 e3 e4 ⊢ <;> omega
          · intro hty
            simp only at hty
            subst hty
            rcases hturn with ht | ht <;> rw [ht] at hq <;> subst hq <;>
              simp [Counts.students, Counts.masters, ht] at e1 e2 e3 e4 ⊢ <;> omega
          · intro hty
            simp only at hty
            subst hty
            rcases hturn with ht | ht <;> rw [ht] at hq <;> subst hq <;>
              simp [Counts.students, Counts.masters, ht] at e1 e2 e3 e4 ⊢ <;> omega
        · intro h1
          have : pieceCount ns.board ⟨0, .M⟩ ≤ pieceCount s.board ⟨0, .M⟩ := by omega
          simp only at h1 ⊢
          omega
        · intro h1
          have : pieceCount ns.board ⟨1, .M⟩ ≤ pieceCount s.board ⟨1, .M⟩ := by omega
          simp only at h1 ⊢
          omega
  · intro s0 r h0 hr
    obtain ⟨hwfr, hle⟩ := reachableIn_counts h0 hr
    obtain ⟨i1, i2, i3, i4⟩ := pieceCount_initial
    have l1 := hle ⟨0, .S⟩
    have l2 := hle ⟨0, .M⟩
    have l3 := hle ⟨1, .S⟩
    have l4 := hle ⟨1, .M⟩
    refine ⟨_, countPieces_eq hwfr, ?_⟩
    simp only
    omega

/-- C28 at the capture of the Master of player 1 in `recaptureState`. -/
theorem C28_witness :
    (recaptureState.board.WF ∧ recaptureMove.inRange
      ∧ applyMove recaptureState recaptureMove = .ok (some afterCaptureState))
    ∧ (
    (∃ c c2, countPieces recaptureState.board = .ok c ∧ countPieces afterCaptureState.board = .ok c2
      ∧ c2.students recaptureState.turn = c.students recaptureState.turn ∧ c2.masters recaptureState.turn = c.masters recaptureState.turn
      ∧ (((∃ cd, recaptureMove = .pass cd)
            ∨ ∃ src dst cd, recaptureMove = .place src dst cd ∧ pieceAt recaptureState.board dst.x dst.y = none) →
          c2.students (1 - recaptureState.turn) = c.students (1 - recaptureState.turn)
          ∧ c2.masters (1 - recaptureState.turn) = c.masters (1 - recaptureState.turn))
      ∧ (∀ src dst cd q, recaptureMove = .place src dst cd → pieceAt recaptureState.board dst.x dst.y = some q →
          q.owner = 1 - recaptureState.turn
          ∧ c2.students (1 - recaptureState.turn) + c2.masters (1 - recaptureState.turn)
              = c.students (1 - recaptureState.turn) + c.masters (1 - recaptureState.turn) - 1
          ∧ (q.type = .S → c2.students (1 - recaptureState.turn) = c.students (1 - recaptureState.turn) - 1
              ∧ c2.masters (1 - recaptureState.turn) = c.masters (1 - recaptureState.turn))
          ∧ (q.type = .M → c2.masters (1 - recaptureState.turn) = c.masters (1 - recaptureState.turn) - 1
              ∧ c2.students (1 - recaptureState.turn) = c.students (1 - recaptureState.turn)))
      ∧ (c.p0M ≤ 1 → c2.p0M ≤ 1) ∧ (c.p1M ≤ 1 → c2.p1M ≤ 1))
    ∧ (∀ s0 r, s0.board = initialBoard → ReachableIn s0 r →
        ∃ c, countPieces r.board = .ok c ∧ 0 ≤ c.p0S ∧ c.p0S ≤ 4 ∧ 0 ≤ c.p0M ∧ c.p0M ≤ 1
          ∧ 0 ≤ c.p1S ∧ c.p1S ≤ 4 ∧ 0 ≤ c.p1M ∧ c.p1M ≤ 1)) :=
  ⟨⟨by decide, ⟨by decide, by decide⟩, by decide!⟩,
   C28_piece_invariant recaptureState afterCaptureState recaptureMove (by decide)
    ⟨by decide, by decide⟩ (by decide!)⟩

/-- C28 fails as stated. In `sampleState`, with one Master per owner, the
Tiger move of player 0 from (0,4) to (6,3) is applied: the destination is
outside the board, the Student is written to the index 6 of the row 3 and
leaves the 5x5 scan of `countPieces`. The Student count of the acting
player 0 drops from 4 to 3. -/
theorem C28_counterexample :
    countPieces sampleState.board = .ok ⟨4, 1, 4, 1⟩
    ∧ sampleState.turn = 0
    ∧ applyMove sampleState (.place ⟨0, 4⟩ ⟨6, 3⟩ .Tiger) = .ok (some sampleOverflow)
    ∧ countPieces sampleOverflow.board = .ok ⟨3, 1, 4, 1⟩ :=
  ⟨by decide!, rfl, by decide!, by decide!⟩

/-! ## Exact failure condition of move application -/

/-- A successful `applyMove` plays a card of the hand of the side to move. -/
theorem card_of_applyMove {s ns : GameState} {m : Move} (h : applyMove s m = .ok (some ns)) :
    (s.hand s.turn).c0 = m.card ∨ (s.hand s.turn).c1 = m.card := by
  obtain ⟨board, idx, -, hidx, -⟩ := applyMove_some h
  rcases hidx with ⟨-, h0⟩ | ⟨-, -, h1⟩
  · exact Or.inl h0
  · exact Or.inr h1

/-- The board part of `applyMove` on a 5x5 board with coordinates on the
board: it returns, and null exactly on the three guards of a placement. -/
theorem applyMoveBoard_cases {s : GameState} (hwf : s.board.WF) {m : Move} (hin : m.inRange) :
    (applyMoveBoard s.board s.turn m = .ok none
      ∧ ∃ src dst c, m = .place src dst c
        ∧ (pieceAt s.board src.x src.y = none
          ∨ (∃ p, pieceAt s.board src.x src.y = some p ∧ p.owner ≠ s.turn)
          ∨ holdsPieceOf s.board s.turn dst))
    ∨ ((∃ board, applyMoveBoard s.board s.turn m = .ok (some board))
      ∧ ¬ ∃ src dst c, m = .place src dst c
        ∧ (pieceAt s.board src.x src.y = none
          ∨ (∃ p, pieceAt s.board src.x src.y = some p ∧ p.owner ≠ s.turn)
          ∨ holdsPieceOf s.board s.turn dst)) := by
  cases m with
  | pass c =>
    right
    refine ⟨⟨s.board, rfl⟩, ?_⟩
    rintro ⟨src, dst, c2, he, -⟩
    cases he
  | place src dst c =>
    rw [applyMoveBoard_place_of_WF hwf _ hin.1 hin.2]
    cases hp : pieceAt s.board src.x src.y with
    | none => exact Or.inl ⟨rfl, src, dst, c, rfl, Or.inl hp⟩
    | some piece =>
      simp only []
      by_cases ho : piece.owner ≠ s.turn
      · rw [if_pos ho]
        exact Or.inl ⟨rfl, src, dst, c, rfl, Or.inr (Or.inl ⟨piece, hp, ho⟩)⟩
      · rw [if_neg ho]
        by_cases hh : holdsPieceOf s.board s.turn dst
        · rw [if_pos hh]
          exact Or.inl ⟨rfl, src, dst, c, rfl, Or.inr (Or.inr hh)⟩
        · rw [if_neg hh]
          right
          refine ⟨⟨_, rfl⟩, ?_⟩
          rintro ⟨src2, dst2, c2, he, hbad⟩
          injection he with h1 h2 h3
          subst h1 h2 h3
          rcases hbad with h | ⟨p, h, hpo⟩ | h
          · rw [hp] at h
            cases h
          · rw [hp] at h
            injection h with h
            rw [← h] at hpo
            exact ho hpo
          · exact hh h

/-- C29 (exact failure condition of `applyMove`): for every state on a 5x5
board and every move whose coordinates lie on the board, `applyMove` returns
without a TypeError; it returns null if and only if the card of the move is
none of the two cards in the hand of the side to move, or the move is a
placement whose source is empty, or holds a piece of the opponent, or whose
destination holds a piece of the side to move; otherwise it returns a state.
Consequently it applies moves that `allLegalMoves` does not return: in
`sampleState` the placement (0,4) -> (1,2) with the Tiger, whose
displacement is no offset of the Tiger, and the pass with the Crab although
placements exist. -/
theorem C29_applyMove_failure_condition (s : GameState) (m : Move) (hwf : s.board.WF)
    (hin : m.inRange) :
    (applyMove s m = .ok none ↔
      (¬ ((s.hand s.turn).c0 = m.card ∨ (s.hand s.turn).c1 = m.card)
        ∨ ∃ src dst c, m = .place src dst c
          ∧ (pieceAt s.board src.x src.y = none
            ∨ (∃ p, pieceAt s.board src.x src.y = some p ∧ p.owner ≠ s.turn)
            ∨ holdsPieceOf s.board s.turn dst)))
    ∧ (applyMove s m = .ok none ∨ ∃ ns, applyMove s m = .ok (some ns))
    ∧ (∃ l, allLegalMoves sampleState sampleState.turn = .ok l
        ∧ Move.place ⟨0, 4⟩ ⟨1, 2⟩ .Tiger ∉ l ∧ Move.pass .Crab ∉ l
        ∧ (∃ mv ∈ l, mv.isPass = false)
        ∧ (∀ off ∈ (CARD_DEFS .Tiger).moves, destination 0 0 4 off ≠ ⟨1, 2⟩)
        ∧ applyMove sampleState (.place ⟨0, 4⟩ ⟨1, 2⟩ .Tiger) = .ok (some sampleSidestep)
        ∧ applyMove sampleState (.pass .Crab) = .ok (some samplePassed)) := by
  have hcases := applyMoveBoard_cases hwf hin
  have hiff : applyMove s m = .ok none ↔
      (¬ ((s.hand s.turn).c0 = m.card ∨ (s.hand s.turn).c1 = m.card)
        ∨ ∃ src dst c, m = .place src dst c
          ∧ (pieceAt s.board src.x src.y = none
            ∨ (∃ p, pieceAt s.board src.x src.y = some p ∧ p.owner ≠ s.turn)
            ∨ holdsPieceOf s.board s.turn dst)) := by
    constructor
    · intro hnone
      by_contra hnot
      rw [not_or, not_not] at hnot
      rcases hcases with ⟨-, hbad⟩ | ⟨⟨board, hb⟩, -⟩
      · exact hnot.2 hbad
      · obtain ⟨ns, hns⟩ := applyMove_of_board hb hnot.1
        rw [hnone] at hns
        cases hns
    · rintro (hcard | hbad)
      · rcases hcases with ⟨hb, -⟩ | ⟨⟨board, hb⟩, -⟩
        · exact applyMove_of_board_none hb
        · rcases applyMove_of_board_ok hb with h | ⟨ns, -, -, hns, -⟩
          · exact h
          · exact absurd (card_of_applyMove hns) hcard
      · rcases hcases with ⟨hb, -⟩ | ⟨-, hgood⟩
        · exact applyMove_of_board_none hb
        · exact absurd hbad hgood
  refine ⟨hiff, ?_, ?_⟩
  · rcases hcases with ⟨hb, -⟩ | ⟨⟨board, hb⟩, -⟩
    · exact Or.inl (applyMove_of_board_none hb)
    · rcases applyMove_of_board_ok hb with h | ⟨ns, -, -, hns, -⟩
      · exact Or.inl h
      · exact Or.inr ⟨ns, hns⟩
  · refine ⟨sampleMoves, by decide!, by decide, by decide, ⟨_, List.mem_cons_self _ _, rfl⟩,
      by decide, by decide!, applyMove_samplePass⟩

/-- C29 at `sampleState` and the placement (0,4) -> (1,2) with the Tiger. -/
theorem C29_witness :
    (sampleState.board.WF ∧ (Move.place ⟨0, 4⟩ ⟨1, 2⟩ .Tiger).inRange)
    ∧ ((applyMove sampleState (.place ⟨0, 4⟩ ⟨1, 2⟩ .Tiger) = .ok none ↔
      (¬ ((sampleState.hand sampleState.turn).c0 = (Move.place ⟨0, 4⟩ ⟨1, 2⟩ .Tiger).card
          ∨ (sampleState.hand sampleState.turn).c1 = (Move.place ⟨0, 4⟩ ⟨1, 2⟩ .Tiger).card)
        ∨ ∃ src dst c, Move.place ⟨0, 4⟩ ⟨1, 2⟩ .Tiger = .place src dst c
          ∧ (pieceAt sampleState.board src.x src.y = none
            ∨ (∃ p, pieceAt sampleState.board src.x src.y = some p ∧ p.owner ≠ sampleState.turn)
            ∨ holdsPieceOf sampleState.board sampleState.turn dst)))
    ∧ (applyMove sampleState (.place ⟨0, 4⟩ ⟨1, 2⟩ .Tiger) = .ok none
        ∨ ∃ ns, applyMove sampleState (.place ⟨0, 4⟩ ⟨1, 2⟩ .Tiger) = .ok (some ns))
    ∧ (∃ l, allLegalMoves sampleState sampleState.turn = .ok l
        ∧ Move.place ⟨0, 4⟩ ⟨1, 2⟩ .Tiger ∉ l ∧ Move.pass .Crab ∉ l
        ∧ (∃ mv ∈ l, mv.isPass = false)
        ∧ (∀ off ∈ (CARD_DEFS .Tiger).moves, destination 0 0 4 off ≠ ⟨1, 2⟩)
        ∧ applyMove sampleState (.place ⟨0, 4⟩ ⟨1, 2⟩ .Tiger) = .ok (some sampleSidestep)
        ∧ applyMove sampleState (.pass .Crab) = .ok (some samplePassed))) :=
  ⟨⟨by decide, ⟨by decide, by decide⟩⟩,
   C29_applyMove_failure_condition sampleState (.place ⟨0, 4⟩ ⟨1, 2⟩ .Tiger) (by decide)
    ⟨by decide, by decide⟩⟩

/-! ## Evaluator: perspective symmetry within exact integers -/

/-- A product of a weight within `W` and a difference within `B`. -/
theorem weight_term_bound {w d W B : Int} (hw : -W ≤ w ∧ w ≤ W) (hd : -B ≤ d ∧ d ≤ B) :
    -(W * B) ≤ w * d ∧ w * d ≤ W * B := by
  have hW : 0 ≤ W := by omega
  have hB : 0 ≤ B := by omega
  have h1 : |w| ≤ W := abs_le.mpr hw
  have h2 : |d| ≤ B := abs_le.mpr hd
  have h3 : |w * d| ≤ W * B := by
    rw [abs_mul]
    exact mul_le_mul h1 h2 (abs_nonneg d) hW
  exact abs_le.mp h3

/-- The sum of the terms of the heuristic, each within its bound. -/
theorem heuristic_sum_bound {W mat x1 aw e x3 x4 x5 tp : Int}
    (hmat : -500000 ≤ mat ∧ mat ≤ 500000) (h1 : -(W * 200) ≤ x1 ∧ x1 ≤ W * 200)
    (haw : -W ≤ aw ∧ aw ≤ W) (he : -99 ≤ e ∧ e ≤ 99)
    (h3 : -(W * 1400) ≤ x3 ∧ x3 ≤ W * 1400) (h4 : -(W * 100) ≤ x4 ∧ x4 ≤ W * 100)
    (h5 : -(W * 2) ≤ x5 ∧ x5 ≤ W * 2) (htp : -W ≤ tp ∧ tp ≤ W) :
    -(500000 + 1802 * W) ≤ mat + x1 + aw * e + x3 + x4 + x5 + tp
    ∧ mat + x1 + aw * e + x3 + x4 + x5 + tp ≤ 500000 + 1802 * W := by
  have h2 := weight_term_bound haw he
  generalize aw * e = x2 at h2 ⊢
  constructor <;> omega

/-- With weights within `W` the heuristic sum of `evaluate` is within
`500000 + 1802 * W`: the material within 500000, the mobility difference
within 200, the arch distances within 99, the center scores within 1400,
the advancement scores within 100, the safety scores within 2. -/
theorem scoreFor0_within {s : GameState} (hwf : s.board.WF) (cfg : Config) {W : Int}
    (hw : cfg.weightsWithin W) :
    ∃ v, scoreFor0 s cfg = .ok v ∧ -(500000 + 1802 * W) ≤ v ∧ v ≤ 500000 + 1802 * W := by
  obtain ⟨counts, hcounts, k1, k2, k3, k4, k5⟩ := countPieces_bound hwf
  obtain ⟨m0, hm0⟩ := findMaster_total hwf 0
  obtain ⟨m1, hm1⟩ := findMaster_total hwf 1
  obtain ⟨mob0, hmob0, p1, p2⟩ :
      ∃ v, (if cfg.useMobility then mobilityOf s 0 else .ok 0) = .ok v ∧ 0 ≤ v ∧ v ≤ 200 := by
    split
    · exact mobilityOf_bound hwf 0
    · exact ⟨_, rfl, by decide, by decide⟩
  obtain ⟨mob1, hmob1, p3, p4⟩ :
      ∃ v, (if cfg.useMobility then mobilityOf s 1 else .ok 0) = .ok v ∧ 0 ≤ v ∧ v ≤ 200 := by
    split
    · exact mobilityOf_bound hwf 1
    · exact ⟨_, rfl, by decide, by decide⟩
  obtain ⟨c0, hc0, q1, q2⟩ := centerScore_bound hwf cfg 0
  obtain ⟨c1, hc1, q3, q4⟩ := centerScore_bound hwf cfg 1
  obtain ⟨a0, ha0, r1, r2⟩ := advanceScore_bound hwf cfg 0
  obtain ⟨a1, ha1, r3, r4⟩ := advanceScore_bound hwf cfg 1
  obtain ⟨s0, hs0, t1, t2⟩ := safetyScore_bound hwf cfg 0
  obtain ⟨s1, hs1, t3, t4⟩ := safetyScore_bound hwf cfg 1
  obtain ⟨d1, d2⟩ := archDistance_bound hwf hm0 0 (Or.inl rfl)
  obtain ⟨d3, d4⟩ := archDistance_bound hwf hm1 4 (Or.inr rfl)
  obtain ⟨w1, w2, w3, w4, w5, w6⟩ := hw
  have hW : 0 ≤ W := by omega
  unfold scoreFor0
  simp only [hcounts, hm0, hm1, hmob0, hmob1, hc0, hc1, ha0, ha1, hs0, hs1, ok_bind]
  refine ⟨_, rfl, ?_⟩
  have htempo : -W ≤ (if cfg.useTempo = true then
        (if s.turn = 0 then cfg.weights.tempo.getD 18 else -cfg.weights.tempo.getD 18) else 0)
      ∧ (if cfg.useTempo = true then
        (if s.turn = 0 then cfg.weights.tempo.getD 18 else -cfg.weights.tempo.getD 18) else 0)
        ≤ W := by
    split
    · split <;> constructor <;> omega
    · constructor <;> omega
  generalize (if cfg.useTempo = true then
        (if s.turn = 0 then cfg.weights.tempo.getD 18 else -cfg.weights.tempo.getD 18) else 0)
    = tp at htempo ⊢
  have e1 := weight_term_bound w1 (d := mob0 - mob1) (B := 200) ⟨by omega, by omega⟩
  have e3 := weight_term_bound w2 (d := c0 - c1) (B := 1400) ⟨by omega, by omega⟩
  have e4 := weight_term_bound w3 (d := a0 - a1) (B := 100) ⟨by omega, by omega⟩
  have e5 := weight_term_bound w4 (d := s0 - s1) (B := 2) ⟨by omega, by omega⟩
  generalize cfg.weights.mobility.getD 70 * (mob0 - mob1) = x1 at e1 ⊢
  generalize cfg.weights.center.getD 8 * (c0 - c1) = x3 at e3 ⊢
  generalize cfg.weights.advance.getD 6 * (a0 - a1) = x4 at e4 ⊢
  generalize cfg.weights.safety.getD 1200 * (s0 - s1) = x5 at e5 ⊢
  cases m0 <;> cases m1 <;> simp only [] at d1 d2 d3 d4 ⊢ <;>
    exact heuristic_sum_bound ⟨by omega, by omega⟩ e1 w6 ⟨by omega, by omega⟩ e3 e4 e5 htempo

/-- With weights within `W` the value of `evaluate` on a non-terminal state
is within `500000 + 1802 * W`, and its two points of view are opposite. -/
theorem evaluate_within {s : GameState} (hwf : s.board.WF) (cfg : Config) {W : Int}
    (hw : cfg.weightsWithin W) {t : TerminalInfo} (ht : isTerminal s = .ok t)
    (hnt : t.done = false) :
    ∃ v, evaluate s 0 cfg = .ok v ∧ evaluate s 1 cfg = .ok (-v)
      ∧ -(500000 + 1802 * W) ≤ v ∧ v ≤ 500000 + 1802 * W := by
  obtain ⟨v, hv, h1, h2⟩ := scoreFor0_within hwf cfg hw
  refine ⟨v, ?_, ?_, h1, h2⟩
  · unfold evaluate
    simp [ht, hnt, hv]
  · unfold evaluate
    simp [ht, hnt, hv]

/-- C13 (perspective symmetry): on a 5x5 board, for every non-terminal state
and every configuration with any feature flags and integer weights of
magnitude at most 10^12, `evaluate` returns for both points of view and
`evaluate(s, 0, cfg) = -evaluate(s, 1, cfg)`. Both values are below 2^53 in
magnitude, as is every intermediate value of the sum (each term is within
its share of 500000 + 1802 * 10^12): within these weights the integer
arithmetic of this model is the arithmetic of the source's doubles. -/
theorem C13_evaluate_perspective_symmetry (s : GameState) (cfg : Config) (t : TerminalInfo)
    (hwf : s.board.WF) (ht : isTerminal s = .ok t) (hnt : t.done = false)
    (hw : cfg.weightsWithin 1000000000000) :
    ∃ v0 v1, evaluate s 0 cfg = .ok v0 ∧ evaluate s 1 cfg = .ok v1 ∧ v0 = -v1
      ∧ |v0| < 9007199254740992 ∧ |v1| < 9007199254740992
      ∧ (9007199254740992 : Int) = 2 ^ 53 := by
  obtain ⟨v, h0, h1, hlo, hhi⟩ := evaluate_within hwf cfg hw ht hnt
  refine ⟨v, -v, h0, h1, by omega, ?_, ?_, by norm_num⟩
  · rw [abs_lt]
    constructor <;> omega
  · rw [abs_neg, abs_lt]
    constructor <;> omega

/-- C13 at the sample state with the level-5 configuration. -/
theorem C13_witness :
    (sampleState.board.WF
      ∧ isTerminal sampleState = .ok ⟨false, none, none⟩
      ∧ sampleConfig.weightsWithin 1000000000000)
    ∧ ∃ v0 v1, evaluate sampleState 0 sampleConfig = .ok v0
        ∧ evaluate sampleState 1 sampleConfig = .ok v1 ∧ v0 = -v1
        ∧ |v0| < 9007199254740992 ∧ |v1| < 9007199254740992
        ∧ (9007199254740992 : Int) = 2 ^ 53 :=
  ⟨⟨by decide, by rfl, by decide⟩,
   C13_evaluate_perspective_symmetry sampleState sampleConfig ⟨false, none, none⟩ (by decide)
     (by rfl) rfl (by decide)⟩

/-! ## Move ordering: every list of moves for the side to move -/

theorem inRange_of_forSide {s : GameState} {m : Move} (h : m.forSide s) : m.inRange := by
  cases m with
  | pass c => trivial
  | place src dst c => exact ⟨h.1, h.2.1⟩

/-- An enumerated move is a move for the side to move. -/
theorem forSide_of_mem_allLegalMoves {s : GameState} (hwf : s.board.WF) {l : List Move}
    (hl : allLegalMoves s s.turn = .ok l) {m : Move} (hm : m ∈ l) : m.forSide s := by
  rcases mem_allLegalMoves_cases hwf hl hm with ⟨c, rfl⟩ | ⟨src, dst, c, rfl, hs, -, hd, hnh⟩
  · trivial
  · exact ⟨hs, hd, hnh⟩

/-- A move with coordinates on the board that `applyMove` accepts is a move
for the side to move. -/
theorem forSide_of_applyMove {s ns : GameState} {m : Move} (hwf : s.board.WF) (hin : m.inRange)
    (h : applyMove s m = .ok (some ns)) : m.forSide s := by
  cases m with
  | pass c => trivial
  | place src dst c =>
    obtain ⟨piece, -, -, hnh, -⟩ := applyMove_place_board hwf hin.1 hin.2 h
    exact ⟨hin.1, hin.2, hnh⟩

/-- The classes of the moves for the side to move: a piece on the
destination belongs to the opponent. -/
theorem moveRank_forSide {s : GameState} {m : Move} (hm : m.forSide s) :
    (moveRank s m = 3 ↔ ∃ src dst c, m = .place src dst c
        ∧ pieceAt s.board dst.x dst.y = some ⟨1 - s.turn, .M⟩)
    ∧ (moveRank s m = 2 ↔ ∃ src dst c, m = .place src dst c
        ∧ pieceAt s.board dst.x dst.y = some ⟨1 - s.turn, .S⟩)
    ∧ (moveRank s m = 1 ↔ ∃ src dst c, m = .place src dst c
        ∧ pieceAt s.board dst.x dst.y = none)
    ∧ (moveRank s m = 0 ↔ ∃ c, m = .pass c) := by
  cases m with
  | pass c => simp [moveRank]
  | place src dst c =>
    have hnh := hm.2.2
    cases htgt : pieceAt s.board dst.x dst.y with
    | none =>
      simp [moveRank, htgt]
      exact ⟨src, dst, ⟨rfl, rfl⟩, htgt⟩
    | some q =>
      have hown : q.owner = 1 - s.turn := other_player (fun ho => hnh ⟨q, htgt, ho⟩)
      obtain ⟨o, ty⟩ := q
      simp only at hown
      subst hown
      cases ty <;> simp [moveRank, htgt] <;> exact ⟨src, dst, ⟨rfl, rfl⟩, htgt⟩

/-- C26 (capture and pass ranking): in every non-terminal state with a 5x5
board, for every list of moves for the side to move (passes and placements
on the board whose destination holds no piece of the side to move, in any
combination), `orderMoves(moves, s)` without a hint returns a rearrangement
of the list in which no move is followed by a move of a higher class, the
classes being, from the highest: the moves landing on a Master of the
opponent, the moves capturing a Student, the placements on an empty cell,
the passes. -/
theorem C26_capture_and_pass_ranking (s : GameState) (t : TerminalInfo) (moves : List Move)
    (hwf : s.board.WF) (ht : isTerminal s = .ok t) (hnt : t.done = false)
    (hmv : ∀ m ∈ moves, m.forSide s) :
    ∃ ordered, orderMoves moves s none = .ok ordered ∧ ordered.Perm moves
      ∧ ordered.Pairwise (fun a b => moveRank s b ≤ moveRank s a)
      ∧ ∀ m ∈ moves,
          (moveRank s m = 3 ↔ ∃ src dst c, m = .place src dst c
              ∧ pieceAt s.board dst.x dst.y = some ⟨1 - s.turn, .M⟩)
          ∧ (moveRank s m = 2 ↔ ∃ src dst c, m = .place src dst c
              ∧ pieceAt s.board dst.x dst.y = some ⟨1 - s.turn, .S⟩)
          ∧ (moveRank s m = 1 ↔ ∃ src dst c, m = .place src dst c
              ∧ pieceAt s.board dst.x dst.y = none)
          ∧ (moveRank s m = 0 ↔ ∃ c, m = .pass c) := by
  have hin : ∀ m ∈ moves, m.inRange := fun m hm => inRange_of_forSide (hmv m hm)
  obtain ⟨ordered, hord, hperm⟩ := orderMoves_perm hwf none moves hin
  obtain ⟨om, scored, hom, hmap, hval, hres⟩ := orderMoves_sorted hwf ht hnt none moves hin
  refine ⟨ordered, hord, hperm, ?_, fun m hm => moveRank_forSide (hmv m hm)⟩
  rw [hord] at hres
  injection hres with hres
  by_cases hlen : moves.length ≤ 1
  · rw [if_pos hlen] at hres
    rw [hres]
    cases moves with
    | nil => exact List.Pairwise.nil
    | cons a tl =>
      cases tl with
      | nil => exact List.pairwise_singleton _ _
      | cons b tl2 => simp at hlen
  · rw [if_neg hlen] at hres
    rw [hres, List.pairwise_map]
    refine List.Pairwise.imp_of_mem ?_ (sortDesc_sorted scored)
    intro p q hp hq hle
    have hp2 := (sortDesc_perm scored).subset hp
    have hq2 := (sortDesc_perm scored).subset hq
    have hpm : p.2 ∈ moves := by
      rw [← hmap]
      exact List.mem_map_of_mem _ hp2
    have hqm : q.2 ∈ moves := by
      rw [← hmap]
      exact List.mem_map_of_mem _ hq2
    exact moveRank_mono hwf hom (hin _ hpm) (hin _ hqm) (hval p hp2) (hval q hq2) hle

/-- The list `mixedMoves` ordered in `recaptureState`: the capture of the
Master, the capture of the Student, the step to an empty cell, the passes. -/
theorem mixedMoves_ordered :
    orderMoves mixedMoves recaptureState none
      = .ok [.place ⟨2, 1⟩ ⟨2, 0⟩ .Crab, .place ⟨2, 1⟩ ⟨1, 0⟩ .Tiger,
          .place ⟨2, 1⟩ ⟨2, 2⟩ .Tiger, .pass .Crab, .pass .Tiger]
    ∧ mixedMoves.map (moveRank recaptureState) = [0, 1, 2, 3, 0] := by
  constructor <;> decide!

/-- C26 at `recaptureState` with the list `mixedMoves`, which holds passes,
a step to an empty cell, a capture of a Student and a capture of the Master. -/
theorem C26_witness :
    (recaptureState.board.WF ∧ isTerminal recaptureState = .ok ⟨false, none, none⟩
      ∧ ∀ m ∈ mixedMoves, m.forSide recaptureState)
    ∧ ∃ ordered, orderMoves mixedMoves recaptureState none = .ok ordered
      ∧ ordered.Perm mixedMoves
      ∧ ordered.Pairwise (fun a b => moveRank recaptureState b ≤ moveRank recaptureState a)
      ∧ ∀ m ∈ mixedMoves,
          (moveRank recaptureState m = 3 ↔ ∃ src dst c, m = .place src dst c
              ∧ pieceAt recaptureState.board dst.x dst.y = some ⟨1 - recaptureState.turn, .M⟩)
          ∧ (moveRank recaptureState m = 2 ↔ ∃ src dst c, m = .place src dst c
              ∧ pieceAt recaptureState.board dst.x dst.y = some ⟨1 - recaptureState.turn, .S⟩)
          ∧ (moveRank recaptureState m = 1 ↔ ∃ src dst c, m = .place src dst c
              ∧ pieceAt recaptureState.board dst.x dst.y = none)
          ∧ (moveRank recaptureState m = 0 ↔ ∃ c, m = .pass c) :=
  ⟨⟨by decide, by decide!, by decide⟩,
   C26_capture_and_pass_ranking recaptureState ⟨false, none, none⟩ mixedMoves (by decide) (by decide!)
    rfl (by decide)⟩

/-! ## Search engine: deadline handling against the reference -/

/-- One round of the deepening loop, through the search of the depth with
its re-search. -/
theorem chooseLoop_step (now : Nat → Int) (s : GameState) (opts : Opts)
    (deadline rootColor window : Int) (remaining d : Nat) (best : Option Move)
    (bestScore : Score) (st : SearchState) :
    chooseLoop now s opts deadline rootColor window (remaining + 1) d best bestScore st
      = match depthSearch now s opts deadline rootColor window d bestScore st with
        | .error e => .error e
        | .ok (res, st2) =>
          if res.timedOut then chooseFinish s best st2
          else if res.score.absAbove 500000000 then chooseFinish s res.pv st2
          else chooseLoop now s opts deadline rootColor window remaining (d + 1) res.pv
            res.score st2 := by
  rw [chooseLoop]
  unfold depthSearch
  simp only []
  cases h1 : alphabeta now opts.pov opts.cfg deadline d s
      (rootWindow opts.cfg d bestScore window).1 (rootWindow opts.cfg d bestScore window).2
      rootColor st with
  | error e => rfl
  | ok r =>
    obtain ⟨res, st1⟩ := r
    simp only []
    by_cases hto : res.timedOut = true
    · simp only [hto, if_true]
    · simp only [hto, if_false]
      by_cases hasp : opts.cfg.useAspiration = true ∧
          (res.score.le (rootWindow opts.cfg d bestScore window).1 = true
            ∨ (rootWindow opts.cfg d bestScore window).2.le res.score = true)
      · simp only [if_pos hasp]
        cases h2 : alphabeta now opts.pov opts.cfg deadline d s .negInf .posInf rootColor st1 with
        | error e => rfl
        | ok r2 => rfl
      · have hto2 : res.timedOut = false := by simpa using hto
        simp only [if_neg hasp, hto2, Bool.false_eq_true, if_false]

/-- The end of `chooseMove` is the returned move of the reference. -/
theorem chooseFinish_eq (s : GameState) (last : Option SearchResult) (st : SearchState) :
    chooseFinish s (lastMove last) st = returnedRef s (.ok (last, st)) := by
  cases last with
  | none => rfl
  | some r =>
    obtain ⟨timedOut, score, pv⟩ := r
    cases pv <;> rfl

/-- The deepening loop started with the move and the score of the last
completed depth returns the move of the reference. -/
theorem chooseLoop_ref (now : Nat → Int) (s : GameState) (opts : Opts)
    (deadline rootColor window : Int) (remaining d : Nat) (last : Option SearchResult)
    (st : SearchState) :
    chooseLoop now s opts deadline rootColor window remaining d (lastMove last) (lastScore last)
        st
      = returnedRef s (deepenRef now s opts deadline rootColor window remaining d last st) := by
  induction remaining generalizing d last st with
  | zero =>
    rw [chooseLoop, deepenRef]
    exact chooseFinish_eq s last st
  | succ k ih =>
    rw [chooseLoop_step, deepenRef]
    cases h : depthSearch now s opts deadline rootColor window d (lastScore last) st with
    | error e => rfl
    | ok r =>
      obtain ⟨res, st2⟩ := r
      simp only []
      by_cases hto : res.timedOut = true
      · simp only [hto, if_true]
        exact chooseFinish_eq s last st2
      · simp only [hto, if_false]
        by_cases habs : res.score.absAbove 500000000 = true
        · simp only [habs, if_true]
          exact chooseFinish_eq s (some res) st2
        · simp only [habs, if_false]
          exact ih (d + 1) (some res) st2

/-- C18 (deadline handling): `chooseMove` returns the move of the reference
`deepenRef`: the depths 1, 2, ... up to `maxDepth` are searched in turn; a
depth whose search, or whose aspiration re-search, reports a timeout stops
the deepening, and the move returned is the move recorded by the last
completed depth, also when that depth was completed by its re-search; when
no depth completed (or the last completed depth recorded no move) the first
enumerated legal move is returned. The same holds for the loop from every
depth `d` on. One round of the loop: a timeout of the search of the depth
returns the recorded move `best`; a completed depth records its move and
score, and stops the loop when the score is above 5e8 in magnitude. With
`maxDepth = 0`, and when the deadline has passed at the first node of depth
1, `chooseMove` returns the first enumerated move. -/
theorem C18_deadline_handling (now : Nat → Int) (s : GameState) (opts : Opts)
    (deadline rootColor window : Int) (remaining d : Nat) (best : Option Move)
    (bestScore : Score) (st : SearchState) (moves : List Move) (last : Option SearchResult)
    (hmoves : allLegalMoves s s.turn = .ok moves) :
    chooseMove now s opts st
        = returnedRef s (deepenRef now s opts (now st.tick + opts.timeMs)
            (if s.turn = opts.pov then 1 else -1) (opts.cfg.aspirationWindow.getD 120)
            opts.maxDepth 1 none { st with tick := st.tick + 1 })
    ∧ chooseLoop now s opts deadline rootColor window remaining d (lastMove last)
          (lastScore last) st
        = returnedRef s (deepenRef now s opts deadline rootColor window remaining d last st)
    ∧ returnedRef s (.ok (last, st))
        = .ok ((match lastMove last with
                | some m => some m
                | none => moves.head?), st)
    ∧ (∀ res st2, depthSearch now s opts deadline rootColor window d bestScore st
          = .ok (res, st2) →
        (res.timedOut = true →
          chooseLoop now s opts deadline rootColor window (remaining + 1) d best bestScore st
            = chooseFinish s best st2)
        ∧ (res.timedOut = false → res.score.absAbove 500000000 = true →
          chooseLoop now s opts deadline rootColor window (remaining + 1) d best bestScore st
            = chooseFinish s res.pv st2)
        ∧ (res.timedOut = false → res.score.absAbove 500000000 = false →
          chooseLoop now s opts deadline rootColor window (remaining + 1) d best bestScore st
            = chooseLoop now s opts deadline rootColor window remaining (d + 1) res.pv
                res.score st2))
    ∧ (∀ res st1,
        alphabeta now opts.pov opts.cfg deadline d s (rootWindow opts.cfg d bestScore window).1
          (rootWindow opts.cfg d bestScore window).2 rootColor st = .ok (res, st1) →
        (res.timedOut = true →
          depthSearch now s opts deadline rootColor window d bestScore st = .ok (res, st1))
        ∧ (res.timedOut = false →
            ¬ (opts.cfg.useAspiration = true ∧
              (res.score.le (rootWindow opts.cfg d bestScore window).1 = true
                ∨ (rootWindow opts.cfg d bestScore window).2.le res.score = true)) →
            depthSearch now s opts deadline rootColor window d bestScore st = .ok (res, st1))
        ∧ (res.timedOut = false →
            (opts.cfg.useAspiration = true ∧
              (res.score.le (rootWindow opts.cfg d bestScore window).1 = true
                ∨ (rootWindow opts.cfg d bestScore window).2.le res.score = true)) →
            depthSearch now s opts deadline rootColor window d bestScore st
              = alphabeta now opts.pov opts.cfg deadline d s .negInf .posInf rootColor st1))
    ∧ (∀ m, chooseFinish s (some m) st = .ok (some m, st))
    ∧ chooseFinish s none st = .ok (moves.head?, st)
    ∧ (opts.maxDepth = 0 →
        chooseMove now s opts st = .ok (moves.head?, { st with tick := st.tick + 1 }))
    ∧ (opts.maxDepth ≥ 1 → now (st.tick + 1) > now st.tick + opts.timeMs →
        chooseMove now s opts st = .ok (moves.head?, { st with tick := st.tick + 2 })) := by
  refine ⟨?_, chooseLoop_ref now s opts deadline rootColor window remaining d last st,
    ?_, ?_, ?_, ?_, ?_, ?_, ?_⟩
  · unfold chooseMove
    exact chooseLoop_ref now s opts _ _ _ opts.maxDepth 1 none _
  · unfold returnedRef
    simp only [hmoves]
    cases lastMove last with
    | none => rfl
    | some m => rfl
  · intro res st2 h
    rw [chooseLoop_step, h]
    refine ⟨?_, ?_, ?_⟩
    · intro hto
      simp only [hto, if_true]
    · intro hto habs
      simp only [hto, habs, Bool.false_eq_true, if_false, if_true]
    · intro hto habs
      simp only [hto, habs, Bool.false_eq_true, if_false]
  · intro res st1 h1
    unfold depthSearch
    simp only [h1]
    refine ⟨?_, ?_, ?_⟩
    · intro hto
      simp only [hto, if_true]
    · intro hto hasp
      simp only [hto, Bool.false_eq_true, if_false, if_neg hasp]
    · intro hto hasp
      simp only [hto, Bool.false_eq_true, if_false, if_pos hasp]
  · intro m
    rfl
  · unfold chooseFinish
    simp only [hmoves]
  · intro h0
    unfold chooseMove
    simp only [h0]
    rw [chooseLoop]
    unfold chooseFinish
    simp only [hmoves]
  · intro h1 hlate
    obtain ⟨k, hk⟩ : ∃ k, opts.maxDepth = k + 1 := ⟨opts.maxDepth - 1, by omega⟩
    unfold chooseMove
    simp only [hk]
    rw [chooseLoop]
    have hab : alphabeta now opts.pov opts.cfg (now st.tick + opts.timeMs) 1 s
        (rootWindow opts.cfg 1 .negInf (opts.cfg.aspirationWindow.getD 120)).1
        (rootWindow opts.cfg 1 .negInf (opts.cfg.aspirationWindow.getD 120)).2
        (if s.turn = opts.pov then 1 else -1) { st with tick := st.tick + 1 }
        = .ok (⟨true, .fin 0, none⟩, { st with tick := st.tick + 2 }) := by
      rw [alphabeta]
      simp only [hlate, if_true]
    simp only [hab, if_true]
    unfold chooseFinish
    simp only [hmoves]

/-- Two runs of the deepening. With a clock advancing one millisecond per
reading and a budget of 13 ms, depth 1 of `sampleState` completes with the
Tiger step of the Master and depth 2 times out: the move of depth 1 is
returned. On `sparseState` with the aspiration window and a clock that never
passes the deadline, depth 1 completes with the Crab step (0,1)->(0,2); the
first search of depth 2 returns -270, the lower end of its window, so the
depth is completed by its re-search, as is depth 3; the move returned is
the Boar step (4,3)->(3,3) recorded by the re-search of the last depth. -/
theorem deepenRef_sample :
    deepenRef tickClock sampleState ⟨2, 13, 0, plainConfig 0⟩ 13 1 120 1 1 none ⟨[], 1⟩
      = .ok (some ⟨false, .fin 300, some (.place ⟨2, 4⟩ ⟨2, 2⟩ .Tiger)⟩,
          ⟨[("1S1S1M1S1S...............0S0S0M0S0S#Tiger|Crab|Eel|Ox|Boar|t0",
              ⟨1, .fin 300, .EXACT, some (.place ⟨2, 4⟩ ⟨2, 2⟩ .Tiger)⟩)], 12⟩)
    ∧ (depthSearch tickClock sampleState ⟨2, 13, 0, plainConfig 0⟩ 13 1 120 2 (.fin 300)
        ⟨[("1S1S1M1S1S...............0S0S0M0S0S#Tiger|Crab|Eel|Ox|Boar|t0",
              ⟨1, .fin 300, .EXACT, some (.place ⟨2, 4⟩ ⟨2, 2⟩ .Tiger)⟩)], 12⟩).map
          (fun r => r.1.timedOut) = .ok true
    ∧ (chooseMove tickClock sampleState ⟨2, 13, 0, plainConfig 0⟩ ⟨[], 0⟩).map Prod.fst
        = .ok (some (.place ⟨2, 4⟩ ⟨2, 2⟩ .Tiger))
    ∧ (depthSearch (fun _ => 0) sparseState ⟨3, 1000, 1, aspirationConfig⟩ 1000 1 120 1
        .negInf ⟨[], 1⟩).map (fun r => r.1)
        = .ok ⟨false, .fin (-150), some (.place ⟨0, 1⟩ ⟨0, 2⟩ .Crab)⟩
    ∧ ((depthSearch (fun _ => 0) sparseState ⟨3, 1000, 1, aspirationConfig⟩ 1000 1 120 1
        .negInf ⟨[], 1⟩).bind (fun r =>
          alphabeta (fun _ => 0) 1 aspirationConfig 1000 2 sparseState (.fin (-270))
            (.fin (-30)) 1 r.2)).map (fun r => r.1.score) = .ok (.fin (-270))
    ∧ (deepenRef (fun _ => 0) sparseState ⟨3, 1000, 1, aspirationConfig⟩ 1000 1 120 3 1 none
        ⟨[], 1⟩).map (fun r => r.1)
        = .ok (some ⟨false, .fin (-150), some (.place ⟨4, 3⟩ ⟨3, 3⟩ .Boar)⟩) := by
  refine ⟨by decide!, by decide!, by decide!, by decide!, by decide!, by decide!⟩

/-- C18 at `sparseState` with the aspiration window, three depths and a
clock that never passes the deadline: the move returned is the move of the
reference. -/
theorem C18_witness :
    allLegalMoves sparseState sparseState.turn = .ok sparseMoves
    ∧ chooseMove (fun _ => 0) sparseState ⟨3, 1000, 1, aspirationConfig⟩ ⟨[], 0⟩
        = returnedRef sparseState (deepenRef (fun _ => 0) sparseState
            ⟨3, 1000, 1, aspirationConfig⟩ ((fun _ : Nat => (0 : Int)) 0 + 1000)
            (if sparseState.turn = 1 then 1 else -1) (aspirationConfig.aspirationWindow.getD 120)
            3 1 none ⟨[], 0 + 1⟩) :=
  ⟨by decide!,
   (C18_deadline_handling (fun _ => 0) sparseState ⟨3, 1000, 1, aspirationConfig⟩ 0 0 0 0 1
      none .negInf ⟨[], 0⟩ sparseMoves none (by decide!)).1⟩

end Onitama
